import Mathlib

/-!
Google_ME: block matching, pyramid and ICA refinement.

A shallow embedding of `block_matching.c`, `ica.c`, `warp.c`, `video_denoising.c` and of the
loops of `main.c`.

Conventions of the embedding.

* A C `float` is a rational number: all arithmetic is exact. `FLT_MAX` keeps its value.
  Where a property of `warp_image` or `refine_alignment_ica` depends on a comparison of rounded
  values, a second definition (suffix `_rounded`) takes the float operation that feeds the
  comparison as a parameter.
* A C `int` is an unbounded `Int`; `/` on ints is C division, truncating toward zero
  (`Int.tdiv`). Signed overflow and division by zero are undefined in C and are not modelled
  (the model uses the total Lean operations there).
* A heap buffer is a `List`. A read outside the buffer is undefined in C; the model returns a
  default value (`0`) there and ignores such a write.
* `malloc` is assumed to succeed; fresh memory is modelled as zero-filled, except the arrays
  of `create_block_matching_params`, whose contents are a parameter.
* A C `for` loop is a fold over the list of the values its counter takes.
-/

namespace GoogleME

/-! ## Loops, buffers and casts -/

/-- The integers `lo, lo+1, ..., hi-1`: the values taken by the counter of
`for (i = lo; i < hi; i++)`. -/
def intRange (lo hi : Int) : List Int :=
  (List.range (hi - lo).toNat).map (fun (k : Nat) => lo + (k : Int))

/-- The loop `for (i = lo; i < hi; i++) body`, threading the state `s`. -/
def forRange {σ : Type} (lo hi : Int) (body : Int → σ → σ) (s : σ) : σ :=
  (intRange lo hi).foldl (fun s i => body i s) s

/-- A loop over the listed counter values that is left as soon as `cond` fails on the state. -/
def whileList {σ : Type} (cond : σ → Bool) (body : Int → σ → σ) : List Int → σ → σ
  | [], s => s
  | i :: is, s => if cond s then whileList cond body is (body i s) else s

/-- The loop `for (i = lo; i < hi && cond; i++) body`. A `break` in the body is modelled by the
body clearing a flag of the state that `cond` tests. -/
def forRangeWhile {σ : Type} (lo hi : Int) (cond : σ → Bool) (body : Int → σ → σ) (s : σ) : σ :=
  whileList cond body (intRange lo hi) s

/-- Read `buf[i]`; `d` stands for the value of an out-of-range read. -/
def readAt {α : Type} (d : α) (buf : List α) (i : Int) : α :=
  if 0 ≤ i then buf.getD i.toNat d else d

/-- Write `buf[i] = v`. -/
def writeAt {α : Type} (buf : List α) (i : Int) (v : α) : List α :=
  if 0 ≤ i then buf.set i.toNat v else buf

/-- Read a `float` buffer. -/
def rd (buf : List ℚ) (i : Int) : ℚ := readAt 0 buf i

/-- The call `memcpy(dst, src, n * sizeof(elem))`: the first `n` elements of `dst` are
replaced by those of `src`. -/
def memcpy {α : Type} (dst src : List α) (n : Int) : List α :=
  src.take n.toNat ++ dst.drop n.toNat

/-- The C conversion `(int)f` of a float: the fractional part is discarded. -/
def cTrunc (q : ℚ) : Int := Int.tdiv q.num q.den

/-- The C function `floorf`, followed by the conversion of its integral result to `int`. -/
def floorf (q : ℚ) : Int := q.num / (q.den : Int)

/-- The largest finite `float`, `(2 - 2^-23) * 2^127`. -/
def FLT_MAX : ℚ := (2 ^ 24 - 1) * 2 ^ 104

/-! ## Data model (`block_matching.h`) -/

/-- The struct `Image`: a row-major buffer of samples interleaved by channel. -/
structure Image where
  data : List ℚ
  height : Int
  width : Int
  channels : Int
deriving DecidableEq

/-- The struct `Alignment`: a displacement in pixels. -/
structure Alignment where
  x : ℚ
  y : ℚ
deriving DecidableEq

/-- The struct `AlignmentMap`: one displacement per tile, row-major. -/
structure AlignmentMap where
  data : List Alignment
  height : Int
  width : Int
deriving DecidableEq

/-- The struct `ImagePyramid`; level 0 is the finest. -/
structure ImagePyramid where
  levels : List Image
  num_levels : Int
deriving DecidableEq

/-- The struct `BlockMatchingParams`: per-level arrays. -/
structure BlockMatchingParams where
  factors : List Int
  tile_sizes : List Int
  distances : List Int
  search_radii : List Int
  num_levels : Int
deriving DecidableEq

/-- Read `arr[i]` of an `int` array. -/
def intAt (arr : List Int) (i : Int) : Int := readAt 0 arr i

/-- The zero displacement. -/
def Alignment.zero : Alignment := ⟨0, 0⟩

/-- Read an entry of a displacement buffer. -/
def rdA (buf : List Alignment) (i : Int) : Alignment := readAt Alignment.zero buf i

/-- The image read for `levels[i]`. -/
def levelAt (levels : List Image) (i : Int) : Image := readAt ⟨[], 0, 0, 0⟩ levels i

/-- The function `create_image`: a fresh buffer of `height * width * channels` samples. -/
def create_image (height width channels : Int) : Image :=
  { data := List.replicate (height * width * channels).toNat 0
    height := height
    width := width
    channels := channels }

/-- The function `create_alignment_map`: a fresh buffer of `height * width` displacements. -/
def create_alignment_map (height width : Int) : AlignmentMap :=
  { data := List.replicate (height * width).toNat Alignment.zero
    height := height
    width := width }

/-! ## `block_matching.c` -/

/-- The inner accumulation of `downsample_image`: the sum of the `factor * factor` samples of
channel `c` under output pixel `(x, y)`. -/
def downsample_sum (img : Image) (factor c y x : Int) : ℚ :=
  forRange 0 factor (fun ky sum =>
    forRange 0 factor (fun kx sum =>
      let orig_y := y * factor + ky
      let orig_x := x * factor + kx
      sum + rd img.data ((orig_y * img.width + orig_x) * img.channels + c)) sum) 0

/-- The function `downsample_image`; `none` is the `NULL` result. -/
def downsample_image (img : Image) (factor : Int) : Option Image :=
  if factor ≤ 0 then none
  else if factor = 1 then
    let copy := create_image img.height img.width img.channels
    some { copy with
      data := memcpy copy.data img.data (img.height * img.width * img.channels) }
  else
    let new_height := Int.tdiv img.height factor
    let new_width := Int.tdiv img.width factor
    let downsampled := create_image new_height new_width img.channels
    some { downsampled with
      data :=
        forRange 0 img.channels (fun c data =>
          forRange 0 new_height (fun y data =>
            forRange 0 new_width (fun x data =>
              writeAt data ((y * new_width + x) * img.channels + c)
                (downsample_sum img factor c y x / ((factor * factor : Int) : ℚ))) data) data)
          downsampled.data }

/-- The function `init_block_matching`; `none` is the `NULL` result. The array
`pyramid->levels` is the list of the levels filled so far. -/
def init_block_matching (ref_img : Option Image) (params : Option BlockMatchingParams) :
    Option ImagePyramid :=
  match ref_img with
  | none => none
  | some ref_img =>
    match params with
    | none => none
    | some params =>
      if params.num_levels ≤ 0 then none
      else
        match downsample_image ref_img (intAt params.factors 0) with
        | none => none
        | some level0 =>
          (forRange 1 params.num_levels (fun i st =>
            match st with
            | none => none
            | some levels =>
              match downsample_image (levelAt levels (i - 1)) (intAt params.factors i) with
              | none => none
              | some level => some (levels ++ [level])) (some [level0])).map
            (fun levels => { levels := levels, num_levels := params.num_levels })

/-- The function `upsample_alignments`. The operator `/` of C is `Int.tdiv`, which gives 0 for
a divisor 0, where the program is stopped by the division: the statement of what the function
returns assumes that `prev_tile_size` and `tile_size / prev_tile_size` are not 0. -/
def upsample_alignments (ref_level _alt_level : Image) (prev_alignments : AlignmentMap)
    (upsampling_factor tile_size prev_tile_size : Int) : AlignmentMap :=
  let repeat_factor := Int.tdiv upsampling_factor (Int.tdiv tile_size prev_tile_size)
  let new_height := Int.tdiv ref_level.height tile_size
  let new_width := Int.tdiv ref_level.width tile_size
  let upsampled := create_alignment_map new_height new_width
  { upsampled with
    data :=
      forRange 0 new_height (fun y data =>
        forRange 0 new_width (fun x data =>
          if x ≥ repeat_factor * prev_alignments.width ∨
              y ≥ repeat_factor * prev_alignments.height then
            writeAt data (y * new_width + x) ⟨0, 0⟩
          else
            let prev_x := Int.tdiv x repeat_factor
            let prev_y := Int.tdiv y repeat_factor
            let prev := rdA prev_alignments.data (prev_y * prev_alignments.width + prev_x)
            writeAt data (y * new_width + x)
              ⟨prev.x * (upsampling_factor : ℚ), prev.y * (upsampling_factor : ℚ)⟩) data)
        upsampled.data }

/-- The patch comparison of `local_search` for one candidate shift `(dx, dy)`: the pair
`(dist, valid)` after the two loops over the tile. The `break` taken when a pixel falls outside
the alternate image leaves both loops, since it clears `valid`. The `float` sum `dist` is the
exact sum of its terms. -/
def patch_compare (ref_level alt_level : Image) (tile_size tile_y tile_x : Int)
    (current : Alignment) (dx dy : Int) (distance_metric : Int) : ℚ × Bool :=
  forRangeWhile 0 tile_size (fun s => s.2) (fun y s =>
    forRangeWhile 0 tile_size (fun s => s.2) (fun x s =>
      let ref_y := tile_y * tile_size + y
      let ref_x := tile_x * tile_size + x
      let alt_y := ref_y + cTrunc (current.y + (dy : ℚ))
      let alt_x := ref_x + cTrunc (current.x + (dx : ℚ))
      if alt_x < 0 ∨ alt_x ≥ alt_level.width ∨ alt_y < 0 ∨ alt_y ≥ alt_level.height then
        (s.1, false)
      else
        (forRange 0 ref_level.channels (fun c dist =>
          let diff :=
            rd ref_level.data ((ref_y * ref_level.width + ref_x) * ref_level.channels + c) -
            rd alt_level.data ((alt_y * alt_level.width + alt_x) * alt_level.channels + c)
          if distance_metric = 0 then dist + |diff| else dist + diff * diff) s.1, true)) s)
    (0, true)

/-- The locals `min_dist`, `best_shift_x`, `best_shift_y` of `local_search`. -/
structure SearchState where
  min_dist : ℚ
  best_shift_x : ℚ
  best_shift_y : ℚ
deriving DecidableEq

/-- The search window of `local_search` for one tile: both loops over `dy` and `dx`. The test
`dist < min_dist` compares the exact sums: two distances that binary32 rounds to the same
`float` are told apart here, so what is proved of the shift that is kept is proved in exact
arithmetic. -/
def search_window (ref_level alt_level : Image) (tile_size search_radius tile_y tile_x : Int)
    (current : Alignment) (distance_metric : Int) : SearchState :=
  forRange (-search_radius) (search_radius + 1) (fun dy st =>
    forRange (-search_radius) (search_radius + 1) (fun dx st =>
      let r := patch_compare ref_level alt_level tile_size tile_y tile_x current dx dy
        distance_metric
      if r.2 = true ∧ r.1 < st.min_dist then ⟨r.1, (dx : ℚ), (dy : ℚ)⟩ else st) st)
    ⟨FLT_MAX, 0, 0⟩

/-- The body of the tile loops of `local_search`: search, then update the tile in place. -/
def local_search_tile (ref_level alt_level : Image) (tile_size search_radius : Int)
    (width : Int) (distance_metric : Int) (tile_y tile_x : Int) (data : List Alignment) :
    List Alignment :=
  let current := rdA data (tile_y * width + tile_x)
  let best := search_window ref_level alt_level tile_size search_radius tile_y tile_x current
    distance_metric
  let a := rdA data (tile_y * width + tile_x)
  let data1 := writeAt data (tile_y * width + tile_x) { a with x := a.x + best.best_shift_x }
  let a1 := rdA data1 (tile_y * width + tile_x)
  writeAt data1 (tile_y * width + tile_x) { a1 with y := a1.y + best.best_shift_y }

/-- The function `local_search`; the map is updated in place and returned. -/
def local_search (ref_level alt_level : Image) (tile_size search_radius : Int)
    (alignments : AlignmentMap) (distance_metric : Int) : AlignmentMap :=
  { alignments with
    data :=
      forRange 0 alignments.height (fun tile_y data =>
        forRange 0 alignments.width (fun tile_x data =>
          local_search_tile ref_level alt_level tile_size search_radius alignments.width
            distance_metric tile_y tile_x data) data) alignments.data }

/-- The function `align_on_level`; `prev_alignments = none` is the `NULL` argument. The call
`memset(data, 0, n * sizeof(Alignment))` copies `n` zero displacements into the buffer. -/
def align_on_level (ref_level alt_level : Image) (params : BlockMatchingParams)
    (level_idx : Int) (prev_alignments : Option AlignmentMap) : AlignmentMap :=
  let tile_size := intAt params.tile_sizes level_idx
  let n_tiles_y := Int.tdiv ref_level.height tile_size
  let n_tiles_x := Int.tdiv ref_level.width tile_size
  let alignments :=
    match prev_alignments with
    | none =>
      let alignments := create_alignment_map n_tiles_y n_tiles_x
      { alignments with
        data := memcpy alignments.data
          (List.replicate (n_tiles_y * n_tiles_x).toNat Alignment.zero) (n_tiles_y * n_tiles_x) }
    | some prev =>
      let prev_tile_size := intAt params.tile_sizes (level_idx + 1)
      let upsampling_factor := intAt params.factors level_idx
      upsample_alignments ref_level alt_level prev upsampling_factor tile_size prev_tile_size
  local_search ref_level alt_level tile_size (intAt params.search_radii level_idx)
    alignments (intAt params.distances level_idx)

/-- The function `align_image_block_matching`; `none` is the `NULL` result. The levels are
visited from `num_levels - 1` down to `0`. -/
def align_image_block_matching (img : Option Image) (reference_pyramid : ImagePyramid)
    (params : Option BlockMatchingParams) : Option AlignmentMap :=
  match init_block_matching img params with
  | none => none
  | some alt_pyramid =>
    match params with
    | none => none
    | some params =>
      (intRange 0 params.num_levels).reverse.foldl (fun alignments level =>
        some (align_on_level (levelAt reference_pyramid.levels level)
          (levelAt alt_pyramid.levels level) params level alignments)) none

/-! ## Data model (`ica.h`) -/

/-- The struct `ImageGradients`: horizontal and vertical gradients, one per pixel. -/
structure ImageGradients where
  data_x : List ℚ
  data_y : List ℚ
  height : Int
  width : Int
deriving DecidableEq

/-- The struct `HessianMatrix`: one row-major 2x2 matrix (four floats) per patch. -/
structure HessianMatrix where
  data : List ℚ
  height : Int
  width : Int
deriving DecidableEq

/-- The struct `ICAParams`. -/
structure ICAParams where
  sigma_blur : ℚ
  num_iterations : Int
  tile_size : Int
deriving DecidableEq

/-! ## `ica.c` -/

/-- The function `solve_2x2_system`. The array argument `A` is the function `k ↦ A[k]`; the
arrays `b` and `x` of two floats are pairs. The constant `1e-10` is `1 / 10^10`. -/
def solve_2x2_system (A : Int → ℚ) (b : ℚ × ℚ) : ℚ × ℚ :=
  let det := A 0 * A 3 - A 1 * A 2
  if |det| < 1 / 10 ^ 10 then (0, 0)
  else
    let inv_det := 1 / det
    ((A 3 * b.1 - A 1 * b.2) * inv_det, (-(A 2) * b.1 + A 0 * b.2) * inv_det)

/-- The function `bilinear_interpolation`; the result `*result` is returned. -/
def bilinear_interpolation (img : Image) (x y : ℚ) : ℚ :=
  let x0 := floorf x
  let y0 := floorf y
  let x1 := x0 + 1
  let y1 := y0 + 1
  let dx := x - (x0 : ℚ)
  let dy := y - (y0 : ℚ)
  let v00 := rd img.data (y0 * img.width + x0)
  let v10 := rd img.data (y0 * img.width + x1)
  let v01 := rd img.data (y1 * img.width + x0)
  let v11 := rd img.data (y1 * img.width + x1)
  (1 - dx) * (1 - dy) * v00 + dx * (1 - dy) * v10 + (1 - dx) * dy * v01 + dx * dy * v11

/-- The two pixel loops of `refine_alignment_ica` for one patch: the vector `b` accumulated
for the displacement `curr_align`. Each loop carries a flag cleared by its `break`; the
`continue` of the bounds test leaves the state unchanged. -/
def ica_accumulate (ref_img alt_img : Image) (grads : ImageGradients) (params : ICAParams)
    (py px : Int) (curr_align : Alignment) : ℚ × ℚ :=
  let patch_start_y := py * params.tile_size
  let patch_start_x := px * params.tile_size
  (forRangeWhile 0 params.tile_size (fun s => s.2) (fun y s =>
    let ref_y := patch_start_y + y
    if ref_y ≥ ref_img.height then (s.1, false)
    else
      ((forRangeWhile 0 params.tile_size (fun sx => sx.2) (fun x sx =>
        let ref_x := patch_start_x + x
        if ref_x ≥ ref_img.width then (sx.1, false)
        else
          let warped_x := (ref_x : ℚ) + curr_align.x
          let warped_y := (ref_y : ℚ) + curr_align.y
          if warped_x < 0 ∨ warped_x ≥ ((alt_img.width - 1 : Int) : ℚ) ∨
              warped_y < 0 ∨ warped_y ≥ ((alt_img.height - 1 : Int) : ℚ) then sx
          else
            let warped_val := bilinear_interpolation alt_img warped_x warped_y
            let ref_val := rd ref_img.data (ref_y * ref_img.width + ref_x)
            let dt := warped_val - ref_val
            let grad_idx := ref_y * grads.width + ref_x
            ((sx.1.1 + -(rd grads.data_x grad_idx) * dt,
              sx.1.2 + -(rd grads.data_y grad_idx) * dt), true))
        (s.1, true)).1, true)) (((0 : ℚ), (0 : ℚ)), true)).1

/-- The body of the patch loops of `refine_alignment_ica`: one update of patch `(px, py)`.
`width` is `current_alignment->width`. -/
def ica_tile (ref_img alt_img : Image) (grads : ImageGradients) (hessian : HessianMatrix)
    (params : ICAParams) (width : Int) (py px : Int) (data : List Alignment) :
    List Alignment :=
  let hidx := (py * hessian.width + px) * 4
  let det := rd hessian.data hidx * rd hessian.data (hidx + 3) -
    rd hessian.data (hidx + 1) * rd hessian.data (hidx + 2)
  if |det| < 1 / 10 ^ 10 then data
  else
    let curr_align := rdA data (py * width + px)
    let b := ica_accumulate ref_img alt_img grads params py px curr_align
    let delta := solve_2x2_system (fun k => rd hessian.data (hidx + k)) b
    let a := rdA data (py * width + px)
    let data1 := writeAt data (py * width + px) { a with x := a.x + delta.1 }
    let a1 := rdA data1 (py * width + px)
    writeAt data1 (py * width + px) { a1 with y := a1.y + delta.2 }

/-- The function `refine_alignment_ica`. -/
def refine_alignment_ica (ref_img alt_img : Image) (grads : ImageGradients)
    (hessian : HessianMatrix) (initial_alignment : AlignmentMap) (params : ICAParams) :
    AlignmentMap :=
  let current_alignment :=
    create_alignment_map initial_alignment.height initial_alignment.width
  let current_alignment : AlignmentMap :=
    { current_alignment with
      data := memcpy current_alignment.data initial_alignment.data
        (initial_alignment.height * initial_alignment.width) }
  { current_alignment with
    data :=
      forRange 0 params.num_iterations (fun _iter data =>
        forRange 0 current_alignment.height (fun py data =>
          forRange 0 current_alignment.width (fun px data =>
            ica_tile ref_img alt_img grads hessian params current_alignment.width py px data)
            data) data) current_alignment.data }

/-- The accumulation loops of `compute_hessian` for patch `(px, py)`: the triple
`(h00, h01, h11)`. Each loop carries a flag cleared by its `break`. -/
def hessian_accumulate (grads : ImageGradients) (tile_size py px : Int) : ℚ × ℚ × ℚ :=
  let patch_start_y := py * tile_size
  let patch_start_x := px * tile_size
  (forRangeWhile 0 tile_size (fun s => s.2) (fun y s =>
    let img_y := patch_start_y + y
    if img_y ≥ grads.height then (s.1, false)
    else
      ((forRangeWhile 0 tile_size (fun sx => sx.2) (fun x sx =>
        let img_x := patch_start_x + x
        if img_x ≥ grads.width then (sx.1, false)
        else
          let idx := img_y * grads.width + img_x
          let gx := rd grads.data_x idx
          let gy := rd grads.data_y idx
          ((sx.1.1 + gx * gx, sx.1.2.1 + gx * gy, sx.1.2.2 + gy * gy), true))
        (s.1, true)).1, true)) (((0 : ℚ), (0 : ℚ), (0 : ℚ)), true)).1

/-- The function `compute_hessian`. The buffer obtained from `calloc` is zero-filled. -/
def compute_hessian (grads : ImageGradients) (tile_size : Int) : HessianMatrix :=
  let n_patches_y := Int.tdiv (grads.height + tile_size - 1) tile_size
  let n_patches_x := Int.tdiv (grads.width + tile_size - 1) tile_size
  { height := n_patches_y
    width := n_patches_x
    data :=
      forRange 0 n_patches_y (fun py data =>
        forRange 0 n_patches_x (fun px data =>
          let h := hessian_accumulate grads tile_size py px
          let hidx := (py * n_patches_x + px) * 4
          let data := writeAt data (hidx + 0) h.1
          let data := writeAt data (hidx + 1) h.2.1
          let data := writeAt data (hidx + 2) h.2.1
          writeAt data (hidx + 3) h.2.2) data)
        (List.replicate (n_patches_y * n_patches_x * 4).toNat 0) }

/-- The function `compute_prewitt_gradients`; the gradients structure is updated in place and
returned. The kernels `kernelx` and `kernely` are the arrays `{-1, 0, 1}`. -/
def compute_prewitt_gradients (img : Image) (grads : ImageGradients) : ImageGradients :=
  let kernelx : List ℚ := [-1, 0, 1]
  let kernely : List ℚ := [-1, 0, 1]
  let data_x :=
    forRange 0 img.height (fun y data =>
      forRange 0 img.width (fun x data =>
        let sum := forRange (-1) 2 (fun k sum =>
          let xk := x + k
          if xk ≥ 0 ∧ xk < img.width then
            sum + rd img.data (y * img.width + xk) * rd kernelx (k + 1)
          else sum) 0
        writeAt data (y * img.width + x) sum) data) grads.data_x
  let data_y :=
    forRange 0 img.height (fun y data =>
      forRange 0 img.width (fun x data =>
        let sum := forRange (-1) 2 (fun k sum =>
          let yk := y + k
          if yk ≥ 0 ∧ yk < img.height then
            sum + rd img.data (yk * img.width + x) * rd kernely (k + 1)
          else sum) 0
        writeAt data (y * img.width + x) sum) data) grads.data_y
  { grads with data_x := data_x, data_y := data_y }

/-- The function `compute_gaussian_kernel`; the kernel buffer is updated in place and returned.
The library function `expf` is a parameter. -/
def compute_gaussian_kernel (expf : ℚ → ℚ) (kernel : List ℚ) (size : Int) (sigma : ℚ) :
    List ℚ :=
  let radius := Int.tdiv size 2
  let st := forRange 0 size (fun i (st : List ℚ × ℚ) =>
    let x := i - radius
    let kernel := writeAt st.1 i (expf (((-(x * x) : Int) : ℚ) / (2 * sigma * sigma)))
    (kernel, st.2 + rd kernel i)) (kernel, 0)
  forRange 0 size (fun i kernel => writeAt kernel i (rd kernel i / st.2)) st.1

/-- The local `radius` of `gaussian_blur_1d`: `(int)(4 * sigma + 0.5)`. -/
def gaussian_blur_radius (sigma : ℚ) : Int := cTrunc (4 * sigma + 1 / 2)

/-- The function `gaussian_blur_1d`; the output buffer is returned. A pointer argument is the
list of the floats from the pointer on. `input = none` stands for a call whose `input` pointer
is its `output` pointer (the vertical pass of `compute_image_gradients`): the taps are then
read from the output buffer as it stands. The library function `expf` is a parameter. -/
def gaussian_blur_1d (expf : ℚ → ℚ) (input : Option (List ℚ)) (output : List ℚ) (size : Int)
    (sigma : ℚ) : List ℚ :=
  let radius := cTrunc (4 * sigma + 1 / 2)
  let kernel := compute_gaussian_kernel expf (List.replicate (2 * radius + 1).toNat 0)
    (2 * radius + 1) sigma
  forRange 0 size (fun i output =>
    let acc := forRange (-radius) (radius + 1) (fun k (acc : ℚ × ℚ) =>
      let idx := i + k
      if idx ≥ 0 ∧ idx < size then
        let weight := rd kernel (k + radius)
        let tap := match input with
          | some input => rd input idx
          | none => rd output idx
        (acc.1 + tap * weight, acc.2 + weight)
      else acc) (0, 0)
    writeAt output i (acc.1 / acc.2)) output

/-- The pointer `&buf[i]`: the floats of the buffer from position `i` on. -/
def ptrAt (buf : List ℚ) (i : Int) : List ℚ := buf.drop i.toNat

/-- The buffer `buf` once the floats from position `i` on, written through the pointer
`&buf[i]`, have become `view`. -/
def storeAt (buf : List ℚ) (i : Int) (view : List ℚ) : List ℚ := buf.take i.toNat ++ view

/-- The image `working_img` that `compute_image_gradients` hands to
`compute_prewitt_gradients` when `sigma_blur > 0`: the image `blurred_img` after the horizontal
and the vertical blur. The column buffer `temp` has `img->width` floats; the vertical pass calls
`gaussian_blur_1d(temp, temp, ...)`, its input pointer being its output pointer. The library
function `expf` is a parameter. -/
def blurred_working_img (expf : ℚ → ℚ) (img : Image) (sigma_blur : ℚ) : Image :=
  let blurred_img := create_image img.height img.width img.channels
  let temp : List ℚ := List.replicate img.width.toNat 0
  let data :=
    forRange 0 img.height (fun y data =>
      storeAt data (y * img.width)
        (gaussian_blur_1d expf (some (ptrAt img.data (y * img.width)))
          (ptrAt data (y * img.width)) img.width sigma_blur)) blurred_img.data
  let st :=
    forRange 0 img.width (fun x (st : List ℚ × List ℚ) =>
      let temp := forRange 0 img.height (fun y temp =>
        writeAt temp y (rd st.2 (y * img.width + x))) st.1
      let temp := gaussian_blur_1d expf none temp img.height sigma_blur
      (temp, forRange 0 img.height (fun y data =>
        writeAt data (y * img.width + x) (rd temp y)) st.2)) (temp, data)
  { blurred_img with data := st.2 }

/-- The function `compute_image_gradients`; the gradients structure is updated in place and
returned. The library function `expf` is a parameter. -/
def compute_image_gradients (expf : ℚ → ℚ) (img : Image) (grads : ImageGradients)
    (sigma_blur : ℚ) : ImageGradients :=
  let working_img := if sigma_blur > 0 then blurred_working_img expf img sigma_blur else img
  compute_prewitt_gradients working_img grads

/-- The function `init_ica`. The library function `expf` is a parameter. -/
def init_ica (expf : ℚ → ℚ) (ref_img : Image) (params : ICAParams) : ImageGradients :=
  let grads : ImageGradients :=
    { data_x := List.replicate (ref_img.height * ref_img.width).toNat 0
      data_y := List.replicate (ref_img.height * ref_img.width).toNat 0
      height := ref_img.height
      width := ref_img.width }
  compute_image_gradients expf ref_img grads params.sigma_blur

/-! ## `warp.c` -/

/-- The index `flow_idx` that `warp_image` computes for the output pixel `(x, y)`. -/
def warp_flow_idx (src : Image) (flow : AlignmentMap) (y x : Int) : Int :=
  Int.tdiv (y * flow.width) src.height * flow.width + Int.tdiv (x * flow.width) src.width

/-- The body of the pixel loops of `warp_image` for the output pixel `(x, y)`;
`warped_width` and `warped_channels` are the fields of the output image. The `continue` of the
bounds test leaves the output buffer unchanged. -/
def warp_pixel (src : Image) (flow : AlignmentMap) (warped_width warped_channels : Int)
    (y x : Int) (data : List ℚ) : List ℚ :=
  let flow_idx := warp_flow_idx src flow y x
  let fx := (x : ℚ) + (rdA flow.data flow_idx).x
  let fy := (y : ℚ) + (rdA flow.data flow_idx).y
  if fx < 0 ∨ fx ≥ ((src.width - 1 : Int) : ℚ) ∨ fy < 0 ∨
      fy ≥ ((src.height - 1 : Int) : ℚ) then data
  else
    let x0 := cTrunc fx
    let y0 := cTrunc fy
    let wx := fx - (x0 : ℚ)
    let wy := fy - (y0 : ℚ)
    forRange 0 src.channels (fun c data =>
      let val :=
        (1 - wx) * (1 - wy) * rd src.data ((y0 * src.width + x0) * src.channels + c) +
        wx * (1 - wy) * rd src.data ((y0 * src.width + (x0 + 1)) * src.channels + c) +
        (1 - wx) * wy * rd src.data (((y0 + 1) * src.width + x0) * src.channels + c) +
        wx * wy * rd src.data (((y0 + 1) * src.width + (x0 + 1)) * src.channels + c)
      writeAt data ((y * warped_width + x) * warped_channels + c) val) data

/-- The function `warp_image`; `none` is a `NULL` argument or result. -/
def warp_image (src : Option Image) (flow : Option AlignmentMap) : Option Image :=
  match src with
  | none => none
  | some src =>
    match flow with
    | none => none
    | some flow =>
      let warped := create_image src.height src.width src.channels
      let zeroed :=
        forRange 0 (src.height * src.width * src.channels) (fun i data => writeAt data i 0)
          warped.data
      some { warped with
        data :=
          forRange 0 src.height (fun y data =>
            forRange 0 src.width (fun x data =>
              warp_pixel src flow warped.width warped.channels y x data) data) zeroed }

/-- An `Image` whose samples may be NaN: `none` is a NaN, `some q` is the number `q`. The
frames given to `temporal_average` are of this kind, since the function tests `isnan`. -/
structure NanImage where
  data : List (Option ℚ)
  height : Int
  width : Int
  channels : Int
deriving DecidableEq

/-- The frame read for `aligned_frames[f]`. -/
def frameAt (frames : List NanImage) (f : Int) : NanImage := readAt ⟨[], 0, 0, 0⟩ frames f

/-- The loop over the frames of `temporal_average` for the buffer index `idx`: the pair
`(sum, valid_frames)`. -/
def temporal_accumulate (frames : List NanImage) (num_frames idx : Int) : ℚ × Int :=
  forRange 0 num_frames (fun f (acc : ℚ × Int) =>
    let val := readAt (some 0) (frameAt frames f).data idx
    match val with
    | none => acc
    | some v => (acc.1 + v, acc.2 + 1)) (0, 0)

/-- The function `temporal_average`; `none` is a `NULL` argument or result. -/
def temporal_average (aligned_frames : Option (List NanImage)) (num_frames : Int) :
    Option Image :=
  match aligned_frames with
  | none => none
  | some frames =>
    if num_frames ≤ 0 then none
    else
      let result := create_image (frameAt frames 0).height (frameAt frames 0).width
        (frameAt frames 0).channels
      some { result with
        data :=
          forRange 0 result.height (fun y data =>
            forRange 0 result.width (fun x data =>
              forRange 0 result.channels (fun c data =>
                let acc := temporal_accumulate frames num_frames
                  ((y * result.width + x) * result.channels + c)
                writeAt data ((y * result.width + x) * result.channels + c)
                  (if acc.2 > 0 then acc.1 / (acc.2 : ℚ) else 0)) data) data) result.data }

/-- The struct `FrameBuffer` of `warp.h`. The array `frames` of frame pointers is the list of
its `capacity` slots; `none` is a slot that holds no frame (`NULL`, or not yet assigned). -/
structure FrameBuffer where
  frames : List (Option Image)
  capacity : Int
  size : Int
  current : Int
deriving DecidableEq

/-- The function `create_frame_buffer`; the slots of the fresh array hold no frame. -/
def create_frame_buffer (capacity : Int) : FrameBuffer :=
  { frames := List.replicate capacity.toNat none
    capacity := capacity
    size := 0
    current := 0 }

/-- The function `add_frame_to_buffer`: the returned `int` and the buffer after the call;
`none` is a `NULL` argument. When the buffer is full, the frame in slot `current` is released
(`free_image`) before the slot is overwritten. The operator `%` of C is `Int.tmod`. -/
def add_frame_to_buffer (buffer : Option FrameBuffer) (frame : Option Image) :
    Int × Option FrameBuffer :=
  match buffer, frame with
  | some buffer, some frame =>
    let buffer1 : FrameBuffer :=
      if buffer.size = buffer.capacity then buffer
      else { buffer with size := buffer.size + 1 }
    let buffer2 : FrameBuffer :=
      { buffer1 with frames := writeAt buffer1.frames buffer1.current (some frame) }
    (0, some { buffer2 with current := Int.tmod (buffer2.current + 1) buffer2.capacity })
  | _, _ => (-1, buffer)

/-! ## `video_denoising.c` -/

/-- The struct `DenoisingParams` of `video_denoising.h`. -/
structure DenoisingParams where
  temporal_radius : Int
  noise_level : ℚ
  block_size : Int
  search_radius : Int
deriving DecidableEq

/-- The local `center_idx` of `denoise_frame`: `current - temporal_radius`, increased by
`capacity` when it is negative. It is the slot of the frame that `denoise_frame` takes as the
reference (center) frame. -/
def denoise_center_idx (buffer : FrameBuffer) (params : DenoisingParams) : Int :=
  let center_idx := buffer.current - params.temporal_radius
  if center_idx < 0 then center_idx + buffer.capacity else center_idx

/-- The frame number that `main` puts in the name of the output file written after the frame
`frame_idx` has been added to the buffer: `frame_idx - denoise_params.temporal_radius`. -/
def main_output_frame_idx (frame_idx : Int) (denoise_params : DenoisingParams) : Int :=
  frame_idx - denoise_params.temporal_radius

/-- The function `create_block_matching_params` of `block_matching.c`. The four arrays come
from `malloc` and are not initialised by the function: their indeterminate contents are the
lists of the parameter `fresh` (whose field `num_levels` is not used). -/
def create_block_matching_params (fresh : BlockMatchingParams) (num_levels : Int) :
    BlockMatchingParams :=
  { factors := fresh.factors
    tile_sizes := fresh.tile_sizes
    distances := fresh.distances
    search_radii := fresh.search_radii
    num_levels := num_levels }

/-- An `Image` handed to `temporal_average`: none of its samples is a NaN. -/
def Image.toNanImage (img : Image) : NanImage :=
  { data := img.data.map some
    height := img.height
    width := img.width
    channels := img.channels }

/-- The alignment loop of `denoise_frame` over `offset = -temporal_radius .. temporal_radius`;
the state is the array `aligned_frames`, and `none` once the function has returned `NULL`. -/
def denoise_align_loop (buffer : FrameBuffer) (params : DenoisingParams)
    (bm_params : BlockMatchingParams) (center_idx : Int)
    (aligned_frames : List (Option Image)) : Option (List (Option Image)) :=
  forRange (-params.temporal_radius) (params.temporal_radius + 1)
    (fun offset (st : Option (List (Option Image))) =>
      match st with
      | none => none
      | some aligned_frames =>
        if offset = 0 then some aligned_frames
        else
          let frame_idx := Int.tmod (center_idx + offset + buffer.capacity) buffer.capacity
          match readAt none buffer.frames frame_idx with
          | none => none
          | some frame =>
            match init_block_matching (readAt none buffer.frames center_idx)
                (some bm_params) with
            | none => none
            | some ref_pyramid =>
              match align_image_block_matching (some frame) ref_pyramid (some bm_params) with
              | none => none
              | some flow =>
                match warp_image (some frame) (some flow) with
                | none => none
                | some warped =>
                  some (writeAt aligned_frames (params.temporal_radius + offset)
                    (some warped)))
    (some aligned_frames)

/-- The function `denoise_frame`; `none` is a `NULL` argument or result. The parameter `fresh`
holds the contents of the arrays that `create_block_matching_params` allocates. A `NULL` entry
of `aligned_frames` does not reach `temporal_average` (the function has returned before). -/
def denoise_frame (fresh : BlockMatchingParams) (buffer : Option FrameBuffer)
    (params : Option DenoisingParams) : Option Image :=
  match buffer, params with
  | some buffer, some params =>
    if params.temporal_radius < 0 ∨ params.temporal_radius * 2 + 1 > buffer.capacity then none
    else if params.block_size ≤ 0 ∨ params.search_radius ≤ 0 then none
    else
      let center_idx := denoise_center_idx buffer params
      let aligned_frames : List (Option Image) :=
        forRange 0 (2 * params.temporal_radius + 1) (fun i a => writeAt a i none)
          (List.replicate (2 * params.temporal_radius + 1).toNat none)
      let aligned_frames :=
        writeAt aligned_frames params.temporal_radius (readAt none buffer.frames center_idx)
      match readAt none aligned_frames params.temporal_radius with
      | none => none
      | some _ =>
        let bm_params := create_block_matching_params fresh 1
        if params.block_size ≤ 0 ∨ params.search_radius ≤ 0 then none
        else
          let bm_params : BlockMatchingParams :=
            { bm_params with tile_sizes := writeAt bm_params.tile_sizes 0 params.block_size }
          let bm_params : BlockMatchingParams :=
            { bm_params with
              search_radii := writeAt bm_params.search_radii 0 params.search_radius }
          match denoise_align_loop buffer params bm_params center_idx aligned_frames with
          | none => none
          | some aligned_frames =>
            temporal_average
              (some (aligned_frames.map (fun f =>
                (f.getD ⟨[], 0, 0, 0⟩).toNanImage)))
              (2 * params.temporal_radius + 1)
  | _, _ => none

/-- The frame loop of `main`: for `frame_idx = 0 .. num_frames - 1`, load the frame, add it to
the buffer and, once the buffer is full, denoise and save. The state is the buffer and the list
of the saved outputs (file number, image). The function `load_next_frame` reads a file: its
result for each `frame_idx` is a parameter (`none` is `NULL`); `fresh k` holds the contents of
the arrays that the `k`-th use of `create_block_matching_params` allocates. -/
def main_frame_loop (load_next_frame : Int → Option Image) (fresh : Int → BlockMatchingParams)
    (denoise_params : DenoisingParams) (num_frames : Int) (buffer : FrameBuffer) :
    FrameBuffer × List (Int × Image) :=
  forRange 0 num_frames (fun frame_idx (st : FrameBuffer × List (Int × Image)) =>
    match load_next_frame frame_idx with
    | none => st
    | some frame =>
      let r := add_frame_to_buffer (some st.1) (some frame)
      if r.1 ≠ 0 then st
      else
        let buffer := r.2.getD st.1
        if buffer.size = buffer.capacity then
          match denoise_frame (fresh frame_idx) (some buffer) (some denoise_params) with
          | some denoised =>
            (buffer, st.2 ++ [(frame_idx - denoise_params.temporal_radius, denoised)])
          | none => (buffer, st.2)
        else (buffer, st.2)) (buffer, [])

/-- The final loop of `main`, `while (buffer->size > 0) ...`, run for at most `fuel` passes:
`some` is the state with which the loop is left, `none` says that the loop is still running
after `fuel` passes. `pass` counts the passes made so far. -/
def main_drain_loop (fresh : Int → BlockMatchingParams) (denoise_params : DenoisingParams)
    (num_frames : Int) :
    Nat → Nat → FrameBuffer × List (Int × Image) → Option (FrameBuffer × List (Int × Image))
  | 0, _, _ => none
  | fuel + 1, pass, st =>
    if st.1.size > 0 then
      match denoise_frame (fresh (num_frames + (pass : Int))) (some st.1)
          (some denoise_params) with
      | some denoised =>
        main_drain_loop fresh denoise_params num_frames fuel (pass + 1)
          (st.1, st.2 ++ [(num_frames - st.1.size, denoised)])
      | none => main_drain_loop fresh denoise_params num_frames fuel (pass + 1) st
    else some st

/-- The function `main` from the creation of the frame buffer on, with `num_frames` the value
of `atoi(argv[3])`: the list of the saved outputs when `main` returns within `fuel` passes of
its final loop, `none` when that loop is still running after `fuel` passes. -/
def main (load_next_frame : Int → Option Image) (fresh : Int → BlockMatchingParams)
    (num_frames : Int) (fuel : Nat) : Option (List (Int × Image)) :=
  let denoise_params : DenoisingParams :=
    { temporal_radius := 2, noise_level := 20, block_size := 16, search_radius := 16 }
  let buffer := create_frame_buffer (2 * denoise_params.temporal_radius + 1)
  let st := main_frame_loop load_next_frame fresh denoise_params num_frames buffer
  (main_drain_loop fresh denoise_params num_frames fuel 0 st).map (fun st => st.2)

/-- The indices at which `gaussian_blur_1d(input, output, size, sigma)` reads `input` (the taps
`input[idx]`) and writes `output` (`output[i]`), in program order, appended to `log`. -/
def gaussian_blur_1d_accesses (size : Int) (sigma : ℚ) (log : List Int) : List Int :=
  let radius := cTrunc (4 * sigma + 1 / 2)
  forRange 0 size (fun i log =>
    let log := forRange (-radius) (radius + 1) (fun k log =>
      let idx := i + k
      if idx ≥ 0 ∧ idx < size then log ++ [idx] else log) log
    log ++ [i]) log

/-- The indices at which the vertical pass of `compute_image_gradients` reads or writes its
column buffer `temp`, in program order: for each column, the extraction `temp[y] = ...`, the
call `gaussian_blur_1d(temp, temp, img->height, sigma_blur)`, and the write-back
`... = temp[y]`. -/
def vertical_blur_temp_accesses (img : Image) (sigma_blur : ℚ) : List Int :=
  forRange 0 img.width (fun _x log =>
    let log := forRange 0 img.height (fun y log => log ++ [y]) log
    let log := gaussian_blur_1d_accesses img.height sigma_blur log
    forRange 0 img.height (fun y log => log ++ [y]) log) []

/-- The number of floats of the column buffer `temp` of `compute_image_gradients`:
`malloc(sizeof(float) * img->width)`. -/
def temp_length (img : Image) : Int := img.width

/-- The body of the pixel loops of `warp_image` with the rounding of the two float additions
`x + flow->data[flow_idx].x` and `y + flow->data[flow_idx].y` made explicit: `fadd a b` is the
`float` that the addition of `a` and `b` yields (a parameter: any rounding). The bounds test,
the casts `(int)fx`, `(int)fy` and the weights are taken from these rounded sums, as in the
code; the interpolated value is computed exactly. -/
def warp_pixel_rounded (fadd : ℚ → ℚ → ℚ) (src : Image) (flow : AlignmentMap)
    (warped_width warped_channels : Int) (y x : Int) (data : List ℚ) : List ℚ :=
  let flow_idx := warp_flow_idx src flow y x
  let fx := fadd (x : ℚ) (rdA flow.data flow_idx).x
  let fy := fadd (y : ℚ) (rdA flow.data flow_idx).y
  if fx < 0 ∨ fx ≥ ((src.width - 1 : Int) : ℚ) ∨ fy < 0 ∨
      fy ≥ ((src.height - 1 : Int) : ℚ) then data
  else
    let x0 := cTrunc fx
    let y0 := cTrunc fy
    let wx := fx - (x0 : ℚ)
    let wy := fy - (y0 : ℚ)
    forRange 0 src.channels (fun c data =>
      let val :=
        (1 - wx) * (1 - wy) * rd src.data ((y0 * src.width + x0) * src.channels + c) +
        wx * (1 - wy) * rd src.data ((y0 * src.width + (x0 + 1)) * src.channels + c) +
        (1 - wx) * wy * rd src.data (((y0 + 1) * src.width + x0) * src.channels + c) +
        wx * wy * rd src.data (((y0 + 1) * src.width + (x0 + 1)) * src.channels + c)
      writeAt data ((y * warped_width + x) * warped_channels + c) val) data

/-- The function `warp_image` with the rounding of the float additions of the sampling
location made explicit (`fadd`, see `warp_pixel_rounded`); `none` is a `NULL` argument or
result. With the exact addition for `fadd` it is `warp_image`. -/
def warp_image_rounded (fadd : ℚ → ℚ → ℚ) (src : Option Image) (flow : Option AlignmentMap) :
    Option Image :=
  match src with
  | none => none
  | some src =>
    match flow with
    | none => none
    | some flow =>
      let warped := create_image src.height src.width src.channels
      let zeroed :=
        forRange 0 (src.height * src.width * src.channels) (fun i data => writeAt data i 0)
          warped.data
      some { warped with
        data :=
          forRange 0 src.height (fun y data =>
            forRange 0 src.width (fun x data =>
              warp_pixel_rounded fadd src flow warped.width warped.channels y x data) data)
            zeroed }

/-- The pixel loops of `refine_alignment_ica` for one patch, with the rounding of the float
additions `ref_x + curr_align->x` and `ref_y + curr_align->y` made explicit: `fadd a b` is the
`float` that the addition of `a` and `b` yields (a parameter: any rounding). The bounds test and
the interpolation use these rounded sums, as in the code; the other operations are exact. -/
def ica_accumulate_rounded (fadd : ℚ → ℚ → ℚ) (ref_img alt_img : Image)
    (grads : ImageGradients) (params : ICAParams) (py px : Int) (curr_align : Alignment) :
    ℚ × ℚ :=
  let patch_start_y := py * params.tile_size
  let patch_start_x := px * params.tile_size
  (forRangeWhile 0 params.tile_size (fun s => s.2) (fun y s =>
    let ref_y := patch_start_y + y
    if ref_y ≥ ref_img.height then (s.1, false)
    else
      ((forRangeWhile 0 params.tile_size (fun sx => sx.2) (fun x sx =>
        let ref_x := patch_start_x + x
        if ref_x ≥ ref_img.width then (sx.1, false)
        else
          let warped_x := fadd (ref_x : ℚ) curr_align.x
          let warped_y := fadd (ref_y : ℚ) curr_align.y
          if warped_x < 0 ∨ warped_x ≥ ((alt_img.width - 1 : Int) : ℚ) ∨
              warped_y < 0 ∨ warped_y ≥ ((alt_img.height - 1 : Int) : ℚ) then sx
          else
            let warped_val := bilinear_interpolation alt_img warped_x warped_y
            let ref_val := rd ref_img.data (ref_y * ref_img.width + ref_x)
            let dt := warped_val - ref_val
            let grad_idx := ref_y * grads.width + ref_x
            ((sx.1.1 + -(rd grads.data_x grad_idx) * dt,
              sx.1.2 + -(rd grads.data_y grad_idx) * dt), true))
        (s.1, true)).1, true)) (((0 : ℚ), (0 : ℚ)), true)).1

/-- The function `solve_2x2_system` with the rounding of the determinant made explicit:
`fdet a b c d` is the `float` that the code obtains for `a * d - b * c` (a parameter: any
rounding). The test and `inv_det` use this value, as in the code. -/
def solve_2x2_system_rounded (fdet : ℚ → ℚ → ℚ → ℚ → ℚ) (A : Int → ℚ) (b : ℚ × ℚ) : ℚ × ℚ :=
  let det := fdet (A 0) (A 1) (A 2) (A 3)
  if |det| < 1 / 10 ^ 10 then (0, 0)
  else
    let inv_det := 1 / det
    ((A 3 * b.1 - A 1 * b.2) * inv_det, (-(A 2) * b.1 + A 0 * b.2) * inv_det)

/-- The body of the patch loops of `refine_alignment_ica` with the roundings that decide its
branches made explicit: the determinant tested against `1e-10` is the rounded one (`fdet`), and
the warped positions are the rounded sums (`fadd`). `width` is `current_alignment->width`. -/
def ica_tile_rounded (fadd : ℚ → ℚ → ℚ) (fdet : ℚ → ℚ → ℚ → ℚ → ℚ) (ref_img alt_img : Image)
    (grads : ImageGradients) (hessian : HessianMatrix) (params : ICAParams) (width : Int)
    (py px : Int) (data : List Alignment) : List Alignment :=
  let hidx := (py * hessian.width + px) * 4
  let det := fdet (rd hessian.data hidx) (rd hessian.data (hidx + 1))
    (rd hessian.data (hidx + 2)) (rd hessian.data (hidx + 3))
  if |det| < 1 / 10 ^ 10 then data
  else
    let curr_align := rdA data (py * width + px)
    let b := ica_accumulate_rounded fadd ref_img alt_img grads params py px curr_align
    let delta := solve_2x2_system_rounded fdet (fun k => rd hessian.data (hidx + k)) b
    let a := rdA data (py * width + px)
    let data1 := writeAt data (py * width + px) { a with x := a.x + delta.1 }
    let a1 := rdA data1 (py * width + px)
    writeAt data1 (py * width + px) { a1 with y := a1.y + delta.2 }

/-- The function `refine_alignment_ica` with the roundings that decide its branches made
explicit (`fadd`, `fdet`, see `ica_tile_rounded`). With the exact operations for `fadd` and
`fdet` it is `refine_alignment_ica`. -/
def refine_alignment_ica_rounded (fadd : ℚ → ℚ → ℚ) (fdet : ℚ → ℚ → ℚ → ℚ → ℚ)
    (ref_img alt_img : Image) (grads : ImageGradients) (hessian : HessianMatrix)
    (initial_alignment : AlignmentMap) (params : ICAParams) : AlignmentMap :=
  let current_alignment :=
    create_alignment_map initial_alignment.height initial_alignment.width
  let current_alignment : AlignmentMap :=
    { current_alignment with
      data := memcpy current_alignment.data initial_alignment.data
        (initial_alignment.height * initial_alignment.width) }
  { current_alignment with
    data :=
      forRange 0 params.num_iterations (fun _iter data =>
        forRange 0 current_alignment.height (fun py data =>
          forRange 0 current_alignment.width (fun px data =>
            ica_tile_rounded fadd fdet ref_img alt_img grads hessian params
              current_alignment.width py px data)
            data) data) current_alignment.data }

/-! ## Notions used to state the properties -/

/-- The sample of channel `c` at pixel `(x, y)`: buffer index `(y * width + x) * channels + c`. -/
def Image.sample (img : Image) (x y c : Int) : ℚ :=
  rd img.data ((y * img.width + x) * img.channels + c)

/-- The invariant of an `Image`: non-negative dimensions and a buffer of
`height * width * channels` samples. -/
def Image.WF (img : Image) : Prop :=
  0 ≤ img.height ∧ 0 ≤ img.width ∧ 0 ≤ img.channels ∧
    img.data.length = (img.height * img.width * img.channels).toNat

/-- The arithmetic mean of the `f * f` samples of channel `c` at the positions
`(f * x + kx, f * y + ky)`, `0 ≤ kx, ky < f`. -/
def box_mean (img : Image) (f c y x : Int) : ℚ :=
  (∑ ky ∈ Finset.range f.toNat, ∑ kx ∈ Finset.range f.toNat,
    img.sample (f * x + (kx : Int)) (f * y + (ky : Int)) c) / ((f : ℚ) * (f : ℚ))

/-- The displacement stored for tile `(x, y)`: entry `y * width + x` of the map. -/
def AlignmentMap.tile (m : AlignmentMap) (x y : Int) : Alignment :=
  rdA m.data (y * m.width + x)

/-- The invariant of an `AlignmentMap`: non-negative dimensions and a buffer of
`height * width` displacements. -/
def AlignmentMap.WF (m : AlignmentMap) : Prop :=
  0 ≤ m.height ∧ 0 ≤ m.width ∧ m.data.length = (m.height * m.width).toNat

/-- The pixel of the alternate image that `local_search` compares with pixel `(x, y)` of tile
`(tile_x, tile_y)` for the candidate shift `(dx, dy)`: the reference pixel displaced by the
integer value of `current + shift`. -/
def alt_pixel (tile_size tile_y tile_x : Int) (current : Alignment) (dx dy y x : Int) :
    Int × Int :=
  (tile_x * tile_size + x + cTrunc (current.x + (dx : ℚ)),
   tile_y * tile_size + y + cTrunc (current.y + (dy : ℚ)))

/-- The whole tile patch displaced by `current + (dx, dy)` lies inside the alternate image. -/
def patch_inside (alt_level : Image) (tile_size tile_y tile_x : Int) (current : Alignment)
    (dx dy : Int) : Prop :=
  ∀ y ∈ intRange 0 tile_size, ∀ x ∈ intRange 0 tile_size,
    (0 ≤ (alt_pixel tile_size tile_y tile_x current dx dy y x).1 ∧
      (alt_pixel tile_size tile_y tile_x current dx dy y x).1 < alt_level.width) ∧
    (0 ≤ (alt_pixel tile_size tile_y tile_x current dx dy y x).2 ∧
      (alt_pixel tile_size tile_y tile_x current dx dy y x).2 < alt_level.height)

instance (alt_level : Image) (tile_size tile_y tile_x : Int) (current : Alignment)
    (dx dy : Int) : Decidable (patch_inside alt_level tile_size tile_y tile_x current dx dy) := by
  unfold patch_inside
  infer_instance

/-- The contribution of one pixel difference to the distance: absolute value when the metric
is 0 (L1), square otherwise (L2). -/
def metric_term (distance_metric : Int) (diff : ℚ) : ℚ :=
  if distance_metric = 0 then |diff| else diff * diff

/-- The aggregate distance of the candidate shift `(dx, dy)`: the sum over all pixels of the
tile and all channels of the differences between the reference patch and the displaced patch of
the alternate image. -/
def patch_distance (ref_level alt_level : Image) (tile_size tile_y tile_x : Int)
    (current : Alignment) (dx dy : Int) (distance_metric : Int) : ℚ :=
  ∑ y ∈ Finset.range tile_size.toNat, ∑ x ∈ Finset.range tile_size.toNat,
    ∑ c ∈ Finset.range ref_level.channels.toNat,
      metric_term distance_metric
        (ref_level.sample (tile_x * tile_size + (x : Int)) (tile_y * tile_size + (y : Int))
            (c : Int) -
          alt_level.sample
            (alt_pixel tile_size tile_y tile_x current dx dy (y : Int) (x : Int)).1
            (alt_pixel tile_size tile_y tile_x current dx dy (y : Int) (x : Int)).2 (c : Int))

/-- A float holds an integer value: its reduced denominator is 1. -/
def is_integer (q : ℚ) : Prop := q.den = 1

instance (q : ℚ) : Decidable (is_integer q) := by
  unfold is_integer
  infer_instance

/-- Both components of a displacement are integer-valued. -/
def Alignment.integral (a : Alignment) : Prop := is_integer a.x ∧ is_integer a.y

instance (a : Alignment) : Decidable a.integral := by
  unfold Alignment.integral
  infer_instance

/-- Entry `k` of the 2x2 matrix stored for patch `(px, py)`. -/
def HessianMatrix.entry (h : HessianMatrix) (px py k : Int) : ℚ :=
  rd h.data ((py * h.width + px) * 4 + k)

/-- The bounds test of `refine_alignment_ica` on a warped position: it lies in
`[0, width - 1) x [0, height - 1)` of the alternate image. -/
def warp_in_bounds (alt_img : Image) (wx wy : ℚ) : Prop :=
  (0 ≤ wx ∧ wx < ((alt_img.width - 1 : Int) : ℚ)) ∧
    (0 ≤ wy ∧ wy < ((alt_img.height - 1 : Int) : ℚ))

instance (alt_img : Image) (wx wy : ℚ) : Decidable (warp_in_bounds alt_img wx wy) := by
  unfold warp_in_bounds
  infer_instance

/-- Pixel `(x, y)` of the reference image contributes to `b` for the displacement `d`: it lies
inside the reference image (the patch is truncated at the border) and its warped position
passes the bounds test. -/
def ica_pixel_used (ref_img alt_img : Image) (d : Alignment) (x y : Int) : Prop :=
  (y < ref_img.height ∧ x < ref_img.width) ∧
    warp_in_bounds alt_img ((x : ℚ) + d.x) ((y : ℚ) + d.y)

instance (ref_img alt_img : Image) (d : Alignment) (x y : Int) :
    Decidable (ica_pixel_used ref_img alt_img d x y) := by
  unfold ica_pixel_used
  infer_instance

/-- The residual at pixel `(x, y)`: the bilinear sample of the alternate image at the warped
position minus the reference value. -/
def ica_residual (ref_img alt_img : Image) (d : Alignment) (x y : Int) : ℚ :=
  bilinear_interpolation alt_img ((x : ℚ) + d.x) ((y : ℚ) + d.y) -
    rd ref_img.data (y * ref_img.width + x)

/-- The vector `b = -(sum of gradient * residual)` over the contributing pixels of patch
`(px, py)`. -/
def ica_rhs (ref_img alt_img : Image) (grads : ImageGradients) (ts py px : Int)
    (d : Alignment) : ℚ × ℚ :=
  (-(∑ y ∈ Finset.range ts.toNat, ∑ x ∈ Finset.range ts.toNat,
      if ica_pixel_used ref_img alt_img d (px * ts + (x : Int)) (py * ts + (y : Int)) then
        rd grads.data_x ((py * ts + (y : Int)) * grads.width + (px * ts + (x : Int))) *
          ica_residual ref_img alt_img d (px * ts + (x : Int)) (py * ts + (y : Int))
      else 0),
   -(∑ y ∈ Finset.range ts.toNat, ∑ x ∈ Finset.range ts.toNat,
      if ica_pixel_used ref_img alt_img d (px * ts + (x : Int)) (py * ts + (y : Int)) then
        rd grads.data_y ((py * ts + (y : Int)) * grads.width + (px * ts + (x : Int))) *
          ica_residual ref_img alt_img d (px * ts + (x : Int)) (py * ts + (y : Int))
      else 0))

/-- The horizontal gradient stored for pixel `(x, y)`. -/
def ImageGradients.gx (g : ImageGradients) (x y : Int) : ℚ := rd g.data_x (y * g.width + x)

/-- The vertical gradient stored for pixel `(x, y)`. -/
def ImageGradients.gy (g : ImageGradients) (x y : Int) : ℚ := rd g.data_y (y * g.width + x)

/-- The sum of `f x y` over the pixels `(x, y)` of patch `(px, py)` of size `T`, truncated at the
border of a `width x height` image: `px*T ≤ x < min((px+1)*T, width)` and
`py*T ≤ y < min((py+1)*T, height)`. -/
def patch_sum (T width height px py : Int) (f : Int → Int → ℚ) : ℚ :=
  ((intRange (py * T) (min ((py + 1) * T) height)).map (fun y =>
    ((intRange (px * T) (min ((px + 1) * T) width)).map (fun x => f x y)).sum)).sum

/-- The value of a single-channel image at `(x, y)`, a position outside the image counting
as 0. -/
def Image.tap (img : Image) (x y : Int) : ℚ :=
  if (0 ≤ x ∧ x < img.width) ∧ (0 ≤ y ∧ y < img.height) then rd img.data (y * img.width + x)
  else 0

/-- The sampling location of output pixel `(x, y)` passes the bounds test of `warp_image`: it
lies in `[0, width - 1) x [0, height - 1)`. -/
def warp_sampled (src : Image) (fx fy : ℚ) : Prop :=
  (0 ≤ fx ∧ fx < ((src.width - 1 : Int) : ℚ)) ∧ (0 ≤ fy ∧ fy < ((src.height - 1 : Int) : ℚ))

instance (src : Image) (fx fy : ℚ) : Decidable (warp_sampled src fx fy) := by
  unfold warp_sampled
  infer_instance

/-- The sampling location that `warp_image` uses for output pixel `(x, y)`: the pixel
coordinates plus the displacement read at `flow_idx`. -/
def warp_location (src : Image) (flow : AlignmentMap) (x y : Int) : ℚ × ℚ :=
  ((x : ℚ) + (rdA flow.data (warp_flow_idx src flow y x)).x,
   (y : ℚ) + (rdA flow.data (warp_flow_idx src flow y x)).y)

/-- The bilinear interpolation of channel `c` of `src` at the location `(fx, fy)`: the four
samples around the floor `(x0, y0)` of the location, weighted by the products of the fractional
parts and their complements. -/
def bilinear_sample (src : Image) (fx fy : ℚ) (c : Int) : ℚ :=
  (1 - (fx - (⌊fx⌋ : ℚ))) * (1 - (fy - (⌊fy⌋ : ℚ))) * src.sample ⌊fx⌋ ⌊fy⌋ c +
  (fx - (⌊fx⌋ : ℚ)) * (1 - (fy - (⌊fy⌋ : ℚ))) * src.sample (⌊fx⌋ + 1) ⌊fy⌋ c +
  (1 - (fx - (⌊fx⌋ : ℚ))) * (fy - (⌊fy⌋ : ℚ)) * src.sample ⌊fx⌋ (⌊fy⌋ + 1) c +
  (fx - (⌊fx⌋ : ℚ)) * (fy - (⌊fy⌋ : ℚ)) * src.sample (⌊fx⌋ + 1) (⌊fy⌋ + 1) c

/-- The sample of channel `c` at pixel `(x, y)` of a frame that may hold NaN. -/
def NanImage.sample (img : NanImage) (x y c : Int) : Option ℚ :=
  readAt (some 0) img.data ((y * img.width + x) * img.channels + c)

/-- The frames, among the first `n`, whose sample of channel `c` at pixel `(x, y)` is not
NaN. -/
def valid_frames_at (frames : List NanImage) (n : Nat) (x y c : Int) : Finset ℕ :=
  (Finset.range n).filter (fun f => ((frameAt frames (f : Int)).sample x y c).isSome = true)

/-- The value of frame `f` at channel `c` of pixel `(x, y)`; it is used for frames that are not
NaN there (a NaN is given the value 0). -/
def frame_value (frames : List NanImage) (x y c : Int) (f : ℕ) : ℚ :=
  ((frameAt frames (f : Int)).sample x y c).getD 0

/-- The location `(fx, fy)` lies in the closed range `[0, width - 2] x [0, height - 2]` of
the source image. -/
def warp_in_closed_range (src : Image) (fx fy : ℚ) : Prop :=
  (0 ≤ fx ∧ fx ≤ ((src.width - 2 : Int) : ℚ)) ∧ (0 ≤ fy ∧ fy ≤ ((src.height - 2 : Int) : ℚ))

instance (src : Image) (fx fy : ℚ) : Decidable (warp_in_closed_range src fx fy) := by
  unfold warp_in_closed_range
  infer_instance

/-- The map entry of the tile that governs the output pixel `(x, y)`: tile row
`floor(y * flow.height / src.height)`, tile column `floor(x * flow.width / src.width)`, in a
row-major map of `flow.width` columns. -/
def governing_tile_idx (src : Image) (flow : AlignmentMap) (y x : Int) : Int :=
  (y * flow.height / src.height) * flow.width + (x * flow.width / src.width)

/-- The integer `n` is a nearest integer to `q`: no integer is closer to `q`. -/
def is_nearest_integer (n : Int) (q : ℚ) : Prop := ∀ m : Int, |q - (n : ℚ)| ≤ |q - (m : ℚ)|

/-- The buffer after the successive calls `add_frame_to_buffer(buffer, f)` for the frames `f`
of the list `fs`, in order, starting from `buffer`. -/
def add_frames (buffer : FrameBuffer) (fs : List Image) : FrameBuffer :=
  fs.foldl (fun b f => ((add_frame_to_buffer (some b) (some f)).2).getD b) buffer

/-- The frame held by slot `i` of the buffer. -/
def FrameBuffer.slot (buffer : FrameBuffer) (i : Int) : Option Image :=
  readAt none buffer.frames i

/-- The `i`-th inserted frame of the list `fs` (counting from 0). -/
def nth_frame (fs : List Image) (i : Int) : Option Image :=
  if 0 ≤ i then fs.get? i.toNat else none

/-- The weight that `gaussian_blur_1d` gives to the tap at offset `k` from the output
position: entry `k + radius` of the kernel computed for `sigma`. -/
def blur_weight (expf : ℚ → ℚ) (sigma : ℚ) (k : Int) : ℚ :=
  rd (compute_gaussian_kernel expf
      (List.replicate (2 * gaussian_blur_radius sigma + 1).toNat 0)
      (2 * gaussian_blur_radius sigma + 1) sigma) (k + gaussian_blur_radius sigma)

/-- The renormalised 1-D Gaussian convolution of the signal `v` of length `size`, at position
`i`: the weighted sum of the taps `v (i + k)`, `-radius ≤ k ≤ radius`, that fall inside the
signal, divided by the sum of their weights. -/
def renormalised_blur (expf : ℚ → ℚ) (sigma : ℚ) (v : Int → ℚ) (size i : Int) : ℚ :=
  (((intRange (-gaussian_blur_radius sigma) (gaussian_blur_radius sigma + 1)).filter
      (fun k => 0 ≤ i + k ∧ i + k < size)).map (fun k => v (i + k) * blur_weight expf sigma k)).sum /
  (((intRange (-gaussian_blur_radius sigma) (gaussian_blur_radius sigma + 1)).filter
      (fun k => 0 ≤ i + k ∧ i + k < size)).map (fun k => blur_weight expf sigma k)).sum

/-- The separable blur of a single-channel image at pixel `(x, y)`: the renormalised
convolution along each row of the input, followed by the renormalised convolution along each
column of the row-blurred image. -/
def separable_blur (expf : ℚ → ℚ) (img : Image) (sigma : ℚ) (x y : Int) : ℚ :=
  renormalised_blur expf sigma
    (fun y2 => renormalised_blur expf sigma (fun x2 => rd img.data (y2 * img.width + x2))
      img.width x) img.height y

/-- The block-matching parameters of the end-to-end scenario: 2 levels, factors `[1, 2]`, tile
sizes `[16, 16]`, the L2 distance (metric 1) and search radius 4 at both levels. -/
def scenario_params : BlockMatchingParams :=
  { factors := [1, 2]
    tile_sizes := [16, 16]
    distances := [1, 1]
    search_radii := [4, 4]
    num_levels := 2 }

/-- The ICA parameters of the end-to-end scenario: no blur, 3 iterations, tile size 16. -/
def scenario_ica_params : ICAParams :=
  { sigma_blur := 0
    num_iterations := 3
    tile_size := 16 }

/-- The end-to-end scenario for a reference image `ref` and an image `alt` to align:
`init_block_matching` on the reference, `align_image_block_matching` of `alt` against the
reference pyramid, then `refine_alignment_ica` with the gradients of `init_ica` and the Hessians
of `compute_hessian`. -/
def end_to_end (expf : ℚ → ℚ) (ref alt : Image) : Option AlignmentMap :=
  match init_block_matching (some ref) (some scenario_params) with
  | none => none
  | some reference_pyramid =>
    match align_image_block_matching (some alt) reference_pyramid (some scenario_params) with
    | none => none
    | some alignments =>
      some (refine_alignment_ica ref alt (init_ica expf ref scenario_ica_params)
        (compute_hessian (init_ica expf ref scenario_ica_params) 16) alignments
        scenario_ica_params)

/-- The mean of the displacements of a map over all its tiles. -/
def mean_displacement (m : AlignmentMap) : ℚ × ℚ :=
  ((m.data.map (fun a => a.x)).sum / (m.data.length : ℚ),
   (m.data.map (fun a => a.y)).sum / (m.data.length : ℚ))

/-- The single-channel image `alt` is the image `ref` translated by the integer vector
`(sx, sy)`: the sample of `alt` at `(x + sx, y + sy)` is the sample of `ref` at `(x, y)`
whenever both pixels lie inside their image. -/
def is_translation (ref alt : Image) (sx sy : Int) : Prop :=
  ∀ x y : Int, 0 ≤ x → x < ref.width → 0 ≤ y → y < ref.height →
    0 ≤ x + sx → x + sx < alt.width → 0 ≤ y + sy → y + sy < alt.height →
    alt.sample (x + sx) (y + sy) 0 = ref.sample x y 0

/-- Level 1 of the pyramid of the scenario: the image downsampled by 2. -/
def scenario_coarse_level (img : Image) : Image := (downsample_image img 2).getD img

/-- The map that the scenario computes at level 1 (the coarsest level). -/
def scenario_coarse_map (ref alt : Image) : AlignmentMap :=
  align_on_level (scenario_coarse_level ref) (scenario_coarse_level alt) scenario_params 1 none

/-- The map from which `local_search` starts at level 0 in the scenario: the map of level 1
passed through `upsample_alignments` with the factor `factors[0] = 1` and the tile sizes 16
and 16. -/
def scenario_initial_map (ref alt : Image) : AlignmentMap :=
  upsample_alignments ref alt (scenario_coarse_map ref alt) 1 16 16

/-- The 64x64 single-channel image whose sample at `(x, y)` is
`a * (x - sx) + b * (y - sy) + k`: the linear ramp `a * x + b * y + k` translated by
`(sx, sy)`. -/
def translated_ramp (a b k : ℚ) (sx sy : Int) : Image :=
  { data := (List.range 4096).map (fun i : ℕ =>
      a * (((i % 64 : ℕ) : ℚ) - (sx : ℚ)) + b * (((i / 64 : ℕ) : ℚ) - (sy : ℚ)) + k)
    height := 64
    width := 64
    channels := 1 }

/-- The sampling location that `warp_image` uses for output pixel `(x, y)` when its float
additions round as `fadd`: the rounded sums of the pixel coordinates and the displacement read
at `flow_idx`. -/
def warp_location_rounded (fadd : ℚ → ℚ → ℚ) (src : Image) (flow : AlignmentMap)
    (x y : Int) : ℚ × ℚ :=
  (fadd (x : ℚ) (rdA flow.data (warp_flow_idx src flow y x)).x,
   fadd (y : ℚ) (rdA flow.data (warp_flow_idx src flow y x)).y)

/-- The bilinear interpolation of a single-channel image at the location `(fx, fy)`: the four
pixels around the floor `(x0, y0)` of the location, weighted by the products of the fractional
parts and their complements. -/
def bilinear_tap (img : Image) (fx fy : ℚ) : ℚ :=
  (1 - (fx - (⌊fx⌋ : ℚ))) * (1 - (fy - (⌊fy⌋ : ℚ))) * img.tap ⌊fx⌋ ⌊fy⌋ +
  (fx - (⌊fx⌋ : ℚ)) * (1 - (fy - (⌊fy⌋ : ℚ))) * img.tap (⌊fx⌋ + 1) ⌊fy⌋ +
  (1 - (fx - (⌊fx⌋ : ℚ))) * (fy - (⌊fy⌋ : ℚ)) * img.tap ⌊fx⌋ (⌊fy⌋ + 1) +
  (fx - (⌊fx⌋ : ℚ)) * (fy - (⌊fy⌋ : ℚ)) * img.tap (⌊fx⌋ + 1) (⌊fy⌋ + 1)

/-- Pixel `(x, y)` of the reference image contributes to `b` for the displacement `d` when the
float additions round as `fadd`: it lies inside the reference image (the patch is truncated at
the border) and its warped position, the rounded sums `x + d.x` and `y + d.y`, passes the
bounds test. -/
def ica_pixel_used_rounded (fadd : ℚ → ℚ → ℚ) (ref_img alt_img : Image) (d : Alignment)
    (x y : Int) : Prop :=
  (y < ref_img.height ∧ x < ref_img.width) ∧
    warp_in_bounds alt_img (fadd (x : ℚ) d.x) (fadd (y : ℚ) d.y)

instance (fadd : ℚ → ℚ → ℚ) (ref_img alt_img : Image) (d : Alignment) (x y : Int) :
    Decidable (ica_pixel_used_rounded fadd ref_img alt_img d x y) := by
  unfold ica_pixel_used_rounded
  infer_instance

/-- The vector `b` of patch `(px, py)` for the displacement `d`: minus the sum, over the
contributing pixels `p` of the patch, of the gradient at `p` times the difference between the
bilinear sample of the alternate image at the warped position of `p` and the reference value
at `p`. -/
def ica_rhs_rounded (fadd : ℚ → ℚ → ℚ) (ref_img alt_img : Image) (grads : ImageGradients)
    (ts py px : Int) (d : Alignment) : ℚ × ℚ :=
  (-(∑ y ∈ Finset.range ts.toNat, ∑ x ∈ Finset.range ts.toNat,
      if ica_pixel_used_rounded fadd ref_img alt_img d (px * ts + (x : Int))
          (py * ts + (y : Int)) then
        grads.gx (px * ts + (x : Int)) (py * ts + (y : Int)) *
          (bilinear_tap alt_img (fadd ((px * ts + (x : Int) : Int) : ℚ) d.x)
              (fadd ((py * ts + (y : Int) : Int) : ℚ) d.y) -
            ref_img.tap (px * ts + (x : Int)) (py * ts + (y : Int)))
      else 0),
   -(∑ y ∈ Finset.range ts.toNat, ∑ x ∈ Finset.range ts.toNat,
      if ica_pixel_used_rounded fadd ref_img alt_img d (px * ts + (x : Int))
          (py * ts + (y : Int)) then
        grads.gy (px * ts + (x : Int)) (py * ts + (y : Int)) *
          (bilinear_tap alt_img (fadd ((px * ts + (x : Int) : Int) : ℚ) d.x)
              (fadd ((py * ts + (y : Int) : Int) : ℚ) d.y) -
            ref_img.tap (px * ts + (x : Int)) (py * ts + (y : Int)))
      else 0))

/-- The sum of the squared differences between the 16x16 tile `(x, y)` of the single-channel
image `ref` and the block of `alt` displaced from it by `(u, v)`. -/
def tile_ssd (ref alt : Image) (x y u v : Int) : ℚ :=
  ∑ j ∈ Finset.range 16, ∑ i ∈ Finset.range 16,
    (ref.sample (x * 16 + (i : Int)) (y * 16 + (j : Int)) 0 -
      alt.sample (x * 16 + (i : Int) + u) (y * 16 + (j : Int) + v) 0) ^ 2

/-- The sum `tile_ssd` one pyramid level up: the squared differences are taken between the
means of the 2x2 blocks of `ref` and of `alt`, tile `(x, y)` being a 16x16 tile of block means
and `(u, v)` a displacement counted in blocks. -/
def coarse_tile_ssd (ref alt : Image) (x y u v : Int) : ℚ :=
  ∑ j ∈ Finset.range 16, ∑ i ∈ Finset.range 16,
    (box_mean ref 2 0 (y * 16 + (j : Int)) (x * 16 + (i : Int)) -
      box_mean alt 2 0 (y * 16 + (j : Int) + v) (x * 16 + (i : Int) + u)) ^ 2

/-- The mean of the displacements of a map over its tiles `(x, y)` with `x ≤ 2` and `y ≤ 2`:
in a map of 4x4 tiles of 16x16 pixels, the nine tiles that do not touch the last row or the
last column of tiles. -/
def inner_mean_displacement (m : AlignmentMap) : ℚ × ℚ :=
  ((∑ y ∈ Finset.range 3, ∑ x ∈ Finset.range 3, (m.tile (x : Int) (y : Int)).x) / 9,
   (∑ y ∈ Finset.range 3, ∑ x ∈ Finset.range 3, (m.tile (x : Int) (y : Int)).y) / 9)

/-! ## The scenario on the ramp `x + 100 y`

What the functions compute on the ramp and its translation by `(3, 2)`, in closed form; the
lemmas `ramp_gradients`, `ramp_hessian_entries`, `ramp_ica_rhs`, `ramp_block_matching_tiles` and
`scenario_ramp_result` prove these values of the functions themselves. -/

/-- The horizontal Prewitt gradient of the 64x64 ramp `x + 100 y` at pixel `(x, y)`: the
difference of the two horizontal neighbours, a neighbour outside the image counting as 0. -/
def ramp_gx (x y : Int) : Int :=
  if x = 0 then 1 + 100 * y else if x = 63 then -(62 + 100 * y) else 2

/-- The vertical Prewitt gradient of the 64x64 ramp `x + 100 y` at pixel `(x, y)`. -/
def ramp_gy (x y : Int) : Int :=
  if y = 0 then x + 100 else if y = 63 then -(x + 6200) else 200

/-- The displacement of tile `(px, py)` after block matching on the ramp `x + 100 y` and its
translation by `(3, 2)`: `(3, 2)` away from the last row and column of tiles, and on these the
in-bounds shift that comes nearest to it. -/
def ramp_block_matching (px py : Int) : Alignment :=
  if px ≤ 2 ∧ py ≤ 2 then ⟨3, 2⟩
  else if py ≤ 2 then ⟨0, 2⟩
  else if px ≤ 2 then ⟨4, 0⟩
  else ⟨0, 0⟩

/-- The buffer of `compute_hessian` for the gradients of the 64x64 ramp `x + 100 y` and tile
size 16: four entries for each of the 4x4 patches. The lemma `ramp_hessian_entries` proves the
entries of the patches of the last row and of the last column of patches, the ones that are
used. -/
def ramp_hessian_data : List ℚ :=
  [12424976, 2496340, 2496340, 9785240, 1024, 99952, 99952, 9844376,
   1024, 100464, 100464, 9911704, 13950464, -2501456, -2501456, 9987224,
   91836176, 7619200, 7619200, 10240000, 1024, 102400, 102400, 10240000,
   1024, 102400, 102400, 10240000, 96484864, -7622400, -7622400, 10240000,
   253167376, 12739200, 12739200, 10240000, 1024, 102400, 102400, 10240000,
   1024, 102400, 102400, 10240000, 260939264, -12742400, -12742400, 10240000,
   496418576, -22659440, -22659440, 626129240, 1024, -103152, -103152, 629311576,
   1024, -103664, -103664, 632502104, 507313664, 23061556, 23061556, 635700824]

/-- Entry `k` of the Hessian of patch `(px, py)` of the ramp. -/
def ramp_hessian (px py k : Int) : ℚ := rd ramp_hessian_data ((py * 4 + px) * 4 + k)

/-- The coordinates, among the 16 coordinates of patch `p` (from `p * 16` on), whose
displacement by `d` passes the bounds test `0 ≤ x + d < 63` of `refine_alignment_ica` on a
64x64 image: the integers `x` of the patch with `⌈-d⌉ ≤ x < ⌈63 - d⌉`. -/
def ramp_used_coords (d : ℚ) (p : Int) : List Int :=
  intRange (max (p * 16) ⌈-d⌉) (min (p * 16 + 16) ⌈63 - d⌉)

/-- The sum of the horizontal gradients `ramp_gx x y` of the ramp over the pixels of column `x`
with `y` in `ys`. -/
def ramp_column_gx (x : Int) (ys : List Int) : Int :=
  if x = 0 then (ys.map (fun y => 1 + 100 * y)).sum
  else if x = 63 then (ys.map (fun y => -(62 + 100 * y))).sum
  else 2 * (ys.length : Int)

/-- The sum of the vertical gradients `ramp_gy x y` of the ramp over the pixels of row `y` with
`x` in `xs`. -/
def ramp_row_gy (y : Int) (xs : List Int) : Int :=
  if y = 0 then (xs.map (fun x => x + 100)).sum
  else if y = 63 then (xs.map (fun x => -(x + 6200))).sum
  else 200 * (xs.length : Int)

/-- The vector `b` of patch `(px, py)` for the displacement `d` on the ramp `x + 100 y` and its
translation by `(3, 2)`: the residual is `d.x + 100 d.y - 203` at every contributing pixel, and
the contributing pixels are those whose two coordinates pass the bounds test. -/
def ramp_rhs (px py : Int) (d : Alignment) : ℚ × ℚ :=
  (-((d.x + 100 * d.y - 203) *
      ((((ramp_used_coords d.x px).map
        (fun x => ramp_column_gx x (ramp_used_coords d.y py))).sum : Int) : ℚ)),
   -((d.x + 100 * d.y - 203) *
      ((((ramp_used_coords d.y py).map
        (fun y => ramp_row_gy y (ramp_used_coords d.x px))).sum : Int) : ℚ)))

/-- One iteration of `refine_alignment_ica` on patch `(px, py)` of the ramp, from the
displacement `d`. -/
def ramp_ica_step (px py : Int) (d : Alignment) : Alignment :=
  if |ramp_hessian px py 0 * ramp_hessian px py 3 -
      ramp_hessian px py 1 * ramp_hessian px py 2| < 1 / 10 ^ 10 then d
  else
    ⟨d.x + (solve_2x2_system (fun k => ramp_hessian px py k) (ramp_rhs px py d)).1,
     d.y + (solve_2x2_system (fun k => ramp_hessian px py k) (ramp_rhs px py d)).2⟩

/-- The displacement of tile `(px, py)` at the end of the scenario on the ramp: the result of
block matching, which the three iterations leave unchanged away from the last row and column
of tiles (the residual is 0 there) and change on these. -/
def ramp_final (px py : Int) : Alignment :=
  if px ≤ 2 ∧ py ≤ 2 then ramp_block_matching px py
  else ramp_ica_step px py (ramp_ica_step px py (ramp_ica_step px py
    (ramp_block_matching px py)))

/-- The buffer of the map at the end of the scenario on the ramp. -/
def ramp_final_data : List Alignment :=
  (List.range 16).map (fun i : ℕ => ramp_final ((i % 4 : ℕ) : Int) ((i / 4 : ℕ) : Int))

/-! # Lemmas on loops and buffers -/

theorem mem_intRange {lo hi i : Int} : i ∈ intRange lo hi ↔ lo ≤ i ∧ i < hi := by
  unfold intRange
  simp only [List.mem_map, List.mem_range]
  constructor
  · rintro ⟨k, hk, rfl⟩
    omega
  · rintro ⟨h1, h2⟩
    exact ⟨(i - lo).toNat, by omega, by omega⟩

theorem nodup_intRange (lo hi : Int) : (intRange lo hi).Nodup := by
  unfold intRange
  refine List.Nodup.map ?_ (List.nodup_range _)
  intro a b h
  simpa using h

theorem length_writeAt {α : Type} (b : List α) (i : Int) (v : α) :
    (writeAt b i v).length = b.length := by
  unfold writeAt
  split <;> simp

theorem readAt_writeAt_same {α : Type} (d : α) (b : List α) (i : Int) (v : α)
    (h0 : 0 ≤ i) (h1 : i < b.length) : readAt d (writeAt b i v) i = v := by
  have h2 : i.toNat < b.length := by omega
  simp [readAt, writeAt, h0, List.getD_eq_getElem?_getD, h2]

theorem readAt_writeAt_ne {α : Type} (d : α) (b : List α) (i j : Int) (v : α)
    (h : i ≠ j) : readAt d (writeAt b i v) j = readAt d b j := by
  unfold readAt writeAt
  by_cases hj : 0 ≤ j
  · by_cases hi : 0 ≤ i
    · have h2 : i.toNat ≠ j.toNat := by omega
      simp [hi, hj, List.getD_eq_getElem?_getD, List.getElem?_set_ne h2]
    · simp [hi, hj]
  · simp [hj]

theorem foldl_update_spec {ι α : Type} (d : α) (idx : ι → Int) (g : ι → α → α)
    (body : ι → List α → List α) (n : Nat) :
    ∀ (l : List ι) (buf : List α), buf.length = n →
      (∀ a ∈ l, 0 ≤ idx a ∧ idx a < n) →
      l.Pairwise (fun a b => idx a ≠ idx b) →
      (∀ a ∈ l, ∀ b : List α, b.length = n →
        body a b = writeAt b (idx a) (g a (readAt d b (idx a)))) →
      (l.foldl (fun b i => body i b) buf).length = n ∧
      (∀ a ∈ l, readAt d (l.foldl (fun b i => body i b) buf) (idx a)
          = g a (readAt d buf (idx a))) ∧
      (∀ j : Int, (∀ a ∈ l, idx a ≠ j) →
          readAt d (l.foldl (fun b i => body i b) buf) j = readAt d buf j) := by
  intro l
  induction l with
  | nil =>
    intro buf hlen _ _ _
    simp [hlen]
  | cons a l ih =>
    intro buf hlen hrange hpw hbody
    have hpw2 := List.pairwise_cons.mp hpw
    have hba : body a buf = writeAt buf (idx a) (g a (readAt d buf (idx a))) :=
      hbody a (List.mem_cons_self _ _) buf hlen
    have hlen1 : (body a buf).length = n := by rw [hba, length_writeAt, hlen]
    obtain ⟨h1, h2, h3⟩ := ih (body a buf) hlen1
      (fun x hx => hrange x (List.mem_cons_of_mem _ hx)) hpw2.2
      (fun x hx => hbody x (List.mem_cons_of_mem _ hx))
    have hra := hrange a (List.mem_cons_self _ _)
    simp only [List.foldl_cons]
    refine ⟨h1, ?_, ?_⟩
    · intro x hx
      rcases List.mem_cons.mp hx with rfl | hx
      · rw [h3 (idx x) (fun y hy => (hpw2.1 y hy).symm), hba]
        exact readAt_writeAt_same d buf (idx x) _ hra.1 (by rw [hlen]; exact hra.2)
      · rw [h2 x hx, hba, readAt_writeAt_ne d buf (idx a) (idx x) _ (hpw2.1 x hx)]
    · intro j hj
      rw [h3 j (fun y hy => hj y (List.mem_cons_of_mem _ hy)), hba,
        readAt_writeAt_ne d buf (idx a) j _ (hj a (List.mem_cons_self _ _))]

theorem foldl_product {α β σ : Type} (F : α → β → σ → σ) (l2 : List β) :
    ∀ (l1 : List α) (s : σ),
      l1.foldl (fun s a => l2.foldl (fun s b => F a b s) s) s
        = (l1 ×ˢ l2).foldl (fun s p => F p.1 p.2 s) s := by
  intro l1
  induction l1 with
  | nil => intro s; simp
  | cons a l ih =>
    intro s
    simp only [List.foldl_cons, List.product_cons, List.foldl_append, List.foldl_map]
    exact ih _

theorem idx2_inj {W y x y2 x2 : Int} (hx : 0 ≤ x ∧ x < W) (hx2 : 0 ≤ x2 ∧ x2 < W)
    (h : y * W + x = y2 * W + x2) : y = y2 ∧ x = x2 := by
  have hy : y = y2 := by
    rcases lt_trichotomy y y2 with hlt | heq | hgt
    · have : y * W + W ≤ y2 * W := by nlinarith
      omega
    · exact heq
    · have : y2 * W + W ≤ y * W := by nlinarith
      omega
  subst hy
  exact ⟨rfl, by omega⟩

theorem idx3_inj {W C y x c y2 x2 c2 : Int} (hx : 0 ≤ x ∧ x < W) (hx2 : 0 ≤ x2 ∧ x2 < W)
    (hc : 0 ≤ c ∧ c < C) (hc2 : 0 ≤ c2 ∧ c2 < C)
    (h : (y * W + x) * C + c = (y2 * W + x2) * C + c2) : y = y2 ∧ x = x2 ∧ c = c2 := by
  obtain ⟨h1, h2⟩ := idx2_inj hc hc2 h
  obtain ⟨h3, h4⟩ := idx2_inj hx hx2 h1
  exact ⟨h3, h4, h2⟩

theorem idx2_bound {H W y x : Int} (hy : 0 ≤ y ∧ y < H) (hx : 0 ≤ x ∧ x < W) :
    0 ≤ y * W + x ∧ y * W + x < H * W := by
  have h1 : 0 ≤ y * W := mul_nonneg hy.1 (by omega)
  have h2 : y * W + W ≤ H * W := by nlinarith
  omega

theorem idx3_bound {H W C y x c : Int} (hy : 0 ≤ y ∧ y < H) (hx : 0 ≤ x ∧ x < W)
    (hc : 0 ≤ c ∧ c < C) :
    0 ≤ (y * W + x) * C + c ∧ (y * W + x) * C + c < H * W * C :=
  idx2_bound (idx2_bound hy hx) hc

theorem idx2_surj {H W i : Int} (hi : 0 ≤ i ∧ i < H * W) (hW : 0 ≤ W) :
    ∃ y x, (0 ≤ y ∧ y < H) ∧ (0 ≤ x ∧ x < W) ∧ i = y * W + x := by
  have hWpos : 0 < W := by
    rcases eq_or_lt_of_le hW with h | h
    · subst h; simp at hi; omega
    · exact h
  refine ⟨i / W, i % W, ⟨Int.ediv_nonneg hi.1 hW, ?_⟩, ⟨Int.emod_nonneg _ (by omega),
    Int.emod_lt_of_pos _ hWpos⟩, ?_⟩
  · exact Int.ediv_lt_of_lt_mul hWpos hi.2
  · have := Int.ediv_add_emod i W
    rw [mul_comm] at this
    exact this.symm

theorem idx3_surj {H W C i : Int} (hi : 0 ≤ i ∧ i < H * W * C) (hW : 0 ≤ W) (hC : 0 ≤ C) :
    ∃ y x c, (0 ≤ y ∧ y < H) ∧ (0 ≤ x ∧ x < W) ∧ (0 ≤ c ∧ c < C) ∧
      i = (y * W + x) * C + c := by
  obtain ⟨p, c, hp, hc, rfl⟩ := idx2_surj hi hC
  obtain ⟨y, x, hy, hx, rfl⟩ := idx2_surj hp hW
  exact ⟨y, x, c, hy, hx, hc, rfl⟩

theorem intRange_succ {lo hi : Int} (h : lo ≤ hi) :
    intRange lo (hi + 1) = intRange lo hi ++ [hi] := by
  unfold intRange
  have h1 : (hi + 1 - lo).toNat = (hi - lo).toNat + 1 := by omega
  rw [h1, List.range_succ, List.map_append]
  simp only [List.map_cons, List.map_nil]
  congr 2
  omega

theorem intRange_empty {lo hi : Int} (h : hi ≤ lo) : intRange lo hi = [] := by
  unfold intRange
  have h1 : (hi - lo).toNat = 0 := by omega
  rw [h1]
  rfl

theorem forRange_succ {σ : Type} {lo hi : Int} (h : lo ≤ hi) (body : Int → σ → σ) (s : σ) :
    forRange lo (hi + 1) body s = body hi (forRange lo hi body s) := by
  unfold forRange
  rw [intRange_succ h, List.foldl_append]
  rfl

theorem forRange_empty {σ : Type} {lo hi : Int} (h : hi ≤ lo) (body : Int → σ → σ) (s : σ) :
    forRange lo hi body s = s := by
  unfold forRange
  rw [intRange_empty h]
  rfl

/-- Loop invariant rule for `forRange`. -/
theorem forRange_induction {σ : Type} (P : Int → σ → Prop) {lo hi : Int} (body : Int → σ → σ)
    (s : σ) (hle : lo ≤ hi) (h0 : P lo s)
    (hstep : ∀ i s, lo ≤ i → i < hi → P i s → P (i + 1) (body i s)) :
    P hi (forRange lo hi body s) := by
  have key : ∀ m : Nat, lo + (m : Int) ≤ hi → P (lo + (m : Int)) (forRange lo (lo + (m : Int)) body s) := by
    intro m
    induction m with
    | zero =>
      intro _
      simp only [Nat.cast_zero, add_zero]
      rw [forRange_empty le_rfl]
      exact h0
    | succ m ih =>
      intro hm
      have e : lo + ((m + 1 : Nat) : Int) = (lo + (m : Int)) + 1 := by push_cast; ring
      rw [e, forRange_succ (by omega)]
      exact hstep _ _ (by omega) (by omega) (ih (by omega))
  have e : lo + ((hi - lo).toNat : Int) = hi := by omega
  have := key (hi - lo).toNat (by omega)
  rwa [e] at this

/-- A loop that only adds a term per pass computes a sum. -/
theorem forRange_add {M : Type} [AddCommMonoid M] {lo hi : Int} (g : Int → M) (s : M) :
    forRange lo hi (fun i acc => acc + g i) s = s + ((intRange lo hi).map g).sum := by
  unfold forRange
  generalize intRange lo hi = l
  induction l generalizing s with
  | nil => simp
  | cons a l ih =>
    simp only [List.foldl_cons, List.map_cons, List.sum_cons]
    rw [ih, add_assoc]

theorem sum_intRange_zero {M : Type} [AddCommMonoid M] (n : Int) (g : Int → M) :
    ((intRange 0 n).map g).sum = ∑ k ∈ Finset.range n.toNat, g (k : Int) := by
  unfold intRange
  simp only [sub_zero, zero_add, List.map_map]
  generalize n.toNat = m
  induction m with
  | zero => simp
  | succ m ih =>
    rw [List.range_succ, List.map_append, List.sum_append, ih, Finset.sum_range_succ]
    simp

/-- Two nested write loops seen as one loop over the pairs of counters. -/
theorem forRange2_update {α : Type} (d : α) (A B : Int) (idx : Int → Int → Int)
    (g : Int → Int → α → α) (body : Int → Int → List α → List α) (n : Nat) (buf : List α)
    (hlen : buf.length = n)
    (hrange : ∀ a b, 0 ≤ a → a < A → 0 ≤ b → b < B → 0 ≤ idx a b ∧ idx a b < n)
    (hinj : ∀ a b a2 b2, 0 ≤ a → a < A → 0 ≤ b → b < B → 0 ≤ a2 → a2 < A → 0 ≤ b2 → b2 < B →
      idx a b = idx a2 b2 → a = a2 ∧ b = b2)
    (hbody : ∀ a b, 0 ≤ a → a < A → 0 ≤ b → b < B → ∀ l : List α, l.length = n →
      body a b l = writeAt l (idx a b) (g a b (readAt d l (idx a b)))) :
    (forRange 0 A (fun a l => forRange 0 B (fun b l => body a b l) l) buf).length = n ∧
    (∀ a b, 0 ≤ a → a < A → 0 ≤ b → b < B →
      readAt d (forRange 0 A (fun a l => forRange 0 B (fun b l => body a b l) l) buf) (idx a b)
        = g a b (readAt d buf (idx a b))) ∧
    (∀ j : Int, (∀ a b, 0 ≤ a → a < A → 0 ≤ b → b < B → idx a b ≠ j) →
      readAt d (forRange 0 A (fun a l => forRange 0 B (fun b l => body a b l) l) buf) j
        = readAt d buf j) := by
  have hflat : forRange 0 A (fun a l => forRange 0 B (fun b l => body a b l) l) buf
      = (intRange 0 A ×ˢ intRange 0 B).foldl (fun l p => body p.1 p.2 l) buf := by
    unfold forRange
    exact foldl_product (fun a b l => body a b l) (intRange 0 B) (intRange 0 A) buf
  rw [hflat]
  have hmem : ∀ p ∈ intRange 0 A ×ˢ intRange 0 B,
      (0 ≤ p.1 ∧ p.1 < A) ∧ (0 ≤ p.2 ∧ p.2 < B) := by
    intro p hp
    rw [List.mem_product] at hp
    exact ⟨mem_intRange.mp hp.1, mem_intRange.mp hp.2⟩
  have hnd : (intRange 0 A ×ˢ intRange 0 B).Nodup :=
    List.Nodup.product (nodup_intRange 0 A) (nodup_intRange 0 B)
  obtain ⟨h1, h2, h3⟩ := foldl_update_spec d (fun p : Int × Int => idx p.1 p.2)
    (fun p v => g p.1 p.2 v) (fun p l => body p.1 p.2 l) n
    (intRange 0 A ×ˢ intRange 0 B) buf hlen
    (fun p hp => hrange p.1 p.2 (hmem p hp).1.1 (hmem p hp).1.2 (hmem p hp).2.1 (hmem p hp).2.2)
    (hnd.imp_of_mem (fun {p q} hp hq hne heq => hne (by
      obtain ⟨e1, e2⟩ := hinj p.1 p.2 q.1 q.2 (hmem p hp).1.1 (hmem p hp).1.2 (hmem p hp).2.1
        (hmem p hp).2.2 (hmem q hq).1.1 (hmem q hq).1.2 (hmem q hq).2.1 (hmem q hq).2.2 heq
      exact Prod.ext e1 e2)))
    (fun p hp l hl => hbody p.1 p.2 (hmem p hp).1.1 (hmem p hp).1.2 (hmem p hp).2.1
      (hmem p hp).2.2 l hl)
  refine ⟨h1, ?_, ?_⟩
  · intro a b ha1 ha2 hb1 hb2
    exact h2 (a, b) (List.mem_product.mpr ⟨mem_intRange.mpr ⟨ha1, ha2⟩,
      mem_intRange.mpr ⟨hb1, hb2⟩⟩)
  · intro j hj
    exact h3 j (fun p hp => hj p.1 p.2 (hmem p hp).1.1 (hmem p hp).1.2 (hmem p hp).2.1
      (hmem p hp).2.2)

/-- Three nested write loops seen as one loop over the triples of counters. -/
theorem forRange3_update {α : Type} (d : α) (A B C : Int) (idx : Int → Int → Int → Int)
    (g : Int → Int → Int → α → α) (body : Int → Int → Int → List α → List α) (n : Nat)
    (buf : List α) (hlen : buf.length = n)
    (hrange : ∀ a b c, 0 ≤ a → a < A → 0 ≤ b → b < B → 0 ≤ c → c < C →
      0 ≤ idx a b c ∧ idx a b c < n)
    (hinj : ∀ a b c a2 b2 c2, 0 ≤ a → a < A → 0 ≤ b → b < B → 0 ≤ c → c < C →
      0 ≤ a2 → a2 < A → 0 ≤ b2 → b2 < B → 0 ≤ c2 → c2 < C →
      idx a b c = idx a2 b2 c2 → a = a2 ∧ b = b2 ∧ c = c2)
    (hbody : ∀ a b c, 0 ≤ a → a < A → 0 ≤ b → b < B → 0 ≤ c → c < C →
      ∀ l : List α, l.length = n →
      body a b c l = writeAt l (idx a b c) (g a b c (readAt d l (idx a b c)))) :
    (forRange 0 A (fun a l => forRange 0 B (fun b l =>
      forRange 0 C (fun c l => body a b c l) l) l) buf).length = n ∧
    (∀ a b c, 0 ≤ a → a < A → 0 ≤ b → b < B → 0 ≤ c → c < C →
      readAt d (forRange 0 A (fun a l => forRange 0 B (fun b l =>
        forRange 0 C (fun c l => body a b c l) l) l) buf) (idx a b c)
        = g a b c (readAt d buf (idx a b c))) ∧
    (∀ j : Int, (∀ a b c, 0 ≤ a → a < A → 0 ≤ b → b < B → 0 ≤ c → c < C → idx a b c ≠ j) →
      readAt d (forRange 0 A (fun a l => forRange 0 B (fun b l =>
        forRange 0 C (fun c l => body a b c l) l) l) buf) j = readAt d buf j) := by
  have hflat : forRange 0 A (fun a l => forRange 0 B (fun b l =>
      forRange 0 C (fun c l => body a b c l) l) l) buf
      = ((intRange 0 A ×ˢ intRange 0 B) ×ˢ intRange 0 C).foldl
          (fun l p => body p.1.1 p.1.2 p.2 l) buf := by
    unfold forRange
    rw [foldl_product (fun a b l => (intRange 0 C).foldl (fun l c => body a b c l) l)
      (intRange 0 B) (intRange 0 A) buf]
    exact foldl_product (fun (p : Int × Int) c l => body p.1 p.2 c l) (intRange 0 C)
      (intRange 0 A ×ˢ intRange 0 B) buf
  rw [hflat]
  have hmem : ∀ p ∈ (intRange 0 A ×ˢ intRange 0 B) ×ˢ intRange 0 C,
      (0 ≤ p.1.1 ∧ p.1.1 < A) ∧ (0 ≤ p.1.2 ∧ p.1.2 < B) ∧ (0 ≤ p.2 ∧ p.2 < C) := by
    intro p hp
    rw [List.mem_product, List.mem_product] at hp
    exact ⟨mem_intRange.mp hp.1.1, mem_intRange.mp hp.1.2, mem_intRange.mp hp.2⟩
  have hnd : ((intRange 0 A ×ˢ intRange 0 B) ×ˢ intRange 0 C).Nodup :=
    List.Nodup.product (List.Nodup.product (nodup_intRange 0 A) (nodup_intRange 0 B))
      (nodup_intRange 0 C)
  obtain ⟨h1, h2, h3⟩ := foldl_update_spec d (fun p : (Int × Int) × Int => idx p.1.1 p.1.2 p.2)
    (fun p v => g p.1.1 p.1.2 p.2 v) (fun p l => body p.1.1 p.1.2 p.2 l) n
    ((intRange 0 A ×ˢ intRange 0 B) ×ˢ intRange 0 C) buf hlen
    (fun p hp => hrange p.1.1 p.1.2 p.2 (hmem p hp).1.1 (hmem p hp).1.2 (hmem p hp).2.1.1
      (hmem p hp).2.1.2 (hmem p hp).2.2.1 (hmem p hp).2.2.2)
    (hnd.imp_of_mem (fun {p q} hp hq hne heq => hne (by
      obtain ⟨e1, e2, e3⟩ := hinj p.1.1 p.1.2 p.2 q.1.1 q.1.2 q.2
        (hmem p hp).1.1 (hmem p hp).1.2 (hmem p hp).2.1.1
        (hmem p hp).2.1.2 (hmem p hp).2.2.1 (hmem p hp).2.2.2
        (hmem q hq).1.1 (hmem q hq).1.2 (hmem q hq).2.1.1
        (hmem q hq).2.1.2 (hmem q hq).2.2.1 (hmem q hq).2.2.2 heq
      exact Prod.ext (Prod.ext e1 e2) e3)))
    (fun p hp l hl => hbody p.1.1 p.1.2 p.2 (hmem p hp).1.1 (hmem p hp).1.2 (hmem p hp).2.1.1
        (hmem p hp).2.1.2 (hmem p hp).2.2.1 (hmem p hp).2.2.2 l hl)
  refine ⟨h1, ?_, ?_⟩
  · intro a b c ha1 ha2 hb1 hb2 hc1 hc2
    exact h2 ((a, b), c) (List.mem_product.mpr ⟨List.mem_product.mpr
      ⟨mem_intRange.mpr ⟨ha1, ha2⟩, mem_intRange.mpr ⟨hb1, hb2⟩⟩, mem_intRange.mpr ⟨hc1, hc2⟩⟩)
  · intro j hj
    exact h3 j (fun p hp => hj p.1.1 p.1.2 p.2 (hmem p hp).1.1 (hmem p hp).1.2
      (hmem p hp).2.1.1 (hmem p hp).2.1.2 (hmem p hp).2.2.1 (hmem p hp).2.2.2)

theorem downsample_sum_eq (img : Image) (f c y x : Int) :
    downsample_sum img f c y x = ∑ ky ∈ Finset.range f.toNat, ∑ kx ∈ Finset.range f.toNat,
      img.sample (f * x + (kx : Int)) (f * y + (ky : Int)) c := by
  unfold downsample_sum
  have inner : ∀ (ky : Int) (sum : ℚ),
      forRange 0 f (fun kx sum =>
        sum + rd img.data (((y * f + ky) * img.width + (x * f + kx)) * img.channels + c)) sum
      = sum + ∑ kx ∈ Finset.range f.toNat, img.sample (f * x + (kx : Int)) (f * y + ky) c := by
    intro ky sum
    rw [forRange_add, sum_intRange_zero]
    congr 1
    refine Finset.sum_congr rfl (fun kx _ => ?_)
    unfold Image.sample
    congr 1
    ring
  simp only [inner]
  rw [forRange_add (fun ky => ∑ kx ∈ Finset.range f.toNat,
    img.sample (f * x + (kx : Int)) (f * y + ky) c), sum_intRange_zero, zero_add]

/-- The result of `downsample_image` for a factor of at least 2, sample by sample. -/
theorem downsample_image_spec (img : Image) (f : Int) (hf : 2 ≤ f) :
    ∃ r, downsample_image img f = some r ∧
      r.height = Int.tdiv img.height f ∧ r.width = Int.tdiv img.width f ∧
      r.channels = img.channels ∧
      r.data.length = (r.height * r.width * r.channels).toNat ∧
      ∀ c y x, 0 ≤ c → c < img.channels → 0 ≤ y → y < r.height → 0 ≤ x → x < r.width →
        r.sample x y c = box_mean img f c y x := by
  have h1 : ¬ f ≤ 0 := by omega
  have h2 : ¬ f = 1 := by omega
  unfold downsample_image
  rw [if_neg h1, if_neg h2]
  obtain ⟨e1, e2, _⟩ := forRange3_update (0 : ℚ) img.channels (Int.tdiv img.height f)
    (Int.tdiv img.width f)
    (fun c y x => (y * Int.tdiv img.width f + x) * img.channels + c)
    (fun c y x _ => downsample_sum img f c y x / ((f * f : Int) : ℚ))
    (fun c y x data => writeAt data ((y * Int.tdiv img.width f + x) * img.channels + c)
      (downsample_sum img f c y x / ((f * f : Int) : ℚ)))
    (Int.tdiv img.height f * Int.tdiv img.width f * img.channels).toNat
    (List.replicate (Int.tdiv img.height f * Int.tdiv img.width f * img.channels).toNat 0)
    (by simp)
    (fun c y x hc1 hc2 hy1 hy2 hx1 hx2 => by
      have := idx3_bound (H := Int.tdiv img.height f) ⟨hy1, hy2⟩ ⟨hx1, hx2⟩ ⟨hc1, hc2⟩
      dsimp only
      omega)
    (fun c y x c2 y2 x2 hc1 hc2 hy1 hy2 hx1 hx2 hc21 hc22 hy21 hy22 hx21 hx22 h => by
      obtain ⟨a, b, c⟩ := idx3_inj ⟨hx1, hx2⟩ ⟨hx21, hx22⟩ ⟨hc1, hc2⟩ ⟨hc21, hc22⟩ h
      exact ⟨c, a, b⟩)
    (fun c y x _ _ _ _ _ _ l _ => rfl)
  refine ⟨_, rfl, rfl, rfl, rfl, e1, ?_⟩
  intro c y x hc1 hc2 hy1 hy2 hx1 hx2
  have := e2 c y x hc1 hc2 hy1 hy2 hx1 hx2
  unfold Image.sample rd
  simp only [create_image] at this ⊢
  rw [this, downsample_sum_eq]
  unfold box_mean
  push_cast
  rfl

theorem list_ext_rd {l1 l2 : List ℚ} (hlen : l1.length = l2.length)
    (h : ∀ i : Int, 0 ≤ i → i < l1.length → rd l1 i = rd l2 i) : l1 = l2 := by
  apply List.ext_getElem hlen
  intro n h1 h2
  have := h n (by omega) (by omega)
  simpa [rd, readAt, List.getD_eq_getElem?_getD, h1, h2] using this

theorem tdiv_nonneg_eq {a b : Int} (ha : 0 ≤ a) (hb : 0 < b) :
    Int.tdiv a b = a / b ∧ 0 ≤ a / b ∧ a / b * b ≤ a := by
  refine ⟨Int.tdiv_eq_ediv ha (by omega), Int.ediv_nonneg ha (by omega), ?_⟩
  exact Int.ediv_mul_le a (by omega)

/-- A position inside block `y` of width `f` lies below `q * f` when `y < q`. -/
theorem block_pos_bound {f y k q : Int} (hf : 0 < f) (hy : 0 ≤ y) (hyq : y < q)
    (hk0 : 0 ≤ k) (hk : k < f) : 0 ≤ f * y + k ∧ f * y + k < q * f := by
  have h1 : 0 ≤ f * y := mul_nonneg (by omega) hy
  have h2 : (y + 1) * f ≤ q * f := mul_le_mul_of_nonneg_right (by omega) (by omega)
  have h3 : (y + 1) * f = f * y + f := by ring
  omega

/-- Two images that agree on the block under an output pixel have the same box mean there. -/
theorem box_mean_congr (img img2 : Image) (f c y x : Int)
    (h : ∀ ky kx : Nat, ky < f.toNat → kx < f.toNat →
      img2.sample (f * x + (kx : Int)) (f * y + (ky : Int)) c
        = img.sample (f * x + (kx : Int)) (f * y + (ky : Int)) c) :
    box_mean img2 f c y x = box_mean img f c y x := by
  unfold box_mean
  congr 1
  refine Finset.sum_congr rfl (fun ky hky => Finset.sum_congr rfl (fun kx hkx => ?_))
  exact h ky kx (Finset.mem_range.mp hky) (Finset.mem_range.mp hkx)

/-- C4. For a factor `f ≥ 2`, every output sample of `downsample_image` is the arithmetic mean
of the `f * f` input samples of its channel at the positions `(f*x+kx, f*y+ky)`; the output has
`floor(height/f)` rows and `floor(width/f)` columns, and the input rows and columns beyond
`floor(dim/f) * f` contribute to no output pixel: an image that differs from the input only
there has the same result. -/
theorem downsample_image_box_filter (img : Image) (f : Int) (hf : 2 ≤ f)
    (hh : 0 ≤ img.height) (hw : 0 ≤ img.width) :
    ∃ r, downsample_image img f = some r ∧
      r.height = img.height / f ∧ r.width = img.width / f ∧ r.channels = img.channels ∧
      (∀ c y x, 0 ≤ c → c < img.channels → 0 ≤ y → y < img.height / f →
        0 ≤ x → x < img.width / f → r.sample x y c = box_mean img f c y x) ∧
      (∀ img2 : Image, img2.height = img.height → img2.width = img.width →
        img2.channels = img.channels →
        (∀ c y x, 0 ≤ c → c < img.channels → 0 ≤ y → y < img.height / f * f →
          0 ≤ x → x < img.width / f * f → img2.sample x y c = img.sample x y c) →
        downsample_image img2 f = some r) := by
  obtain ⟨r, hr, rh, rw_, rc, rlen, rs⟩ := downsample_image_spec img f hf
  obtain ⟨eh, hh0, hhle⟩ := tdiv_nonneg_eq hh (show 0 < f by omega)
  obtain ⟨ew, hw0, hwle⟩ := tdiv_nonneg_eq hw (show 0 < f by omega)
  rw [eh] at rh
  rw [ew] at rw_
  refine ⟨r, hr, rh, rw_, rc, ?_, ?_⟩
  · intro c y x hc1 hc2 hy1 hy2 hx1 hx2
    exact rs c y x hc1 hc2 hy1 (by omega) hx1 (by omega)
  · intro img2 e2h e2w e2c hag
    obtain ⟨r2, hr2, r2h, r2w, r2c, r2len, r2s⟩ := downsample_image_spec img2 f hf
    rw [hr2]
    congr 1
    rw [e2h, eh] at r2h
    rw [e2w, ew] at r2w
    rw [e2c] at r2c
    have hlen : r2.data.length = r.data.length := by
      rw [rlen, r2len, rh, rw_, rc, r2h, r2w, r2c]
    have hdata : r2.data = r.data := by
      apply list_ext_rd hlen
      intro i hi0 hi1
      by_cases hC : 0 ≤ img.channels
      · have hi2 : i < img.height / f * (img.width / f) * img.channels := by
          rw [r2len, r2h, r2w, r2c] at hi1
          omega
        obtain ⟨y, x, c, hy, hx, hc, rfl⟩ := idx3_surj ⟨hi0, hi2⟩ hw0 hC
        have a1 := rs c y x hc.1 hc.2 hy.1 (by omega) hx.1 (by omega)
        have a2 := r2s c y x (by omega) (by omega) hy.1 (by omega) hx.1 (by omega)
        unfold Image.sample at a1 a2
        rw [r2w, r2c] at a2
        rw [rw_, rc] at a1
        rw [a1, a2]
        apply box_mean_congr
        intro ky kx hky hkx
        have hky2 : (ky : Int) < f := by omega
        have hkx2 : (kx : Int) < f := by omega
        have by_ := block_pos_bound (show 0 < f by omega) hy.1 hy.2 (show 0 ≤ (ky : Int) by omega) hky2
        have bx_ := block_pos_bound (show 0 < f by omega) hx.1 hx.2 (show 0 ≤ (kx : Int) by omega) hkx2
        exact hag c _ _ hc.1 hc.2 by_.1 by_.2 bx_.1 bx_.2
      · exfalso
        have : img.height / f * (img.width / f) * img.channels ≤ 0 :=
          mul_nonpos_of_nonneg_of_nonpos (mul_nonneg hh0 hw0) (by omega)
        rw [r2len, r2h, r2w, r2c] at hi1
        omega
    cases r
    cases r2
    simp only [Image.mk.injEq]
    simp only at hdata rh rw_ rc r2h r2w r2c
    exact ⟨hdata, by rw [r2h, rh], by rw [r2w, rw_], by rw [r2c, rc]⟩

theorem downsample_image_box_filter_witness :
    ∃ r, downsample_image ⟨[1, 2, 3, 4, 5, 6, 7, 8, 9, 10], 2, 5, 1⟩ 2 = some r ∧
      r.height = (2 : Int) / 2 ∧ r.width = (5 : Int) / 2 ∧ r.channels = 1 ∧
      (∀ c y x, 0 ≤ c → c < (1 : Int) → 0 ≤ y → y < (2 : Int) / 2 →
        0 ≤ x → x < (5 : Int) / 2 →
        r.sample x y c = box_mean ⟨[1, 2, 3, 4, 5, 6, 7, 8, 9, 10], 2, 5, 1⟩ 2 c y x) ∧
      (∀ img2 : Image, img2.height = 2 → img2.width = 5 → img2.channels = 1 →
        (∀ c y x, 0 ≤ c → c < (1 : Int) → 0 ≤ y → y < (2 : Int) / 2 * 2 →
          0 ≤ x → x < (5 : Int) / 2 * 2 →
          img2.sample x y c = Image.sample ⟨[1, 2, 3, 4, 5, 6, 7, 8, 9, 10], 2, 5, 1⟩ x y c) →
        downsample_image img2 2 = some r) :=
  downsample_image_box_filter ⟨[1, 2, 3, 4, 5, 6, 7, 8, 9, 10], 2, 5, 1⟩ 2 (by decide)
    (by decide) (by decide)

/-- Copying a whole buffer into a fresh buffer of the same size gives the buffer. -/
theorem memcpy_full {α : Type} (d : α) (data : List α) (n : Int) (h : data.length = n.toNat) :
    memcpy (List.replicate n.toNat d) data n = data := by
  unfold memcpy
  rw [← h, List.take_length]
  have : List.drop data.length (List.replicate data.length d) = [] := by
    apply List.drop_eq_nil_of_le
    simp
  rw [this, List.append_nil]

/-- The copy made by `downsample_image` for the factor 1. -/
theorem downsample_image_one (img : Image)
    (hbuf : img.data.length = (img.height * img.width * img.channels).toNat) :
    downsample_image img 1 = some img := by
  unfold downsample_image
  rw [if_neg (by omega), if_pos rfl]
  simp only [create_image]
  rw [memcpy_full 0 img.data _ hbuf]

/-- C6. `downsample_image` with factor 1 returns an image with the height, width and channel
count of its input and the same sample buffer, sample for sample (the input, a `const`
argument, is a value of the model and is not changed). -/
theorem downsample_image_factor_one_copy (img : Image)
    (hbuf : img.data.length = (img.height * img.width * img.channels).toNat) :
    ∃ r, downsample_image img 1 = some r ∧ r.height = img.height ∧ r.width = img.width ∧
      r.channels = img.channels ∧ r.data = img.data := by
  refine ⟨img, ?_, rfl, rfl, rfl, rfl⟩
  unfold downsample_image
  rw [if_neg (by omega), if_pos rfl]
  simp only [create_image]
  rw [memcpy_full 0 img.data _ hbuf]

theorem downsample_image_factor_one_copy_witness :
    ∃ r, downsample_image ⟨[1, 2, 3, 4, 5, 6], 1, 3, 2⟩ 1 = some r ∧ r.height = 1 ∧
      r.width = 3 ∧ r.channels = 2 ∧ r.data = [1, 2, 3, 4, 5, 6] :=
  downsample_image_factor_one_copy ⟨[1, 2, 3, 4, 5, 6], 1, 3, 2⟩ (by decide)

theorem box_mean_const (img : Image) (f c y x : Int) (v : ℚ) (hf : 0 < f)
    (h : ∀ ky kx : Nat, ky < f.toNat → kx < f.toNat →
      img.sample (f * x + (kx : Int)) (f * y + (ky : Int)) c = v) :
    box_mean img f c y x = v := by
  unfold box_mean
  have e : ∑ ky ∈ Finset.range f.toNat, ∑ kx ∈ Finset.range f.toNat,
      img.sample (f * x + (kx : Int)) (f * y + (ky : Int)) c
      = ∑ ky ∈ Finset.range f.toNat, ∑ kx ∈ Finset.range f.toNat, v :=
    Finset.sum_congr rfl (fun ky hky => Finset.sum_congr rfl (fun kx hkx =>
      h ky kx (Finset.mem_range.mp hky) (Finset.mem_range.mp hkx)))
  rw [e]
  simp only [Finset.sum_const, Finset.card_range, nsmul_eq_mul]
  have hc : ((f.toNat : ℕ) : ℚ) = (f : ℚ) := by
    have : ((f.toNat : ℕ) : Int) = f := by omega
    exact_mod_cast this
  rw [hc]
  have hf0 : (f : ℚ) ≠ 0 := by
    have : (0 : ℚ) < (f : ℚ) := by exact_mod_cast hf
    exact ne_of_gt this
  field_simp
  ring

/-- C7. For a factor `f ≥ 1` and an image whose samples all equal `v`, every sample of the
result of `downsample_image` equals `v`. -/
theorem downsample_image_constant (img : Image) (f : Int) (v : ℚ) (hf : 1 ≤ f)
    (hwf : img.WF)
    (hconst : ∀ i : Int, 0 ≤ i → i < img.height * img.width * img.channels →
      rd img.data i = v) :
    ∃ r, downsample_image img f = some r ∧
      r.data.length = (r.height * r.width * r.channels).toNat ∧
      ∀ i : Int, 0 ≤ i → i < r.height * r.width * r.channels → rd r.data i = v := by
  obtain ⟨hh, hw, hc, hlen⟩ := hwf
  by_cases h1 : f = 1
  · subst h1
    exact ⟨img, downsample_image_one img hlen, hlen, hconst⟩
  · have hf2 : 2 ≤ f := by omega
    obtain ⟨r, hr, rh, rw_, rc, rlen, rs⟩ := downsample_image_spec img f hf2
    obtain ⟨eh, hh0, hhle⟩ := tdiv_nonneg_eq hh (show 0 < f by omega)
    obtain ⟨ew, hw0, hwle⟩ := tdiv_nonneg_eq hw (show 0 < f by omega)
    refine ⟨r, hr, rlen, ?_⟩
    intro i hi0 hi1
    have hrw : 0 ≤ r.width := by rw [rw_, ew]; exact hw0
    have hrc : 0 ≤ r.channels := by rw [rc]; exact hc
    obtain ⟨y, x, c, hy, hx, hcc, rfl⟩ := idx3_surj ⟨hi0, hi1⟩ hrw hrc
    have a := rs c y x hcc.1 (by omega) hy.1 hy.2 hx.1 hx.2
    unfold Image.sample at a
    rw [a]
    apply box_mean_const img f c y x v (by omega)
    intro ky kx hky hkx
    have by_ := block_pos_bound (q := img.height / f) (show 0 < f by omega) hy.1 (by omega)
      (show 0 ≤ (ky : Int) by omega) (show (ky : Int) < f by omega)
    have bx_ := block_pos_bound (q := img.width / f) (show 0 < f by omega) hx.1 (by omega)
      (show 0 ≤ (kx : Int) by omega) (show (kx : Int) < f by omega)
    have hb := idx3_bound (H := img.height) (W := img.width) (C := img.channels)
      (y := f * y + (ky : Int)) (x := f * x + (kx : Int)) (c := c)
      ⟨by_.1, by omega⟩ ⟨bx_.1, by omega⟩ ⟨hcc.1, by omega⟩
    unfold Image.sample
    exact hconst _ hb.1 hb.2

theorem downsample_image_constant_witness :
    ∃ r, downsample_image ⟨[7, 7, 7, 7, 7, 7], 2, 3, 1⟩ 2 = some r ∧
      r.data.length = (r.height * r.width * r.channels).toNat ∧
      ∀ i : Int, 0 ≤ i → i < r.height * r.width * r.channels → rd r.data i = 7 :=
  downsample_image_constant ⟨[7, 7, 7, 7, 7, 7], 2, 3, 1⟩ 2 7 (by decide)
    ⟨by decide, by decide, by decide, by decide⟩
    (fun i h0 h1 => by
      have h2 : i < 6 := h1
      have : i = 0 ∨ i = 1 ∨ i = 2 ∨ i = 3 ∨ i = 4 ∨ i = 5 := by omega
      rcases this with h | h | h | h | h | h <;> subst h <;> rfl)

theorem downsample_image_dims (img : Image) (f : Int) (hf : 1 ≤ f)
    (hh : 0 ≤ img.height) (hw : 0 ≤ img.width) :
    ∃ r, downsample_image img f = some r ∧ r.height = img.height / f ∧
      r.width = img.width / f ∧ r.channels = img.channels := by
  by_cases h1 : f = 1
  · subst h1
    refine ⟨_, by unfold downsample_image; rw [if_neg (by omega), if_pos rfl], ?_, ?_, ?_⟩
    · simp [create_image]
    · simp [create_image]
    · simp [create_image]
  · obtain ⟨r, hr, rh, rw_, rc, _, _⟩ := downsample_image_spec img f (by omega)
    rw [(tdiv_nonneg_eq hh (show 0 < f by omega)).1] at rh
    rw [(tdiv_nonneg_eq hw (show 0 < f by omega)).1] at rw_
    exact ⟨r, hr, rh, rw_, rc⟩

theorem levelAt_append_lt (levels : List Image) (l : Image) (j : Int) (h0 : 0 ≤ j)
    (h : j < levels.length) : levelAt (levels ++ [l]) j = levelAt levels j := by
  have h2 : j.toNat < levels.length := by omega
  simp [levelAt, readAt, h0, List.getD_eq_getElem?_getD, List.getElem?_append_left h2]

theorem levelAt_append_eq (levels : List Image) (l : Image) (j : Int)
    (h : j = levels.length) : levelAt (levels ++ [l]) j = l := by
  subst h
  simp [levelAt, readAt, List.getD_eq_getElem?_getD]

/-- C5. For `num_levels ≥ 1` and factors `≥ 1`, `init_block_matching` returns a pyramid of
exactly `num_levels` levels; level 0 has `floor(height / factors[0])` rows and
`floor(width / factors[0])` columns, every level `i ≥ 1` has the dimensions of level `i - 1`
divided (rounding down) by `factors[i]`, and every level has the channel count of the input. -/
theorem init_block_matching_dims (img : Image) (params : BlockMatchingParams)
    (hn : 1 ≤ params.num_levels)
    (hfac : ∀ i : Int, 0 ≤ i → i < params.num_levels → 1 ≤ intAt params.factors i)
    (hh : 0 ≤ img.height) (hw : 0 ≤ img.width) :
    ∃ pyr, init_block_matching (some img) (some params) = some pyr ∧
      pyr.num_levels = params.num_levels ∧
      (pyr.levels.length : Int) = params.num_levels ∧
      (levelAt pyr.levels 0).height = img.height / intAt params.factors 0 ∧
      (levelAt pyr.levels 0).width = img.width / intAt params.factors 0 ∧
      (∀ i : Int, 1 ≤ i → i < params.num_levels →
        (levelAt pyr.levels i).height
          = (levelAt pyr.levels (i - 1)).height / intAt params.factors i ∧
        (levelAt pyr.levels i).width
          = (levelAt pyr.levels (i - 1)).width / intAt params.factors i) ∧
      (∀ i : Int, 0 ≤ i → i < params.num_levels →
        (levelAt pyr.levels i).channels = img.channels) := by
  obtain ⟨l0, hl0, l0h, l0w, l0c⟩ :=
    downsample_image_dims img (intAt params.factors 0) (hfac 0 le_rfl (by omega)) hh hw
  have hf0 : 0 < intAt params.factors 0 := by have := hfac 0 le_rfl (by omega); omega
  have key := forRange_induction
    (fun (i : Int) (st : Option (List Image)) => ∃ levels, st = some levels ∧
      (levels.length : Int) = i ∧
      levelAt levels 0 = l0 ∧
      (∀ j : Int, 1 ≤ j → j < i →
        (levelAt levels j).height = (levelAt levels (j - 1)).height / intAt params.factors j ∧
        (levelAt levels j).width = (levelAt levels (j - 1)).width / intAt params.factors j) ∧
      (∀ j : Int, 0 ≤ j → j < i → (levelAt levels j).channels = img.channels ∧
        0 ≤ (levelAt levels j).height ∧ 0 ≤ (levelAt levels j).width))
    (fun i st =>
      match st with
      | none => none
      | some levels =>
        match downsample_image (levelAt levels (i - 1)) (intAt params.factors i) with
        | none => none
        | some level => some (levels ++ [level]))
    (some [l0]) hn
    ⟨[l0], rfl, by simp, by simp [levelAt, readAt], fun j h1 h2 => by omega,
      fun j h1 h2 => by
        have : j = 0 := by omega
        subst this
        have e : levelAt [l0] 0 = l0 := by simp [levelAt, readAt]
        rw [e, l0c, l0h, l0w]
        exact ⟨rfl, Int.ediv_nonneg hh (by omega), Int.ediv_nonneg hw (by omega)⟩⟩
    (by
      rintro i st hi1 hi2 ⟨levels, rfl, hlen, hz, hdims, hch⟩
      obtain ⟨hpc, hph, hpw⟩ := hch (i - 1) (by omega) (by omega)
      have hfi := hfac i (by omega) hi2
      obtain ⟨l, hl, lh, lw, lc⟩ :=
        downsample_image_dims (levelAt levels (i - 1)) (intAt params.factors i) hfi hph hpw
      refine ⟨levels ++ [l], by simp only [hl], by simp; omega, ?_, ?_, ?_⟩
      · rw [levelAt_append_lt levels l 0 le_rfl (by omega)]
        exact hz
      · intro j hj1 hj2
        by_cases hji : j = i
        · subst hji
          rw [levelAt_append_eq levels l j hlen.symm,
            levelAt_append_lt levels l (j - 1) (by omega) (by omega)]
          exact ⟨lh, lw⟩
        · rw [levelAt_append_lt levels l j (by omega) (by omega),
            levelAt_append_lt levels l (j - 1) (by omega) (by omega)]
          exact hdims j hj1 (by omega)
      · intro j hj1 hj2
        by_cases hji : j = i
        · subst hji
          rw [levelAt_append_eq levels l j hlen.symm, lc, lh, lw]
          exact ⟨hpc, Int.ediv_nonneg hph (by omega), Int.ediv_nonneg hpw (by omega)⟩
        · rw [levelAt_append_lt levels l j (by omega) (by omega)]
          exact hch j hj1 (by omega))
  obtain ⟨levels, hst, hlen, hz, hdims, hch⟩ := key
  refine ⟨⟨levels, params.num_levels⟩, ?_, rfl, hlen, ?_, ?_, hdims, fun i h1 h2 => (hch i h1 h2).1⟩
  · simp only [init_block_matching]
    rw [if_neg (by omega), hl0]
    exact congrArg (Option.map (fun levels =>
      ({ levels := levels, num_levels := params.num_levels } : ImagePyramid))) hst
  · show (levelAt levels 0).height = _
    rw [hz, l0h]
  · show (levelAt levels 0).width = _
    rw [hz, l0w]

theorem init_block_matching_dims_witness :
    ∃ pyr, init_block_matching (some ⟨[1, 2, 3, 4, 5, 6, 7, 8, 9, 10], 2, 5, 1⟩)
        (some ⟨[1, 2], [1, 1], [0, 0], [1, 1], 2⟩) = some pyr ∧
      pyr.num_levels = 2 ∧ (pyr.levels.length : Int) = 2 ∧
      (levelAt pyr.levels 0).height = (2 : Int) / intAt [1, 2] 0 ∧
      (levelAt pyr.levels 0).width = (5 : Int) / intAt [1, 2] 0 ∧
      (∀ i : Int, 1 ≤ i → i < 2 →
        (levelAt pyr.levels i).height = (levelAt pyr.levels (i - 1)).height / intAt [1, 2] i ∧
        (levelAt pyr.levels i).width = (levelAt pyr.levels (i - 1)).width / intAt [1, 2] i) ∧
      (∀ i : Int, 0 ≤ i → i < 2 → (levelAt pyr.levels i).channels = 1) :=
  init_block_matching_dims ⟨[1, 2, 3, 4, 5, 6, 7, 8, 9, 10], 2, 5, 1⟩
    ⟨[1, 2], [1, 1], [0, 0], [1, 1], 2⟩ (by decide)
    (fun i h0 h1 => by
      have h2 : i < 2 := h1
      have : i = 0 ∨ i = 1 := by omega
      rcases this with h | h <;> subst h <;> decide)
    (by decide) (by decide)

/-- The result of `upsample_alignments`, tile by tile, in terms of C division. -/
theorem upsample_alignments_tiles (ref_level alt_level : Image) (prev : AlignmentMap)
    (fac ts pts : Int) :
    (upsample_alignments ref_level alt_level prev fac ts pts).height
        = Int.tdiv ref_level.height ts ∧
    (upsample_alignments ref_level alt_level prev fac ts pts).width
        = Int.tdiv ref_level.width ts ∧
    (upsample_alignments ref_level alt_level prev fac ts pts).data.length
        = (Int.tdiv ref_level.height ts * Int.tdiv ref_level.width ts).toNat ∧
    ∀ x y, 0 ≤ y → y < Int.tdiv ref_level.height ts → 0 ≤ x → x < Int.tdiv ref_level.width ts →
      (upsample_alignments ref_level alt_level prev fac ts pts).tile x y =
        if x < Int.tdiv fac (Int.tdiv ts pts) * prev.width ∧
            y < Int.tdiv fac (Int.tdiv ts pts) * prev.height then
          ⟨(prev.tile (Int.tdiv x (Int.tdiv fac (Int.tdiv ts pts)))
              (Int.tdiv y (Int.tdiv fac (Int.tdiv ts pts)))).x * (fac : ℚ),
           (prev.tile (Int.tdiv x (Int.tdiv fac (Int.tdiv ts pts)))
              (Int.tdiv y (Int.tdiv fac (Int.tdiv ts pts)))).y * (fac : ℚ)⟩
        else ⟨0, 0⟩ := by
  obtain ⟨e1, e2, _⟩ := forRange2_update Alignment.zero (Int.tdiv ref_level.height ts)
    (Int.tdiv ref_level.width ts)
    (fun y x => y * Int.tdiv ref_level.width ts + x)
    (fun y x _ =>
      if x ≥ Int.tdiv fac (Int.tdiv ts pts) * prev.width ∨
          y ≥ Int.tdiv fac (Int.tdiv ts pts) * prev.height then (⟨0, 0⟩ : Alignment)
      else
        ⟨(rdA prev.data (Int.tdiv y (Int.tdiv fac (Int.tdiv ts pts)) * prev.width
            + Int.tdiv x (Int.tdiv fac (Int.tdiv ts pts)))).x * (fac : ℚ),
         (rdA prev.data (Int.tdiv y (Int.tdiv fac (Int.tdiv ts pts)) * prev.width
            + Int.tdiv x (Int.tdiv fac (Int.tdiv ts pts)))).y * (fac : ℚ)⟩)
    (fun y x data =>
      if x ≥ Int.tdiv fac (Int.tdiv ts pts) * prev.width ∨
          y ≥ Int.tdiv fac (Int.tdiv ts pts) * prev.height then
        writeAt data (y * Int.tdiv ref_level.width ts + x) ⟨0, 0⟩
      else
        writeAt data (y * Int.tdiv ref_level.width ts + x)
          ⟨(rdA prev.data (Int.tdiv y (Int.tdiv fac (Int.tdiv ts pts)) * prev.width
              + Int.tdiv x (Int.tdiv fac (Int.tdiv ts pts)))).x * (fac : ℚ),
           (rdA prev.data (Int.tdiv y (Int.tdiv fac (Int.tdiv ts pts)) * prev.width
              + Int.tdiv x (Int.tdiv fac (Int.tdiv ts pts)))).y * (fac : ℚ)⟩)
    (Int.tdiv ref_level.height ts * Int.tdiv ref_level.width ts).toNat
    (List.replicate (Int.tdiv ref_level.height ts * Int.tdiv ref_level.width ts).toNat
      Alignment.zero)
    (by simp)
    (fun y x hy1 hy2 hx1 hx2 => by
      have := idx2_bound (H := Int.tdiv ref_level.height ts) ⟨hy1, hy2⟩ ⟨hx1, hx2⟩
      dsimp only
      omega)
    (fun y x y2 x2 hy1 hy2 hx1 hx2 hy21 hy22 hx21 hx22 h =>
      idx2_inj ⟨hx1, hx2⟩ ⟨hx21, hx22⟩ h)
    (fun y x _ _ _ _ l _ => by
      dsimp only
      split <;> rfl)
  refine ⟨rfl, rfl, e1, ?_⟩
  intro x y hy1 hy2 hx1 hx2
  have := e2 y x hy1 hy2 hx1 hx2
  unfold AlignmentMap.tile rdA
  simp only [upsample_alignments, create_alignment_map] at this ⊢
  rw [this]
  by_cases hc : x ≥ Int.tdiv fac (Int.tdiv ts pts) * prev.width ∨
      y ≥ Int.tdiv fac (Int.tdiv ts pts) * prev.height
  · rw [if_pos hc, if_neg (by omega)]
  · rw [if_neg hc, if_pos (by omega)]
    rfl

/-- C3. When the divisions of `upsample_alignments` are defined (`prev_tile_size` and
`tile_size / prev_tile_size` are not 0, `tile_size` is positive), the function returns a map of
`floor(height/tile_size)` by `floor(width/tile_size)` tiles in which, with
`repeat = upsampling_factor / (tile_size / prev_tile_size)` in C integer division, every fine
tile `(x, y)` with `x < repeat * prev.width` and `y < repeat * prev.height` holds the
displacement of coarse tile `(x / repeat, y / repeat)` with both components multiplied by
`upsampling_factor`, and every other fine tile holds `(0, 0)`. -/
theorem upsample_alignments_spec (ref_level alt_level : Image) (prev : AlignmentMap)
    (fac ts pts : Int) (hh : 0 ≤ ref_level.height) (hw : 0 ≤ ref_level.width) (hts : 0 < ts)
    (_hpts : pts ≠ 0) (_hdiv : Int.tdiv ts pts ≠ 0) :
    (upsample_alignments ref_level alt_level prev fac ts pts).height = ref_level.height / ts ∧
    (upsample_alignments ref_level alt_level prev fac ts pts).width = ref_level.width / ts ∧
    (upsample_alignments ref_level alt_level prev fac ts pts).WF ∧
    ∀ x y, 0 ≤ y → y < ref_level.height / ts → 0 ≤ x → x < ref_level.width / ts →
      (upsample_alignments ref_level alt_level prev fac ts pts).tile x y =
        if x < Int.tdiv fac (Int.tdiv ts pts) * prev.width ∧
            y < Int.tdiv fac (Int.tdiv ts pts) * prev.height then
          ⟨(prev.tile (Int.tdiv x (Int.tdiv fac (Int.tdiv ts pts)))
              (Int.tdiv y (Int.tdiv fac (Int.tdiv ts pts)))).x * (fac : ℚ),
           (prev.tile (Int.tdiv x (Int.tdiv fac (Int.tdiv ts pts)))
              (Int.tdiv y (Int.tdiv fac (Int.tdiv ts pts)))).y * (fac : ℚ)⟩
        else ⟨0, 0⟩ := by
  obtain ⟨a1, a2, a3, a4⟩ := upsample_alignments_tiles ref_level alt_level prev fac ts pts
  obtain ⟨eh, hh0, _⟩ := tdiv_nonneg_eq hh hts
  obtain ⟨ew, hw0, _⟩ := tdiv_nonneg_eq hw hts
  rw [eh] at a1
  rw [ew] at a2
  rw [eh, ew] at a3 a4
  refine ⟨a1, a2, ⟨by rw [a1]; exact hh0, by rw [a2]; exact hw0, by rw [a3, a1, a2]⟩, a4⟩

theorem upsample_alignments_spec_witness :
    (upsample_alignments ⟨[], 4, 4, 1⟩ ⟨[], 4, 4, 1⟩ ⟨[⟨1, -1⟩], 1, 1⟩ 2 2 2).height
      = (4 : Int) / 2 ∧
    (upsample_alignments ⟨[], 4, 4, 1⟩ ⟨[], 4, 4, 1⟩ ⟨[⟨1, -1⟩], 1, 1⟩ 2 2 2).width
      = (4 : Int) / 2 ∧
    (upsample_alignments ⟨[], 4, 4, 1⟩ ⟨[], 4, 4, 1⟩ ⟨[⟨1, -1⟩], 1, 1⟩ 2 2 2).WF ∧
    ∀ x y, 0 ≤ y → y < (4 : Int) / 2 → 0 ≤ x → x < (4 : Int) / 2 →
      (upsample_alignments ⟨[], 4, 4, 1⟩ ⟨[], 4, 4, 1⟩ ⟨[⟨1, -1⟩], 1, 1⟩ 2 2 2).tile x y =
        if x < Int.tdiv 2 (Int.tdiv 2 2) * 1 ∧ y < Int.tdiv 2 (Int.tdiv 2 2) * 1 then
          ⟨(AlignmentMap.tile ⟨[⟨1, -1⟩], 1, 1⟩ (Int.tdiv x (Int.tdiv 2 (Int.tdiv 2 2)))
              (Int.tdiv y (Int.tdiv 2 (Int.tdiv 2 2)))).x * ((2 : Int) : ℚ),
           (AlignmentMap.tile ⟨[⟨1, -1⟩], 1, 1⟩ (Int.tdiv x (Int.tdiv 2 (Int.tdiv 2 2)))
              (Int.tdiv y (Int.tdiv 2 (Int.tdiv 2 2)))).y * ((2 : Int) : ℚ)⟩
        else ⟨0, 0⟩ :=
  upsample_alignments_spec ⟨[], 4, 4, 1⟩ ⟨[], 4, 4, 1⟩ ⟨[⟨1, -1⟩], 1, 1⟩ 2 2 2
    (by decide) (by decide) (by decide) (by decide) (by decide)

theorem whileList_stop {σ : Type} (cond : σ → Bool) (body : Int → σ → σ) (l : List Int)
    (s : σ) (h : cond s = false) : whileList cond body l s = s := by
  cases l with
  | nil => rfl
  | cons a l => simp [whileList, h]

/-- A loop guarded by a validity flag whose body either adds a term and keeps the flag, or
clears the flag: the flag survives exactly when every pass keeps it, and then the loop has
added all the terms. -/
theorem whileList_valid (body : Int → ℚ × Bool → ℚ × Bool) (ok : Int → Prop) (t : Int → ℚ)
    (l : List Int)
    (hb1 : ∀ i ∈ l, ∀ d, ok i → body i (d, true) = (d + t i, true))
    (hb2 : ∀ i ∈ l, ∀ d, ¬ ok i → (body i (d, true)).2 = false) :
    ∀ d, ((∀ i ∈ l, ok i) →
        whileList (fun s => s.2) body l (d, true) = (d + (l.map t).sum, true)) ∧
      ((¬ ∀ i ∈ l, ok i) → (whileList (fun s => s.2) body l (d, true)).2 = false) := by
  induction l with
  | nil =>
    intro d
    refine ⟨fun _ => by simp [whileList], fun h => absurd (fun i hi => by simp at hi) h⟩
  | cons a l ih =>
    intro d
    have ih2 := ih (fun i hi => hb1 i (List.mem_cons_of_mem _ hi))
      (fun i hi => hb2 i (List.mem_cons_of_mem _ hi))
    constructor
    · intro hall
      have ha := hall a (List.mem_cons_self _ _)
      simp only [whileList, if_true]
      rw [hb1 a (List.mem_cons_self _ _) d ha,
        (ih2 (d + t a)).1 (fun i hi => hall i (List.mem_cons_of_mem _ hi))]
      simp only [List.map_cons, List.sum_cons]
      congr 1
      ring
    · intro hnot
      simp only [whileList, if_true]
      by_cases ha : ok a
      · rw [hb1 a (List.mem_cons_self _ _) d ha]
        apply (ih2 (d + t a)).2
        intro hall
        apply hnot
        intro i hi
        rcases List.mem_cons.mp hi with rfl | hi
        · exact ha
        · exact hall i hi
      · have hf := hb2 a (List.mem_cons_self _ _) d ha
        rw [whileList_stop _ _ _ _ hf]
        exact hf

/-- The channel loop of `local_search` adds the per-channel terms of one pixel. -/
theorem channel_loop_eq (ref_level alt_level : Image) (metric ref_x ref_y alt_x alt_y : Int)
    (d : ℚ) :
    forRange 0 ref_level.channels (fun c dist =>
      let diff :=
        rd ref_level.data ((ref_y * ref_level.width + ref_x) * ref_level.channels + c) -
        rd alt_level.data ((alt_y * alt_level.width + alt_x) * alt_level.channels + c)
      if metric = 0 then dist + |diff| else dist + diff * diff) d
    = d + ∑ c ∈ Finset.range ref_level.channels.toNat,
        metric_term metric (ref_level.sample ref_x ref_y (c : Int) -
          alt_level.sample alt_x alt_y (c : Int)) := by
  have e : (fun (c : Int) (dist : ℚ) =>
      let diff :=
        rd ref_level.data ((ref_y * ref_level.width + ref_x) * ref_level.channels + c) -
        rd alt_level.data ((alt_y * alt_level.width + alt_x) * alt_level.channels + c)
      if metric = 0 then dist + |diff| else dist + diff * diff)
      = (fun (c : Int) (dist : ℚ) => dist + metric_term metric
          (ref_level.sample ref_x ref_y c - alt_level.sample alt_x alt_y c)) := by
    funext c dist
    unfold metric_term Image.sample
    dsimp only
    split <;> rfl
  rw [e, forRange_add, sum_intRange_zero]

/-- The patch comparison of `local_search`: the flag `valid` survives exactly when the whole
displaced patch lies inside the alternate image, and then `dist` is the aggregate distance. -/
theorem patch_compare_spec (ref_level alt_level : Image) (ts tile_y tile_x : Int)
    (current : Alignment) (dx dy metric : Int) :
    (patch_inside alt_level ts tile_y tile_x current dx dy →
      patch_compare ref_level alt_level ts tile_y tile_x current dx dy metric
        = (patch_distance ref_level alt_level ts tile_y tile_x current dx dy metric, true)) ∧
    (¬ patch_inside alt_level ts tile_y tile_x current dx dy →
      (patch_compare ref_level alt_level ts tile_y tile_x current dx dy metric).2 = false) := by
  -- the per-pixel facts
  let ok : Int → Int → Prop := fun y x =>
    (0 ≤ (alt_pixel ts tile_y tile_x current dx dy y x).1 ∧
      (alt_pixel ts tile_y tile_x current dx dy y x).1 < alt_level.width) ∧
    (0 ≤ (alt_pixel ts tile_y tile_x current dx dy y x).2 ∧
      (alt_pixel ts tile_y tile_x current dx dy y x).2 < alt_level.height)
  let t : Int → Int → ℚ := fun y x =>
    ∑ c ∈ Finset.range ref_level.channels.toNat,
      metric_term metric
        (ref_level.sample (tile_x * ts + x) (tile_y * ts + y) (c : Int) -
          alt_level.sample (alt_pixel ts tile_y tile_x current dx dy y x).1
            (alt_pixel ts tile_y tile_x current dx dy y x).2 (c : Int))
  let bodyx : Int → Int → ℚ × Bool → ℚ × Bool := fun y x s =>
      let ref_y := tile_y * ts + y
      let ref_x := tile_x * ts + x
      let alt_y := ref_y + cTrunc (current.y + (dy : ℚ))
      let alt_x := ref_x + cTrunc (current.x + (dx : ℚ))
      if alt_x < 0 ∨ alt_x ≥ alt_level.width ∨ alt_y < 0 ∨ alt_y ≥ alt_level.height then
        (s.1, false)
      else
        (forRange 0 ref_level.channels (fun c dist =>
          let diff :=
            rd ref_level.data ((ref_y * ref_level.width + ref_x) * ref_level.channels + c) -
            rd alt_level.data ((alt_y * alt_level.width + alt_x) * alt_level.channels + c)
          if metric = 0 then dist + |diff| else dist + diff * diff) s.1, true)
  have hx1 : ∀ y x d, ok y x → bodyx y x (d, true) = (d + t y x, true) := by
    intro y x d hok
    simp only [bodyx, ok, t, alt_pixel] at hok ⊢
    rw [if_neg (by omega), channel_loop_eq]
  have hx2 : ∀ y x d, ¬ ok y x → (bodyx y x (d, true)).2 = false := by
    intro y x d hok
    simp only [bodyx, ok, alt_pixel] at hok ⊢
    rw [if_pos (by omega)]
  have inner := fun y => whileList_valid (bodyx y) (ok y) (t y) (intRange 0 ts)
    (fun x _ d h => hx1 y x d h) (fun x _ d h => hx2 y x d h)
  have outer := whileList_valid
    (fun y s => whileList (fun s => s.2) (bodyx y) (intRange 0 ts) s)
    (fun y => ∀ x ∈ intRange 0 ts, ok y x)
    (fun y => ((intRange 0 ts).map (t y)).sum) (intRange 0 ts)
    (fun y _ d h => (inner y d).1 h) (fun y _ d h => (inner y d).2 h) 0
  have hpc : patch_compare ref_level alt_level ts tile_y tile_x current dx dy metric
      = whileList (fun s => s.2)
          (fun y s => whileList (fun s => s.2) (bodyx y) (intRange 0 ts) s)
          (intRange 0 ts) (0, true) := rfl
  rw [hpc]
  constructor
  · intro hin
    rw [outer.1 hin, zero_add]
    congr 1
    unfold patch_distance
    rw [sum_intRange_zero]
    refine Finset.sum_congr rfl (fun y _ => ?_)
    rw [sum_intRange_zero]
  · intro hnin
    exact outer.2 hnin

/-- A scan that keeps a candidate only when it is valid and strictly better than the best
so far ends with a least valid candidate, or with its initial state. -/
theorem foldl_argmin {ι : Type} (valid : ι → Prop) (dist : ι → ℚ) (mk : ι → SearchState)
    (hmk : ∀ i, (mk i).min_dist = dist i) (step : ι → SearchState → SearchState)
    (l : List ι)
    (hs1 : ∀ i ∈ l, ∀ st, valid i → dist i < st.min_dist → step i st = mk i)
    (hs2 : ∀ i ∈ l, ∀ st, ¬ (valid i ∧ dist i < st.min_dist) → step i st = st) :
    ∀ st : SearchState,
      (l.foldl (fun st i => step i st) st).min_dist ≤ st.min_dist ∧
      (∀ i ∈ l, valid i → (l.foldl (fun st i => step i st) st).min_dist ≤ dist i) ∧
      (l.foldl (fun st i => step i st) st = st ∨
        ∃ j ∈ l, valid j ∧ dist j < st.min_dist ∧
          l.foldl (fun st i => step i st) st = mk j) := by
  induction l with
  | nil =>
    intro st
    exact ⟨le_rfl, fun i hi => by simp at hi, Or.inl rfl⟩
  | cons a l ih =>
    intro st
    obtain ⟨h1, h2, h3⟩ := ih (fun i hi => hs1 i (List.mem_cons_of_mem _ hi))
      (fun i hi => hs2 i (List.mem_cons_of_mem _ hi)) (step a st)
    simp only [List.foldl_cons]
    by_cases hc : valid a ∧ dist a < st.min_dist
    · have hst : step a st = mk a := hs1 a (List.mem_cons_self _ _) st hc.1 hc.2
      rw [hst] at h1 h2 h3 ⊢
      rw [hmk] at h1
      refine ⟨by linarith [hc.2], ?_, ?_⟩
      · intro i hi hv
        rcases List.mem_cons.mp hi with rfl | hi
        · exact h1
        · exact h2 i hi hv
      · right
        rcases h3 with h3 | ⟨j, hj, hv, hd, hr⟩
        · exact ⟨a, List.mem_cons_self _ _, hc.1, hc.2, h3⟩
        · rw [hmk] at hd
          exact ⟨j, List.mem_cons_of_mem _ hj, hv, by linarith [hc.2], hr⟩
    · have hst : step a st = st := hs2 a (List.mem_cons_self _ _) st hc
      rw [hst] at h1 h2 h3 ⊢
      refine ⟨h1, ?_, ?_⟩
      · intro i hi hv
        rcases List.mem_cons.mp hi with rfl | hi
        · have : st.min_dist ≤ dist i := by
            by_contra hlt
            exact hc ⟨hv, not_le.mp hlt⟩
          linarith
        · exact h2 i hi hv
      · rcases h3 with h3 | ⟨j, hj, hv, hd, hr⟩
        · exact Or.inl h3
        · exact Or.inr ⟨j, List.mem_cons_of_mem _ hj, hv, hd, hr⟩

/-- The search window of `local_search`: the best shift kept is an in-bounds shift of least
aggregate distance when some in-bounds shift has a distance below `FLT_MAX`, and `(0, 0)`
otherwise. -/
theorem search_window_spec (ref_level alt_level : Image) (ts r tile_y tile_x : Int)
    (current : Alignment) (metric : Int) :
    ((∃ dx dy : Int, (-r ≤ dx ∧ dx ≤ r) ∧ (-r ≤ dy ∧ dy ≤ r) ∧
        patch_inside alt_level ts tile_y tile_x current dx dy ∧
        patch_distance ref_level alt_level ts tile_y tile_x current dx dy metric < FLT_MAX) →
      ∃ dx dy : Int, (-r ≤ dx ∧ dx ≤ r) ∧ (-r ≤ dy ∧ dy ≤ r) ∧
        patch_inside alt_level ts tile_y tile_x current dx dy ∧
        (search_window ref_level alt_level ts r tile_y tile_x current metric).best_shift_x
          = (dx : ℚ) ∧
        (search_window ref_level alt_level ts r tile_y tile_x current metric).best_shift_y
          = (dy : ℚ) ∧
        ∀ dx2 dy2 : Int, -r ≤ dx2 → dx2 ≤ r → -r ≤ dy2 → dy2 ≤ r →
          patch_inside alt_level ts tile_y tile_x current dx2 dy2 →
          patch_distance ref_level alt_level ts tile_y tile_x current dx dy metric
            ≤ patch_distance ref_level alt_level ts tile_y tile_x current dx2 dy2 metric) ∧
    ((¬ ∃ dx dy : Int, (-r ≤ dx ∧ dx ≤ r) ∧ (-r ≤ dy ∧ dy ≤ r) ∧
        patch_inside alt_level ts tile_y tile_x current dx dy ∧
        patch_distance ref_level alt_level ts tile_y tile_x current dx dy metric < FLT_MAX) →
      search_window ref_level alt_level ts r tile_y tile_x current metric
        = ⟨FLT_MAX, 0, 0⟩) := by
  have hflat : search_window ref_level alt_level ts r tile_y tile_x current metric
      = (intRange (-r) (r + 1) ×ˢ intRange (-r) (r + 1)).foldl
          (fun st p =>
            if (patch_compare ref_level alt_level ts tile_y tile_x current p.2 p.1 metric).2
                = true ∧
              (patch_compare ref_level alt_level ts tile_y tile_x current p.2 p.1 metric).1
                < st.min_dist
            then ⟨(patch_compare ref_level alt_level ts tile_y tile_x current p.2 p.1 metric).1,
              (p.2 : ℚ), (p.1 : ℚ)⟩ else st) ⟨FLT_MAX, 0, 0⟩ := by
    unfold search_window forRange
    exact foldl_product (fun dy dx (st : SearchState) =>
      if (patch_compare ref_level alt_level ts tile_y tile_x current dx dy metric).2 = true ∧
        (patch_compare ref_level alt_level ts tile_y tile_x current dx dy metric).1
          < st.min_dist
      then ⟨(patch_compare ref_level alt_level ts tile_y tile_x current dx dy metric).1,
        (dx : ℚ), (dy : ℚ)⟩ else st) _ _ _
  have hmemw : ∀ p : Int × Int, p ∈ intRange (-r) (r + 1) ×ˢ intRange (-r) (r + 1) ↔
      (-r ≤ p.2 ∧ p.2 ≤ r) ∧ (-r ≤ p.1 ∧ p.1 ≤ r) := by
    intro p
    rw [List.mem_product, mem_intRange, mem_intRange]
    omega
  obtain ⟨h1, h2, h3⟩ := foldl_argmin
    (fun p : Int × Int => patch_inside alt_level ts tile_y tile_x current p.2 p.1)
    (fun p => patch_distance ref_level alt_level ts tile_y tile_x current p.2 p.1 metric)
    (fun p => ⟨patch_distance ref_level alt_level ts tile_y tile_x current p.2 p.1 metric,
      (p.2 : ℚ), (p.1 : ℚ)⟩)
    (fun _ => rfl)
    (fun p st =>
      if (patch_compare ref_level alt_level ts tile_y tile_x current p.2 p.1 metric).2
          = true ∧
        (patch_compare ref_level alt_level ts tile_y tile_x current p.2 p.1 metric).1
          < st.min_dist
      then ⟨(patch_compare ref_level alt_level ts tile_y tile_x current p.2 p.1 metric).1,
        (p.2 : ℚ), (p.1 : ℚ)⟩ else st)
    (intRange (-r) (r + 1) ×ˢ intRange (-r) (r + 1))
    (fun p _ st hv hd => by
      have := (patch_compare_spec ref_level alt_level ts tile_y tile_x current p.2 p.1
        metric).1 hv
      simp only [this]
      rw [if_pos ⟨trivial, hd⟩])
    (fun p _ st hn => by
      by_cases hv : patch_inside alt_level ts tile_y tile_x current p.2 p.1
      · have := (patch_compare_spec ref_level alt_level ts tile_y tile_x current p.2 p.1
          metric).1 hv
        simp only [this]
        rw [if_neg (fun h => hn ⟨hv, h.2⟩)]
      · have := (patch_compare_spec ref_level alt_level ts tile_y tile_x current p.2 p.1
          metric).2 hv
        dsimp only
        rw [this]
        simp)
    ⟨FLT_MAX, 0, 0⟩
  rw [← hflat] at h1 h2 h3
  constructor
  · rintro ⟨dx, dy, hdx, hdy, hin, hlt⟩
    have hle := h2 (dy, dx) ((hmemw (dy, dx)).mpr ⟨hdx, hdy⟩) hin
    rcases h3 with h3 | ⟨j, hj, hv, hd, hr⟩
    · rw [h3] at hle
      exact absurd hlt (not_lt.mpr hle)
    · refine ⟨j.2, j.1, ((hmemw j).mp hj).1, ((hmemw j).mp hj).2, hv, by rw [hr], by rw [hr], ?_⟩
      intro dx2 dy2 a1 a2 b1 b2 hin2
      have := h2 (dy2, dx2) ((hmemw (dy2, dx2)).mpr ⟨⟨a1, a2⟩, ⟨b1, b2⟩⟩) hin2
      rw [hr] at this
      exact this
  · intro hnone
    rcases h3 with h3 | ⟨j, hj, hv, hd, hr⟩
    · exact h3
    · exact absurd ⟨j.2, j.1, ((hmemw j).mp hj).1, ((hmemw j).mp hj).2, hv, hd⟩ hnone

theorem writeAt_writeAt {α : Type} (b : List α) (i : Int) (v w : α) :
    writeAt (writeAt b i v) i w = writeAt b i w := by
  unfold writeAt
  split
  · simp
  · rfl

/-- The update of one tile by `local_search`, as a single write. -/
theorem local_search_tile_eq (ref_level alt_level : Image) (ts r width metric : Int)
    (tile_y tile_x : Int) (data : List Alignment)
    (h0 : 0 ≤ tile_y * width + tile_x) (h1 : tile_y * width + tile_x < data.length) :
    local_search_tile ref_level alt_level ts r width metric tile_y tile_x data
      = writeAt data (tile_y * width + tile_x)
          ⟨(rdA data (tile_y * width + tile_x)).x +
            (search_window ref_level alt_level ts r tile_y tile_x
              (rdA data (tile_y * width + tile_x)) metric).best_shift_x,
           (rdA data (tile_y * width + tile_x)).y +
            (search_window ref_level alt_level ts r tile_y tile_x
              (rdA data (tile_y * width + tile_x)) metric).best_shift_y⟩ := by
  unfold local_search_tile
  simp only [rdA]
  rw [readAt_writeAt_same _ _ _ _ h0 h1, writeAt_writeAt]

/-- The result of `local_search`, tile by tile: the best shift of the search window is added
to the displacement the tile had on entry. -/
theorem local_search_tiles (ref_level alt_level : Image) (ts r : Int) (m : AlignmentMap)
    (metric : Int) (hwf : m.WF) :
    (local_search ref_level alt_level ts r m metric).height = m.height ∧
    (local_search ref_level alt_level ts r m metric).width = m.width ∧
    (local_search ref_level alt_level ts r m metric).WF ∧
    ∀ x y, 0 ≤ y → y < m.height → 0 ≤ x → x < m.width →
      (local_search ref_level alt_level ts r m metric).tile x y =
        ⟨(m.tile x y).x +
          (search_window ref_level alt_level ts r y x (m.tile x y) metric).best_shift_x,
         (m.tile x y).y +
          (search_window ref_level alt_level ts r y x (m.tile x y) metric).best_shift_y⟩ := by
  obtain ⟨hh, hw, hlen⟩ := hwf
  obtain ⟨e1, e2, _⟩ := forRange2_update Alignment.zero m.height m.width
    (fun y x => y * m.width + x)
    (fun y x old =>
      ⟨old.x + (search_window ref_level alt_level ts r y x old metric).best_shift_x,
       old.y + (search_window ref_level alt_level ts r y x old metric).best_shift_y⟩)
    (fun y x data => local_search_tile ref_level alt_level ts r m.width metric y x data)
    (m.height * m.width).toNat m.data hlen
    (fun y x hy1 hy2 hx1 hx2 => by
      have := idx2_bound (H := m.height) ⟨hy1, hy2⟩ ⟨hx1, hx2⟩
      dsimp only
      omega)
    (fun y x y2 x2 hy1 hy2 hx1 hx2 hy21 hy22 hx21 hx22 h =>
      idx2_inj ⟨hx1, hx2⟩ ⟨hx21, hx22⟩ h)
    (fun y x hy1 hy2 hx1 hx2 l hl => by
      have := idx2_bound (H := m.height) ⟨hy1, hy2⟩ ⟨hx1, hx2⟩
      exact local_search_tile_eq ref_level alt_level ts r m.width metric y x l this.1
        (by rw [hl]; omega))
  refine ⟨rfl, rfl, ⟨hh, hw, e1⟩, ?_⟩
  intro x y hy1 hy2 hx1 hx2
  exact e2 y x hy1 hy2 hx1 hx2

/-- C1 (amended). In exact arithmetic (the aggregate distances are the exact sums and are
compared as exact numbers): for every reference and alternate level, tile size, search radius,
metric and displacement map, `local_search` changes the displacement of each tile by adding one
integer shift `(dx, dy)` of `[-r, r]^2`. When some shift of the window has its displaced patch
fully inside the alternate image and an aggregate distance below `FLT_MAX`, the shift added
(a) has its displaced patch fully inside the alternate image and (b) has an aggregate distance
(sum of absolute differences for metric 0, of squares otherwise) at most that of every shift of
the window whose patch lies fully inside. When no shift of the window has its patch inside with
a distance below `FLT_MAX`, the displacement is left unchanged. -/
theorem local_search_adds_best_shift (ref_level alt_level : Image) (ts r : Int)
    (m : AlignmentMap) (metric : Int) (hwf : m.WF) (x y : Int)
    (hy : 0 ≤ y ∧ y < m.height) (hx : 0 ≤ x ∧ x < m.width) :
    ((∃ dx dy : Int, (-r ≤ dx ∧ dx ≤ r) ∧ (-r ≤ dy ∧ dy ≤ r) ∧
        patch_inside alt_level ts y x (m.tile x y) dx dy ∧
        patch_distance ref_level alt_level ts y x (m.tile x y) dx dy metric < FLT_MAX) →
      ∃ dx dy : Int, (-r ≤ dx ∧ dx ≤ r) ∧ (-r ≤ dy ∧ dy ≤ r) ∧
        (local_search ref_level alt_level ts r m metric).tile x y
          = ⟨(m.tile x y).x + (dx : ℚ), (m.tile x y).y + (dy : ℚ)⟩ ∧
        patch_inside alt_level ts y x (m.tile x y) dx dy ∧
        ∀ dx2 dy2 : Int, -r ≤ dx2 → dx2 ≤ r → -r ≤ dy2 → dy2 ≤ r →
          patch_inside alt_level ts y x (m.tile x y) dx2 dy2 →
          patch_distance ref_level alt_level ts y x (m.tile x y) dx dy metric
            ≤ patch_distance ref_level alt_level ts y x (m.tile x y) dx2 dy2 metric) ∧
    ((¬ ∃ dx dy : Int, (-r ≤ dx ∧ dx ≤ r) ∧ (-r ≤ dy ∧ dy ≤ r) ∧
        patch_inside alt_level ts y x (m.tile x y) dx dy ∧
        patch_distance ref_level alt_level ts y x (m.tile x y) dx dy metric < FLT_MAX) →
      (local_search ref_level alt_level ts r m metric).tile x y = m.tile x y) := by
  obtain ⟨_, _, _, ht⟩ := local_search_tiles ref_level alt_level ts r m metric hwf
  have ht := ht x y hy.1 hy.2 hx.1 hx.2
  obtain ⟨s1, s2⟩ := search_window_spec ref_level alt_level ts r y x (m.tile x y) metric
  constructor
  · intro hex
    obtain ⟨dx, dy, hdx, hdy, hin, bx, by_, hmin⟩ := s1 hex
    refine ⟨dx, dy, hdx, hdy, ?_, hin, hmin⟩
    rw [ht, bx, by_]
  · intro hnone
    rw [ht, s2 hnone]
    simp

theorem local_search_adds_best_shift_witness :
    ((∃ dx dy : Int, (-1 ≤ dx ∧ dx ≤ 1) ∧ (-1 ≤ dy ∧ dy ≤ 1) ∧
        patch_inside ⟨[1, 2, 3, 4], 2, 2, 1⟩ 1 0 0
          (AlignmentMap.tile ⟨[⟨0, 0⟩, ⟨0, 0⟩, ⟨0, 0⟩, ⟨0, 0⟩], 2, 2⟩ 0 0) dx dy ∧
        patch_distance ⟨[2, 1, 4, 3], 2, 2, 1⟩ ⟨[1, 2, 3, 4], 2, 2, 1⟩ 1 0 0
          (AlignmentMap.tile ⟨[⟨0, 0⟩, ⟨0, 0⟩, ⟨0, 0⟩, ⟨0, 0⟩], 2, 2⟩ 0 0) dx dy 1 < FLT_MAX) →
      ∃ dx dy : Int, (-1 ≤ dx ∧ dx ≤ 1) ∧ (-1 ≤ dy ∧ dy ≤ 1) ∧
        (local_search ⟨[2, 1, 4, 3], 2, 2, 1⟩ ⟨[1, 2, 3, 4], 2, 2, 1⟩ 1 1
          ⟨[⟨0, 0⟩, ⟨0, 0⟩, ⟨0, 0⟩, ⟨0, 0⟩], 2, 2⟩ 1).tile 0 0
          = ⟨(AlignmentMap.tile ⟨[⟨0, 0⟩, ⟨0, 0⟩, ⟨0, 0⟩, ⟨0, 0⟩], 2, 2⟩ 0 0).x + (dx : ℚ),
             (AlignmentMap.tile ⟨[⟨0, 0⟩, ⟨0, 0⟩, ⟨0, 0⟩, ⟨0, 0⟩], 2, 2⟩ 0 0).y + (dy : ℚ)⟩ ∧
        patch_inside ⟨[1, 2, 3, 4], 2, 2, 1⟩ 1 0 0
          (AlignmentMap.tile ⟨[⟨0, 0⟩, ⟨0, 0⟩, ⟨0, 0⟩, ⟨0, 0⟩], 2, 2⟩ 0 0) dx dy ∧
        ∀ dx2 dy2 : Int, -1 ≤ dx2 → dx2 ≤ 1 → -1 ≤ dy2 → dy2 ≤ 1 →
          patch_inside ⟨[1, 2, 3, 4], 2, 2, 1⟩ 1 0 0
            (AlignmentMap.tile ⟨[⟨0, 0⟩, ⟨0, 0⟩, ⟨0, 0⟩, ⟨0, 0⟩], 2, 2⟩ 0 0) dx2 dy2 →
          patch_distance ⟨[2, 1, 4, 3], 2, 2, 1⟩ ⟨[1, 2, 3, 4], 2, 2, 1⟩ 1 0 0
            (AlignmentMap.tile ⟨[⟨0, 0⟩, ⟨0, 0⟩, ⟨0, 0⟩, ⟨0, 0⟩], 2, 2⟩ 0 0) dx dy 1
            ≤ patch_distance ⟨[2, 1, 4, 3], 2, 2, 1⟩ ⟨[1, 2, 3, 4], 2, 2, 1⟩ 1 0 0
              (AlignmentMap.tile ⟨[⟨0, 0⟩, ⟨0, 0⟩, ⟨0, 0⟩, ⟨0, 0⟩], 2, 2⟩ 0 0) dx2 dy2 1) ∧
    ((¬ ∃ dx dy : Int, (-1 ≤ dx ∧ dx ≤ 1) ∧ (-1 ≤ dy ∧ dy ≤ 1) ∧
        patch_inside ⟨[1, 2, 3, 4], 2, 2, 1⟩ 1 0 0
          (AlignmentMap.tile ⟨[⟨0, 0⟩, ⟨0, 0⟩, ⟨0, 0⟩, ⟨0, 0⟩], 2, 2⟩ 0 0) dx dy ∧
        patch_distance ⟨[2, 1, 4, 3], 2, 2, 1⟩ ⟨[1, 2, 3, 4], 2, 2, 1⟩ 1 0 0
          (AlignmentMap.tile ⟨[⟨0, 0⟩, ⟨0, 0⟩, ⟨0, 0⟩, ⟨0, 0⟩], 2, 2⟩ 0 0) dx dy 1 < FLT_MAX) →
      (local_search ⟨[2, 1, 4, 3], 2, 2, 1⟩ ⟨[1, 2, 3, 4], 2, 2, 1⟩ 1 1
          ⟨[⟨0, 0⟩, ⟨0, 0⟩, ⟨0, 0⟩, ⟨0, 0⟩], 2, 2⟩ 1).tile 0 0
        = AlignmentMap.tile ⟨[⟨0, 0⟩, ⟨0, 0⟩, ⟨0, 0⟩, ⟨0, 0⟩], 2, 2⟩ 0 0) :=
  local_search_adds_best_shift ⟨[2, 1, 4, 3], 2, 2, 1⟩ ⟨[1, 2, 3, 4], 2, 2, 1⟩ 1 1
    ⟨[⟨0, 0⟩, ⟨0, 0⟩, ⟨0, 0⟩, ⟨0, 0⟩], 2, 2⟩ 1 ⟨by decide, by decide, by decide⟩ 0 0
    ⟨by decide, by decide⟩ ⟨by decide, by decide⟩

/-- C1 (counterexample). The aggregate distance of a candidate can reach `FLT_MAX`, and such a
candidate is never kept. Reference `1 x 1` with the sample `FLT_MAX`, alternate `1 x 1` with
the sample `0`, tile size 1, radius 1, metric L1, displacement `(1, 0)`: the shift `(-1, 0)` has
its patch inside the alternate image, but no shift of the window with its patch inside is
added: the displacement stays `(1, 0)`, whose patch is outside. -/
theorem local_search_FLT_MAX_counterexample :
    patch_inside ⟨[0], 1, 1, 1⟩ 1 0 0 ⟨1, 0⟩ (-1) 0 ∧
    (local_search ⟨[FLT_MAX], 1, 1, 1⟩ ⟨[0], 1, 1, 1⟩ 1 1 ⟨[⟨1, 0⟩], 1, 1⟩ 0).tile 0 0
      = ⟨1, 0⟩ ∧
    ∀ dx ∈ intRange (-1) 2, ∀ dy ∈ intRange (-1) 2,
      patch_inside ⟨[0], 1, 1, 1⟩ 1 0 0 ⟨1, 0⟩ dx dy →
      (local_search ⟨[FLT_MAX], 1, 1, 1⟩ ⟨[0], 1, 1, 1⟩ 1 1 ⟨[⟨1, 0⟩], 1, 1⟩ 0).tile 0 0
        ≠ ⟨1 + (dx : ℚ), 0 + (dy : ℚ)⟩ := by
  decide!

theorem cTrunc_intCast (n : Int) : cTrunc (n : ℚ) = n := by
  unfold cTrunc
  simp

theorem cTrunc_zero_add (n : Int) : cTrunc ((0 : ℚ) + (n : ℚ)) = n := by
  rw [zero_add, cTrunc_intCast]

theorem metric_term_nonneg (metric : Int) (z : ℚ) : 0 ≤ metric_term metric z := by
  unfold metric_term
  split
  · exact abs_nonneg z
  · exact mul_self_nonneg z

theorem metric_term_eq_zero (metric : Int) (z : ℚ) (h : metric_term metric z = 0) : z = 0 := by
  unfold metric_term at h
  split at h
  · exact abs_eq_zero.mp h
  · exact mul_self_eq_zero.mp h

theorem metric_term_zero (metric : Int) : metric_term metric 0 = 0 := by
  unfold metric_term
  split <;> simp

/-- The aggregate distance between a linear ramp and its translate by `(sx, sy)`, for a
candidate shift whose patch lies inside the alternate image: every pixel contributes the same
term. -/
theorem patch_distance_ramp (ref_level alt_level : Image) (ts ty tx dx dy sx sy metric : Int)
    (a b k : ℚ) (hts : 1 ≤ ts)
    (hty : 0 ≤ ty ∧ ty < ref_level.height / ts) (htx : 0 ≤ tx ∧ tx < ref_level.width / ts)
    (href : ∀ x y c : Int, 0 ≤ x → x < ref_level.width → 0 ≤ y → y < ref_level.height →
      0 ≤ c → c < ref_level.channels →
      ref_level.sample x y c = a * (x : ℚ) + b * (y : ℚ) + k)
    (halt : ∀ x y c : Int, 0 ≤ x → x < alt_level.width → 0 ≤ y → y < alt_level.height →
      0 ≤ c → c < ref_level.channels →
      alt_level.sample x y c = a * ((x : ℚ) - (sx : ℚ)) + b * ((y : ℚ) - (sy : ℚ)) + k)
    (hin : patch_inside alt_level ts ty tx ⟨0, 0⟩ dx dy) :
    patch_distance ref_level alt_level ts ty tx ⟨0, 0⟩ dx dy metric
      = ((ts.toNat * (ts.toNat * ref_level.channels.toNat) : ℕ) : ℚ) *
          metric_term metric
            (-(a * ((dx : ℚ) - (sx : ℚ)) + b * ((dy : ℚ) - (sy : ℚ)))) := by
  unfold patch_distance
  have hterm : ∀ y ∈ Finset.range ts.toNat, ∀ x ∈ Finset.range ts.toNat,
      ∀ c ∈ Finset.range ref_level.channels.toNat,
      metric_term metric
        (ref_level.sample (tx * ts + (x : Int)) (ty * ts + (y : Int)) (c : Int) -
          alt_level.sample (alt_pixel ts ty tx ⟨0, 0⟩ dx dy (y : Int) (x : Int)).1
            (alt_pixel ts ty tx ⟨0, 0⟩ dx dy (y : Int) (x : Int)).2 (c : Int))
      = metric_term metric (-(a * ((dx : ℚ) - (sx : ℚ)) + b * ((dy : ℚ) - (sy : ℚ)))) := by
    intro y hy x hx c hc
    rw [Finset.mem_range] at hy hx hc
    have hy2 : (y : Int) ∈ intRange 0 ts := mem_intRange.mpr ⟨by omega, by omega⟩
    have hx2 : (x : Int) ∈ intRange 0 ts := mem_intRange.mpr ⟨by omega, by omega⟩
    have hp := hin (y : Int) hy2 (x : Int) hx2
    have by_ := block_pos_bound (f := ts) (show 0 < ts by omega) hty.1 hty.2
      (show 0 ≤ (y : Int) by omega) (show (y : Int) < ts by omega)
    have bx_ := block_pos_bound (f := ts) (show 0 < ts by omega) htx.1 htx.2
      (show 0 ≤ (x : Int) by omega) (show (x : Int) < ts by omega)
    have hhle := Int.ediv_mul_le ref_level.height (show ts ≠ 0 by omega)
    have hwle := Int.ediv_mul_le ref_level.width (show ts ≠ 0 by omega)
    have e1 : ty * ts = ts * ty := mul_comm _ _
    have e2 : tx * ts = ts * tx := mul_comm _ _
    rw [href _ _ _ (by omega) (by omega) (by omega) (by omega) (by omega) (by omega),
      halt _ _ _ hp.1.1 hp.1.2 hp.2.1 hp.2.2 (by omega) (by omega)]
    simp only [alt_pixel, cTrunc_zero_add]
    congr 1
    push_cast
    ring
  rw [Finset.sum_congr rfl (fun y hy => Finset.sum_congr rfl (fun x hx =>
    Finset.sum_congr rfl (fun c hc => hterm y hy x hx c hc)))]
  simp only [Finset.sum_const, Finset.card_range, nsmul_eq_mul]
  push_cast
  ring

/-- At the coarsest level `align_on_level` runs `local_search` on the all-zero map. -/
theorem align_on_level_none (ref_level alt_level : Image) (params : BlockMatchingParams)
    (l : Int) :
    align_on_level ref_level alt_level params l none
      = local_search ref_level alt_level (intAt params.tile_sizes l)
          (intAt params.search_radii l)
          (create_alignment_map (Int.tdiv ref_level.height (intAt params.tile_sizes l))
            (Int.tdiv ref_level.width (intAt params.tile_sizes l)))
          (intAt params.distances l) := by
  unfold align_on_level
  simp only [create_alignment_map]
  rw [memcpy_full Alignment.zero _ _ (by simp)]

theorem create_alignment_map_tile (h w x y : Int) :
    (create_alignment_map h w).tile x y = ⟨0, 0⟩ := by
  unfold AlignmentMap.tile rdA readAt create_alignment_map
  split
  · simp only [List.getD_eq_getElem?_getD]
    by_cases hlt : (y * w + x).toNat < (h * w).toNat
    · simp [hlt, Alignment.zero]
    · simp [hlt, Alignment.zero]
  · rfl

theorem create_alignment_map_WF (h w : Int) (hh : 0 ≤ h) (hw : 0 ≤ w) :
    (create_alignment_map h w).WF := ⟨hh, hw, by simp [create_alignment_map]⟩

/-- C8 (amended). In exact arithmetic (the aggregate distances are the exact sums and are
compared as exact numbers): reference image a linear ramp `a*x + b*y + k`, alternate image the
same ramp translated by the integer vector `(sx, sy)` with `|sx|, |sy| ≤ r`, the gradient
`(a, b)` being such that no other integer offset `(u, v)` with `|u|, |v| ≤ 2r` has
`a*u + b*v = 0`: block matching at the coarsest level (zero initial displacement followed by
`local_search`) sets the displacement of every tile whose shifted patch lies inside the image
to exactly `(sx, sy)`. -/
theorem align_on_level_recovers_ramp_shift (ref_level alt_level : Image)
    (params : BlockMatchingParams) (l : Int) (a b k : ℚ) (sx sy tx ty : Int)
    (hh : 0 ≤ ref_level.height) (hw : 0 ≤ ref_level.width) (hc : 1 ≤ ref_level.channels)
    (hts : 1 ≤ intAt params.tile_sizes l)
    (href : ∀ x y c : Int, 0 ≤ x → x < ref_level.width → 0 ≤ y → y < ref_level.height →
      0 ≤ c → c < ref_level.channels →
      ref_level.sample x y c = a * (x : ℚ) + b * (y : ℚ) + k)
    (halt : ∀ x y c : Int, 0 ≤ x → x < alt_level.width → 0 ≤ y → y < alt_level.height →
      0 ≤ c → c < ref_level.channels →
      alt_level.sample x y c = a * ((x : ℚ) - (sx : ℚ)) + b * ((y : ℚ) - (sy : ℚ)) + k)
    (hsx : -intAt params.search_radii l ≤ sx ∧ sx ≤ intAt params.search_radii l)
    (hsy : -intAt params.search_radii l ≤ sy ∧ sy ≤ intAt params.search_radii l)
    (hnd : ∀ u v : Int, -(2 * intAt params.search_radii l) ≤ u →
      u ≤ 2 * intAt params.search_radii l → -(2 * intAt params.search_radii l) ≤ v →
      v ≤ 2 * intAt params.search_radii l → a * (u : ℚ) + b * (v : ℚ) = 0 → u = 0 ∧ v = 0)
    (hty : 0 ≤ ty ∧ ty < ref_level.height / intAt params.tile_sizes l)
    (htx : 0 ≤ tx ∧ tx < ref_level.width / intAt params.tile_sizes l)
    (hin : patch_inside alt_level (intAt params.tile_sizes l) ty tx ⟨0, 0⟩ sx sy) :
    (align_on_level ref_level alt_level params l none).tile tx ty
      = ⟨(sx : ℚ), (sy : ℚ)⟩ := by
  rw [align_on_level_none]
  obtain ⟨eh, hh0, _⟩ := tdiv_nonneg_eq hh (show 0 < intAt params.tile_sizes l by omega)
  obtain ⟨ew, hw0, _⟩ := tdiv_nonneg_eq hw (show 0 < intAt params.tile_sizes l by omega)
  rw [eh, ew]
  obtain ⟨_, _, _, ht⟩ := local_search_tiles ref_level alt_level (intAt params.tile_sizes l)
    (intAt params.search_radii l)
    (create_alignment_map (ref_level.height / intAt params.tile_sizes l)
      (ref_level.width / intAt params.tile_sizes l))
    (intAt params.distances l) (create_alignment_map_WF _ _ hh0 hw0)
  rw [ht tx ty hty.1 hty.2 htx.1 htx.2, create_alignment_map_tile]
  obtain ⟨s1, _⟩ := search_window_spec ref_level alt_level (intAt params.tile_sizes l)
    (intAt params.search_radii l) ty tx ⟨0, 0⟩ (intAt params.distances l)
  have hd0 : patch_distance ref_level alt_level (intAt params.tile_sizes l) ty tx ⟨0, 0⟩
      sx sy (intAt params.distances l) = 0 := by
    rw [patch_distance_ramp ref_level alt_level _ ty tx sx sy sx sy _ a b k hts hty htx
      href halt hin]
    simp [metric_term_zero]
  have hpos : (0 : ℚ) < FLT_MAX := by norm_num [FLT_MAX]
  obtain ⟨dx, dy, hdx, hdy, hin2, bx, by_, hmin⟩ :=
    s1 ⟨sx, sy, hsx, hsy, hin, by rw [hd0]; exact hpos⟩
  have hle := hmin sx sy hsx.1 hsx.2 hsy.1 hsy.2 hin
  rw [hd0, patch_distance_ramp ref_level alt_level _ ty tx dx dy sx sy _ a b k hts hty htx
    href halt hin2] at hle
  have hN : (0 : ℚ) < (((intAt params.tile_sizes l).toNat *
      ((intAt params.tile_sizes l).toNat * ref_level.channels.toNat) : ℕ) : ℚ) := by
    have h1 : 0 < (intAt params.tile_sizes l).toNat := by omega
    have h2 : 0 < ref_level.channels.toNat := by omega
    exact_mod_cast Nat.mul_pos h1 (Nat.mul_pos h1 h2)
  have hmt : metric_term (intAt params.distances l)
      (-(a * ((dx : ℚ) - (sx : ℚ)) + b * ((dy : ℚ) - (sy : ℚ)))) = 0 := by
    have h0 := metric_term_nonneg (intAt params.distances l)
      (-(a * ((dx : ℚ) - (sx : ℚ)) + b * ((dy : ℚ) - (sy : ℚ))))
    have := nonpos_of_mul_nonpos_right hle hN
    exact le_antisymm this h0
  have hz := metric_term_eq_zero _ _ hmt
  have hz2 : a * ((dx - sx : Int) : ℚ) + b * ((dy - sy : Int) : ℚ) = 0 := by
    push_cast
    linarith
  obtain ⟨u0, v0⟩ := hnd (dx - sx) (dy - sy) (by omega) (by omega) (by omega) (by omega) hz2
  have e1 : dx = sx := by omega
  have e2 : dy = sy := by omega
  rw [bx, by_, e1, e2]
  simp

/-- C8 (counterexample). A horizontal ramp `I(x, y) = x` compared with itself (shift
`(0, 0)`), tile size 1, radius 1: every vertical shift gives distance 0, and the first one of
the scan is kept, so the tile `(1, 1)`, whose patch lies inside the image, gets the
displacement `(0, -1)`. -/
theorem align_on_level_ramp_counterexample :
    (∀ x ∈ intRange 0 3, ∀ y ∈ intRange 0 3,
      Image.sample ⟨[0, 1, 2, 0, 1, 2, 0, 1, 2], 3, 3, 1⟩ x y 0 = (x : ℚ)) ∧
    patch_inside ⟨[0, 1, 2, 0, 1, 2, 0, 1, 2], 3, 3, 1⟩ 1 1 1 ⟨0, 0⟩ 0 0 ∧
    (align_on_level ⟨[0, 1, 2, 0, 1, 2, 0, 1, 2], 3, 3, 1⟩ ⟨[0, 1, 2, 0, 1, 2, 0, 1, 2], 3, 3, 1⟩
      ⟨[1], [1], [0], [1], 1⟩ 0 none).tile 1 1 = ⟨0, -1⟩ := by
  decide!

theorem align_on_level_recovers_ramp_shift_witness :
    (align_on_level ⟨[0, 1, 2, 3, 4, 5, 6, 7, 8], 3, 3, 1⟩ ⟨[-1, 0, 1, 2, 3, 4, 5, 6, 7], 3, 3, 1⟩
      ⟨[1], [1], [1], [1], 1⟩ 0 none).tile 0 0 = ⟨((1 : Int) : ℚ), ((0 : Int) : ℚ)⟩ :=
  align_on_level_recovers_ramp_shift ⟨[0, 1, 2, 3, 4, 5, 6, 7, 8], 3, 3, 1⟩
    ⟨[-1, 0, 1, 2, 3, 4, 5, 6, 7], 3, 3, 1⟩ ⟨[1], [1], [1], [1], 1⟩ 0 1 3 0 1 0 0 0
    (by decide) (by decide) (by decide) (by decide)
    (fun x y c hx0 hx1 hy0 hy1 hc0 hc1 => by
      have hx2 : x < 3 := hx1
      have hy2 : y < 3 := hy1
      have hc2 : c < 1 := hc1
      have hc : c = 0 := by omega
      have hx : x = 0 ∨ x = 1 ∨ x = 2 := by omega
      have hy : y = 0 ∨ y = 1 ∨ y = 2 := by omega
      subst hc
      rcases hx with h | h | h <;> rcases hy with h2 | h2 | h2 <;> subst h <;> subst h2 <;>
        decide!)
    (fun x y c hx0 hx1 hy0 hy1 hc0 hc1 => by
      have hx2 : x < 3 := hx1
      have hy2 : y < 3 := hy1
      have hc2 : c < 1 := hc1
      have hc : c = 0 := by omega
      have hx : x = 0 ∨ x = 1 ∨ x = 2 := by omega
      have hy : y = 0 ∨ y = 1 ∨ y = 2 := by omega
      subst hc
      rcases hx with h | h | h <;> rcases hy with h2 | h2 | h2 <;> subst h <;> subst h2 <;>
        decide!)
    (by decide) (by decide)
    (fun u v h1 h2 h3 h4 h => by
      have h5 : -(2 * 1) ≤ u := h1
      have h6 : u ≤ 2 * 1 := h2
      have h7 : -(2 * 1) ≤ v := h3
      have h8 : v ≤ 2 * 1 := h4
      have h9 : (u + 3 * v : Int) = 0 := by
        have : ((u + 3 * v : Int) : ℚ) = 0 := by push_cast; linarith
        exact_mod_cast this
      omega)
    (by decide) (by decide) (by decide!)

theorem is_integer_iff (q : ℚ) : is_integer q ↔ ∃ n : Int, q = (n : ℚ) := by
  unfold is_integer
  constructor
  · intro h
    exact ⟨q.num, (Rat.den_eq_one_iff q).mp h |>.symm⟩
  · rintro ⟨n, rfl⟩
    simp

theorem is_integer_intCast (n : Int) : is_integer (n : ℚ) := (is_integer_iff _).mpr ⟨n, rfl⟩

theorem is_integer_zero : is_integer 0 := by
  have := is_integer_intCast 0
  simpa using this

theorem is_integer_add {p q : ℚ} (hp : is_integer p) (hq : is_integer q) :
    is_integer (p + q) := by
  obtain ⟨a, rfl⟩ := (is_integer_iff p).mp hp
  obtain ⟨b, rfl⟩ := (is_integer_iff q).mp hq
  exact (is_integer_iff _).mpr ⟨a + b, by push_cast; rfl⟩

theorem is_integer_mul {p q : ℚ} (hp : is_integer p) (hq : is_integer q) :
    is_integer (p * q) := by
  obtain ⟨a, rfl⟩ := (is_integer_iff p).mp hp
  obtain ⟨b, rfl⟩ := (is_integer_iff q).mp hq
  exact (is_integer_iff _).mpr ⟨a * b, by push_cast; rfl⟩

theorem integral_zero : Alignment.zero.integral := ⟨is_integer_zero, is_integer_zero⟩

/-- A property of the state that every pass of a loop keeps holds after the loop. -/
theorem forRange_preserves {σ : Type} (P : σ → Prop) (lo hi : Int) (body : Int → σ → σ)
    (s : σ) (h0 : P s) (hstep : ∀ i s, P s → P (body i s)) : P (forRange lo hi body s) := by
  unfold forRange
  generalize intRange lo hi = l
  induction l generalizing s with
  | nil => exact h0
  | cons a l ih => exact ih (body a s) (hstep a s h0)

theorem writeAt_forall {α : Type} (P : α → Prop) (buf : List α) (i : Int) (v : α)
    (hb : ∀ a ∈ buf, P a) (hv : P v) : ∀ a ∈ writeAt buf i v, P a := by
  unfold writeAt
  split
  · intro a ha
    rcases List.mem_or_eq_of_mem_set ha with h | h
    · exact hb a h
    · rw [h]; exact hv
  · exact hb

theorem readAt_forall {α : Type} (P : α → Prop) (d : α) (buf : List α) (i : Int)
    (hb : ∀ a ∈ buf, P a) (hd : P d) : P (readAt d buf i) := by
  unfold readAt
  split
  · rw [List.getD_eq_getElem?_getD]
    by_cases h : i.toNat < buf.length
    · rw [List.getElem?_eq_getElem h]
      exact hb _ (List.getElem_mem _)
    · rw [List.getElem?_eq_none (by omega)]
      exact hd
  · exact hd

/-- The best shift kept by the search window is a pair of integers. -/
theorem search_window_integral (ref_level alt_level : Image) (ts r tile_y tile_x : Int)
    (current : Alignment) (metric : Int) :
    is_integer (search_window ref_level alt_level ts r tile_y tile_x current
      metric).best_shift_x ∧
    is_integer (search_window ref_level alt_level ts r tile_y tile_x current
      metric).best_shift_y := by
  unfold search_window
  apply forRange_preserves (fun st : SearchState =>
    is_integer st.best_shift_x ∧ is_integer st.best_shift_y)
  · exact ⟨is_integer_zero, is_integer_zero⟩
  · intro dy st hst
    apply forRange_preserves (fun st : SearchState =>
      is_integer st.best_shift_x ∧ is_integer st.best_shift_y)
    · exact hst
    · intro dx st hst
      dsimp only
      split
      · exact ⟨is_integer_intCast dx, is_integer_intCast dy⟩
      · exact hst

/-- The function `local_search` keeps a map integer-valued. -/
theorem local_search_integral (ref_level alt_level : Image) (ts r : Int) (m : AlignmentMap)
    (metric : Int) (hm : ∀ a ∈ m.data, a.integral) :
    ∀ a ∈ (local_search ref_level alt_level ts r m metric).data, a.integral := by
  unfold local_search
  dsimp only
  apply forRange_preserves (fun data : List Alignment => ∀ a ∈ data, a.integral)
  · exact hm
  · intro tile_y data hdata
    apply forRange_preserves (fun data : List Alignment => ∀ a ∈ data, a.integral)
    · exact hdata
    · intro tile_x data hdata
      unfold local_search_tile
      dsimp only
      have hcur : (rdA data (tile_y * m.width + tile_x)).integral :=
        readAt_forall _ _ _ _ hdata integral_zero
      have hs := search_window_integral ref_level alt_level ts r tile_y tile_x
        (rdA data (tile_y * m.width + tile_x)) metric
      have h1 : ∀ a ∈ writeAt data (tile_y * m.width + tile_x)
          { x := (rdA data (tile_y * m.width + tile_x)).x +
              (search_window ref_level alt_level ts r tile_y tile_x
                (rdA data (tile_y * m.width + tile_x)) metric).best_shift_x,
            y := (rdA data (tile_y * m.width + tile_x)).y }, a.integral :=
        writeAt_forall _ _ _ _ hdata ⟨is_integer_add hcur.1 hs.1, hcur.2⟩
      have hcur1 := readAt_forall (fun a : Alignment => a.integral) Alignment.zero _
        (tile_y * m.width + tile_x) h1 integral_zero
      exact writeAt_forall _ _ _ _ h1 ⟨hcur1.1, is_integer_add hcur1.2 hs.2⟩

/-- The function `upsample_alignments` maps an integer-valued map to an integer-valued map. -/
theorem upsample_alignments_integral (ref_level alt_level : Image) (prev : AlignmentMap)
    (fac ts pts : Int) (hp : ∀ a ∈ prev.data, a.integral) :
    ∀ a ∈ (upsample_alignments ref_level alt_level prev fac ts pts).data, a.integral := by
  unfold upsample_alignments
  dsimp only
  apply forRange_preserves (fun data : List Alignment => ∀ a ∈ data, a.integral)
  · intro a ha
    simp only [create_alignment_map] at ha
    rw [List.eq_of_mem_replicate ha]
    exact integral_zero
  · intro y data hdata
    apply forRange_preserves (fun data : List Alignment => ∀ a ∈ data, a.integral)
    · exact hdata
    · intro x data hdata
      dsimp only
      split
      · exact writeAt_forall _ _ _ _ hdata ⟨is_integer_zero, is_integer_zero⟩
      · have hprev := readAt_forall (fun a : Alignment => a.integral) Alignment.zero prev.data
          (Int.tdiv y (Int.tdiv fac (Int.tdiv ts pts)) * prev.width +
            Int.tdiv x (Int.tdiv fac (Int.tdiv ts pts))) hp integral_zero
        exact writeAt_forall _ _ _ _ hdata
          ⟨is_integer_mul hprev.1 (is_integer_intCast fac),
            is_integer_mul hprev.2 (is_integer_intCast fac)⟩

/-- The function `align_on_level` returns an integer-valued map when the previous map, if
any, is integer-valued. -/
theorem align_on_level_integral (ref_level alt_level : Image) (params : BlockMatchingParams)
    (l : Int) (prev : Option AlignmentMap)
    (hp : ∀ p, prev = some p → ∀ a ∈ p.data, a.integral) :
    ∀ a ∈ (align_on_level ref_level alt_level params l prev).data, a.integral := by
  cases prev with
  | none =>
    rw [align_on_level_none]
    apply local_search_integral
    intro a ha
    simp only [create_alignment_map] at ha
    rw [List.eq_of_mem_replicate ha]
    exact integral_zero
  | some p =>
    unfold align_on_level
    dsimp only
    apply local_search_integral
    exact upsample_alignments_integral _ _ _ _ _ _ (hp p rfl)

/-- The loop over the levels of `align_image_block_matching` keeps the map integer-valued. -/
theorem align_levels_integral (ref_levels alt_levels : List Image)
    (params : BlockMatchingParams) (levels : List Int) :
    ∀ st : Option AlignmentMap, (∀ p, st = some p → ∀ a ∈ p.data, a.integral) →
      ∀ m, levels.foldl (fun alignments level =>
          some (align_on_level (levelAt ref_levels level) (levelAt alt_levels level) params
            level alignments)) st = some m →
        ∀ a ∈ m.data, a.integral := by
  induction levels with
  | nil =>
    intro st hst m hm
    exact hst m hm
  | cons l levels ih =>
    intro st hst m hm
    rw [List.foldl_cons] at hm
    refine ih _ ?_ m hm
    intro p hp
    rw [Option.some.injEq] at hp
    rw [← hp]
    exact align_on_level_integral _ _ params l st hst

/-- C9. Every displacement of the map returned by `align_image_block_matching` has
integer-valued `x` and `y` components, for every number of levels and every parameter set; the
zero initialisation yields an integer-valued map, and `upsample_alignments` and `local_search`
each keep a map integer-valued. -/
theorem align_image_block_matching_integer_valued :
    (∀ (img : Option Image) (reference_pyramid : ImagePyramid)
        (params : Option BlockMatchingParams) (m : AlignmentMap),
      align_image_block_matching img reference_pyramid params = some m →
      ∀ a ∈ m.data, is_integer a.x ∧ is_integer a.y) ∧
    (∀ (h w : Int), ∀ a ∈ (create_alignment_map h w).data, is_integer a.x ∧ is_integer a.y) ∧
    (∀ (ref_level alt_level : Image) (prev : AlignmentMap) (fac ts pts : Int),
      (∀ a ∈ prev.data, is_integer a.x ∧ is_integer a.y) →
      ∀ a ∈ (upsample_alignments ref_level alt_level prev fac ts pts).data,
        is_integer a.x ∧ is_integer a.y) ∧
    (∀ (ref_level alt_level : Image) (ts r : Int) (m : AlignmentMap) (metric : Int),
      (∀ a ∈ m.data, is_integer a.x ∧ is_integer a.y) →
      ∀ a ∈ (local_search ref_level alt_level ts r m metric).data,
        is_integer a.x ∧ is_integer a.y) := by
  refine ⟨?_, ?_, ?_, ?_⟩
  · intro img reference_pyramid params m hm
    unfold align_image_block_matching at hm
    cases hinit : init_block_matching img params with
    | none =>
      rw [hinit] at hm
      exact absurd hm (by simp)
    | some alt_pyramid =>
      rw [hinit] at hm
      cases params with
      | none => exact absurd hm (by simp)
      | some params =>
        exact align_levels_integral reference_pyramid.levels alt_pyramid.levels params _ none
          (fun p hp => absurd hp (by simp)) m hm
  · intro h w a ha
    simp only [create_alignment_map] at ha
    rw [List.eq_of_mem_replicate ha]
    exact integral_zero
  · intro ref_level alt_level prev fac ts pts hp
    exact upsample_alignments_integral ref_level alt_level prev fac ts pts hp
  · intro ref_level alt_level ts r m metric hm
    exact local_search_integral ref_level alt_level ts r m metric hm

theorem align_image_block_matching_integer_valued_witness :
    ∀ a ∈ (⟨[⟨1, 0⟩, ⟨-1, 0⟩, ⟨0, -1⟩, ⟨0, -1⟩], 2, 2⟩ : AlignmentMap).data,
      is_integer a.x ∧ is_integer a.y :=
  align_image_block_matching_integer_valued.1 (some ⟨[1, 2, 2, 1], 2, 2, 1⟩)
    ⟨[⟨[2, 1, 1, 2], 2, 2, 1⟩], 1⟩ (some ⟨[1], [1], [0], [1], 1⟩) _ (by decide!)

/-- C2 (code at the failing input). Two levels with `factors = [1, 2]`: level 1 of both
pyramids is level 0 downsampled by `factors[1] = 2`. The alternate image is the reference moved
2 pixels to the right. The coarsest level finds the displacement `(1, 0)` for tile `(0, 0)`; at
level 0 (search radius 0) the displacement returned for that tile is the inherited
`1 * factors[0] = (1, 0)`, not `1 * factors[1] = (2, 0)`: for every level, `align_on_level`
passes `factors[level_idx]` to `upsample_alignments`. -/
theorem align_image_block_matching_upsampling_factor :
    init_block_matching
        (some ⟨[0, 0, 10, 10, 20, 20, 30, 30, 0, 0, 10, 10, 20, 20, 30, 30], 2, 8, 1⟩)
        (some ⟨[1, 2], [1, 1], [0, 0], [0, 1], 2⟩)
      = some ⟨[⟨[0, 0, 10, 10, 20, 20, 30, 30, 0, 0, 10, 10, 20, 20, 30, 30], 2, 8, 1⟩,
          ⟨[0, 10, 20, 30], 1, 4, 1⟩], 2⟩ ∧
    init_block_matching
        (some ⟨[-10, -10, 0, 0, 10, 10, 20, 20, -10, -10, 0, 0, 10, 10, 20, 20], 2, 8, 1⟩)
        (some ⟨[1, 2], [1, 1], [0, 0], [0, 1], 2⟩)
      = some ⟨[⟨[-10, -10, 0, 0, 10, 10, 20, 20, -10, -10, 0, 0, 10, 10, 20, 20], 2, 8, 1⟩,
          ⟨[-10, 0, 10, 20], 1, 4, 1⟩], 2⟩ ∧
    (align_on_level ⟨[0, 10, 20, 30], 1, 4, 1⟩ ⟨[-10, 0, 10, 20], 1, 4, 1⟩
        ⟨[1, 2], [1, 1], [0, 0], [0, 1], 2⟩ 1 none).tile 0 0 = ⟨1, 0⟩ ∧
    (align_image_block_matching
        (some ⟨[-10, -10, 0, 0, 10, 10, 20, 20, -10, -10, 0, 0, 10, 10, 20, 20], 2, 8, 1⟩)
        ⟨[⟨[0, 0, 10, 10, 20, 20, 30, 30, 0, 0, 10, 10, 20, 20, 30, 30], 2, 8, 1⟩,
          ⟨[0, 10, 20, 30], 1, 4, 1⟩], 2⟩
        (some ⟨[1, 2], [1, 1], [0, 0], [0, 1], 2⟩)).map (fun m => m.tile 0 0)
      = some ⟨1, 0⟩ ∧
    ∀ (ref_level alt_level : Image) (params : BlockMatchingParams) (l : Int)
      (prev : AlignmentMap),
      align_on_level ref_level alt_level params l (some prev)
        = local_search ref_level alt_level (intAt params.tile_sizes l)
            (intAt params.search_radii l)
            (upsample_alignments ref_level alt_level prev (intAt params.factors l)
              (intAt params.tile_sizes l) (intAt params.tile_sizes (l + 1)))
            (intAt params.distances l) := by
  refine ⟨by decide!, by decide!, by decide!, by decide!, ?_⟩
  intro ref_level alt_level params l prev
  rfl

theorem pairwise_lt_intRange (lo hi : Int) : (intRange lo hi).Pairwise (fun i j => i < j) := by
  unfold intRange
  rw [List.pairwise_map]
  exact (List.pairwise_lt_range _).imp (fun {a b} h => by omega)

/-- A loop whose body first tests a `break` condition on the counter and otherwise adds a
term: when the condition, once true, stays true for the later counter values, the loop adds
the terms of the counter values for which the condition is false. -/
theorem whileList_break_sum {M : Type} [AddCommMonoid M] (stop : Int → Prop)
    [DecidablePred stop] (t : Int → M) (body : Int → M × Bool → M × Bool) (l : List Int)
    (hb : ∀ i ∈ l, ∀ s, body i (s, true) = if stop i then (s, false) else (s + t i, true))
    (hmono : l.Pairwise (fun i j => stop i → stop j)) :
    ∀ s, (whileList (fun s => s.2) body l (s, true)).1
      = s + (l.map (fun i => if stop i then 0 else t i)).sum := by
  induction l with
  | nil =>
    intro s
    simp [whileList]
  | cons a l ih =>
    intro s
    have hpw := List.pairwise_cons.mp hmono
    simp only [whileList, if_true]
    rw [hb a (List.mem_cons_self _ _) s]
    by_cases hs : stop a
    · rw [if_pos hs, whileList_stop _ _ _ _ rfl]
      have hz : (l.map (fun i => if stop i then 0 else t i)).sum = 0 := by
        apply List.sum_eq_zero
        intro v hv
        obtain ⟨i, hi, rfl⟩ := List.mem_map.mp hv
        rw [if_pos (hpw.1 i hi hs)]
      simp only [List.map_cons, List.sum_cons, if_pos hs, hz, add_zero]
    · rw [if_neg hs, ih (fun i hi => hb i (List.mem_cons_of_mem _ hi)) hpw.2]
      simp only [List.map_cons, List.sum_cons, if_neg hs]
      rw [add_assoc]

/-- The pixel loops of `refine_alignment_ica` compute the vector `b` of the patch. -/
theorem ica_accumulate_eq (ref_img alt_img : Image) (grads : ImageGradients)
    (params : ICAParams) (py px : Int) (d : Alignment) :
    ica_accumulate ref_img alt_img grads params py px d
      = ica_rhs ref_img alt_img grads params.tile_size py px d := by
  -- the term added for one pixel
  let term : Int → Int → ℚ × ℚ := fun y x =>
    if ica_pixel_used ref_img alt_img d (px * params.tile_size + x)
        (py * params.tile_size + y) then
      (-(rd grads.data_x ((py * params.tile_size + y) * grads.width +
            (px * params.tile_size + x)) *
          ica_residual ref_img alt_img d (px * params.tile_size + x)
            (py * params.tile_size + y)),
       -(rd grads.data_y ((py * params.tile_size + y) * grads.width +
            (px * params.tile_size + x)) *
          ica_residual ref_img alt_img d (px * params.tile_size + x)
            (py * params.tile_size + y)))
    else 0
  let bodyx : Int → Int → (ℚ × ℚ) × Bool → (ℚ × ℚ) × Bool := fun y x sx =>
    let ref_y := py * params.tile_size + y
    let ref_x := px * params.tile_size + x
    if ref_x ≥ ref_img.width then (sx.1, false)
    else
      let warped_x := (ref_x : ℚ) + d.x
      let warped_y := (ref_y : ℚ) + d.y
      if warped_x < 0 ∨ warped_x ≥ ((alt_img.width - 1 : Int) : ℚ) ∨
          warped_y < 0 ∨ warped_y ≥ ((alt_img.height - 1 : Int) : ℚ) then sx
      else
        let warped_val := bilinear_interpolation alt_img warped_x warped_y
        let ref_val := rd ref_img.data (ref_y * ref_img.width + ref_x)
        let dt := warped_val - ref_val
        let grad_idx := ref_y * grads.width + ref_x
        ((sx.1.1 + -(rd grads.data_x grad_idx) * dt,
          sx.1.2 + -(rd grads.data_y grad_idx) * dt), true)
  have hx : ∀ y, py * params.tile_size + y < ref_img.height → ∀ x s,
      bodyx y x (s, true)
        = if px * params.tile_size + x ≥ ref_img.width then (s, false)
          else (s + term y x, true) := by
    intro y hy x s
    simp only [bodyx, term]
    by_cases hs : px * params.tile_size + x ≥ ref_img.width
    · rw [if_pos hs, if_pos hs]
    · rw [if_neg hs, if_neg hs]
      by_cases hob : ((px * params.tile_size + x : Int) : ℚ) + d.x < 0 ∨
          ((px * params.tile_size + x : Int) : ℚ) + d.x ≥ ((alt_img.width - 1 : Int) : ℚ) ∨
          ((py * params.tile_size + y : Int) : ℚ) + d.y < 0 ∨
          ((py * params.tile_size + y : Int) : ℚ) + d.y ≥ ((alt_img.height - 1 : Int) : ℚ)
      · have hnu : ¬ ica_pixel_used ref_img alt_img d (px * params.tile_size + x)
            (py * params.tile_size + y) := by
          unfold ica_pixel_used warp_in_bounds
          rintro ⟨_, ⟨h1, h2⟩, ⟨h3, h4⟩⟩
          rcases hob with h | h | h | h
          · exact absurd h1 (not_le.mpr h)
          · exact absurd h2 (not_lt.mpr h)
          · exact absurd h3 (not_le.mpr h)
          · exact absurd h4 (not_lt.mpr h)
        rw [if_pos hob, if_neg hnu, add_zero]
      · have hu : ica_pixel_used ref_img alt_img d (px * params.tile_size + x)
            (py * params.tile_size + y) := by
          unfold ica_pixel_used warp_in_bounds
          simp only [not_or, not_lt, ge_iff_le, not_le] at hob
          exact ⟨⟨hy, by omega⟩, ⟨hob.1, hob.2.1⟩, ⟨hob.2.2.1, hob.2.2.2⟩⟩
        rw [if_neg hob, if_pos hu]
        unfold ica_residual
        simp only [neg_mul]
        rfl
  have hmono : ∀ (c q : Int), (intRange 0 params.tile_size).Pairwise
      (fun i j => (q * params.tile_size + i ≥ c) → (q * params.tile_size + j ≥ c)) := by
    intro c q
    exact (pairwise_lt_intRange 0 params.tile_size).imp (fun {i j} hij h => by omega)
  have inner : ∀ y, py * params.tile_size + y < ref_img.height → ∀ s,
      (whileList (fun sx => sx.2) (bodyx y) (intRange 0 params.tile_size) (s, true)).1
        = s + ((intRange 0 params.tile_size).map (fun x =>
            if px * params.tile_size + x ≥ ref_img.width then 0 else term y x)).sum :=
    fun y hy => whileList_break_sum (fun x => px * params.tile_size + x ≥ ref_img.width)
      (term y) (bodyx y) (intRange 0 params.tile_size) (fun x _ s => hx y hy x s)
      (hmono ref_img.width px)
  have outer := whileList_break_sum (fun y => py * params.tile_size + y ≥ ref_img.height)
    (fun y => ((intRange 0 params.tile_size).map (fun x =>
      if px * params.tile_size + x ≥ ref_img.width then 0 else term y x)).sum)
    (fun y s =>
      if py * params.tile_size + y ≥ ref_img.height then (s.1, false)
      else ((whileList (fun sx => sx.2) (bodyx y) (intRange 0 params.tile_size)
        (s.1, true)).1, true))
    (intRange 0 params.tile_size)
    (fun y _ s => by
      dsimp only
      by_cases hs : py * params.tile_size + y ≥ ref_img.height
      · rw [if_pos hs, if_pos hs]
      · rw [if_neg hs, if_neg hs, inner y (by omega) s])
    (hmono ref_img.height py) (0, 0)
  have hdef : ica_accumulate ref_img alt_img grads params py px d
      = (whileList (fun s => s.2) (fun y s =>
          if py * params.tile_size + y ≥ ref_img.height then (s.1, false)
          else ((whileList (fun sx => sx.2) (bodyx y) (intRange 0 params.tile_size)
            (s.1, true)).1, true)) (intRange 0 params.tile_size) ((0, 0), true)).1 := rfl
  rw [hdef, outer, sum_intRange_zero]
  have hzero : ((0 : ℚ), (0 : ℚ)) = (0 : ℚ × ℚ) := rfl
  rw [hzero, zero_add]
  have hterm : ∀ y ∈ Finset.range params.tile_size.toNat,
      (if py * params.tile_size + (y : Int) ≥ ref_img.height then (0 : ℚ × ℚ)
        else ((intRange 0 params.tile_size).map (fun x =>
          if px * params.tile_size + x ≥ ref_img.width then 0 else term (y : Int) x)).sum)
      = ∑ x ∈ Finset.range params.tile_size.toNat, term (y : Int) (x : Int) := by
    intro y _
    rw [sum_intRange_zero]
    by_cases hs : py * params.tile_size + (y : Int) ≥ ref_img.height
    · rw [if_pos hs]
      symm
      apply Finset.sum_eq_zero
      intro x _
      simp only [term]
      rw [if_neg]
      unfold ica_pixel_used
      intro h
      omega
    · rw [if_neg hs]
      refine Finset.sum_congr rfl (fun x _ => ?_)
      by_cases hs2 : px * params.tile_size + (x : Int) ≥ ref_img.width
      · rw [if_pos hs2]
        simp only [term]
        rw [if_neg]
        unfold ica_pixel_used
        intro h
        omega
      · rw [if_neg hs2]
  rw [Finset.sum_congr rfl hterm]
  unfold ica_rhs
  apply Prod.ext
  · simp only [Prod.fst_sum, term, apply_ite Prod.fst, Prod.fst_zero]
    rw [← Finset.sum_neg_distrib]
    refine Finset.sum_congr rfl (fun y _ => ?_)
    rw [← Finset.sum_neg_distrib]
    refine Finset.sum_congr rfl (fun x _ => ?_)
    split <;> simp
  · simp only [Prod.snd_sum, term, apply_ite Prod.snd, Prod.snd_zero]
    rw [← Finset.sum_neg_distrib]
    refine Finset.sum_congr rfl (fun y _ => ?_)
    rw [← Finset.sum_neg_distrib]
    refine Finset.sum_congr rfl (fun x _ => ?_)
    split <;> simp

theorem list_set_getElem_self {α : Type} (l : List α) (n : Nat) (h : n < l.length) :
    l.set n (l.get ⟨n, h⟩) = l := by
  apply List.ext_getElem (by simp)
  intro k h1 h2
  rw [List.getElem_set]
  split
  · next hk => subst hk; rfl
  · rfl

theorem writeAt_readAt_self {α : Type} (d : α) (b : List α) (i : Int) (h0 : 0 ≤ i)
    (h1 : i < b.length) : writeAt b i (readAt d b i) = b := by
  have h2 : i.toNat < b.length := by omega
  unfold writeAt readAt
  rw [if_pos h0, if_pos h0, List.getD_eq_getElem?_getD, List.getElem?_eq_getElem h2]
  simp only [Option.getD_some]
  exact list_set_getElem_self b i.toNat h2

/-- Above the singularity threshold `solve_2x2_system` returns a solution of `A * x = b`. -/
theorem solve_2x2_system_solves (A : Int → ℚ) (b : ℚ × ℚ)
    (hdet : ¬ |A 0 * A 3 - A 1 * A 2| < 1 / 10 ^ 10) :
    A 0 * (solve_2x2_system A b).1 + A 1 * (solve_2x2_system A b).2 = b.1 ∧
    A 2 * (solve_2x2_system A b).1 + A 3 * (solve_2x2_system A b).2 = b.2 := by
  have hne : A 0 * A 3 - A 1 * A 2 ≠ 0 := by
    intro h
    apply hdet
    rw [h, abs_zero]
    positivity
  unfold solve_2x2_system
  simp only [if_neg hdet]
  constructor
  · field_simp
    ring
  · field_simp
    ring

/-- The update of one patch by `refine_alignment_ica`, as a single write. -/
theorem ica_tile_eq (ref_img alt_img : Image) (grads : ImageGradients)
    (hessian : HessianMatrix) (params : ICAParams) (width py px : Int)
    (data : List Alignment) (h0 : 0 ≤ py * width + px) (h1 : py * width + px < data.length) :
    ica_tile ref_img alt_img grads hessian params width py px data
      = writeAt data (py * width + px)
          (if |hessian.entry px py 0 * hessian.entry px py 3 -
              hessian.entry px py 1 * hessian.entry px py 2| < 1 / 10 ^ 10 then
            rdA data (py * width + px)
          else
            ⟨(rdA data (py * width + px)).x +
              (solve_2x2_system (fun k => hessian.entry px py k)
                (ica_rhs ref_img alt_img grads params.tile_size py px
                  (rdA data (py * width + px)))).1,
             (rdA data (py * width + px)).y +
              (solve_2x2_system (fun k => hessian.entry px py k)
                (ica_rhs ref_img alt_img grads params.tile_size py px
                  (rdA data (py * width + px)))).2⟩) := by
  unfold ica_tile HessianMatrix.entry
  simp only [add_zero]
  split
  · exact (writeAt_readAt_self Alignment.zero data _ h0 h1).symm
  · simp only [rdA]
    rw [readAt_writeAt_same _ _ _ _ h0 h1, writeAt_writeAt, ← rdA, ica_accumulate_eq]

/-- One pass of the patch loops of `refine_alignment_ica` over a map of `h * w` patches: every
patch is updated from the displacement it had at the start of the pass. -/
theorem ica_pass_spec (ref_img alt_img : Image) (grads : ImageGradients)
    (hessian : HessianMatrix) (params : ICAParams) (h w : Int) (data : List Alignment)
    (hlen : data.length = (h * w).toNat) :
    (forRange 0 h (fun py data => forRange 0 w (fun px data =>
      ica_tile ref_img alt_img grads hessian params w py px data) data) data).length
        = (h * w).toNat ∧
    ∀ py px, 0 ≤ py → py < h → 0 ≤ px → px < w →
      rdA (forRange 0 h (fun py data => forRange 0 w (fun px data =>
        ica_tile ref_img alt_img grads hessian params w py px data) data) data) (py * w + px)
      = if |hessian.entry px py 0 * hessian.entry px py 3 -
            hessian.entry px py 1 * hessian.entry px py 2| < 1 / 10 ^ 10 then
          rdA data (py * w + px)
        else
          ⟨(rdA data (py * w + px)).x +
            (solve_2x2_system (fun k => hessian.entry px py k)
              (ica_rhs ref_img alt_img grads params.tile_size py px
                (rdA data (py * w + px)))).1,
           (rdA data (py * w + px)).y +
            (solve_2x2_system (fun k => hessian.entry px py k)
              (ica_rhs ref_img alt_img grads params.tile_size py px
                (rdA data (py * w + px)))).2⟩ := by
  obtain ⟨e1, e2, _⟩ := forRange2_update Alignment.zero h w
    (fun py px => py * w + px)
    (fun py px old =>
      if |hessian.entry px py 0 * hessian.entry px py 3 -
          hessian.entry px py 1 * hessian.entry px py 2| < 1 / 10 ^ 10 then old
      else
        ⟨old.x + (solve_2x2_system (fun k => hessian.entry px py k)
            (ica_rhs ref_img alt_img grads params.tile_size py px old)).1,
         old.y + (solve_2x2_system (fun k => hessian.entry px py k)
            (ica_rhs ref_img alt_img grads params.tile_size py px old)).2⟩)
    (fun py px data => ica_tile ref_img alt_img grads hessian params w py px data)
    (h * w).toNat data hlen
    (fun y x hy1 hy2 hx1 hx2 => by
      have := idx2_bound (H := h) ⟨hy1, hy2⟩ ⟨hx1, hx2⟩
      dsimp only
      omega)
    (fun y x y2 x2 hy1 hy2 hx1 hx2 hy21 hy22 hx21 hx22 heq =>
      idx2_inj ⟨hx1, hx2⟩ ⟨hx21, hx22⟩ heq)
    (fun y x hy1 hy2 hx1 hx2 l hl => by
      have := idx2_bound (H := h) ⟨hy1, hy2⟩ ⟨hx1, hx2⟩
      exact ica_tile_eq ref_img alt_img grads hessian params w y x l this.1
        (by rw [hl]; omega))
  exact ⟨e1, fun py px a b c d => e2 py px a b c d⟩

theorem floorf_eq_floor (q : ℚ) : floorf q = ⌊q⌋ := by
  unfold floorf
  rw [Rat.floor_def]

/-- Inside the image, the pixel read by the code is the pixel of the image. -/
theorem image_tap_eq (img : Image) (x y : Int) (hx : 0 ≤ x ∧ x < img.width)
    (hy : 0 ≤ y ∧ y < img.height) : img.tap x y = rd img.data (y * img.width + x) := by
  unfold Image.tap
  rw [if_pos ⟨hx, hy⟩]

/-- At a position that passes the bounds test, `bilinear_interpolation` is the bilinear
interpolation of the four pixels around the position. -/
theorem bilinear_interpolation_eq_tap (img : Image) (fx fy : ℚ)
    (h : warp_in_bounds img fx fy) :
    bilinear_interpolation img fx fy = bilinear_tap img fx fy := by
  obtain ⟨⟨hx0, hx1⟩, hy0, hy1⟩ := h
  have a0 : 0 ≤ ⌊fx⌋ := Int.floor_nonneg.mpr hx0
  have a1 : ⌊fx⌋ < img.width - 1 := Int.floor_lt.mpr hx1
  have b0 : 0 ≤ ⌊fy⌋ := Int.floor_nonneg.mpr hy0
  have b1 : ⌊fy⌋ < img.height - 1 := Int.floor_lt.mpr hy1
  unfold bilinear_interpolation bilinear_tap
  simp only [floorf_eq_floor]
  rw [image_tap_eq img ⌊fx⌋ ⌊fy⌋ ⟨a0, by omega⟩ ⟨b0, by omega⟩,
    image_tap_eq img (⌊fx⌋ + 1) ⌊fy⌋ ⟨by omega, by omega⟩ ⟨b0, by omega⟩,
    image_tap_eq img ⌊fx⌋ (⌊fy⌋ + 1) ⟨a0, by omega⟩ ⟨by omega, by omega⟩,
    image_tap_eq img (⌊fx⌋ + 1) (⌊fy⌋ + 1) ⟨by omega, by omega⟩ ⟨by omega, by omega⟩]

/-- The pixel loops of `refine_alignment_ica` compute the vector `b` of the patch, whatever the
rounding of the warped positions. -/
theorem ica_accumulate_rounded_eq (fadd : ℚ → ℚ → ℚ) (ref_img alt_img : Image)
    (grads : ImageGradients) (params : ICAParams) (py px : Int) (d : Alignment)
    (hpy : 0 ≤ py) (hpx : 0 ≤ px) :
    ica_accumulate_rounded fadd ref_img alt_img grads params py px d
      = ica_rhs_rounded fadd ref_img alt_img grads params.tile_size py px d := by
  -- the term added for one pixel
  let term : Int → Int → ℚ × ℚ := fun y x =>
    if ica_pixel_used_rounded fadd ref_img alt_img d (px * params.tile_size + x)
        (py * params.tile_size + y) then
      (-(grads.gx (px * params.tile_size + x) (py * params.tile_size + y) *
          (bilinear_tap alt_img (fadd ((px * params.tile_size + x : Int) : ℚ) d.x)
              (fadd ((py * params.tile_size + y : Int) : ℚ) d.y) -
            ref_img.tap (px * params.tile_size + x) (py * params.tile_size + y))),
       -(grads.gy (px * params.tile_size + x) (py * params.tile_size + y) *
          (bilinear_tap alt_img (fadd ((px * params.tile_size + x : Int) : ℚ) d.x)
              (fadd ((py * params.tile_size + y : Int) : ℚ) d.y) -
            ref_img.tap (px * params.tile_size + x) (py * params.tile_size + y))))
    else 0
  let bodyx : Int → Int → (ℚ × ℚ) × Bool → (ℚ × ℚ) × Bool := fun y x sx =>
    let ref_y := py * params.tile_size + y
    let ref_x := px * params.tile_size + x
    if ref_x ≥ ref_img.width then (sx.1, false)
    else
      let warped_x := fadd (ref_x : ℚ) d.x
      let warped_y := fadd (ref_y : ℚ) d.y
      if warped_x < 0 ∨ warped_x ≥ ((alt_img.width - 1 : Int) : ℚ) ∨
          warped_y < 0 ∨ warped_y ≥ ((alt_img.height - 1 : Int) : ℚ) then sx
      else
        let warped_val := bilinear_interpolation alt_img warped_x warped_y
        let ref_val := rd ref_img.data (ref_y * ref_img.width + ref_x)
        let dt := warped_val - ref_val
        let grad_idx := ref_y * grads.width + ref_x
        ((sx.1.1 + -(rd grads.data_x grad_idx) * dt,
          sx.1.2 + -(rd grads.data_y grad_idx) * dt), true)
  have hx : ∀ y, py * params.tile_size + y < ref_img.height → 0 ≤ py * params.tile_size + y →
      ∀ x, 0 ≤ px * params.tile_size + x → ∀ s,
      bodyx y x (s, true)
        = if px * params.tile_size + x ≥ ref_img.width then (s, false)
          else (s + term y x, true) := by
    intro y hy hy0 x hx0 s
    simp only [bodyx, term]
    by_cases hs : px * params.tile_size + x ≥ ref_img.width
    · rw [if_pos hs, if_pos hs]
    · rw [if_neg hs, if_neg hs]
      by_cases hob : fadd ((px * params.tile_size + x : Int) : ℚ) d.x < 0 ∨
          fadd ((px * params.tile_size + x : Int) : ℚ) d.x ≥ ((alt_img.width - 1 : Int) : ℚ) ∨
          fadd ((py * params.tile_size + y : Int) : ℚ) d.y < 0 ∨
          fadd ((py * params.tile_size + y : Int) : ℚ) d.y ≥ ((alt_img.height - 1 : Int) : ℚ)
      · have hnu : ¬ ica_pixel_used_rounded fadd ref_img alt_img d (px * params.tile_size + x)
            (py * params.tile_size + y) := by
          unfold ica_pixel_used_rounded warp_in_bounds
          rintro ⟨_, ⟨h1, h2⟩, ⟨h3, h4⟩⟩
          rcases hob with h | h | h | h
          · exact absurd h1 (not_le.mpr h)
          · exact absurd h2 (not_lt.mpr h)
          · exact absurd h3 (not_le.mpr h)
          · exact absurd h4 (not_lt.mpr h)
        rw [if_pos hob, if_neg hnu, add_zero]
      · have hu : ica_pixel_used_rounded fadd ref_img alt_img d (px * params.tile_size + x)
            (py * params.tile_size + y) := by
          unfold ica_pixel_used_rounded warp_in_bounds
          simp only [not_or, not_lt, ge_iff_le, not_le] at hob
          exact ⟨⟨hy, by omega⟩, ⟨hob.1, hob.2.1⟩, ⟨hob.2.2.1, hob.2.2.2⟩⟩
        rw [if_neg hob, if_pos hu]
        rw [bilinear_interpolation_eq_tap alt_img _ _ hu.2,
          ← image_tap_eq ref_img _ _ ⟨hx0, by omega⟩ ⟨hy0, hy⟩]
        unfold ImageGradients.gx ImageGradients.gy
        simp only [neg_mul]
        rfl
  have hmono : ∀ (c q : Int), (intRange 0 params.tile_size).Pairwise
      (fun i j => (q * params.tile_size + i ≥ c) → (q * params.tile_size + j ≥ c)) := by
    intro c q
    exact (pairwise_lt_intRange 0 params.tile_size).imp (fun {i j} hij h => by omega)
  have hpos : ∀ (q i : Int), 0 ≤ q → i ∈ intRange 0 params.tile_size →
      0 ≤ q * params.tile_size + i := by
    intro q i hq hi
    have hi2 := mem_intRange.mp hi
    have := mul_nonneg hq (by omega : 0 ≤ params.tile_size)
    omega
  have inner : ∀ y, py * params.tile_size + y < ref_img.height →
      0 ≤ py * params.tile_size + y → ∀ s,
      (whileList (fun sx => sx.2) (bodyx y) (intRange 0 params.tile_size) (s, true)).1
        = s + ((intRange 0 params.tile_size).map (fun x =>
            if px * params.tile_size + x ≥ ref_img.width then 0 else term y x)).sum :=
    fun y hy hy0 => whileList_break_sum (fun x => px * params.tile_size + x ≥ ref_img.width)
      (term y) (bodyx y) (intRange 0 params.tile_size)
      (fun x hxm s => hx y hy hy0 x (hpos px x hpx hxm) s)
      (hmono ref_img.width px)
  have outer := whileList_break_sum (fun y => py * params.tile_size + y ≥ ref_img.height)
    (fun y => ((intRange 0 params.tile_size).map (fun x =>
      if px * params.tile_size + x ≥ ref_img.width then 0 else term y x)).sum)
    (fun y s =>
      if py * params.tile_size + y ≥ ref_img.height then (s.1, false)
      else ((whileList (fun sx => sx.2) (bodyx y) (intRange 0 params.tile_size)
        (s.1, true)).1, true))
    (intRange 0 params.tile_size)
    (fun y hym s => by
      dsimp only
      by_cases hs : py * params.tile_size + y ≥ ref_img.height
      · rw [if_pos hs, if_pos hs]
      · rw [if_neg hs, if_neg hs, inner y (by omega) (hpos py y hpy hym) s])
    (hmono ref_img.height py) (0, 0)
  have hdef : ica_accumulate_rounded fadd ref_img alt_img grads params py px d
      = (whileList (fun s => s.2) (fun y s =>
          if py * params.tile_size + y ≥ ref_img.height then (s.1, false)
          else ((whileList (fun sx => sx.2) (bodyx y) (intRange 0 params.tile_size)
            (s.1, true)).1, true)) (intRange 0 params.tile_size) ((0, 0), true)).1 := rfl
  rw [hdef, outer, sum_intRange_zero]
  have hzero : ((0 : ℚ), (0 : ℚ)) = (0 : ℚ × ℚ) := rfl
  rw [hzero, zero_add]
  have hterm : ∀ y ∈ Finset.range params.tile_size.toNat,
      (if py * params.tile_size + (y : Int) ≥ ref_img.height then (0 : ℚ × ℚ)
        else ((intRange 0 params.tile_size).map (fun x =>
          if px * params.tile_size + x ≥ ref_img.width then 0 else term (y : Int) x)).sum)
      = ∑ x ∈ Finset.range params.tile_size.toNat, term (y : Int) (x : Int) := by
    intro y _
    rw [sum_intRange_zero]
    by_cases hs : py * params.tile_size + (y : Int) ≥ ref_img.height
    · rw [if_pos hs]
      symm
      apply Finset.sum_eq_zero
      intro x _
      simp only [term]
      rw [if_neg]
      unfold ica_pixel_used_rounded
      intro h
      omega
    · rw [if_neg hs]
      refine Finset.sum_congr rfl (fun x _ => ?_)
      by_cases hs2 : px * params.tile_size + (x : Int) ≥ ref_img.width
      · rw [if_pos hs2]
        simp only [term]
        rw [if_neg]
        unfold ica_pixel_used_rounded
        intro h
        omega
      · rw [if_neg hs2]
  rw [Finset.sum_congr rfl hterm]
  unfold ica_rhs_rounded
  apply Prod.ext
  · simp only [Prod.fst_sum, term, apply_ite Prod.fst, Prod.fst_zero]
    rw [← Finset.sum_neg_distrib]
    refine Finset.sum_congr rfl (fun y _ => ?_)
    rw [← Finset.sum_neg_distrib]
    refine Finset.sum_congr rfl (fun x _ => ?_)
    split <;> simp
  · simp only [Prod.snd_sum, term, apply_ite Prod.snd, Prod.snd_zero]
    rw [← Finset.sum_neg_distrib]
    refine Finset.sum_congr rfl (fun y _ => ?_)
    rw [← Finset.sum_neg_distrib]
    refine Finset.sum_congr rfl (fun x _ => ?_)
    split <;> simp

/-- Above the threshold, the vector that `solve_2x2_system` returns satisfies `A * x = b` up to
the rounding of the determinant: `det_f * (A * x) = det * b`, where `det_f` is the determinant
as the code has computed it and `det` the exact one. -/
theorem solve_2x2_system_rounded_solves (fdet : ℚ → ℚ → ℚ → ℚ → ℚ) (A : Int → ℚ) (b : ℚ × ℚ)
    (hdet : ¬ |fdet (A 0) (A 1) (A 2) (A 3)| < 1 / 10 ^ 10) :
    fdet (A 0) (A 1) (A 2) (A 3) *
        (A 0 * (solve_2x2_system_rounded fdet A b).1 +
          A 1 * (solve_2x2_system_rounded fdet A b).2)
      = (A 0 * A 3 - A 1 * A 2) * b.1 ∧
    fdet (A 0) (A 1) (A 2) (A 3) *
        (A 2 * (solve_2x2_system_rounded fdet A b).1 +
          A 3 * (solve_2x2_system_rounded fdet A b).2)
      = (A 0 * A 3 - A 1 * A 2) * b.2 := by
  have hne : fdet (A 0) (A 1) (A 2) (A 3) ≠ 0 := by
    intro h
    apply hdet
    rw [h, abs_zero]
    positivity
  unfold solve_2x2_system_rounded
  simp only [if_neg hdet]
  constructor
  · field_simp
    ring
  · field_simp
    ring

/-- The update of one patch by `refine_alignment_ica`, as a single write, whatever the
roundings. -/
theorem ica_tile_rounded_eq (fadd : ℚ → ℚ → ℚ) (fdet : ℚ → ℚ → ℚ → ℚ → ℚ)
    (ref_img alt_img : Image) (grads : ImageGradients)
    (hessian : HessianMatrix) (params : ICAParams) (width py px : Int)
    (data : List Alignment) (hpy : 0 ≤ py) (hpx : 0 ≤ px)
    (h0 : 0 ≤ py * width + px) (h1 : py * width + px < data.length) :
    ica_tile_rounded fadd fdet ref_img alt_img grads hessian params width py px data
      = writeAt data (py * width + px)
          (if |fdet (hessian.entry px py 0) (hessian.entry px py 1)
            (hessian.entry px py 2) (hessian.entry px py 3)| < 1 / 10 ^ 10 then
            rdA data (py * width + px)
          else
            ⟨(rdA data (py * width + px)).x +
              (solve_2x2_system_rounded fdet (fun k => hessian.entry px py k)
                (ica_rhs_rounded fadd ref_img alt_img grads params.tile_size py px
                  (rdA data (py * width + px)))).1,
             (rdA data (py * width + px)).y +
              (solve_2x2_system_rounded fdet (fun k => hessian.entry px py k)
                (ica_rhs_rounded fadd ref_img alt_img grads params.tile_size py px
                  (rdA data (py * width + px)))).2⟩) := by
  unfold ica_tile_rounded HessianMatrix.entry
  simp only [add_zero]
  split
  · exact (writeAt_readAt_self Alignment.zero data _ h0 h1).symm
  · simp only [rdA]
    rw [readAt_writeAt_same _ _ _ _ h0 h1, writeAt_writeAt, ← rdA,
      ica_accumulate_rounded_eq fadd _ _ _ _ _ _ _ hpy hpx]

/-- Whatever the roundings, one pass of the patch loops of `refine_alignment_ica` over a map of `h * w` patches: every
patch is updated from the displacement it had at the start of the pass. -/
theorem ica_pass_rounded_spec (fadd : ℚ → ℚ → ℚ) (fdet : ℚ → ℚ → ℚ → ℚ → ℚ)
    (ref_img alt_img : Image) (grads : ImageGradients)
    (hessian : HessianMatrix) (params : ICAParams) (h w : Int) (data : List Alignment)
    (hlen : data.length = (h * w).toNat) :
    (forRange 0 h (fun py data => forRange 0 w (fun px data =>
      ica_tile_rounded fadd fdet ref_img alt_img grads hessian params w py px data) data) data).length
        = (h * w).toNat ∧
    ∀ py px, 0 ≤ py → py < h → 0 ≤ px → px < w →
      rdA (forRange 0 h (fun py data => forRange 0 w (fun px data =>
        ica_tile_rounded fadd fdet ref_img alt_img grads hessian params w py px data) data) data) (py * w + px)
      = if |fdet (hessian.entry px py 0) (hessian.entry px py 1)
            (hessian.entry px py 2) (hessian.entry px py 3)| < 1 / 10 ^ 10 then
          rdA data (py * w + px)
        else
          ⟨(rdA data (py * w + px)).x +
            (solve_2x2_system_rounded fdet (fun k => hessian.entry px py k)
              (ica_rhs_rounded fadd ref_img alt_img grads params.tile_size py px
                (rdA data (py * w + px)))).1,
           (rdA data (py * w + px)).y +
            (solve_2x2_system_rounded fdet (fun k => hessian.entry px py k)
              (ica_rhs_rounded fadd ref_img alt_img grads params.tile_size py px
                (rdA data (py * w + px)))).2⟩ := by
  obtain ⟨e1, e2, _⟩ := forRange2_update Alignment.zero h w
    (fun py px => py * w + px)
    (fun py px old =>
      if |fdet (hessian.entry px py 0) (hessian.entry px py 1)
            (hessian.entry px py 2) (hessian.entry px py 3)| < 1 / 10 ^ 10 then old
      else
        ⟨old.x + (solve_2x2_system_rounded fdet (fun k => hessian.entry px py k)
            (ica_rhs_rounded fadd ref_img alt_img grads params.tile_size py px old)).1,
         old.y + (solve_2x2_system_rounded fdet (fun k => hessian.entry px py k)
            (ica_rhs_rounded fadd ref_img alt_img grads params.tile_size py px old)).2⟩)
    (fun py px data => ica_tile_rounded fadd fdet ref_img alt_img grads hessian params w py px data)
    (h * w).toNat data hlen
    (fun y x hy1 hy2 hx1 hx2 => by
      have := idx2_bound (H := h) ⟨hy1, hy2⟩ ⟨hx1, hx2⟩
      dsimp only
      omega)
    (fun y x y2 x2 hy1 hy2 hx1 hx2 hy21 hy22 hx21 hx22 heq =>
      idx2_inj ⟨hx1, hx2⟩ ⟨hx21, hx22⟩ heq)
    (fun y x hy1 hy2 hx1 hx2 l hl => by
      have := idx2_bound (H := h) ⟨hy1, hy2⟩ ⟨hx1, hx2⟩
      exact ica_tile_rounded_eq fadd fdet ref_img alt_img grads hessian params w y x l hy1 hx1
        this.1 (by rw [hl]; omega))
  exact ⟨e1, fun py px a b c d => e2 py px a b c d⟩

/-- With the exact operations, the model with explicit roundings is the model in exact
arithmetic. -/
theorem refine_alignment_ica_rounded_exact (ref_img alt_img : Image) (grads : ImageGradients)
    (hessian : HessianMatrix) (initial : AlignmentMap) (params : ICAParams) :
    refine_alignment_ica_rounded (fun a b => a + b) (fun a b c d => a * d - b * c)
      ref_img alt_img grads hessian initial params
      = refine_alignment_ica ref_img alt_img grads hessian initial params := rfl

/-- The buffer of `refine_alignment_ica` after `k` iterations. -/
theorem refine_alignment_ica_rounded_data (fadd : ℚ → ℚ → ℚ) (fdet : ℚ → ℚ → ℚ → ℚ → ℚ)
    (ref_img alt_img : Image) (grads : ImageGradients)
    (hessian : HessianMatrix) (initial : AlignmentMap) (sigma : ℚ) (ts k : Int)
    (hwf : initial.WF) :
    (refine_alignment_ica_rounded fadd fdet ref_img alt_img grads hessian initial
        ⟨sigma, k, ts⟩).data
      = forRange 0 k (fun _iter data =>
          forRange 0 initial.height (fun py data =>
            forRange 0 initial.width (fun px data =>
              ica_tile_rounded fadd fdet ref_img alt_img grads hessian ⟨sigma, 0, ts⟩
                initial.width py px data)
              data) data) initial.data := by
  have hinit : memcpy (List.replicate (initial.height * initial.width).toNat Alignment.zero)
      initial.data (initial.height * initial.width) = initial.data :=
    memcpy_full Alignment.zero initial.data _ hwf.2.2
  simp only [refine_alignment_ica_rounded, create_alignment_map, hinit]
  rfl

theorem forRange_four {σ : Type} (body : Int → σ → σ) (s : σ) :
    forRange 0 4 body s = body 3 (body 2 (body 1 (body 0 s))) := rfl

/-- Two nested loops with a `break` at the image border, the inner body adding a term: the
loops add the terms of the positions inside the image. -/
theorem break_loops_sum {M : Type} [AddCommMonoid M] (T H W sy sx : Int) (t : Int → Int → M)
    (bodyx : Int → Int → M × Bool → M × Bool)
    (hbx : ∀ y x s, bodyx y x (s, true)
      = if sx + x ≥ W then (s, false) else (s + t y x, true)) (s0 : M) :
    (whileList (fun s => s.2) (fun y s =>
        if sy + y ≥ H then (s.1, false)
        else ((whileList (fun sx => sx.2) (bodyx y) (intRange 0 T) (s.1, true)).1, true))
      (intRange 0 T) (s0, true)).1
    = s0 + ∑ y ∈ Finset.range T.toNat, ∑ x ∈ Finset.range T.toNat,
        if sy + (y : Int) < H ∧ sx + (x : Int) < W then t (y : Int) (x : Int) else 0 := by
  have hmono : ∀ (c q : Int), (intRange 0 T).Pairwise
      (fun i j => (q + i ≥ c) → (q + j ≥ c)) := by
    intro c q
    exact (pairwise_lt_intRange 0 T).imp (fun {i j} hij h => by omega)
  have inner : ∀ y s,
      (whileList (fun sx => sx.2) (bodyx y) (intRange 0 T) (s, true)).1
        = s + ((intRange 0 T).map (fun x => if sx + x ≥ W then 0 else t y x)).sum :=
    fun y => whileList_break_sum (fun x => sx + x ≥ W) (t y) (bodyx y) (intRange 0 T)
      (fun x _ s => hbx y x s) (hmono W sx)
  have outer := whileList_break_sum (fun y => sy + y ≥ H)
    (fun y => ((intRange 0 T).map (fun x => if sx + x ≥ W then 0 else t y x)).sum)
    (fun y s =>
      if sy + y ≥ H then (s.1, false)
      else ((whileList (fun sx => sx.2) (bodyx y) (intRange 0 T) (s.1, true)).1, true))
    (intRange 0 T)
    (fun y _ s => by
      dsimp only
      by_cases hs : sy + y ≥ H
      · rw [if_pos hs, if_pos hs]
      · rw [if_neg hs, if_neg hs, inner y s])
    (hmono H sy) s0
  rw [outer, sum_intRange_zero]
  congr 1
  refine Finset.sum_congr rfl (fun y _ => ?_)
  rw [sum_intRange_zero]
  by_cases hs : sy + (y : Int) ≥ H
  · rw [if_pos hs]
    symm
    apply Finset.sum_eq_zero
    intro x _
    rw [if_neg (by omega)]
  · rw [if_neg hs]
    refine Finset.sum_congr rfl (fun x _ => ?_)
    by_cases hs2 : sx + (x : Int) ≥ W
    · rw [if_pos hs2, if_neg (by omega)]
    · rw [if_neg hs2, if_pos (by omega)]

/-- A sum over the first `n` offsets from `a`, restricted to the positions below `b`, is the
sum over the integers from `a` to `min (a + n) b`. -/
theorem sum_range_truncated (a b : Int) (n : Nat) (g : Int → ℚ) :
    (∑ k ∈ Finset.range n, if a + (k : Int) < b then g (a + (k : Int)) else 0)
      = ((intRange a (min (a + (n : Int)) b)).map g).sum := by
  induction n with
  | zero =>
    rw [intRange_empty (by simp)]
    simp
  | succ n ih =>
    rw [Finset.sum_range_succ, ih]
    by_cases h : a + (n : Int) < b
    · rw [if_pos h]
      have e : min (a + ((n + 1 : Nat) : Int)) b = min (a + (n : Int)) b + 1 := by
        push_cast
        omega
      rw [e, intRange_succ (by omega), List.map_append, List.sum_append]
      have e2 : min (a + (n : Int)) b = a + (n : Int) := by omega
      simp [e2]
    · rw [if_neg h, add_zero]
      have e : min (a + ((n + 1 : Nat) : Int)) b = min (a + (n : Int)) b := by
        push_cast
        omega
      rw [e]

/-- The double sum over the offsets of a patch, restricted to the image, is the sum over the
pixels of the truncated patch. -/
theorem patch_sum_eq (T W H px py : Int) (hT : 0 ≤ T) (f : Int → Int → ℚ) :
    (∑ y ∈ Finset.range T.toNat, ∑ x ∈ Finset.range T.toNat,
      if py * T + (y : Int) < H ∧ px * T + (x : Int) < W then
        f (px * T + (x : Int)) (py * T + (y : Int)) else 0)
      = patch_sum T W H px py f := by
  unfold patch_sum
  have eT : ((T.toNat : Nat) : Int) = T := by omega
  have ey : (py + 1) * T = py * T + ((T.toNat : Nat) : Int) := by rw [eT]; ring
  have ex : (px + 1) * T = px * T + ((T.toNat : Nat) : Int) := by rw [eT]; ring
  rw [ey, ex, ← sum_range_truncated (py * T) H T.toNat]
  refine Finset.sum_congr rfl (fun y _ => ?_)
  rw [← sum_range_truncated (px * T) W T.toNat]
  by_cases hy : py * T + (y : Int) < H
  · rw [if_pos hy]
    refine Finset.sum_congr rfl (fun x _ => ?_)
    by_cases hx : px * T + (x : Int) < W
    · rw [if_pos ⟨hy, hx⟩, if_pos hx]
    · rw [if_neg (fun h => hx h.2), if_neg hx]
  · rw [if_neg hy]
    apply Finset.sum_eq_zero
    intro x _
    rw [if_neg (fun h => hy h.1)]

/-- The accumulation loops of `compute_hessian` compute the three sums of the patch. -/
theorem hessian_accumulate_eq (grads : ImageGradients) (T py px : Int) (hT : 0 ≤ T) :
    hessian_accumulate grads T py px
      = (patch_sum T grads.width grads.height px py (fun x y => grads.gx x y * grads.gx x y),
         patch_sum T grads.width grads.height px py (fun x y => grads.gx x y * grads.gy x y),
         patch_sum T grads.width grads.height px py
          (fun x y => grads.gy x y * grads.gy x y)) := by
  have h := break_loops_sum T grads.height grads.width (py * T) (px * T)
    (fun y x => (grads.gx (px * T + x) (py * T + y) * grads.gx (px * T + x) (py * T + y),
      grads.gx (px * T + x) (py * T + y) * grads.gy (px * T + x) (py * T + y),
      grads.gy (px * T + x) (py * T + y) * grads.gy (px * T + x) (py * T + y)))
    (fun y x sx =>
      let img_y := py * T + y
      let img_x := px * T + x
      if img_x ≥ grads.width then (sx.1, false)
      else
        let idx := img_y * grads.width + img_x
        let gx := rd grads.data_x idx
        let gy := rd grads.data_y idx
        ((sx.1.1 + gx * gx, sx.1.2.1 + gx * gy, sx.1.2.2 + gy * gy), true))
    (fun y x s => by
      dsimp only
      split
      · rfl
      · rfl)
    ((0 : ℚ), (0 : ℚ), (0 : ℚ))
  have hdef : hessian_accumulate grads T py px
      = (whileList (fun s => s.2) (fun y s =>
          if py * T + y ≥ grads.height then (s.1, false)
          else ((whileList (fun sx => sx.2) (fun x sx =>
            let img_y := py * T + y
            let img_x := px * T + x
            if img_x ≥ grads.width then (sx.1, false)
            else
              let idx := img_y * grads.width + img_x
              let gx := rd grads.data_x idx
              let gy := rd grads.data_y idx
              ((sx.1.1 + gx * gx, sx.1.2.1 + gx * gy, sx.1.2.2 + gy * gy), true))
            (intRange 0 T) (s.1, true)).1, true))
        (intRange 0 T) (((0 : ℚ), (0 : ℚ), (0 : ℚ)), true)).1 := rfl
  rw [hdef, h]
  have hzero : ((0 : ℚ), (0 : ℚ), (0 : ℚ)) = (0 : ℚ × ℚ × ℚ) := rfl
  rw [hzero, zero_add]
  rw [← patch_sum_eq T grads.width grads.height px py hT,
    ← patch_sum_eq T grads.width grads.height px py hT,
    ← patch_sum_eq T grads.width grads.height px py hT]
  refine Prod.ext ?_ (Prod.ext ?_ ?_)
  · simp only [Prod.fst_sum, apply_ite Prod.fst, Prod.fst_zero]
  · simp only [Prod.fst_sum, Prod.snd_sum, apply_ite Prod.fst, apply_ite Prod.snd,
      Prod.fst_zero, Prod.snd_zero]
  · simp only [Prod.snd_sum, apply_ite Prod.snd, Prod.snd_zero]

/-- The C expression `(h + T - 1) / T` is the ceiling of `h / T`. -/
theorem tdiv_ceil (h T : Int) (hh : 0 ≤ h) (hT : 1 ≤ T) :
    Int.tdiv (h + T - 1) T = ⌈(h : ℚ) / (T : ℚ)⌉ ∧ 0 ≤ Int.tdiv (h + T - 1) T := by
  have e : Int.tdiv (h + T - 1) T = (h + T - 1) / T := Int.tdiv_eq_ediv (by omega) (by omega)
  rw [e]
  have hTq : (0 : ℚ) < (T : ℚ) := by exact_mod_cast (show (0 : Int) < T by omega)
  have h1 : (h + T - 1) / T * T ≤ h + T - 1 := Int.ediv_mul_le _ (by omega)
  have h2 : h + T - 1 < ((h + T - 1) / T + 1) * T := by
    have := Int.lt_ediv_add_one_mul_self (h + T - 1) (show 0 < T by omega)
    linarith
  refine ⟨?_, Int.ediv_nonneg (by omega) (by omega)⟩
  symm
  rw [Int.ceil_eq_iff]
  constructor
  · rw [lt_div_iff₀ hTq]
    have : ((h + T - 1) / T - 1) * T < h := by nlinarith
    exact_mod_cast this
  · rw [div_le_iff₀ hTq]
    have : h ≤ (h + T - 1) / T * T := by nlinarith
    exact_mod_cast this

/-- The four floats that `compute_hessian` stores for a patch, by position. -/
theorem compute_hessian_entries (grads : ImageGradients) (T : Int) :
    (compute_hessian grads T).height = Int.tdiv (grads.height + T - 1) T ∧
    (compute_hessian grads T).width = Int.tdiv (grads.width + T - 1) T ∧
    ∀ px py k, 0 ≤ py → py < Int.tdiv (grads.height + T - 1) T →
      0 ≤ px → px < Int.tdiv (grads.width + T - 1) T → 0 ≤ k → k < 4 →
      (compute_hessian grads T).entry px py k
        = if k = 0 then (hessian_accumulate grads T py px).1
          else if k = 1 then (hessian_accumulate grads T py px).2.1
          else if k = 2 then (hessian_accumulate grads T py px).2.1
          else (hessian_accumulate grads T py px).2.2 := by
  refine ⟨rfl, rfl, ?_⟩
  obtain ⟨_, e2, _⟩ := forRange3_update (0 : ℚ) (Int.tdiv (grads.height + T - 1) T)
    (Int.tdiv (grads.width + T - 1) T) 4
    (fun py px k => (py * Int.tdiv (grads.width + T - 1) T + px) * 4 + k)
    (fun py px k _ =>
      if k = 0 then (hessian_accumulate grads T py px).1
      else if k = 1 then (hessian_accumulate grads T py px).2.1
      else if k = 2 then (hessian_accumulate grads T py px).2.1
      else (hessian_accumulate grads T py px).2.2)
    (fun py px k data =>
      writeAt data ((py * Int.tdiv (grads.width + T - 1) T + px) * 4 + k)
        (if k = 0 then (hessian_accumulate grads T py px).1
          else if k = 1 then (hessian_accumulate grads T py px).2.1
          else if k = 2 then (hessian_accumulate grads T py px).2.1
          else (hessian_accumulate grads T py px).2.2))
    (Int.tdiv (grads.height + T - 1) T * Int.tdiv (grads.width + T - 1) T * 4).toNat
    (List.replicate
      (Int.tdiv (grads.height + T - 1) T * Int.tdiv (grads.width + T - 1) T * 4).toNat 0)
    (by simp)
    (fun py px k hy1 hy2 hx1 hx2 hk1 hk2 => by
      have := idx3_bound (H := Int.tdiv (grads.height + T - 1) T) ⟨hy1, hy2⟩ ⟨hx1, hx2⟩
        ⟨hk1, hk2⟩
      dsimp only
      omega)
    (fun py px k py2 px2 k2 hy1 hy2 hx1 hx2 hk1 hk2 hy21 hy22 hx21 hx22 hk21 hk22 h =>
      idx3_inj ⟨hx1, hx2⟩ ⟨hx21, hx22⟩ ⟨hk1, hk2⟩ ⟨hk21, hk22⟩ h)
    (fun py px k _ _ _ _ _ _ l _ => rfl)
  intro px py k hy1 hy2 hx1 hx2 hk1 hk2
  have hdata : (compute_hessian grads T).data
      = forRange 0 (Int.tdiv (grads.height + T - 1) T) (fun py l =>
          forRange 0 (Int.tdiv (grads.width + T - 1) T) (fun px l =>
            forRange 0 4 (fun k l =>
              writeAt l ((py * Int.tdiv (grads.width + T - 1) T + px) * 4 + k)
                (if k = 0 then (hessian_accumulate grads T py px).1
                  else if k = 1 then (hessian_accumulate grads T py px).2.1
                  else if k = 2 then (hessian_accumulate grads T py px).2.1
                  else (hessian_accumulate grads T py px).2.2)) l) l)
          (List.replicate
            (Int.tdiv (grads.height + T - 1) T * Int.tdiv (grads.width + T - 1) T * 4).toNat
            0) := by
    unfold compute_hessian
    simp only [forRange_four]
    rfl
  unfold HessianMatrix.entry rd
  rw [hdata]
  exact e2 py px k hy1 hy2 hx1 hx2 hk1 hk2

/-- C13. For every gradient field and tile size `T ≥ 1`, `compute_hessian` returns a grid of
`ceil(height/T)` by `ceil(width/T)` patches in which patch `(px, py)` stores the four values
`(h00, h01, h01, h11)` with `h00 = sum gx^2`, `h01 = sum gx*gy`, `h11 = sum gy^2`, the sums
taken over exactly the pixels `(x, y)` with `px*T ≤ x < min((px+1)*T, width)` and
`py*T ≤ y < min((py+1)*T, height)`. -/
theorem compute_hessian_patch_sums (grads : ImageGradients) (T : Int) (hT : 1 ≤ T)
    (hh : 0 ≤ grads.height) (hw : 0 ≤ grads.width) :
    (compute_hessian grads T).height = ⌈(grads.height : ℚ) / (T : ℚ)⌉ ∧
    (compute_hessian grads T).width = ⌈(grads.width : ℚ) / (T : ℚ)⌉ ∧
    ∀ px py, 0 ≤ py → py < ⌈(grads.height : ℚ) / (T : ℚ)⌉ →
      0 ≤ px → px < ⌈(grads.width : ℚ) / (T : ℚ)⌉ →
      (compute_hessian grads T).entry px py 0
        = patch_sum T grads.width grads.height px py
            (fun x y => grads.gx x y * grads.gx x y) ∧
      (compute_hessian grads T).entry px py 1
        = patch_sum T grads.width grads.height px py
            (fun x y => grads.gx x y * grads.gy x y) ∧
      (compute_hessian grads T).entry px py 2
        = patch_sum T grads.width grads.height px py
            (fun x y => grads.gx x y * grads.gy x y) ∧
      (compute_hessian grads T).entry px py 3
        = patch_sum T grads.width grads.height px py
            (fun x y => grads.gy x y * grads.gy x y) := by
  obtain ⟨e1, e2, e3⟩ := compute_hessian_entries grads T
  obtain ⟨ch, _⟩ := tdiv_ceil grads.height T hh hT
  obtain ⟨cw, _⟩ := tdiv_ceil grads.width T hw hT
  rw [ch] at e1 e3
  rw [cw] at e2 e3
  refine ⟨e1, e2, ?_⟩
  intro px py hy1 hy2 hx1 hx2
  have hacc := hessian_accumulate_eq grads T py px (by omega)
  refine ⟨?_, ?_, ?_, ?_⟩
  · rw [e3 px py 0 hy1 hy2 hx1 hx2 (by decide) (by decide), hacc]
    rfl
  · rw [e3 px py 1 hy1 hy2 hx1 hx2 (by decide) (by decide), hacc]
    rfl
  · rw [e3 px py 2 hy1 hy2 hx1 hx2 (by decide) (by decide), hacc]
    rfl
  · rw [e3 px py 3 hy1 hy2 hx1 hx2 (by decide) (by decide), hacc]
    rfl

theorem patch_sum_zero (T W H px py : Int) (f : Int → Int → ℚ)
    (h : ∀ x y, px * T ≤ x → x < min ((px + 1) * T) W → py * T ≤ y →
      y < min ((py + 1) * T) H → f x y = 0) :
    patch_sum T W H px py f = 0 := by
  unfold patch_sum
  apply List.sum_eq_zero
  intro v hv
  obtain ⟨y, hy, rfl⟩ := List.mem_map.mp hv
  apply List.sum_eq_zero
  intro u hu
  obtain ⟨x, hx, rfl⟩ := List.mem_map.mp hu
  rw [mem_intRange] at hx hy
  exact h x y hx.1 hx.2 hy.1 hy.2

/-- The buffer of the map returned by `refine_alignment_ica`: the passes applied to a copy of
the initial map. -/
theorem refine_alignment_ica_data (ref_img alt_img : Image) (grads : ImageGradients)
    (hessian : HessianMatrix) (initial : AlignmentMap) (sigma : ℚ) (ts k : Int)
    (hwf : initial.WF) :
    (refine_alignment_ica ref_img alt_img grads hessian initial ⟨sigma, k, ts⟩).data
      = forRange 0 k (fun _iter data =>
          forRange 0 initial.height (fun py data =>
            forRange 0 initial.width (fun px data =>
              ica_tile ref_img alt_img grads hessian ⟨sigma, 0, ts⟩ initial.width py px data)
              data) data) initial.data := by
  have hinit : memcpy (List.replicate (initial.height * initial.width).toNat Alignment.zero)
      initial.data (initial.height * initial.width) = initial.data :=
    memcpy_full Alignment.zero initial.data _ hwf.2.2
  simp only [refine_alignment_ica, create_alignment_map, hinit]
  rfl

/-- A patch whose Hessian is below the singularity threshold keeps its displacement through
every number of iterations of `refine_alignment_ica`. -/
theorem refine_alignment_ica_singular (ref_img alt_img : Image) (grads : ImageGradients)
    (hessian : HessianMatrix) (initial : AlignmentMap) (sigma : ℚ) (ts n : Int)
    (px py : Int) (hwf : initial.WF)
    (hpy : 0 ≤ py ∧ py < initial.height) (hpx : 0 ≤ px ∧ px < initial.width)
    (hdet : |hessian.entry px py 0 * hessian.entry px py 3 -
      hessian.entry px py 1 * hessian.entry px py 2| < 1 / 10 ^ 10) :
    (refine_alignment_ica ref_img alt_img grads hessian initial ⟨sigma, n, ts⟩).tile px py
      = initial.tile px py := by
  have hw : (refine_alignment_ica ref_img alt_img grads hessian initial
      ⟨sigma, n, ts⟩).width = initial.width := rfl
  unfold AlignmentMap.tile
  rw [refine_alignment_ica_data _ _ _ _ _ _ _ _ hwf, hw]
  have key := forRange_preserves (fun data : List Alignment =>
      data.length = (initial.height * initial.width).toNat ∧
      rdA data (py * initial.width + px) = rdA initial.data (py * initial.width + px))
    0 n (fun _iter data =>
      forRange 0 initial.height (fun py data =>
        forRange 0 initial.width (fun px data =>
          ica_tile ref_img alt_img grads hessian ⟨sigma, 0, ts⟩ initial.width py px data)
          data) data) initial.data ⟨hwf.2.2, rfl⟩
    (by
      intro i s hs
      obtain ⟨p1, p2⟩ := ica_pass_spec ref_img alt_img grads hessian ⟨sigma, 0, ts⟩
        initial.height initial.width s hs.1
      refine ⟨p1, ?_⟩
      rw [p2 py px hpy.1 hpy.2 hpx.1 hpx.2, if_pos hdet]
      exact hs.2)
  exact key.2

/-- C12. If the gradients `gx` and `gy` are zero at every pixel of a tile, then
`compute_hessian` stores the zero matrix for that tile, and `refine_alignment_ica` returns for
that tile exactly its initial displacement, for every iteration count and every reference and
alternate image. -/
theorem flat_tile_zero_hessian_unchanged (ref_img alt_img : Image) (grads : ImageGradients)
    (initial : AlignmentMap) (sigma : ℚ) (T n : Int) (px py : Int) (hT : 1 ≤ T)
    (hh : 0 ≤ grads.height) (hw : 0 ≤ grads.width) (hwf : initial.WF)
    (hpy : 0 ≤ py ∧ py < initial.height) (hpx : 0 ≤ px ∧ px < initial.width)
    (hgy : py < ⌈(grads.height : ℚ) / (T : ℚ)⌉) (hgx : px < ⌈(grads.width : ℚ) / (T : ℚ)⌉)
    (hflat : ∀ x y, px * T ≤ x → x < min ((px + 1) * T) grads.width → py * T ≤ y →
      y < min ((py + 1) * T) grads.height → grads.gx x y = 0 ∧ grads.gy x y = 0) :
    (∀ k, 0 ≤ k → k < 4 → (compute_hessian grads T).entry px py k = 0) ∧
    (refine_alignment_ica ref_img alt_img grads (compute_hessian grads T) initial
      ⟨sigma, n, T⟩).tile px py = initial.tile px py := by
  obtain ⟨_, _, e3⟩ := compute_hessian_entries grads T
  obtain ⟨ch, _⟩ := tdiv_ceil grads.height T hh hT
  obtain ⟨cw, _⟩ := tdiv_ceil grads.width T hw hT
  rw [ch, cw] at e3
  have hacc := hessian_accumulate_eq grads T py px (by omega)
  have z1 : patch_sum T grads.width grads.height px py
      (fun x y => grads.gx x y * grads.gx x y) = 0 :=
    patch_sum_zero _ _ _ _ _ _ (fun x y a b c d => by
      rw [(hflat x y a b c d).1, mul_zero])
  have z2 : patch_sum T grads.width grads.height px py
      (fun x y => grads.gx x y * grads.gy x y) = 0 :=
    patch_sum_zero _ _ _ _ _ _ (fun x y a b c d => by
      rw [(hflat x y a b c d).1, zero_mul])
  have z3 : patch_sum T grads.width grads.height px py
      (fun x y => grads.gy x y * grads.gy x y) = 0 :=
    patch_sum_zero _ _ _ _ _ _ (fun x y a b c d => by
      rw [(hflat x y a b c d).2, mul_zero])
  rw [z1, z2, z3] at hacc
  have hzero : ∀ k, 0 ≤ k → k < 4 → (compute_hessian grads T).entry px py k = 0 := by
    intro k hk1 hk2
    rw [e3 px py k hpy.1 hgy hpx.1 hgx hk1 hk2, hacc]
    split
    · rfl
    · split
      · rfl
      · split <;> rfl
  refine ⟨hzero, ?_⟩
  apply refine_alignment_ica_singular _ _ _ _ _ _ _ _ _ _ hwf hpy hpx
  rw [hzero 0 (by decide) (by decide), hzero 1 (by decide) (by decide),
    hzero 2 (by decide) (by decide), hzero 3 (by decide) (by decide)]
  norm_num

theorem forRange_neg_one_two {σ : Type} (body : Int → σ → σ) (s : σ) :
    forRange (-1) 2 body s = body 1 (body 0 (body (-1) s)) := rfl

/-- The three-tap loop of the horizontal pass of `compute_prewitt_gradients`. -/
theorem prewitt_taps_x (img : Image) (x y : Int) (hx : 0 ≤ x ∧ x < img.width)
    (hy : 0 ≤ y ∧ y < img.height) :
    forRange (-1) 2 (fun k sum =>
      let xk := x + k
      if xk ≥ 0 ∧ xk < img.width then
        sum + rd img.data (y * img.width + xk) * rd [-1, 0, 1] (k + 1)
      else sum) 0
    = img.tap (x + 1) y - img.tap (x - 1) y := by
  rw [forRange_neg_one_two]
  have k0 : rd [-1, 0, 1] (-1 + 1) = -1 := by decide!
  have k1 : rd [-1, 0, 1] (0 + 1) = 0 := by decide!
  have k2 : rd [-1, 0, 1] (1 + 1) = 1 := by decide!
  rw [k0, k1, k2]
  have e : x + -1 = x - 1 := by ring
  simp only [e, add_zero, mul_zero, mul_one, mul_neg, zero_add]
  unfold Image.tap
  rw [if_pos (show x ≥ 0 ∧ x < img.width from ⟨hx.1, hx.2⟩)]
  by_cases h1 : x - 1 ≥ 0 ∧ x - 1 < img.width
  · by_cases h2 : x + 1 ≥ 0 ∧ x + 1 < img.width
    · rw [if_pos h1, if_pos h2, if_pos ⟨⟨h2.1, h2.2⟩, hy⟩, if_pos ⟨⟨h1.1, h1.2⟩, hy⟩]
      ring
    · rw [if_pos h1, if_neg h2, if_neg (fun h => h2 ⟨h.1.1, h.1.2⟩),
        if_pos ⟨⟨h1.1, h1.2⟩, hy⟩]
      ring
  · by_cases h2 : x + 1 ≥ 0 ∧ x + 1 < img.width
    · rw [if_neg h1, if_pos h2, if_pos ⟨⟨h2.1, h2.2⟩, hy⟩,
        if_neg (fun h => h1 ⟨h.1.1, h.1.2⟩)]
      ring
    · rw [if_neg h1, if_neg h2, if_neg (fun h => h2 ⟨h.1.1, h.1.2⟩),
        if_neg (fun h => h1 ⟨h.1.1, h.1.2⟩)]
      ring

/-- The three-tap loop of the vertical pass of `compute_prewitt_gradients`. -/
theorem prewitt_taps_y (img : Image) (x y : Int) (hx : 0 ≤ x ∧ x < img.width)
    (hy : 0 ≤ y ∧ y < img.height) :
    forRange (-1) 2 (fun k sum =>
      let yk := y + k
      if yk ≥ 0 ∧ yk < img.height then
        sum + rd img.data (yk * img.width + x) * rd [-1, 0, 1] (k + 1)
      else sum) 0
    = img.tap x (y + 1) - img.tap x (y - 1) := by
  rw [forRange_neg_one_two]
  have k0 : rd [-1, 0, 1] (-1 + 1) = -1 := by decide!
  have k1 : rd [-1, 0, 1] (0 + 1) = 0 := by decide!
  have k2 : rd [-1, 0, 1] (1 + 1) = 1 := by decide!
  rw [k0, k1, k2]
  have e : y + -1 = y - 1 := by ring
  simp only [e, add_zero, mul_zero, mul_one, mul_neg, zero_add]
  unfold Image.tap
  rw [if_pos (show y ≥ 0 ∧ y < img.height from ⟨hy.1, hy.2⟩)]
  by_cases h1 : y - 1 ≥ 0 ∧ y - 1 < img.height
  · by_cases h2 : y + 1 ≥ 0 ∧ y + 1 < img.height
    · rw [if_pos h1, if_pos h2, if_pos ⟨hx, ⟨h2.1, h2.2⟩⟩, if_pos ⟨hx, ⟨h1.1, h1.2⟩⟩]
      ring
    · rw [if_pos h1, if_neg h2, if_neg (fun h => h2 ⟨h.2.1, h.2.2⟩),
        if_pos ⟨hx, ⟨h1.1, h1.2⟩⟩]
      ring
  · by_cases h2 : y + 1 ≥ 0 ∧ y + 1 < img.height
    · rw [if_neg h1, if_pos h2, if_pos ⟨hx, ⟨h2.1, h2.2⟩⟩,
        if_neg (fun h => h1 ⟨h.2.1, h.2.2⟩)]
      ring
    · rw [if_neg h1, if_neg h2, if_neg (fun h => h2 ⟨h.2.1, h.2.2⟩),
        if_neg (fun h => h1 ⟨h.2.1, h.2.2⟩)]
      ring

/-- The gradients written by `compute_prewitt_gradients`, pixel by pixel. -/
theorem compute_prewitt_gradients_pixels (img : Image) (grads : ImageGradients)
    (hgw : grads.width = img.width)
    (hlx : grads.data_x.length = (img.height * img.width).toNat)
    (hly : grads.data_y.length = (img.height * img.width).toNat) :
    ∀ x y, 0 ≤ x → x < img.width → 0 ≤ y → y < img.height →
      (compute_prewitt_gradients img grads).gx x y = img.tap (x + 1) y - img.tap (x - 1) y ∧
      (compute_prewitt_gradients img grads).gy x y
        = img.tap x (y + 1) - img.tap x (y - 1) := by
  intro x y hx1 hx2 hy1 hy2
  have hrange : ∀ y x : Int, 0 ≤ y → y < img.height → 0 ≤ x → x < img.width →
      0 ≤ (fun y x : Int => y * img.width + x) y x ∧
      (fun y x : Int => y * img.width + x) y x < ((img.height * img.width).toNat : Int) := by
    intro y x a b c d
    have := idx2_bound (H := img.height) ⟨a, b⟩ ⟨c, d⟩
    dsimp only
    omega
  have hinj : ∀ y x y2 x2 : Int, 0 ≤ y → y < img.height → 0 ≤ x → x < img.width →
      0 ≤ y2 → y2 < img.height → 0 ≤ x2 → x2 < img.width →
      (fun y x : Int => y * img.width + x) y x = (fun y x : Int => y * img.width + x) y2 x2 →
      y = y2 ∧ x = x2 :=
    fun y x y2 x2 _ _ c d _ _ g h heq => idx2_inj ⟨c, d⟩ ⟨g, h⟩ heq
  obtain ⟨_, ex, _⟩ := forRange2_update (0 : ℚ) img.height img.width
    (fun y x => y * img.width + x)
    (fun y x _ => forRange (-1) 2 (fun k sum =>
      let xk := x + k
      if xk ≥ 0 ∧ xk < img.width then
        sum + rd img.data (y * img.width + xk) * rd [-1, 0, 1] (k + 1)
      else sum) 0)
    (fun y x data => writeAt data (y * img.width + x) (forRange (-1) 2 (fun k sum =>
      let xk := x + k
      if xk ≥ 0 ∧ xk < img.width then
        sum + rd img.data (y * img.width + xk) * rd [-1, 0, 1] (k + 1)
      else sum) 0))
    (img.height * img.width).toNat grads.data_x hlx hrange hinj
    (fun y x _ _ _ _ l _ => rfl)
  obtain ⟨_, ey, _⟩ := forRange2_update (0 : ℚ) img.height img.width
    (fun y x => y * img.width + x)
    (fun y x _ => forRange (-1) 2 (fun k sum =>
      let yk := y + k
      if yk ≥ 0 ∧ yk < img.height then
        sum + rd img.data (yk * img.width + x) * rd [-1, 0, 1] (k + 1)
      else sum) 0)
    (fun y x data => writeAt data (y * img.width + x) (forRange (-1) 2 (fun k sum =>
      let yk := y + k
      if yk ≥ 0 ∧ yk < img.height then
        sum + rd img.data (yk * img.width + x) * rd [-1, 0, 1] (k + 1)
      else sum) 0))
    (img.height * img.width).toNat grads.data_y hly hrange hinj
    (fun y x _ _ _ _ l _ => rfl)
  have hw : (compute_prewitt_gradients img grads).width = img.width := hgw
  constructor
  · unfold ImageGradients.gx rd
    rw [hw]
    have := ex y x hy1 hy2 hx1 hx2
    dsimp only at this
    rw [prewitt_taps_x img x y ⟨hx1, hx2⟩ ⟨hy1, hy2⟩] at this
    exact this
  · unfold ImageGradients.gy rd
    rw [hw]
    have := ey y x hy1 hy2 hx1 hx2
    dsimp only at this
    rw [prewitt_taps_y img x y ⟨hx1, hx2⟩ ⟨hy1, hy2⟩] at this
    exact this

/-- C14. For every single-channel image `I`, `compute_prewitt_gradients` sets
`gx(x,y) = I(x+1,y) - I(x-1,y)` and `gy(x,y) = I(x,y+1) - I(x,y-1)`, where a tap outside the
image counts as 0 and no renormalisation is applied; in particular for a constant image of
value `v` with `width ≥ 2`, `gx` is `v` in column 0, `-v` in the last column and 0
elsewhere. -/
theorem compute_prewitt_gradients_spec (img : Image) (grads : ImageGradients)
    (hgw : grads.width = img.width)
    (hlx : grads.data_x.length = (img.height * img.width).toNat)
    (hly : grads.data_y.length = (img.height * img.width).toNat) :
    (∀ x y, 0 ≤ x → x < img.width → 0 ≤ y → y < img.height →
      (compute_prewitt_gradients img grads).gx x y = img.tap (x + 1) y - img.tap (x - 1) y ∧
      (compute_prewitt_gradients img grads).gy x y
        = img.tap x (y + 1) - img.tap x (y - 1)) ∧
    (∀ v : ℚ, 2 ≤ img.width →
      (∀ x y, 0 ≤ x → x < img.width → 0 ≤ y → y < img.height → img.tap x y = v) →
      ∀ x y, 0 ≤ x → x < img.width → 0 ≤ y → y < img.height →
        (compute_prewitt_gradients img grads).gx x y
          = if x = 0 then v else if x = img.width - 1 then -v else 0) := by
  have hp := compute_prewitt_gradients_pixels img grads hgw hlx hly
  refine ⟨hp, ?_⟩
  intro v hw2 hconst x y hx1 hx2 hy1 hy2
  rw [(hp x y hx1 hx2 hy1 hy2).1]
  have hout : ∀ u : Int, ¬ (0 ≤ u ∧ u < img.width) → img.tap u y = 0 := by
    intro u hu
    unfold Image.tap
    rw [if_neg (fun h => hu h.1)]
  by_cases h0 : x = 0
  · rw [if_pos h0, hconst (x + 1) y (by omega) (by omega) hy1 hy2,
      hout (x - 1) (by omega), sub_zero]
  · rw [if_neg h0]
    by_cases h1 : x = img.width - 1
    · rw [if_pos h1, hout (x + 1) (by omega),
        hconst (x - 1) y (by omega) (by omega) hy1 hy2, zero_sub]
    · rw [if_neg h1, hconst (x + 1) y (by omega) (by omega) hy1 hy2,
        hconst (x - 1) y (by omega) (by omega) hy1 hy2, sub_self]

theorem compute_prewitt_gradients_spec_witness :
    (∀ x y, 0 ≤ x → x < (3 : Int) → 0 ≤ y → y < (1 : Int) →
      (compute_prewitt_gradients ⟨[5, 5, 5], 1, 3, 1⟩ ⟨[0, 0, 0], [0, 0, 0], 1, 3⟩).gx x y
        = Image.tap ⟨[5, 5, 5], 1, 3, 1⟩ (x + 1) y - Image.tap ⟨[5, 5, 5], 1, 3, 1⟩ (x - 1) y ∧
      (compute_prewitt_gradients ⟨[5, 5, 5], 1, 3, 1⟩ ⟨[0, 0, 0], [0, 0, 0], 1, 3⟩).gy x y
        = Image.tap ⟨[5, 5, 5], 1, 3, 1⟩ x (y + 1) - Image.tap ⟨[5, 5, 5], 1, 3, 1⟩ x (y - 1)) ∧
    (∀ v : ℚ, (2 : Int) ≤ 3 →
      (∀ x y, 0 ≤ x → x < (3 : Int) → 0 ≤ y → y < (1 : Int) →
        Image.tap ⟨[5, 5, 5], 1, 3, 1⟩ x y = v) →
      ∀ x y, 0 ≤ x → x < (3 : Int) → 0 ≤ y → y < (1 : Int) →
        (compute_prewitt_gradients ⟨[5, 5, 5], 1, 3, 1⟩ ⟨[0, 0, 0], [0, 0, 0], 1, 3⟩).gx x y
          = if x = 0 then v else if x = (3 : Int) - 1 then -v else 0) :=
  compute_prewitt_gradients_spec ⟨[5, 5, 5], 1, 3, 1⟩ ⟨[0, 0, 0], [0, 0, 0], 1, 3⟩
    (by decide) (by decide) (by decide)

theorem rd_writeAt_same (b : List ℚ) (i : Int) (v : ℚ) (h0 : 0 ≤ i) (h1 : i < b.length) :
    rd (writeAt b i v) i = v := readAt_writeAt_same 0 b i v h0 h1

theorem rd_writeAt_ne (b : List ℚ) (i j : Int) (v : ℚ) (h : i ≠ j) :
    rd (writeAt b i v) j = rd b j := readAt_writeAt_ne 0 b i j v h

/-- Every weight computed by `compute_gaussian_kernel` is strictly positive when `expf` is. -/
theorem compute_gaussian_kernel_pos (expf : ℚ → ℚ) (hexp : ∀ t, 0 < expf t) (size : Int)
    (sigma : ℚ) (hsize : 1 ≤ size) :
    ∀ j, 0 ≤ j → j < size →
      0 < rd (compute_gaussian_kernel expf (List.replicate size.toNat 0) size sigma) j := by
  unfold compute_gaussian_kernel
  dsimp only
  have h1 := forRange_induction
    (fun (i : Int) (st : List ℚ × ℚ) => st.1.length = size.toNat ∧
      (∀ j, 0 ≤ j → j < i → 0 < rd st.1 j) ∧ 0 ≤ st.2 ∧ (0 < i → 0 < st.2))
    (fun i (st : List ℚ × ℚ) =>
      (writeAt st.1 i (expf (((-((i - Int.tdiv size 2) * (i - Int.tdiv size 2)) : Int) : ℚ) /
          (2 * sigma * sigma))),
        st.2 + rd (writeAt st.1 i (expf (((-((i - Int.tdiv size 2) *
          (i - Int.tdiv size 2)) : Int) : ℚ) / (2 * sigma * sigma)))) i))
    (List.replicate size.toNat (0 : ℚ), (0 : ℚ)) (show (0 : Int) ≤ size by omega)
    ⟨by simp, fun j a b => by omega, le_rfl, fun h => absurd h (lt_irrefl 0)⟩
    (by
      rintro i st hi0 hi1 ⟨hlen, hpos, hs0, _⟩
      dsimp only
      have hin : i < (st.1.length : Int) := by rw [hlen]; omega
      refine ⟨by rw [length_writeAt, hlen], ?_, ?_, ?_⟩
      · intro j hj0 hj1
        by_cases hji : j = i
        · subst hji
          rw [rd_writeAt_same _ _ _ hi0 hin]
          exact hexp _
        · rw [rd_writeAt_ne _ _ _ _ (fun h => hji h.symm)]
          exact hpos j hj0 (by omega)
      · rw [rd_writeAt_same _ _ _ hi0 hin]
        exact add_nonneg hs0 (le_of_lt (hexp _))
      · intro _
        rw [rd_writeAt_same _ _ _ hi0 hin]
        exact add_pos_of_nonneg_of_pos hs0 (hexp _))
  obtain ⟨hlen, hpos, _, hsum⟩ := h1
  have hS := hsum (by omega)
  have h2 := forRange_preserves (fun k : List ℚ => k.length = size.toNat ∧
      ∀ j, 0 ≤ j → j < size → 0 < rd k j) 0 size
    (fun i kernel => writeAt kernel i (rd kernel i / _)) _ ⟨hlen, hpos⟩
    (by
      rintro i k ⟨kl, kp⟩
      refine ⟨by rw [length_writeAt, kl], ?_⟩
      intro j hj0 hj1
      by_cases hji : j = i
      · subst hji
        rw [rd_writeAt_same _ _ _ hj0 (by rw [kl]; omega)]
        exact div_pos (kp j hj0 hj1) hS
      · rw [rd_writeAt_ne _ _ _ _ (fun h => hji h.symm)]
        exact kp j hj0 hj1)
  exact h2.2

/-- The tap loop of `gaussian_blur_1d` at position `i` of a signal that reads `c` at every
position of the signal: the two sums satisfy `sum = c * weight_sum` with `weight_sum > 0`. -/
theorem blur_taps_constant (kernel : List ℚ) (radius size i : Int) (c : ℚ) (tap : Int → ℚ)
    (hr : 0 ≤ radius) (hi : 0 ≤ i ∧ i < size)
    (hk : ∀ j, 0 ≤ j → j < 2 * radius + 1 → 0 < rd kernel j)
    (htap : ∀ j, 0 ≤ j → j < size → tap j = c) :
    (forRange (-radius) (radius + 1) (fun k (acc : ℚ × ℚ) =>
      let idx := i + k
      if idx ≥ 0 ∧ idx < size then
        let weight := rd kernel (k + radius)
        (acc.1 + tap idx * weight, acc.2 + weight)
      else acc) (0, 0)).1
    / (forRange (-radius) (radius + 1) (fun k (acc : ℚ × ℚ) =>
      let idx := i + k
      if idx ≥ 0 ∧ idx < size then
        let weight := rd kernel (k + radius)
        (acc.1 + tap idx * weight, acc.2 + weight)
      else acc) (0, 0)).2 = c := by
  have h := forRange_induction
    (fun (k : Int) (acc : ℚ × ℚ) => acc.1 = c * acc.2 ∧ 0 ≤ acc.2 ∧ (0 < k → 0 < acc.2))
    (fun k (acc : ℚ × ℚ) =>
      let idx := i + k
      if idx ≥ 0 ∧ idx < size then
        let weight := rd kernel (k + radius)
        (acc.1 + tap idx * weight, acc.2 + weight)
      else acc) ((0 : ℚ), (0 : ℚ)) (show -radius ≤ radius + 1 by omega)
    ⟨by simp, le_rfl, fun h => by omega⟩
    (by
      rintro k acc hk0 hk1 ⟨h1, h2, h3⟩
      dsimp only
      have hw : 0 < rd kernel (k + radius) := hk _ (by omega) (by omega)
      by_cases hin : i + k ≥ 0 ∧ i + k < size
      · rw [if_pos hin]
        refine ⟨?_, ?_, ?_⟩
        · show acc.1 + tap (i + k) * rd kernel (k + radius) = c * (acc.2 + rd kernel (k + radius))
          rw [htap _ hin.1 hin.2, h1]
          ring
        · exact add_nonneg h2 (le_of_lt hw)
        · intro _
          exact add_pos_of_nonneg_of_pos h2 hw
      · rw [if_neg hin]
        refine ⟨h1, h2, ?_⟩
        intro hk2
        have hkpos : 0 < k := by
          by_contra hneg
          have : k = 0 := by omega
          subst this
          exact hin ⟨by omega, by omega⟩
        exact h3 hkpos)
  obtain ⟨h1, _, h3⟩ := h
  have hpos := h3 (by omega)
  rw [h1]
  exact mul_div_cancel_right₀ c (ne_of_gt hpos)

theorem cTrunc_nonneg (q : ℚ) (h : 0 ≤ q) : 0 ≤ cTrunc q := by
  unfold cTrunc
  exact Int.tdiv_nonneg (Rat.num_nonneg.mpr h) (by exact_mod_cast Nat.zero_le _)

/-- C15. For every `sigma > 0`, every length and every constant signal, `gaussian_blur_1d`
returns the same constant at every position, including the positions near the borders: each
output is the sum of the in-range weighted taps divided by the sum of the in-range weights.
This holds for any strictly positive `expf`, for an input buffer distinct from the output
buffer and for a call in place. -/
theorem gaussian_blur_1d_constant (expf : ℚ → ℚ) (hexp : ∀ t, 0 < expf t) (sigma : ℚ)
    (hsigma : 0 < sigma) (size : Int) (c : ℚ) (output : List ℚ)
    (hlen : size ≤ (output.length : Int)) :
    (∀ input : List ℚ, (∀ j, 0 ≤ j → j < size → rd input j = c) →
      ∀ i, 0 ≤ i → i < size →
        rd (gaussian_blur_1d expf (some input) output size sigma) i = c) ∧
    ((∀ j, 0 ≤ j → j < size → rd output j = c) →
      ∀ i, 0 ≤ i → i < size → rd (gaussian_blur_1d expf none output size sigma) i = c) := by
  have hr : 0 ≤ cTrunc (4 * sigma + 1 / 2) := cTrunc_nonneg _ (by positivity)
  have hk := compute_gaussian_kernel_pos expf hexp (2 * cTrunc (4 * sigma + 1 / 2) + 1) sigma
    (by omega)
  constructor
  · intro input hin i hi0 hi1
    by_cases hsz : 0 ≤ size
    · have key := forRange_induction
        (fun (i : Int) (out : List ℚ) => out.length = output.length ∧
          ∀ j, 0 ≤ j → j < i → rd out j = c)
        (fun i out =>
          writeAt out i
            ((forRange (-cTrunc (4 * sigma + 1 / 2)) (cTrunc (4 * sigma + 1 / 2) + 1)
              (fun k (acc : ℚ × ℚ) =>
                let idx := i + k
                if idx ≥ 0 ∧ idx < size then
                  let weight := rd (compute_gaussian_kernel expf
                    (List.replicate (2 * cTrunc (4 * sigma + 1 / 2) + 1).toNat 0)
                    (2 * cTrunc (4 * sigma + 1 / 2) + 1) sigma)
                    (k + cTrunc (4 * sigma + 1 / 2))
                  (acc.1 + rd input idx * weight, acc.2 + weight)
                else acc) (0, 0)).1 /
             (forRange (-cTrunc (4 * sigma + 1 / 2)) (cTrunc (4 * sigma + 1 / 2) + 1)
              (fun k (acc : ℚ × ℚ) =>
                let idx := i + k
                if idx ≥ 0 ∧ idx < size then
                  let weight := rd (compute_gaussian_kernel expf
                    (List.replicate (2 * cTrunc (4 * sigma + 1 / 2) + 1).toNat 0)
                    (2 * cTrunc (4 * sigma + 1 / 2) + 1) sigma)
                    (k + cTrunc (4 * sigma + 1 / 2))
                  (acc.1 + rd input idx * weight, acc.2 + weight)
                else acc) (0, 0)).2))
        output hsz ⟨rfl, fun j a b => by omega⟩
        (by
          rintro i out hi0 hi1 ⟨ol, oc⟩
          have hval := blur_taps_constant (compute_gaussian_kernel expf
            (List.replicate (2 * cTrunc (4 * sigma + 1 / 2) + 1).toNat 0)
            (2 * cTrunc (4 * sigma + 1 / 2) + 1) sigma) (cTrunc (4 * sigma + 1 / 2)) size i c
            (rd input) hr ⟨hi0, hi1⟩ hk hin
          dsimp only at hval ⊢
          rw [hval]
          refine ⟨by rw [length_writeAt, ol], ?_⟩
          intro j hj0 hj1
          by_cases hji : j = i
          · subst hji
            exact rd_writeAt_same _ _ _ hj0 (by rw [ol]; omega)
          · rw [rd_writeAt_ne _ _ _ _ (fun h => hji h.symm)]
            exact oc j hj0 (by omega))
      exact key.2 i hi0 hi1
    · omega
  · intro hout i hi0 hi1
    have key := forRange_preserves
      (fun (out : List ℚ) => out.length = output.length ∧
        ∀ j, 0 ≤ j → j < size → rd out j = c) 0 size
      (fun i out =>
        writeAt out i
          ((forRange (-cTrunc (4 * sigma + 1 / 2)) (cTrunc (4 * sigma + 1 / 2) + 1)
            (fun k (acc : ℚ × ℚ) =>
              let idx := i + k
              if idx ≥ 0 ∧ idx < size then
                let weight := rd (compute_gaussian_kernel expf
                  (List.replicate (2 * cTrunc (4 * sigma + 1 / 2) + 1).toNat 0)
                  (2 * cTrunc (4 * sigma + 1 / 2) + 1) sigma)
                  (k + cTrunc (4 * sigma + 1 / 2))
                (acc.1 + rd out idx * weight, acc.2 + weight)
              else acc) (0, 0)).1 /
           (forRange (-cTrunc (4 * sigma + 1 / 2)) (cTrunc (4 * sigma + 1 / 2) + 1)
            (fun k (acc : ℚ × ℚ) =>
              let idx := i + k
              if idx ≥ 0 ∧ idx < size then
                let weight := rd (compute_gaussian_kernel expf
                  (List.replicate (2 * cTrunc (4 * sigma + 1 / 2) + 1).toNat 0)
                  (2 * cTrunc (4 * sigma + 1 / 2) + 1) sigma)
                  (k + cTrunc (4 * sigma + 1 / 2))
                (acc.1 + rd out idx * weight, acc.2 + weight)
              else acc) (0, 0)).2))
      output ⟨rfl, hout⟩
      (by
        rintro i out ⟨ol, oc⟩
        by_cases hi : 0 ≤ i ∧ i < size
        · have hval := blur_taps_constant (compute_gaussian_kernel expf
            (List.replicate (2 * cTrunc (4 * sigma + 1 / 2) + 1).toNat 0)
            (2 * cTrunc (4 * sigma + 1 / 2) + 1) sigma) (cTrunc (4 * sigma + 1 / 2)) size i c
            (rd out) hr hi hk oc
          dsimp only at hval ⊢
          rw [hval]
          refine ⟨by rw [length_writeAt, ol], ?_⟩
          intro j hj0 hj1
          by_cases hji : j = i
          · subst hji
            exact rd_writeAt_same _ _ _ hj0 (by rw [ol]; omega)
          · rw [rd_writeAt_ne _ _ _ _ (fun h => hji h.symm)]
            exact oc j hj0 hj1
        · refine ⟨by rw [length_writeAt, ol], ?_⟩
          intro j hj0 hj1
          rw [rd_writeAt_ne _ _ _ _ (fun h => hi (by rw [h]; exact ⟨hj0, hj1⟩))]
          exact oc j hj0 hj1)
    exact key.2 i hi0 hi1

theorem gaussian_blur_1d_constant_witness :
    (∀ input : List ℚ, (∀ j, 0 ≤ j → j < (3 : Int) → rd input j = 2) →
      ∀ i, 0 ≤ i → i < (3 : Int) →
        rd (gaussian_blur_1d (fun t => 1 / (1 + t ^ 2)) (some input) [0, 0, 0] 3 (1 / 4)) i
          = 2) ∧
    ((∀ j, 0 ≤ j → j < (3 : Int) → rd [0, 0, 0] j = 2) →
      ∀ i, 0 ≤ i → i < (3 : Int) →
        rd (gaussian_blur_1d (fun t => 1 / (1 + t ^ 2)) none [0, 0, 0] 3 (1 / 4)) i = 2) :=
  gaussian_blur_1d_constant (fun t => 1 / (1 + t ^ 2)) (fun t => by positivity) (1 / 4)
    (by norm_num) 3 2 [0, 0, 0] (by decide)

theorem cTrunc_eq_floor (q : ℚ) (h : 0 ≤ q) : cTrunc q = ⌊q⌋ := by
  unfold cTrunc
  rw [Rat.floor_def, Int.tdiv_eq_ediv (Rat.num_nonneg.mpr h) (by exact_mod_cast Nat.zero_le _)]

theorem forRange_id {σ : Type} (lo hi : Int) (s : σ) :
    forRange lo hi (fun _ s => s) s = s :=
  forRange_preserves (fun t => t = s) lo hi (fun _ s => s) s rfl (fun _ _ h => h)

/-- The value that `warp_image` writes for channel `c` of a sampled pixel, from the sampling
location `(fx, fy)`. -/
theorem warp_value_eq (src : Image) (fx fy : ℚ) (c : Int) (hx : 0 ≤ fx) (hy : 0 ≤ fy) :
    (1 - (fx - (cTrunc fx : ℚ))) * (1 - (fy - (cTrunc fy : ℚ))) *
        rd src.data ((cTrunc fy * src.width + cTrunc fx) * src.channels + c) +
      (fx - (cTrunc fx : ℚ)) * (1 - (fy - (cTrunc fy : ℚ))) *
        rd src.data ((cTrunc fy * src.width + (cTrunc fx + 1)) * src.channels + c) +
      (1 - (fx - (cTrunc fx : ℚ))) * (fy - (cTrunc fy : ℚ)) *
        rd src.data (((cTrunc fy + 1) * src.width + cTrunc fx) * src.channels + c) +
      (fx - (cTrunc fx : ℚ)) * (fy - (cTrunc fy : ℚ)) *
        rd src.data (((cTrunc fy + 1) * src.width + (cTrunc fx + 1)) * src.channels + c)
    = bilinear_sample src fx fy c := by
  rw [cTrunc_eq_floor fx hx, cTrunc_eq_floor fy hy]
  rfl

/-- The output of `warp_image`, sample by sample: the bilinear interpolation at the sampling
location when the location passes the bounds test, and 0 otherwise. -/
theorem warp_image_samples (src : Image) (flow : AlignmentMap) :
    ∃ r, warp_image (some src) (some flow) = some r ∧
      r.height = src.height ∧ r.width = src.width ∧ r.channels = src.channels ∧
      r.data.length = (src.height * src.width * src.channels).toNat ∧
      ∀ x y c, 0 ≤ x → x < src.width → 0 ≤ y → y < src.height → 0 ≤ c → c < src.channels →
        r.sample x y c
          = if warp_sampled src (warp_location src flow x y).1 (warp_location src flow x y).2
            then bilinear_sample src (warp_location src flow x y).1
              (warp_location src flow x y).2 c
            else 0 := by
  -- the buffer after the zero-initialisation loop
  have hzero := forRange_preserves (fun d : List ℚ =>
      d.length = (src.height * src.width * src.channels).toNat ∧ ∀ a ∈ d, a = 0)
    0 (src.height * src.width * src.channels) (fun i data => writeAt data i 0)
    (List.replicate (src.height * src.width * src.channels).toNat 0)
    ⟨by simp, fun a ha => List.eq_of_mem_replicate ha⟩
    (fun i d hd => ⟨by rw [length_writeAt, hd.1], writeAt_forall _ _ _ _ hd.2 rfl⟩)
  -- the body of the pixel loops as a loop over the channels
  have hpix : ∀ (y x : Int) (l : List ℚ),
      warp_pixel src flow src.width src.channels y x l
        = forRange 0 src.channels (fun c l =>
            if warp_sampled src (warp_location src flow x y).1 (warp_location src flow x y).2
            then writeAt l ((y * src.width + x) * src.channels + c)
              (bilinear_sample src (warp_location src flow x y).1
                (warp_location src flow x y).2 c)
            else l) l := by
    intro y x l
    unfold warp_pixel
    dsimp only
    by_cases hs : warp_sampled src (warp_location src flow x y).1
        (warp_location src flow x y).2
    · have hs2 := hs
      unfold warp_sampled warp_location at hs2
      dsimp only at hs2
      rw [if_neg (by
        rintro (h | h | h | h)
        · exact absurd hs2.1.1 (not_le.mpr h)
        · exact absurd hs2.1.2 (not_lt.mpr h)
        · exact absurd hs2.2.1 (not_le.mpr h)
        · exact absurd hs2.2.2 (not_lt.mpr h))]
      simp only [if_pos hs]
      congr 1
      funext c l
      congr 1
      exact warp_value_eq src _ _ c hs2.1.1 hs2.2.1
    · have hs2 := hs
      unfold warp_sampled warp_location at hs2
      dsimp only at hs2
      rw [if_pos (by
        by_contra hcon
        simp only [not_or, not_lt, ge_iff_le, not_le] at hcon
        exact hs2 ⟨⟨hcon.1, hcon.2.1⟩, ⟨hcon.2.2.1, hcon.2.2.2⟩⟩)]
      simp only [if_neg hs]
      exact (forRange_id 0 src.channels l).symm
  obtain ⟨e1, e2, _⟩ := forRange3_update (0 : ℚ) src.height src.width src.channels
    (fun y x c => (y * src.width + x) * src.channels + c)
    (fun y x c old =>
      if warp_sampled src (warp_location src flow x y).1 (warp_location src flow x y).2
      then bilinear_sample src (warp_location src flow x y).1 (warp_location src flow x y).2 c
      else old)
    (fun y x c l =>
      if warp_sampled src (warp_location src flow x y).1 (warp_location src flow x y).2
      then writeAt l ((y * src.width + x) * src.channels + c)
        (bilinear_sample src (warp_location src flow x y).1 (warp_location src flow x y).2 c)
      else l)
    (src.height * src.width * src.channels).toNat
    (forRange 0 (src.height * src.width * src.channels) (fun i data => writeAt data i 0)
      (List.replicate (src.height * src.width * src.channels).toNat 0))
    hzero.1
    (fun y x c hy1 hy2 hx1 hx2 hc1 hc2 => by
      have := idx3_bound (H := src.height) ⟨hy1, hy2⟩ ⟨hx1, hx2⟩ ⟨hc1, hc2⟩
      dsimp only
      omega)
    (fun y x c y2 x2 c2 hy1 hy2 hx1 hx2 hc1 hc2 hy21 hy22 hx21 hx22 hc21 hc22 h =>
      idx3_inj ⟨hx1, hx2⟩ ⟨hx21, hx22⟩ ⟨hc1, hc2⟩ ⟨hc21, hc22⟩ h)
    (fun y x c hy1 hy2 hx1 hx2 hc1 hc2 l hl => by
      have := idx3_bound (H := src.height) ⟨hy1, hy2⟩ ⟨hx1, hx2⟩ ⟨hc1, hc2⟩
      dsimp only
      split
      · rfl
      · exact (writeAt_readAt_self 0 l _ this.1 (by rw [hl]; omega)).symm)
  refine ⟨_, rfl, rfl, rfl, rfl, ?_, ?_⟩
  · simp only [create_image, hpix]
    exact e1
  · intro x y c hx1 hx2 hy1 hy2 hc1 hc2
    have := e2 y x c hy1 hy2 hx1 hx2 hc1 hc2
    unfold Image.sample rd
    simp only [create_image, hpix]
    rw [this]
    split
    · rfl
    · exact readAt_forall (fun a => a = 0) 0 _ _ hzero.2 rfl

/-- The loop over the frames of `temporal_average`: the sum of the values that are not NaN and
their number. -/
theorem temporal_accumulate_eq (frames : List NanImage) (N idx : Int) :
    temporal_accumulate frames N idx
      = (∑ f ∈ (Finset.range N.toNat).filter
            (fun f : ℕ => (readAt (some 0) (frameAt frames (f : Int)).data idx).isSome = true),
          (readAt (some 0) (frameAt frames (f : Int)).data idx).getD 0,
         (((Finset.range N.toNat).filter
            (fun f : ℕ => (readAt (some 0) (frameAt frames (f : Int)).data idx).isSome
              = true)).card : Int)) := by
  have e : temporal_accumulate frames N idx
      = forRange 0 N (fun (f : Int) (acc : ℚ × Int) => acc +
          ((readAt (some 0) (frameAt frames f).data idx).getD 0,
            if (readAt (some 0) (frameAt frames f).data idx).isSome = true then (1 : Int)
            else 0)) (0, 0) := by
    unfold temporal_accumulate
    congr 1
    funext f acc
    dsimp only
    cases readAt (some 0) (frameAt frames f).data idx with
    | none => simp
    | some v => rfl
  rw [e, forRange_add, sum_intRange_zero]
  have hz : ((0 : ℚ), (0 : Int)) = (0 : ℚ × Int) := rfl
  rw [hz, zero_add]
  apply Prod.ext
  · simp only [Prod.fst_sum]
    rw [Finset.sum_filter]
    refine Finset.sum_congr rfl (fun f _ => ?_)
    cases readAt (some 0) (frameAt frames (f : Int)).data idx with
    | none => simp
    | some v => simp
  · simp only [Prod.snd_sum]
    rw [Finset.card_filter]
    push_cast
    rfl

/-- The output of `temporal_average`, sample by sample: the quotient of the accumulated sum by
the number of accumulated values when that number is positive, and 0 otherwise. -/
theorem temporal_average_samples (frames : List NanImage) (N : Int) (hN : 1 ≤ N) :
    ∃ r, temporal_average (some frames) N = some r ∧
      r.height = (frameAt frames 0).height ∧ r.width = (frameAt frames 0).width ∧
      r.channels = (frameAt frames 0).channels ∧
      r.data.length = ((frameAt frames 0).height * (frameAt frames 0).width *
        (frameAt frames 0).channels).toNat ∧
      ∀ x y c, 0 ≤ x → x < (frameAt frames 0).width → 0 ≤ y → y < (frameAt frames 0).height →
        0 ≤ c → c < (frameAt frames 0).channels →
        r.sample x y c
          = if (temporal_accumulate frames N
                ((y * (frameAt frames 0).width + x) * (frameAt frames 0).channels + c)).2 > 0
            then (temporal_accumulate frames N
                ((y * (frameAt frames 0).width + x) * (frameAt frames 0).channels + c)).1 /
              (((temporal_accumulate frames N
                ((y * (frameAt frames 0).width + x) * (frameAt frames 0).channels + c)).2 : Int)
                : ℚ)
            else 0 := by
  obtain ⟨e1, e2, _⟩ := forRange3_update (0 : ℚ) (frameAt frames 0).height
    (frameAt frames 0).width (frameAt frames 0).channels
    (fun y x c => (y * (frameAt frames 0).width + x) * (frameAt frames 0).channels + c)
    (fun y x c _ =>
      if (temporal_accumulate frames N
            ((y * (frameAt frames 0).width + x) * (frameAt frames 0).channels + c)).2 > 0
      then (temporal_accumulate frames N
            ((y * (frameAt frames 0).width + x) * (frameAt frames 0).channels + c)).1 /
          (((temporal_accumulate frames N
            ((y * (frameAt frames 0).width + x) * (frameAt frames 0).channels + c)).2 : Int) : ℚ)
      else 0)
    (fun y x c l =>
      writeAt l ((y * (frameAt frames 0).width + x) * (frameAt frames 0).channels + c)
        (if (temporal_accumulate frames N
              ((y * (frameAt frames 0).width + x) * (frameAt frames 0).channels + c)).2 > 0
        then (temporal_accumulate frames N
              ((y * (frameAt frames 0).width + x) * (frameAt frames 0).channels + c)).1 /
            (((temporal_accumulate frames N
              ((y * (frameAt frames 0).width + x) * (frameAt frames 0).channels + c)).2 : Int)
              : ℚ)
        else 0))
    ((frameAt frames 0).height * (frameAt frames 0).width * (frameAt frames 0).channels).toNat
    (List.replicate ((frameAt frames 0).height * (frameAt frames 0).width *
      (frameAt frames 0).channels).toNat 0)
    (by simp)
    (fun y x c hy1 hy2 hx1 hx2 hc1 hc2 => by
      have := idx3_bound (H := (frameAt frames 0).height) ⟨hy1, hy2⟩ ⟨hx1, hx2⟩ ⟨hc1, hc2⟩
      dsimp only
      omega)
    (fun y x c y2 x2 c2 hy1 hy2 hx1 hx2 hc1 hc2 hy21 hy22 hx21 hx22 hc21 hc22 h =>
      idx3_inj ⟨hx1, hx2⟩ ⟨hx21, hx22⟩ ⟨hc1, hc2⟩ ⟨hc21, hc22⟩ h)
    (fun y x c hy1 hy2 hx1 hx2 hc1 hc2 l hl => rfl)
  unfold temporal_average
  simp only [if_neg (not_le.mpr (show (0 : Int) < N by omega))]
  refine ⟨_, rfl, rfl, rfl, rfl, ?_, ?_⟩
  · exact e1
  · intro x y c hx1 hx2 hy1 hy2 hc1 hc2
    exact e2 y x c hy1 hy2 hx1 hx2 hc1 hc2

/-- The output of `temporal_average` on frames of the same dimensions, in terms of the frames
that are not NaN at the sample. -/
theorem temporal_average_valid_mean (frames : List NanImage) (N : Int) (hN : 1 ≤ N)
    (hdim : ∀ f : Int, 0 ≤ f → f < N →
      (frameAt frames f).height = (frameAt frames 0).height ∧
      (frameAt frames f).width = (frameAt frames 0).width ∧
      (frameAt frames f).channels = (frameAt frames 0).channels) :
    ∃ r, temporal_average (some frames) N = some r ∧
      r.height = (frameAt frames 0).height ∧ r.width = (frameAt frames 0).width ∧
      r.channels = (frameAt frames 0).channels ∧
      r.data.length = ((frameAt frames 0).height * (frameAt frames 0).width *
        (frameAt frames 0).channels).toNat ∧
      ∀ x y c, 0 ≤ x → x < (frameAt frames 0).width → 0 ≤ y → y < (frameAt frames 0).height →
        0 ≤ c → c < (frameAt frames 0).channels →
        r.sample x y c
          = if 0 < (valid_frames_at frames N.toNat x y c).card
            then (∑ f ∈ valid_frames_at frames N.toNat x y c, frame_value frames x y c f) /
              ((valid_frames_at frames N.toNat x y c).card : ℚ)
            else 0 := by
  obtain ⟨r, hr, rh, rw_, rc, rlen, rs⟩ := temporal_average_samples frames N hN
  refine ⟨r, hr, rh, rw_, rc, rlen, ?_⟩
  intro x y c hx1 hx2 hy1 hy2 hc1 hc2
  rw [rs x y c hx1 hx2 hy1 hy2 hc1 hc2, temporal_accumulate_eq]
  have hv : (Finset.range N.toNat).filter
      (fun f : ℕ => (readAt (some 0) (frameAt frames (f : Int)).data
        ((y * (frameAt frames 0).width + x) * (frameAt frames 0).channels + c)).isSome = true)
      = valid_frames_at frames N.toNat x y c := by
    unfold valid_frames_at
    apply Finset.filter_congr
    intro f hf
    rw [Finset.mem_range] at hf
    obtain ⟨_, h2, h3⟩ := hdim (f : Int) (by omega) (by omega)
    unfold NanImage.sample
    rw [h2, h3]
  rw [hv]
  have hs : ∑ f ∈ valid_frames_at frames N.toNat x y c,
      (readAt (some 0) (frameAt frames (f : Int)).data
        ((y * (frameAt frames 0).width + x) * (frameAt frames 0).channels + c)).getD 0
      = ∑ f ∈ valid_frames_at frames N.toNat x y c, frame_value frames x y c f := by
    apply Finset.sum_congr rfl
    intro f hf
    unfold valid_frames_at at hf
    rw [Finset.mem_filter, Finset.mem_range] at hf
    obtain ⟨_, h2, h3⟩ := hdim (f : Int) (by omega) (by omega)
    unfold frame_value NanImage.sample
    rw [h2, h3]
  rw [hs]
  dsimp only
  by_cases hc : 0 < (valid_frames_at frames N.toNat x y c).card
  · rw [if_pos hc, if_pos (by exact_mod_cast hc)]
    push_cast
    rfl
  · rw [if_neg hc, if_neg (by
      intro h
      exact hc (by exact_mod_cast h))]

/-- Reading a stack of copies of one frame. -/
theorem frameAt_replicate (F : NanImage) (n : ℕ) (f : Int) (h0 : 0 ≤ f) (h1 : f < n) :
    frameAt (List.replicate n F) f = F := by
  unfold frameAt readAt
  rw [if_pos h0, List.getD_eq_getElem?_getD, List.getElem?_replicate, if_pos (by omega)]
  rfl

/-- The output of `temporal_average` on `N` copies of a frame: the value of the frame where
it is not NaN, and 0 where it is NaN. -/
theorem temporal_average_replicate (F : NanImage) (N : Int) (hN : 1 ≤ N) :
    ∃ r, temporal_average (some (List.replicate N.toNat F)) N = some r ∧
      r.height = F.height ∧ r.width = F.width ∧ r.channels = F.channels ∧
      r.data.length = (F.height * F.width * F.channels).toNat ∧
      ∀ x y c, 0 ≤ x → x < F.width → 0 ≤ y → y < F.height → 0 ≤ c → c < F.channels →
        r.sample x y c = (F.sample x y c).getD 0 := by
  have hF : ∀ f : Int, 0 ≤ f → f < N → frameAt (List.replicate N.toNat F) f = F :=
    fun f h0 h1 => frameAt_replicate F N.toNat f h0 (by omega)
  have hF0 := hF 0 (le_refl 0) (by omega)
  obtain ⟨r, hr, rh, rw_, rc, rlen, rs⟩ :=
    temporal_average_valid_mean (List.replicate N.toNat F) N hN (fun f h0 h1 => by
      rw [hF f h0 h1, hF0]
      exact ⟨rfl, rfl, rfl⟩)
  rw [hF0] at rh rw_ rc rlen rs
  refine ⟨r, hr, rh, rw_, rc, rlen, ?_⟩
  intro x y c hx1 hx2 hy1 hy2 hc1 hc2
  rw [rs x y c hx1 hx2 hy1 hy2 hc1 hc2]
  have hval : ∀ f ∈ Finset.range N.toNat,
      frameAt (List.replicate N.toNat F) ((f : ℕ) : Int) = F := by
    intro f hf
    rw [Finset.mem_range] at hf
    exact hF f (by omega) (by omega)
  cases hs : F.sample x y c with
  | none =>
    have he : valid_frames_at (List.replicate N.toNat F) N.toNat x y c = ∅ := by
      unfold valid_frames_at
      apply Finset.filter_false_of_mem
      intro f hf
      rw [hval f hf, hs]
      simp
    rw [he]
    simp
  | some v =>
    have he : valid_frames_at (List.replicate N.toNat F) N.toNat x y c
        = Finset.range N.toNat := by
      unfold valid_frames_at
      apply Finset.filter_true_of_mem
      intro f hf
      rw [hval f hf, hs]
      rfl
    rw [he, Finset.card_range, if_pos (by omega)]
    have hsum : ∑ f ∈ Finset.range N.toNat,
        frame_value (List.replicate N.toNat F) x y c f
        = ∑ _f ∈ Finset.range N.toNat, v := by
      apply Finset.sum_congr rfl
      intro f hf
      unfold frame_value
      rw [hval f hf, hs]
      rfl
    rw [hsum, Finset.sum_const, Finset.card_range, nsmul_eq_mul]
    have hne : ((N.toNat : ℕ) : ℚ) ≠ 0 := by
      have : 0 < N.toNat := by omega
      exact_mod_cast this.ne'
    rw [mul_comm, mul_div_assoc, div_self hne, mul_one]
    rfl

/-- C19. For `N ≥ 1` frames of the same dimensions, `temporal_average` returns an image of
these dimensions in which every sample is the arithmetic mean of the values of the frames that
are not NaN at that sample (their sum divided by their number, when there is at least one),
and is 0 when all `N` frames are NaN there; when the frames that are not NaN there are all but
the frame `f0`, the sample is the sum of the other `N - 1` values divided by `N - 1`. -/
theorem temporal_average_mean_of_non_nan (frames : List NanImage) (N : Int) (hN : 1 ≤ N)
    (hdim : ∀ f : Int, 0 ≤ f → f < N →
      (frameAt frames f).height = (frameAt frames 0).height ∧
      (frameAt frames f).width = (frameAt frames 0).width ∧
      (frameAt frames f).channels = (frameAt frames 0).channels) :
    ∃ r, temporal_average (some frames) N = some r ∧
      r.height = (frameAt frames 0).height ∧ r.width = (frameAt frames 0).width ∧
      r.channels = (frameAt frames 0).channels ∧
      ∀ x y c, 0 ≤ x → x < (frameAt frames 0).width → 0 ≤ y → y < (frameAt frames 0).height →
        0 ≤ c → c < (frameAt frames 0).channels →
        (0 < (valid_frames_at frames N.toNat x y c).card →
          r.sample x y c
            = (∑ f ∈ valid_frames_at frames N.toNat x y c, frame_value frames x y c f) /
              ((valid_frames_at frames N.toNat x y c).card : ℚ)) ∧
        (valid_frames_at frames N.toNat x y c = ∅ → r.sample x y c = 0) ∧
        (∀ f0 : ℕ, f0 < N.toNat →
          valid_frames_at frames N.toNat x y c = (Finset.range N.toNat).erase f0 →
          r.sample x y c
            = (∑ f ∈ (Finset.range N.toNat).erase f0, frame_value frames x y c f) /
              ((N : ℚ) - 1)) := by
  obtain ⟨r, hr, rh, rw_, rc, _, rs⟩ := temporal_average_valid_mean frames N hN hdim
  refine ⟨r, hr, rh, rw_, rc, ?_⟩
  intro x y c hx1 hx2 hy1 hy2 hc1 hc2
  have h := rs x y c hx1 hx2 hy1 hy2 hc1 hc2
  refine ⟨?_, ?_, ?_⟩
  · intro hpos
    rw [h, if_pos hpos]
  · intro he
    rw [h, he]
    simp
  · intro f0 hf0 he
    have hcard : (valid_frames_at frames N.toNat x y c).card = N.toNat - 1 := by
      rw [he, Finset.card_erase_of_mem (Finset.mem_range.mpr hf0), Finset.card_range]
    have hcast : ((N.toNat - 1 : ℕ) : ℚ) = (N : ℚ) - 1 := by
      have h1 : 1 ≤ N.toNat := by omega
      rw [Nat.cast_sub h1]
      have h2 : ((N.toNat : ℕ) : ℚ) = ((N.toNat : Int) : ℚ) := by norm_cast
      rw [h2, Int.toNat_of_nonneg (by omega)]
      simp
    rw [h, hcard]
    by_cases hp : 0 < N.toNat - 1
    · rw [if_pos hp, he, hcast]
    · rw [if_neg hp]
      have h0 : (N : ℚ) - 1 = 0 := by
        rw [← hcast]
        have : N.toNat - 1 = 0 := by omega
        rw [this]
        simp
      rw [h0, div_zero]

theorem temporal_average_mean_of_non_nan_witness :
    ∃ r, temporal_average (some [⟨[none, some 1, some 4], 1, 3, 1⟩,
        ⟨[none, some 2, none], 1, 3, 1⟩]) 2 = some r ∧
      r.height = (frameAt [⟨[none, some 1, some 4], 1, 3, 1⟩,
        ⟨[none, some 2, none], 1, 3, 1⟩] 0).height ∧
      r.width = (frameAt [⟨[none, some 1, some 4], 1, 3, 1⟩,
        ⟨[none, some 2, none], 1, 3, 1⟩] 0).width ∧
      r.channels = (frameAt [⟨[none, some 1, some 4], 1, 3, 1⟩,
        ⟨[none, some 2, none], 1, 3, 1⟩] 0).channels ∧
      ∀ x y c, 0 ≤ x → x < (frameAt [⟨[none, some 1, some 4], 1, 3, 1⟩,
          ⟨[none, some 2, none], 1, 3, 1⟩] 0).width →
        0 ≤ y → y < (frameAt [⟨[none, some 1, some 4], 1, 3, 1⟩,
          ⟨[none, some 2, none], 1, 3, 1⟩] 0).height →
        0 ≤ c → c < (frameAt [⟨[none, some 1, some 4], 1, 3, 1⟩,
          ⟨[none, some 2, none], 1, 3, 1⟩] 0).channels →
        (0 < (valid_frames_at [⟨[none, some 1, some 4], 1, 3, 1⟩,
            ⟨[none, some 2, none], 1, 3, 1⟩] (2 : Int).toNat x y c).card →
          r.sample x y c
            = (∑ f ∈ valid_frames_at [⟨[none, some 1, some 4], 1, 3, 1⟩,
                ⟨[none, some 2, none], 1, 3, 1⟩] (2 : Int).toNat x y c,
                frame_value [⟨[none, some 1, some 4], 1, 3, 1⟩,
                  ⟨[none, some 2, none], 1, 3, 1⟩] x y c f) /
              ((valid_frames_at [⟨[none, some 1, some 4], 1, 3, 1⟩,
                ⟨[none, some 2, none], 1, 3, 1⟩] (2 : Int).toNat x y c).card : ℚ)) ∧
        (valid_frames_at [⟨[none, some 1, some 4], 1, 3, 1⟩,
            ⟨[none, some 2, none], 1, 3, 1⟩] (2 : Int).toNat x y c = ∅ →
          r.sample x y c = 0) ∧
        (∀ f0 : ℕ, f0 < (2 : Int).toNat →
          valid_frames_at [⟨[none, some 1, some 4], 1, 3, 1⟩,
            ⟨[none, some 2, none], 1, 3, 1⟩] (2 : Int).toNat x y c
            = (Finset.range (2 : Int).toNat).erase f0 →
          r.sample x y c
            = (∑ f ∈ (Finset.range (2 : Int).toNat).erase f0,
                frame_value [⟨[none, some 1, some 4], 1, 3, 1⟩,
                  ⟨[none, some 2, none], 1, 3, 1⟩] x y c f) / (((2 : Int) : ℚ) - 1)) :=
  temporal_average_mean_of_non_nan [⟨[none, some 1, some 4], 1, 3, 1⟩,
    ⟨[none, some 2, none], 1, 3, 1⟩] 2 (by decide)
    (fun f h0 h1 => by
      have h : f = 0 ∨ f = 1 := by omega
      rcases h with rfl | rfl <;> exact ⟨rfl, rfl, rfl⟩)

/-- C20 (as stated, refuted). A one-pixel frame whose sample is NaN, stacked once:
`temporal_average` returns the sample 0, so it is not true that for every `N ≥ 1` and every
frame `F` the result on `N` copies of `F` has the samples of `F`. -/
theorem temporal_average_copies_nan_counterexample :
    (∃ r, temporal_average (some (List.replicate (1 : Int).toNat ⟨[none], 1, 1, 1⟩)) 1 = some r ∧
      r.sample 0 0 0 = 0 ∧ NanImage.sample ⟨[none], 1, 1, 1⟩ 0 0 0 = none) ∧
    ¬ (∀ (N : Int) (F : NanImage), 1 ≤ N →
        ∃ r, temporal_average (some (List.replicate N.toNat F)) N = some r ∧
          r.height = F.height ∧ r.width = F.width ∧ r.channels = F.channels ∧
          ∀ x y c, 0 ≤ x → x < F.width → 0 ≤ y → y < F.height → 0 ≤ c → c < F.channels →
            F.sample x y c = some (r.sample x y c)) := by
  refine ⟨⟨_, rfl, by decide!, rfl⟩, ?_⟩
  intro h
  obtain ⟨r, _, _, _, _, hs⟩ := h 1 ⟨[none], 1, 1, 1⟩ (le_refl 1)
  have h0 := hs 0 0 0 (le_refl 0) (by decide) (le_refl 0) (by decide) (le_refl 0) (by decide)
  exact absurd h0 (by
    intro hcon
    have : NanImage.sample ⟨[none], 1, 1, 1⟩ 0 0 0 = none := rfl
    rw [this] at hcon
    exact Option.noConfusion hcon)

/-- C20 (amended). For every `N ≥ 1` and every frame `F`, `temporal_average` applied to a stack
of `N` copies of `F` returns an image with the dimensions of `F` in which every sample is the
sample of `F` where that one is not NaN, and 0 where it is NaN; so the result is `F` itself
exactly when `F` holds no NaN. -/
theorem temporal_average_copies (F : NanImage) (N : Int) (hN : 1 ≤ N) :
    ∃ r, temporal_average (some (List.replicate N.toNat F)) N = some r ∧
      r.height = F.height ∧ r.width = F.width ∧ r.channels = F.channels ∧
      ∀ x y c, 0 ≤ x → x < F.width → 0 ≤ y → y < F.height → 0 ≤ c → c < F.channels →
        (∀ v, F.sample x y c = some v → r.sample x y c = v) ∧
        (F.sample x y c = none → r.sample x y c = 0) := by
  obtain ⟨r, hr, rh, rw_, rc, _, rs⟩ := temporal_average_replicate F N hN
  refine ⟨r, hr, rh, rw_, rc, ?_⟩
  intro x y c hx1 hx2 hy1 hy2 hc1 hc2
  have h := rs x y c hx1 hx2 hy1 hy2 hc1 hc2
  constructor
  · intro v hv
    rw [h, hv]
    rfl
  · intro hv
    rw [h, hv]
    rfl

theorem temporal_average_copies_witness :
    ∃ r, temporal_average (some (List.replicate (3 : Int).toNat
        ⟨[some 1, none, some (5 / 2), some 4], 2, 2, 1⟩)) 3 = some r ∧
      r.height = 2 ∧ r.width = 2 ∧ r.channels = 1 ∧
      ∀ x y c, 0 ≤ x → x < (2 : Int) → 0 ≤ y → y < (2 : Int) → 0 ≤ c → c < (1 : Int) →
        (∀ v, NanImage.sample ⟨[some 1, none, some (5 / 2), some 4], 2, 2, 1⟩ x y c = some v →
          r.sample x y c = v) ∧
        (NanImage.sample ⟨[some 1, none, some (5 / 2), some 4], 2, 2, 1⟩ x y c = none →
          r.sample x y c = 0) :=
  temporal_average_copies ⟨[some 1, none, some (5 / 2), some 4], 2, 2, 1⟩ 3 (by decide)

/-- C11. For every row-major 2x2 matrix `A` and vector `b`, `solve_2x2_system` returns
`x = (0, 0)` when `|A0*A3 - A1*A2| < 1e-10`, and otherwise returns the unique `x` with
`A * x = b`. -/
theorem solve_2x2_system_unique_solution (A : Int → ℚ) (b : ℚ × ℚ) :
    (|A 0 * A 3 - A 1 * A 2| < 1 / 10 ^ 10 → solve_2x2_system A b = (0, 0)) ∧
    (¬ |A 0 * A 3 - A 1 * A 2| < 1 / 10 ^ 10 →
      (A 0 * (solve_2x2_system A b).1 + A 1 * (solve_2x2_system A b).2 = b.1 ∧
        A 2 * (solve_2x2_system A b).1 + A 3 * (solve_2x2_system A b).2 = b.2) ∧
      ∀ x : ℚ × ℚ, A 0 * x.1 + A 1 * x.2 = b.1 → A 2 * x.1 + A 3 * x.2 = b.2 →
        x = solve_2x2_system A b) := by
  constructor
  · intro h
    unfold solve_2x2_system
    simp only [if_pos h]
  · intro hdet
    have hne : A 0 * A 3 - A 1 * A 2 ≠ 0 := by
      intro h
      apply hdet
      rw [h, abs_zero]
      positivity
    have hsol : solve_2x2_system A b
        = ((A 3 * b.1 - A 1 * b.2) * (1 / (A 0 * A 3 - A 1 * A 2)),
           (-(A 2) * b.1 + A 0 * b.2) * (1 / (A 0 * A 3 - A 1 * A 2))) := by
      unfold solve_2x2_system
      simp only [if_neg hdet]
    rw [hsol]
    refine ⟨⟨?_, ?_⟩, ?_⟩
    · field_simp
      ring
    · field_simp
      ring
    · intro x h1 h2
      apply Prod.ext
      · show x.1 = (A 3 * b.1 - A 1 * b.2) * (1 / (A 0 * A 3 - A 1 * A 2))
        rw [← h1, ← h2]
        field_simp
        ring
      · show x.2 = (-(A 2) * b.1 + A 0 * b.2) * (1 / (A 0 * A 3 - A 1 * A 2))
        rw [← h1, ← h2]
        field_simp
        ring

/-- C16 (code at the failing inputs). The tile row of `flow_idx` is computed with the number
of columns of the map, `y * flow.width / src.height`, for every input. For a 2x2 image and a
map of 1 row and 2 columns, the index computed for pixel `(0, 1)` is 2, past the 2 entries of
the map, while the governing tile has index 0. For a 4x2 image and a map of 2 rows and 1
column, every pixel of column 0 reads entry 0, while rows 2 and 3 are governed by entry 1: with
the displacements `(0, 0)` and `(0, -1)` the output at pixel `(0, 2)` is the source sample 30 of
row 2, not the sample 20 of row 1. -/
theorem warp_image_flow_index_uses_width :
    (∀ (src : Image) (flow : AlignmentMap) (y x : Int),
      warp_flow_idx src flow y x
        = Int.tdiv (y * flow.width) src.height * flow.width
          + Int.tdiv (x * flow.width) src.width) ∧
    (warp_flow_idx ⟨[1, 1, 1, 1], 2, 2, 1⟩ ⟨[⟨0, 0⟩, ⟨0, 0⟩], 1, 2⟩ 1 0 = 2 ∧
      (([⟨0, 0⟩, ⟨0, 0⟩] : List Alignment).length : Int) = 2 ∧
      governing_tile_idx ⟨[1, 1, 1, 1], 2, 2, 1⟩ ⟨[⟨0, 0⟩, ⟨0, 0⟩], 1, 2⟩ 1 0 = 0) ∧
    (warp_flow_idx ⟨[10, 10, 20, 20, 30, 30, 40, 40], 4, 2, 1⟩ ⟨[⟨0, 0⟩, ⟨0, -1⟩], 2, 1⟩ 2 0
        = 0 ∧
      governing_tile_idx ⟨[10, 10, 20, 20, 30, 30, 40, 40], 4, 2, 1⟩
        ⟨[⟨0, 0⟩, ⟨0, -1⟩], 2, 1⟩ 2 0 = 1 ∧
      (warp_image (some ⟨[10, 10, 20, 20, 30, 30, 40, 40], 4, 2, 1⟩)
          (some ⟨[⟨0, 0⟩, ⟨0, -1⟩], 2, 1⟩)).map (fun r => r.sample 0 2 0) = some 30 ∧
      Image.sample ⟨[10, 10, 20, 20, 30, 30, 40, 40], 4, 2, 1⟩ 0 (2 + (-1)) 0 = 20) := by
  refine ⟨fun _ _ _ _ => rfl, ⟨by decide!, by decide!, by decide!⟩,
    ⟨by decide!, by decide!, by decide!, by decide!⟩⟩

/-- C17 (as stated, refuted). A 2x2 image of ones and the displacement `(1/2, 0)`: the
sampling location of pixel `(0, 0)` is `(1/2, 0)`, outside the closed range
`[0, width - 2] x [0, height - 2] = [0, 0] x [0, 0]`, and the output sample is 1, not 0. -/
theorem warp_image_closed_range_counterexample :
    ∃ r, warp_image (some ⟨[1, 1, 1, 1], 2, 2, 1⟩) (some ⟨[⟨1 / 2, 0⟩], 1, 1⟩) = some r ∧
      warp_location ⟨[1, 1, 1, 1], 2, 2, 1⟩ ⟨[⟨1 / 2, 0⟩], 1, 1⟩ 0 0 = (1 / 2, 0) ∧
      ¬ warp_in_closed_range ⟨[1, 1, 1, 1], 2, 2, 1⟩
        (warp_location ⟨[1, 1, 1, 1], 2, 2, 1⟩ ⟨[⟨1 / 2, 0⟩], 1, 1⟩ 0 0).1
        (warp_location ⟨[1, 1, 1, 1], 2, 2, 1⟩ ⟨[⟨1 / 2, 0⟩], 1, 1⟩ 0 0).2 ∧
      r.sample 0 0 0 = 1 :=
  ⟨_, rfl, by decide!, by decide!, by decide!⟩

/-- C17 (amended). For every source image and displacement map, every output pixel of
`warp_image` whose sampling location `(x + dx, y + dy)` lies outside the half-open range
`[0, width - 1) x [0, height - 1)` is 0 in every channel; a location outside the closed range
`[0, width - 2] x [0, height - 2]` with integer coordinates is outside the half-open range. -/
theorem warp_image_zero_outside_range (src : Image) (flow : AlignmentMap) :
    ∃ r, warp_image (some src) (some flow) = some r ∧
      ∀ x y c, 0 ≤ x → x < src.width → 0 ≤ y → y < src.height → 0 ≤ c → c < src.channels →
        (¬ warp_sampled src (warp_location src flow x y).1 (warp_location src flow x y).2 →
          r.sample x y c = 0) ∧
        (is_integer (warp_location src flow x y).1 →
          is_integer (warp_location src flow x y).2 →
          ¬ warp_in_closed_range src (warp_location src flow x y).1
            (warp_location src flow x y).2 →
          r.sample x y c = 0) := by
  obtain ⟨r, hr, _, _, _, _, rs⟩ := warp_image_samples src flow
  refine ⟨r, hr, ?_⟩
  intro x y c hx1 hx2 hy1 hy2 hc1 hc2
  have h := rs x y c hx1 hx2 hy1 hy2 hc1 hc2
  constructor
  · intro hn
    rw [h, if_neg hn]
  · intro hi1 hi2 hn
    rw [h, if_neg]
    intro hs
    apply hn
    unfold is_integer at hi1 hi2
    have e1 := Rat.coe_int_num_of_den_eq_one hi1
    have e2 := Rat.coe_int_num_of_den_eq_one hi2
    unfold warp_sampled at hs
    unfold warp_in_closed_range
    obtain ⟨⟨a1, a2⟩, b1, b2⟩ := hs
    refine ⟨⟨a1, ?_⟩, b1, ?_⟩
    · rw [← e1] at a2 ⊢
      have h1 : (warp_location src flow x y).1.num < src.width - 1 := by exact_mod_cast a2
      have h2 : (warp_location src flow x y).1.num ≤ src.width - 2 := by omega
      exact_mod_cast h2
    · rw [← e2] at b2 ⊢
      have h1 : (warp_location src flow x y).2.num < src.height - 1 := by exact_mod_cast b2
      have h2 : (warp_location src flow x y).2.num ≤ src.height - 2 := by omega
      exact_mod_cast h2

theorem warp_image_zero_outside_range_witness :
    ∃ r, warp_image (some ⟨[1, 2, 3, 4, 5, 6], 2, 3, 1⟩)
        (some ⟨[⟨3 / 2, 0⟩], 1, 1⟩) = some r ∧
      ∀ x y c, 0 ≤ x → x < (3 : Int) → 0 ≤ y → y < (2 : Int) → 0 ≤ c → c < (1 : Int) →
        (¬ warp_sampled ⟨[1, 2, 3, 4, 5, 6], 2, 3, 1⟩
            (warp_location ⟨[1, 2, 3, 4, 5, 6], 2, 3, 1⟩ ⟨[⟨3 / 2, 0⟩], 1, 1⟩ x y).1
            (warp_location ⟨[1, 2, 3, 4, 5, 6], 2, 3, 1⟩ ⟨[⟨3 / 2, 0⟩], 1, 1⟩ x y).2 →
          r.sample x y c = 0) ∧
        (is_integer (warp_location ⟨[1, 2, 3, 4, 5, 6], 2, 3, 1⟩ ⟨[⟨3 / 2, 0⟩], 1, 1⟩ x y).1 →
          is_integer (warp_location ⟨[1, 2, 3, 4, 5, 6], 2, 3, 1⟩ ⟨[⟨3 / 2, 0⟩], 1, 1⟩ x y).2 →
          ¬ warp_in_closed_range ⟨[1, 2, 3, 4, 5, 6], 2, 3, 1⟩
            (warp_location ⟨[1, 2, 3, 4, 5, 6], 2, 3, 1⟩ ⟨[⟨3 / 2, 0⟩], 1, 1⟩ x y).1
            (warp_location ⟨[1, 2, 3, 4, 5, 6], 2, 3, 1⟩ ⟨[⟨3 / 2, 0⟩], 1, 1⟩ x y).2 →
          r.sample x y c = 0) :=
  warp_image_zero_outside_range ⟨[1, 2, 3, 4, 5, 6], 2, 3, 1⟩ ⟨[⟨3 / 2, 0⟩], 1, 1⟩

/-- The output of `warp_image_rounded`, sample by sample: the bilinear interpolation at the sampling
location when the location passes the bounds test, and 0 otherwise. -/
theorem warp_image_rounded_samples (fadd : ℚ → ℚ → ℚ) (src : Image) (flow : AlignmentMap) :
    ∃ r, warp_image_rounded fadd (some src) (some flow) = some r ∧
      r.height = src.height ∧ r.width = src.width ∧ r.channels = src.channels ∧
      r.data.length = (src.height * src.width * src.channels).toNat ∧
      ∀ x y c, 0 ≤ x → x < src.width → 0 ≤ y → y < src.height → 0 ≤ c → c < src.channels →
        r.sample x y c
          = if warp_sampled src (warp_location_rounded fadd src flow x y).1 (warp_location_rounded fadd src flow x y).2
            then bilinear_sample src (warp_location_rounded fadd src flow x y).1
              (warp_location_rounded fadd src flow x y).2 c
            else 0 := by
  -- the buffer after the zero-initialisation loop
  have hzero := forRange_preserves (fun d : List ℚ =>
      d.length = (src.height * src.width * src.channels).toNat ∧ ∀ a ∈ d, a = 0)
    0 (src.height * src.width * src.channels) (fun i data => writeAt data i 0)
    (List.replicate (src.height * src.width * src.channels).toNat 0)
    ⟨by simp, fun a ha => List.eq_of_mem_replicate ha⟩
    (fun i d hd => ⟨by rw [length_writeAt, hd.1], writeAt_forall _ _ _ _ hd.2 rfl⟩)
  -- the body of the pixel loops as a loop over the channels
  have hpix : ∀ (y x : Int) (l : List ℚ),
      warp_pixel_rounded fadd src flow src.width src.channels y x l
        = forRange 0 src.channels (fun c l =>
            if warp_sampled src (warp_location_rounded fadd src flow x y).1 (warp_location_rounded fadd src flow x y).2
            then writeAt l ((y * src.width + x) * src.channels + c)
              (bilinear_sample src (warp_location_rounded fadd src flow x y).1
                (warp_location_rounded fadd src flow x y).2 c)
            else l) l := by
    intro y x l
    unfold warp_pixel_rounded
    dsimp only
    by_cases hs : warp_sampled src (warp_location_rounded fadd src flow x y).1
        (warp_location_rounded fadd src flow x y).2
    · have hs2 := hs
      unfold warp_sampled warp_location_rounded at hs2
      dsimp only at hs2
      rw [if_neg (by
        rintro (h | h | h | h)
        · exact absurd hs2.1.1 (not_le.mpr h)
        · exact absurd hs2.1.2 (not_lt.mpr h)
        · exact absurd hs2.2.1 (not_le.mpr h)
        · exact absurd hs2.2.2 (not_lt.mpr h))]
      simp only [if_pos hs]
      congr 1
      funext c l
      congr 1
      exact warp_value_eq src _ _ c hs2.1.1 hs2.2.1
    · have hs2 := hs
      unfold warp_sampled warp_location_rounded at hs2
      dsimp only at hs2
      rw [if_pos (by
        by_contra hcon
        simp only [not_or, not_lt, ge_iff_le, not_le] at hcon
        exact hs2 ⟨⟨hcon.1, hcon.2.1⟩, ⟨hcon.2.2.1, hcon.2.2.2⟩⟩)]
      simp only [if_neg hs]
      exact (forRange_id 0 src.channels l).symm
  obtain ⟨e1, e2, _⟩ := forRange3_update (0 : ℚ) src.height src.width src.channels
    (fun y x c => (y * src.width + x) * src.channels + c)
    (fun y x c old =>
      if warp_sampled src (warp_location_rounded fadd src flow x y).1 (warp_location_rounded fadd src flow x y).2
      then bilinear_sample src (warp_location_rounded fadd src flow x y).1 (warp_location_rounded fadd src flow x y).2 c
      else old)
    (fun y x c l =>
      if warp_sampled src (warp_location_rounded fadd src flow x y).1 (warp_location_rounded fadd src flow x y).2
      then writeAt l ((y * src.width + x) * src.channels + c)
        (bilinear_sample src (warp_location_rounded fadd src flow x y).1 (warp_location_rounded fadd src flow x y).2 c)
      else l)
    (src.height * src.width * src.channels).toNat
    (forRange 0 (src.height * src.width * src.channels) (fun i data => writeAt data i 0)
      (List.replicate (src.height * src.width * src.channels).toNat 0))
    hzero.1
    (fun y x c hy1 hy2 hx1 hx2 hc1 hc2 => by
      have := idx3_bound (H := src.height) ⟨hy1, hy2⟩ ⟨hx1, hx2⟩ ⟨hc1, hc2⟩
      dsimp only
      omega)
    (fun y x c y2 x2 c2 hy1 hy2 hx1 hx2 hc1 hc2 hy21 hy22 hx21 hx22 hc21 hc22 h =>
      idx3_inj ⟨hx1, hx2⟩ ⟨hx21, hx22⟩ ⟨hc1, hc2⟩ ⟨hc21, hc22⟩ h)
    (fun y x c hy1 hy2 hx1 hx2 hc1 hc2 l hl => by
      have := idx3_bound (H := src.height) ⟨hy1, hy2⟩ ⟨hx1, hx2⟩ ⟨hc1, hc2⟩
      dsimp only
      split
      · rfl
      · exact (writeAt_readAt_self 0 l _ this.1 (by rw [hl]; omega)).symm)
  refine ⟨_, rfl, rfl, rfl, rfl, ?_, ?_⟩
  · simp only [create_image, hpix]
    exact e1
  · intro x y c hx1 hx2 hy1 hy2 hc1 hc2
    have := e2 y x c hy1 hy2 hx1 hx2 hc1 hc2
    unfold Image.sample rd
    simp only [create_image, hpix]
    rw [this]
    split
    · rfl
    · exact readAt_forall (fun a => a = 0) 0 _ _ hzero.2 rfl

/-- With the exact addition, the model with explicit rounding is the model in exact
arithmetic. -/
theorem warp_image_rounded_exact (src : Option Image) (flow : Option AlignmentMap) :
    warp_image_rounded (fun a b => a + b) src flow = warp_image src flow := rfl

/-- C18. Whatever the rounding `fadd` of the float additions that give the sampling location,
`warp_image` returns an image with the height, width and channel count of the source, and for
every output pixel that it samples (its sampling location, as the code computes it, passes the
bounds test), the value of each channel is the bilinear interpolation of the four source
samples at `(x0, y0)`, `(x0+1, y0)`, `(x0, y0+1)`, `(x0+1, y0+1)` of that channel, where
`(x0, y0)` is the floor of the sampling location and the weights are the products of the
fractional parts and their complements (the interpolated value being taken exactly); a pixel
that the code does not sample is 0. -/
theorem warp_image_bilinear (fadd : ℚ → ℚ → ℚ) (src : Image) (flow : AlignmentMap) :
    ∃ r, warp_image_rounded fadd (some src) (some flow) = some r ∧
      r.height = src.height ∧ r.width = src.width ∧ r.channels = src.channels ∧
      ∀ x y c, 0 ≤ x → x < src.width → 0 ≤ y → y < src.height → 0 ≤ c → c < src.channels →
        (warp_sampled src (warp_location_rounded fadd src flow x y).1
            (warp_location_rounded fadd src flow x y).2 →
          r.sample x y c
            = bilinear_sample src (warp_location_rounded fadd src flow x y).1
                (warp_location_rounded fadd src flow x y).2 c) ∧
        (¬ warp_sampled src (warp_location_rounded fadd src flow x y).1
            (warp_location_rounded fadd src flow x y).2 →
          r.sample x y c = 0) := by
  obtain ⟨r, hr, rh, rw_, rc, _, rs⟩ := warp_image_rounded_samples fadd src flow
  refine ⟨r, hr, rh, rw_, rc, ?_⟩
  intro x y c hx1 hx2 hy1 hy2 hc1 hc2
  constructor
  · intro hs
    rw [rs x y c hx1 hx2 hy1 hy2 hc1 hc2, if_pos hs]
  · intro hs
    rw [rs x y c hx1 hx2 hy1 hy2 hc1 hc2, if_neg hs]

theorem warp_image_bilinear_witness :
    warp_image_rounded (fun a b => (⌊a + b + 1 / 2⌋ : ℚ))
        (some ⟨[1, 2, 4, 8, 16, 32, 64, 128, 256], 3, 3, 1⟩) (some ⟨[⟨3 / 4, 0⟩], 1, 1⟩)
      = some ⟨[2, 0, 0, 16, 0, 0, 0, 0, 0], 3, 3, 1⟩ ∧
    warp_image_rounded (fun a b => a + b)
        (some ⟨[1, 2, 4, 8, 16, 32, 64, 128, 256], 3, 3, 1⟩) (some ⟨[⟨3 / 4, 0⟩], 1, 1⟩)
      = some ⟨[7 / 4, 7 / 2, 0, 14, 28, 0, 0, 0, 0], 3, 3, 1⟩ ∧
    ∃ r, warp_image_rounded (fun a b => (⌊a + b + 1 / 2⌋ : ℚ))
        (some ⟨[1, 2, 4, 8, 16, 32, 64, 128, 256], 3, 3, 1⟩) (some ⟨[⟨3 / 4, 0⟩], 1, 1⟩)
        = some r ∧
      r.height = 3 ∧ r.width = 3 ∧ r.channels = 1 ∧
      ∀ x y c, 0 ≤ x → x < (3 : Int) → 0 ≤ y → y < (3 : Int) → 0 ≤ c → c < (1 : Int) →
        (warp_sampled ⟨[1, 2, 4, 8, 16, 32, 64, 128, 256], 3, 3, 1⟩
            (warp_location_rounded (fun a b => (⌊a + b + 1 / 2⌋ : ℚ))
              ⟨[1, 2, 4, 8, 16, 32, 64, 128, 256], 3, 3, 1⟩ ⟨[⟨3 / 4, 0⟩], 1, 1⟩ x y).1
            (warp_location_rounded (fun a b => (⌊a + b + 1 / 2⌋ : ℚ))
              ⟨[1, 2, 4, 8, 16, 32, 64, 128, 256], 3, 3, 1⟩ ⟨[⟨3 / 4, 0⟩], 1, 1⟩ x y).2 →
          r.sample x y c
            = bilinear_sample ⟨[1, 2, 4, 8, 16, 32, 64, 128, 256], 3, 3, 1⟩
                (warp_location_rounded (fun a b => (⌊a + b + 1 / 2⌋ : ℚ))
                  ⟨[1, 2, 4, 8, 16, 32, 64, 128, 256], 3, 3, 1⟩ ⟨[⟨3 / 4, 0⟩], 1, 1⟩ x y).1
                (warp_location_rounded (fun a b => (⌊a + b + 1 / 2⌋ : ℚ))
                  ⟨[1, 2, 4, 8, 16, 32, 64, 128, 256], 3, 3, 1⟩ ⟨[⟨3 / 4, 0⟩], 1, 1⟩ x y).2 c) ∧
        (¬ warp_sampled ⟨[1, 2, 4, 8, 16, 32, 64, 128, 256], 3, 3, 1⟩
            (warp_location_rounded (fun a b => (⌊a + b + 1 / 2⌋ : ℚ))
              ⟨[1, 2, 4, 8, 16, 32, 64, 128, 256], 3, 3, 1⟩ ⟨[⟨3 / 4, 0⟩], 1, 1⟩ x y).1
            (warp_location_rounded (fun a b => (⌊a + b + 1 / 2⌋ : ℚ))
              ⟨[1, 2, 4, 8, 16, 32, 64, 128, 256], 3, 3, 1⟩ ⟨[⟨3 / 4, 0⟩], 1, 1⟩ x y).2 →
          r.sample x y c = 0) :=
  ⟨by decide!, by decide!,
    warp_image_bilinear (fun a b => (⌊a + b + 1 / 2⌋ : ℚ))
      ⟨[1, 2, 4, 8, 16, 32, 64, 128, 256], 3, 3, 1⟩ ⟨[⟨3 / 4, 0⟩], 1, 1⟩⟩

theorem solve_2x2_system_unique_solution_witness :
    (|(2 : ℚ) * 3 - 1 * 1| < 1 / 10 ^ 10 →
      solve_2x2_system (fun k => rd [2, 1, 1, 3] k) (5, 5) = (0, 0)) ∧
    (¬ |(2 : ℚ) * 3 - 1 * 1| < 1 / 10 ^ 10 →
      ((2 : ℚ) * (solve_2x2_system (fun k => rd [2, 1, 1, 3] k) (5, 5)).1 +
          1 * (solve_2x2_system (fun k => rd [2, 1, 1, 3] k) (5, 5)).2 = 5 ∧
        (1 : ℚ) * (solve_2x2_system (fun k => rd [2, 1, 1, 3] k) (5, 5)).1 +
          3 * (solve_2x2_system (fun k => rd [2, 1, 1, 3] k) (5, 5)).2 = 5) ∧
      ∀ x : ℚ × ℚ, (2 : ℚ) * x.1 + 1 * x.2 = 5 → (1 : ℚ) * x.1 + 3 * x.2 = 5 →
        x = solve_2x2_system (fun k => rd [2, 1, 1, 3] k) (5, 5)) :=
  solve_2x2_system_unique_solution (fun k => rd [2, 1, 1, 3] k) (5, 5)

theorem compute_hessian_patch_sums_witness :
    (compute_hessian ⟨[1, 2, 3, 4, 5, 6], [1, 0, 1, 0, 1, 0], 2, 3⟩ 2).height
      = ⌈((2 : Int) : ℚ) / ((2 : Int) : ℚ)⌉ ∧
    (compute_hessian ⟨[1, 2, 3, 4, 5, 6], [1, 0, 1, 0, 1, 0], 2, 3⟩ 2).width
      = ⌈((3 : Int) : ℚ) / ((2 : Int) : ℚ)⌉ ∧
    ∀ px py, 0 ≤ py → py < ⌈((2 : Int) : ℚ) / ((2 : Int) : ℚ)⌉ →
      0 ≤ px → px < ⌈((3 : Int) : ℚ) / ((2 : Int) : ℚ)⌉ →
      (compute_hessian ⟨[1, 2, 3, 4, 5, 6], [1, 0, 1, 0, 1, 0], 2, 3⟩ 2).entry px py 0
        = patch_sum 2 3 2 px py
            (fun x y => ImageGradients.gx ⟨[1, 2, 3, 4, 5, 6], [1, 0, 1, 0, 1, 0], 2, 3⟩ x y *
              ImageGradients.gx ⟨[1, 2, 3, 4, 5, 6], [1, 0, 1, 0, 1, 0], 2, 3⟩ x y) ∧
      (compute_hessian ⟨[1, 2, 3, 4, 5, 6], [1, 0, 1, 0, 1, 0], 2, 3⟩ 2).entry px py 1
        = patch_sum 2 3 2 px py
            (fun x y => ImageGradients.gx ⟨[1, 2, 3, 4, 5, 6], [1, 0, 1, 0, 1, 0], 2, 3⟩ x y *
              ImageGradients.gy ⟨[1, 2, 3, 4, 5, 6], [1, 0, 1, 0, 1, 0], 2, 3⟩ x y) ∧
      (compute_hessian ⟨[1, 2, 3, 4, 5, 6], [1, 0, 1, 0, 1, 0], 2, 3⟩ 2).entry px py 2
        = patch_sum 2 3 2 px py
            (fun x y => ImageGradients.gx ⟨[1, 2, 3, 4, 5, 6], [1, 0, 1, 0, 1, 0], 2, 3⟩ x y *
              ImageGradients.gy ⟨[1, 2, 3, 4, 5, 6], [1, 0, 1, 0, 1, 0], 2, 3⟩ x y) ∧
      (compute_hessian ⟨[1, 2, 3, 4, 5, 6], [1, 0, 1, 0, 1, 0], 2, 3⟩ 2).entry px py 3
        = patch_sum 2 3 2 px py
            (fun x y => ImageGradients.gy ⟨[1, 2, 3, 4, 5, 6], [1, 0, 1, 0, 1, 0], 2, 3⟩ x y *
              ImageGradients.gy ⟨[1, 2, 3, 4, 5, 6], [1, 0, 1, 0, 1, 0], 2, 3⟩ x y) :=
  compute_hessian_patch_sums ⟨[1, 2, 3, 4, 5, 6], [1, 0, 1, 0, 1, 0], 2, 3⟩ 2 (by decide)
    (by decide) (by decide)

theorem flat_tile_zero_hessian_unchanged_witness :
    (∀ k, 0 ≤ k → k < 4 →
      (compute_hessian ⟨[0, 0, 1, 2, 0, 0, 3, 4], [0, 0, 1, 1, 0, 0, 2, 1], 2, 4⟩ 2).entry
        0 0 k = 0) ∧
    (refine_alignment_ica ⟨[1, 2, 3, 4, 5, 6, 7, 8], 2, 4, 1⟩ ⟨[8, 7, 6, 5, 4, 3, 2, 1], 2, 4, 1⟩
      ⟨[0, 0, 1, 2, 0, 0, 3, 4], [0, 0, 1, 1, 0, 0, 2, 1], 2, 4⟩
      (compute_hessian ⟨[0, 0, 1, 2, 0, 0, 3, 4], [0, 0, 1, 1, 0, 0, 2, 1], 2, 4⟩ 2)
      ⟨[⟨1 / 2, 0⟩, ⟨0, 0⟩], 1, 2⟩ ⟨1, 3, 2⟩).tile 0 0
      = AlignmentMap.tile ⟨[⟨1 / 2, 0⟩, ⟨0, 0⟩], 1, 2⟩ 0 0 :=
  flat_tile_zero_hessian_unchanged ⟨[1, 2, 3, 4, 5, 6, 7, 8], 2, 4, 1⟩
    ⟨[8, 7, 6, 5, 4, 3, 2, 1], 2, 4, 1⟩
    ⟨[0, 0, 1, 2, 0, 0, 3, 4], [0, 0, 1, 1, 0, 0, 2, 1], 2, 4⟩
    ⟨[⟨1 / 2, 0⟩, ⟨0, 0⟩], 1, 2⟩ 1 2 3 0 0 (by decide) (by decide) (by decide)
    ⟨by decide, by decide, rfl⟩ (by decide) (by decide) (by decide!) (by decide!)
    (fun x y h1 h2 h3 h4 => by
      have h2b : x < 2 := lt_of_lt_of_le h2 (min_le_left _ _)
      have h4b : y < 2 := lt_of_lt_of_le h4 (min_le_left _ _)
      have hx : x = 0 ∨ x = 1 := by omega
      have hy : y = 0 ∨ y = 1 := by omega
      rcases hx with rfl | rfl <;> rcases hy with rfl | rfl <;> decide!)

/-- The function `downsample_image` fails on a factor that is not positive. -/
theorem downsample_image_nonpos (img : Image) (f : Int) (hf : f ≤ 0) :
    downsample_image img f = none := by
  unfold downsample_image
  rw [if_pos hf]

/-- The level loop of `init_block_matching` ends without levels once a factor that is not
positive has been met. -/
theorem init_levels_fail (factors : List Int) (n i0 : Int) (h1 : 1 ≤ i0) (h2 : i0 < n)
    (hf : intAt factors i0 ≤ 0) (st : Option (List Image)) :
    forRange 1 n (fun i st =>
      match st with
      | none => none
      | some levels =>
        match downsample_image (levelAt levels (i - 1)) (intAt factors i) with
        | none => none
        | some level => some (levels ++ [level])) st = none := by
  have key := forRange_induction
    (fun (i : Int) (st : Option (List Image)) => i0 < i → st = none)
    (fun i st =>
      match st with
      | none => none
      | some levels =>
        match downsample_image (levelAt levels (i - 1)) (intAt factors i) with
        | none => none
        | some level => some (levels ++ [level]))
    st (show (1 : Int) ≤ n by omega) (fun h => by omega)
    (by
      intro i s hi1 hi2 hP hlt
      by_cases hi : i0 < i
      · rw [hP hi]
      · have e : i = i0 := by omega
        subst e
        cases s with
        | none => rfl
        | some levels =>
          simp only [downsample_image_nonpos _ _ hf])
  exact key h2

/-- C22. `init_block_matching` returns a failure (no pyramid, hence no pyramid level) whenever
the base image is absent, the parameter set is absent, `num_levels ≤ 0`, or some `factors[i]`
with `0 ≤ i < num_levels` is `≤ 0`. -/
theorem init_block_matching_failure (ref_img : Option Image)
    (params : Option BlockMatchingParams)
    (h : ref_img = none ∨ params = none ∨
      ∃ p, params = some p ∧ (p.num_levels ≤ 0 ∨
        ∃ i : Int, 0 ≤ i ∧ i < p.num_levels ∧ intAt p.factors i ≤ 0)) :
    init_block_matching ref_img params = none := by
  cases ref_img with
  | none => rfl
  | some img =>
    cases params with
    | none => rfl
    | some p =>
      rcases h with h | h | ⟨q, hq, h⟩
      · exact absurd h (by simp)
      · exact absurd h (by simp)
      · have e : p = q := Option.some.inj hq
        subst e
        simp only [init_block_matching]
        by_cases hn : p.num_levels ≤ 0
        · rw [if_pos hn]
        · rw [if_neg hn]
          rcases h with h | ⟨i, hi0, hi1, hf⟩
          · exact absurd h hn
          · by_cases hi : i = 0
            · subst hi
              rw [downsample_image_nonpos _ _ hf]
            · cases hd : downsample_image img (intAt p.factors 0) with
              | none => rfl
              | some level0 =>
                simp only []
                exact congrArg (Option.map (fun levels =>
                  ({ levels := levels, num_levels := p.num_levels } : ImagePyramid)))
                  (init_levels_fail p.factors p.num_levels i (by omega) hi1 hf (some [level0]))

theorem init_block_matching_failure_witness :
    init_block_matching (some ⟨[1, 2, 3, 4, 5, 6, 7, 8], 2, 4, 1⟩)
      (some ⟨[2, 0], [1, 1], [0, 0], [1, 1], 2⟩) = none :=
  init_block_matching_failure (some ⟨[1, 2, 3, 4, 5, 6, 7, 8], 2, 4, 1⟩)
    (some ⟨[2, 0], [1, 1], [0, 0], [1, 1], 2⟩)
    (Or.inr (Or.inr ⟨_, rfl, Or.inr ⟨1, by decide, by decide, by decide⟩⟩))

/-- The function `init_block_matching` fails when `num_levels` is not positive. -/
theorem init_block_matching_nonpos (img : Option Image) (params : BlockMatchingParams)
    (h : params.num_levels ≤ 0) : init_block_matching img (some params) = none := by
  cases img with
  | none => rfl
  | some img =>
    simp only [init_block_matching]
    rw [if_pos h]

/-- A fold whose every step returns a value ends with a value when it makes a step or starts
from one. -/
theorem foldl_some_isSome {α β : Type} (g : Option α → β → α) (l : List β) (a : Option α)
    (h : l ≠ [] ∨ a.isSome = true) :
    (l.foldl (fun acc x => some (g acc x)) a).isSome = true := by
  induction l generalizing a with
  | nil =>
    rcases h with h | h
    · exact absurd rfl h
    · exact h
  | cons x l ih =>
    simp only [List.foldl_cons]
    exact ih _ (Or.inr rfl)

/-- C23 (code at the failing inputs). `align_image_block_matching` never looks at the sign of
a tile size or of a search radius: whenever the pyramid of the image to align can be built, it
returns an alignment map. For a 2x2 image, one level, factor 1 and tile size 1, the search
radius 0 and the search radius -1 both give a 2x2 map (of zero displacements); for the search
radius 1 and the tile size -1 the result is a map of height -2 and width -2. -/
theorem align_image_block_matching_no_validation :
    (∀ (img : Option Image) (reference_pyramid : ImagePyramid) (params : BlockMatchingParams)
        (alt_pyramid : ImagePyramid),
      init_block_matching img (some params) = some alt_pyramid →
      (align_image_block_matching img reference_pyramid (some params)).isSome = true) ∧
    align_image_block_matching (some ⟨[1, 2, 3, 4], 2, 2, 1⟩) ⟨[⟨[1, 2, 3, 4], 2, 2, 1⟩], 1⟩
        (some ⟨[1], [1], [1], [0], 1⟩)
      = some ⟨[⟨0, 0⟩, ⟨0, 0⟩, ⟨0, 0⟩, ⟨0, 0⟩], 2, 2⟩ ∧
    align_image_block_matching (some ⟨[1, 2, 3, 4], 2, 2, 1⟩) ⟨[⟨[1, 2, 3, 4], 2, 2, 1⟩], 1⟩
        (some ⟨[1], [1], [1], [-1], 1⟩)
      = some ⟨[⟨0, 0⟩, ⟨0, 0⟩, ⟨0, 0⟩, ⟨0, 0⟩], 2, 2⟩ ∧
    align_image_block_matching (some ⟨[1, 2, 3, 4], 2, 2, 1⟩) ⟨[⟨[1, 2, 3, 4], 2, 2, 1⟩], 1⟩
        (some ⟨[1], [-1], [1], [1], 1⟩)
      = some ⟨[⟨0, 0⟩, ⟨0, 0⟩, ⟨0, 0⟩, ⟨0, 0⟩], -2, -2⟩ := by
  refine ⟨?_, by decide!, by decide!, by decide!⟩
  intro img reference_pyramid params alt_pyramid hinit
  have hn : 0 < params.num_levels := by
    by_contra hcon
    have := init_block_matching_nonpos img params (by omega)
    rw [this] at hinit
    exact Option.noConfusion hinit
  unfold align_image_block_matching
  rw [hinit]
  apply foldl_some_isSome (fun alignments level =>
    align_on_level (levelAt reference_pyramid.levels level)
      (levelAt alt_pyramid.levels level) params level alignments)
  left
  intro hnil
  have h0 : (0 : Int) ∈ (intRange 0 params.num_levels).reverse :=
    List.mem_reverse.mpr (mem_intRange.mpr ⟨le_rfl, hn⟩)
  rw [hnil] at h0
  exact absurd h0 (List.not_mem_nil _)

/-- The function `gaussian_blur_1d` is the renormalised convolution whose kernel has the
radius `gaussian_blur_radius sigma`. -/
theorem gaussian_blur_1d_radius (expf : ℚ → ℚ) (input : Option (List ℚ)) (output : List ℚ)
    (size : Int) (sigma : ℚ) :
    gaussian_blur_1d expf input output size sigma
      = forRange 0 size (fun i output =>
          writeAt output i
            ((forRange (-gaussian_blur_radius sigma) (gaussian_blur_radius sigma + 1)
              (fun k (acc : ℚ × ℚ) =>
                if i + k ≥ 0 ∧ i + k < size then
                  (acc.1 + (match input with
                      | some input => rd input (i + k)
                      | none => rd output (i + k)) *
                    rd (compute_gaussian_kernel expf
                      (List.replicate (2 * gaussian_blur_radius sigma + 1).toNat 0)
                      (2 * gaussian_blur_radius sigma + 1) sigma) (k + gaussian_blur_radius sigma),
                   acc.2 + rd (compute_gaussian_kernel expf
                      (List.replicate (2 * gaussian_blur_radius sigma + 1).toNat 0)
                      (2 * gaussian_blur_radius sigma + 1) sigma) (k + gaussian_blur_radius sigma))
                else acc) (0, 0)).1 /
             (forRange (-gaussian_blur_radius sigma) (gaussian_blur_radius sigma + 1)
              (fun k (acc : ℚ × ℚ) =>
                if i + k ≥ 0 ∧ i + k < size then
                  (acc.1 + (match input with
                      | some input => rd input (i + k)
                      | none => rd output (i + k)) *
                    rd (compute_gaussian_kernel expf
                      (List.replicate (2 * gaussian_blur_radius sigma + 1).toNat 0)
                      (2 * gaussian_blur_radius sigma + 1) sigma) (k + gaussian_blur_radius sigma),
                   acc.2 + rd (compute_gaussian_kernel expf
                      (List.replicate (2 * gaussian_blur_radius sigma + 1).toNat 0)
                      (2 * gaussian_blur_radius sigma + 1) sigma) (k + gaussian_blur_radius sigma))
                else acc) (0, 0)).2)) output := by
  cases input <;> rfl

/-- C25 (as stated, refuted). For `sigma = 3/10` the radius of `gaussian_blur_1d` is
`(int)(1.7) = 1`, which is not the nearest integer to `4 * sigma + 0.5 = 1.7`: the integer 2 is
closer. -/
theorem gaussian_blur_radius_counterexample :
    gaussian_blur_radius (3 / 10) = 1 ∧
    |(4 * (3 / 10) + 1 / 2 : ℚ) - ((2 : Int) : ℚ)| < |(4 * (3 / 10) + 1 / 2 : ℚ) - ((1 : Int) : ℚ)| ∧
    ¬ is_nearest_integer (gaussian_blur_radius (3 / 10)) (4 * (3 / 10) + 1 / 2) := by
  have h1 : gaussian_blur_radius (3 / 10) = 1 := by decide!
  have h2 : |(4 * (3 / 10) + 1 / 2 : ℚ) - ((2 : Int) : ℚ)|
      < |(4 * (3 / 10) + 1 / 2 : ℚ) - ((1 : Int) : ℚ)| := by decide!
  refine ⟨h1, h2, ?_⟩
  intro hn
  rw [h1] at hn
  exact absurd (hn 2) (not_le.mpr h2)

/-- C25 (amended). For every `sigma > 0`, the Gaussian kernel radius used by
`gaussian_blur_1d` is `floor(4 * sigma + 0.5)`: the truncation of `4 * sigma + 0.5`, which is
the nearest integer to `4 * sigma` (a tie being rounded up), and the kernel has
`2 * radius + 1` taps. -/
theorem gaussian_blur_radius_rounds_four_sigma (sigma : ℚ) (hsigma : 0 < sigma) :
    gaussian_blur_radius sigma = ⌊4 * sigma + 1 / 2⌋ ∧
    is_nearest_integer (gaussian_blur_radius sigma) (4 * sigma) ∧
    ((gaussian_blur_radius sigma : ℚ) - 1 / 2 ≤ 4 * sigma ∧
      4 * sigma < (gaussian_blur_radius sigma : ℚ) + 1 / 2) ∧
    ∀ (expf : ℚ → ℚ) (input : Option (List ℚ)) (output : List ℚ) (size : Int),
      gaussian_blur_1d expf input output size sigma
        = forRange 0 size (fun i output =>
            writeAt output i
              ((forRange (-gaussian_blur_radius sigma) (gaussian_blur_radius sigma + 1)
                (fun k (acc : ℚ × ℚ) =>
                  if i + k ≥ 0 ∧ i + k < size then
                    (acc.1 + (match input with
                        | some input => rd input (i + k)
                        | none => rd output (i + k)) *
                      rd (compute_gaussian_kernel expf
                        (List.replicate (2 * gaussian_blur_radius sigma + 1).toNat 0)
                        (2 * gaussian_blur_radius sigma + 1) sigma)
                        (k + gaussian_blur_radius sigma),
                     acc.2 + rd (compute_gaussian_kernel expf
                        (List.replicate (2 * gaussian_blur_radius sigma + 1).toNat 0)
                        (2 * gaussian_blur_radius sigma + 1) sigma)
                        (k + gaussian_blur_radius sigma))
                  else acc) (0, 0)).1 /
               (forRange (-gaussian_blur_radius sigma) (gaussian_blur_radius sigma + 1)
                (fun k (acc : ℚ × ℚ) =>
                  if i + k ≥ 0 ∧ i + k < size then
                    (acc.1 + (match input with
                        | some input => rd input (i + k)
                        | none => rd output (i + k)) *
                      rd (compute_gaussian_kernel expf
                        (List.replicate (2 * gaussian_blur_radius sigma + 1).toNat 0)
                        (2 * gaussian_blur_radius sigma + 1) sigma)
                        (k + gaussian_blur_radius sigma),
                     acc.2 + rd (compute_gaussian_kernel expf
                        (List.replicate (2 * gaussian_blur_radius sigma + 1).toNat 0)
                        (2 * gaussian_blur_radius sigma + 1) sigma)
                        (k + gaussian_blur_radius sigma))
                  else acc) (0, 0)).2)) output := by
  have hfl : gaussian_blur_radius sigma = ⌊4 * sigma + 1 / 2⌋ :=
    cTrunc_eq_floor _ (by positivity)
  have hlo : ((gaussian_blur_radius sigma : Int) : ℚ) ≤ 4 * sigma + 1 / 2 := by
    rw [hfl]
    exact Int.floor_le _
  have hhi : 4 * sigma + 1 / 2 < ((gaussian_blur_radius sigma : Int) : ℚ) + 1 := by
    rw [hfl]
    exact Int.lt_floor_add_one _
  refine ⟨hfl, ?_, ⟨by linarith, by linarith⟩,
    fun expf input output size => gaussian_blur_1d_radius expf input output size sigma⟩
  intro m
  have habs : |4 * sigma - ((gaussian_blur_radius sigma : Int) : ℚ)| ≤ 1 / 2 := by
    rw [abs_le]
    constructor <;> linarith
  rcases le_or_lt m (gaussian_blur_radius sigma - 1) with hm | hm
  · have h1 : (m : ℚ) ≤ ((gaussian_blur_radius sigma : Int) : ℚ) - 1 := by exact_mod_cast hm
    have h2 : 1 / 2 ≤ 4 * sigma - (m : ℚ) := by linarith
    exact le_trans habs (le_trans h2 (le_abs_self _))
  · rcases eq_or_lt_of_le (show gaussian_blur_radius sigma ≤ m by omega) with he | hgt
    · rw [he]
    · have h1 : ((gaussian_blur_radius sigma : Int) : ℚ) + 1 ≤ (m : ℚ) := by exact_mod_cast hgt
      have h2 : 1 / 2 ≤ -(4 * sigma - (m : ℚ)) := by linarith
      exact le_trans habs (le_trans h2 (neg_le_abs _))

theorem gaussian_blur_radius_rounds_four_sigma_witness :
    gaussian_blur_radius (3 / 10) = ⌊4 * (3 / 10 : ℚ) + 1 / 2⌋ ∧
    is_nearest_integer (gaussian_blur_radius (3 / 10)) (4 * (3 / 10)) ∧
    ((gaussian_blur_radius (3 / 10) : ℚ) - 1 / 2 ≤ 4 * (3 / 10) ∧
      4 * (3 / 10) < (gaussian_blur_radius (3 / 10) : ℚ) + 1 / 2) :=
  ⟨(gaussian_blur_radius_rounds_four_sigma (3 / 10) (by norm_num)).1,
    (gaussian_blur_radius_rounds_four_sigma (3 / 10) (by norm_num)).2.1,
    (gaussian_blur_radius_rounds_four_sigma (3 / 10) (by norm_num)).2.2.1⟩

/-- The three sums accumulated by `compute_hessian` for a patch form a positive semidefinite
matrix: the diagonal sums are non-negative and, by the Cauchy-Schwarz inequality, the square of
the mixed sum is at most their product. -/
theorem hessian_accumulate_psd (grads : ImageGradients) (T py px : Int) :
    0 ≤ (hessian_accumulate grads T py px).1 ∧
    0 ≤ (hessian_accumulate grads T py px).2.2 ∧
    (hessian_accumulate grads T py px).2.1 * (hessian_accumulate grads T py px).2.1
      ≤ (hessian_accumulate grads T py px).1 * (hessian_accumulate grads T py px).2.2 := by
  by_cases hT : 0 ≤ T
  · rw [hessian_accumulate_eq grads T py px hT]
    dsimp only
    rw [← patch_sum_eq T grads.width grads.height px py hT,
      ← patch_sum_eq T grads.width grads.height px py hT,
      ← patch_sum_eq T grads.width grads.height px py hT]
    rw [← Finset.sum_product', ← Finset.sum_product', ← Finset.sum_product']
    have e1 : ∀ p : ℕ × ℕ,
        (if py * T + (p.1 : Int) < grads.height ∧ px * T + (p.2 : Int) < grads.width then
          grads.gx (px * T + (p.2 : Int)) (py * T + (p.1 : Int)) *
            grads.gx (px * T + (p.2 : Int)) (py * T + (p.1 : Int)) else 0)
        = (if py * T + (p.1 : Int) < grads.height ∧ px * T + (p.2 : Int) < grads.width then
            grads.gx (px * T + (p.2 : Int)) (py * T + (p.1 : Int)) else 0) ^ 2 := by
      intro p
      split <;> ring
    have e2 : ∀ p : ℕ × ℕ,
        (if py * T + (p.1 : Int) < grads.height ∧ px * T + (p.2 : Int) < grads.width then
          grads.gx (px * T + (p.2 : Int)) (py * T + (p.1 : Int)) *
            grads.gy (px * T + (p.2 : Int)) (py * T + (p.1 : Int)) else 0)
        = (if py * T + (p.1 : Int) < grads.height ∧ px * T + (p.2 : Int) < grads.width then
            grads.gx (px * T + (p.2 : Int)) (py * T + (p.1 : Int)) else 0) *
          (if py * T + (p.1 : Int) < grads.height ∧ px * T + (p.2 : Int) < grads.width then
            grads.gy (px * T + (p.2 : Int)) (py * T + (p.1 : Int)) else 0) := by
      intro p
      split <;> ring
    have e3 : ∀ p : ℕ × ℕ,
        (if py * T + (p.1 : Int) < grads.height ∧ px * T + (p.2 : Int) < grads.width then
          grads.gy (px * T + (p.2 : Int)) (py * T + (p.1 : Int)) *
            grads.gy (px * T + (p.2 : Int)) (py * T + (p.1 : Int)) else 0)
        = (if py * T + (p.1 : Int) < grads.height ∧ px * T + (p.2 : Int) < grads.width then
            grads.gy (px * T + (p.2 : Int)) (py * T + (p.1 : Int)) else 0) ^ 2 := by
      intro p
      split <;> ring
    simp only [e1, e2, e3]
    refine ⟨Finset.sum_nonneg (fun p _ => sq_nonneg _),
      Finset.sum_nonneg (fun p _ => sq_nonneg _), ?_⟩
    rw [← sq]
    exact Finset.sum_mul_sq_le_sq_mul_sq _ _ _
  · have hz : hessian_accumulate grads T py px = (0, 0, 0) := by
      unfold hessian_accumulate forRangeWhile
      rw [intRange_empty (by omega)]
      rfl
    rw [hz]
    simp

/-- C30. For every gradient field and tile size, every 2x2 matrix stored by `compute_hessian`
is symmetric and positive semidefinite in exact arithmetic: entries 1 and 2 are equal,
`h00 ≥ 0`, `h11 ≥ 0` and `h00 * h11 - h01^2 ≥ 0`. -/
theorem compute_hessian_symmetric_psd (grads : ImageGradients) (T : Int) (px py : Int)
    (hpy : 0 ≤ py ∧ py < (compute_hessian grads T).height)
    (hpx : 0 ≤ px ∧ px < (compute_hessian grads T).width) :
    (compute_hessian grads T).entry px py 1 = (compute_hessian grads T).entry px py 2 ∧
    0 ≤ (compute_hessian grads T).entry px py 0 ∧
    0 ≤ (compute_hessian grads T).entry px py 3 ∧
    0 ≤ (compute_hessian grads T).entry px py 0 * (compute_hessian grads T).entry px py 3
      - (compute_hessian grads T).entry px py 1 ^ 2 := by
  obtain ⟨e1, e2, e3⟩ := compute_hessian_entries grads T
  rw [e1] at hpy
  rw [e2] at hpx
  have h0 := e3 px py 0 hpy.1 hpy.2 hpx.1 hpx.2 (by decide) (by decide)
  have h1 := e3 px py 1 hpy.1 hpy.2 hpx.1 hpx.2 (by decide) (by decide)
  have h2 := e3 px py 2 hpy.1 hpy.2 hpx.1 hpx.2 (by decide) (by decide)
  have h3 := e3 px py 3 hpy.1 hpy.2 hpx.1 hpx.2 (by decide) (by decide)
  rw [if_pos rfl] at h0
  rw [if_neg (by decide), if_pos rfl] at h1
  rw [if_neg (by decide), if_neg (by decide), if_pos rfl] at h2
  rw [if_neg (by decide), if_neg (by decide), if_neg (by decide)] at h3
  obtain ⟨p1, p2, p3⟩ := hessian_accumulate_psd grads T py px
  rw [h0, h1, h2, h3]
  refine ⟨rfl, p1, p2, ?_⟩
  rw [sq]
  linarith

theorem compute_hessian_symmetric_psd_witness :
    (compute_hessian ⟨[1, 2, 3, 4, 5, 6], [1, 0, -1, 0, 1, 2], 2, 3⟩ 2).entry 1 0 1
      = (compute_hessian ⟨[1, 2, 3, 4, 5, 6], [1, 0, -1, 0, 1, 2], 2, 3⟩ 2).entry 1 0 2 ∧
    0 ≤ (compute_hessian ⟨[1, 2, 3, 4, 5, 6], [1, 0, -1, 0, 1, 2], 2, 3⟩ 2).entry 1 0 0 ∧
    0 ≤ (compute_hessian ⟨[1, 2, 3, 4, 5, 6], [1, 0, -1, 0, 1, 2], 2, 3⟩ 2).entry 1 0 3 ∧
    0 ≤ (compute_hessian ⟨[1, 2, 3, 4, 5, 6], [1, 0, -1, 0, 1, 2], 2, 3⟩ 2).entry 1 0 0 *
        (compute_hessian ⟨[1, 2, 3, 4, 5, 6], [1, 0, -1, 0, 1, 2], 2, 3⟩ 2).entry 1 0 3
      - (compute_hessian ⟨[1, 2, 3, 4, 5, 6], [1, 0, -1, 0, 1, 2], 2, 3⟩ 2).entry 1 0 1 ^ 2 :=
  compute_hessian_symmetric_psd ⟨[1, 2, 3, 4, 5, 6], [1, 0, -1, 0, 1, 2], 2, 3⟩ 2 1 0
    (by decide!) (by decide!)

/-- Two insertion counts less than a capacity apart fall into different slots. -/
theorem slot_ne_of_lt {C i k : Int} (h1 : i < k) (h2 : k - i < C) : i % C ≠ k % C := by
  intro h
  have hd : C ∣ k - i := by
    have := (Int.emod_emod_of_dvd k (dvd_refl C)).symm
    exact Int.dvd_of_emod_eq_zero (by rw [Int.sub_emod, h, sub_self, Int.zero_emod])
  have := Int.le_of_dvd (by omega) hd
  omega

theorem nth_frame_append_lt (fs : List Image) (f : Image) (i : Int) (h : i < fs.length) :
    nth_frame (fs ++ [f]) i = nth_frame fs i := by
  unfold nth_frame
  split
  · rw [List.get?_eq_getElem?, List.get?_eq_getElem?, List.getElem?_append_left (by omega)]
  · rfl

theorem nth_frame_append_eq (fs : List Image) (f : Image) :
    nth_frame (fs ++ [f]) (fs.length : Int) = some f := by
  unfold nth_frame
  rw [if_pos (by omega)]
  simp

theorem add_frames_append (b : FrameBuffer) (fs : List Image) (f : Image) :
    add_frames b (fs ++ [f])
      = ((add_frame_to_buffer (some (add_frames b fs)) (some f)).2).getD (add_frames b fs) := by
  unfold add_frames
  rw [List.foldl_append]
  rfl

/-- The state of a frame buffer of capacity `C ≥ 1` after the insertion of the frames `fs`
into the fresh buffer. -/
theorem add_frames_state (C : Int) (hC : 1 ≤ C) (fs : List Image) :
    (add_frames (create_frame_buffer C) fs).capacity = C ∧
    (add_frames (create_frame_buffer C) fs).frames.length = C.toNat ∧
    (add_frames (create_frame_buffer C) fs).size = min (fs.length : Int) C ∧
    (add_frames (create_frame_buffer C) fs).current = (fs.length : Int) % C ∧
    (∀ i : Int, 0 ≤ i → (fs.length : Int) - C ≤ i → i < fs.length →
      (add_frames (create_frame_buffer C) fs).slot (i % C) = nth_frame fs i) ∧
    (∀ j : Int, (fs.length : Int) ≤ j → j < C →
      (add_frames (create_frame_buffer C) fs).slot j = none) := by
  induction fs using List.reverseRecOn with
  | nil =>
    refine ⟨rfl, by simp [add_frames, create_frame_buffer], ?_, ?_, ?_, ?_⟩
    · simp [add_frames, create_frame_buffer]
      omega
    · simp [add_frames, create_frame_buffer]
    · intro i h0 _ h2
      simp at h2
      omega
    · intro j hj0 hj1
      unfold FrameBuffer.slot
      apply readAt_forall (fun a => a = none)
      · intro a ha
        exact List.eq_of_mem_replicate ha
      · rfl
  | append_singleton fs f ih =>
    obtain ⟨hcap, hlen, hsize, hcur, hslots, hfree⟩ := ih
    rw [add_frames_append]
    generalize add_frames (create_frame_buffer C) fs = b at hcap hlen hsize hcur hslots hfree
    have hk : ((fs ++ [f]).length : Int) = (fs.length : Int) + 1 := by simp
    have hm0 : 0 ≤ (fs.length : Int) % C := Int.emod_nonneg _ (by omega)
    have hm1 : (fs.length : Int) % C < C := Int.emod_lt_of_pos _ (by omega)
    have hadd : ((add_frame_to_buffer (some b) (some f)).2).getD b
        = { frames := writeAt b.frames b.current (some f)
            capacity := b.capacity
            size := if b.size = b.capacity then b.size else b.size + 1
            current := Int.tmod (b.current + 1) b.capacity } := by
      unfold add_frame_to_buffer
      by_cases hs : b.size = b.capacity
      · simp [hs]
      · simp [hs]
    rw [hadd]
    refine ⟨hcap, ?_, ?_, ?_, ?_, ?_⟩
    · show (writeAt b.frames b.current (some f)).length = C.toNat
      rw [length_writeAt, hlen]
    · show (if b.size = b.capacity then b.size else b.size + 1) = _
      rw [hsize, hcap, hk]
      by_cases hfull : C ≤ (fs.length : Int)
      · rw [min_eq_right hfull, if_pos rfl, min_eq_right (by omega)]
      · rw [min_eq_left (by omega), if_neg (by omega), min_eq_left (by omega)]
    · show Int.tmod (b.current + 1) b.capacity = _
      rw [hcur, hcap, hk, Int.tmod_eq_emod (by omega) (by omega), Int.emod_add_emod]
    · intro i h0 h1 h2
      show readAt none (writeAt b.frames b.current (some f)) (i % C) = _
      rw [hcur]
      by_cases hi : i = (fs.length : Int)
      · subst hi
        rw [readAt_writeAt_same _ _ _ _ hm0 (by rw [hlen]; omega), nth_frame_append_eq]
      · have hlt : i < (fs.length : Int) := by omega
        rw [readAt_writeAt_ne _ _ _ _ _ (Ne.symm (slot_ne_of_lt hlt (by omega))),
          nth_frame_append_lt _ _ _ hlt]
        exact hslots i h0 (by omega) hlt
    · intro j hj0 hj1
      show readAt none (writeAt b.frames b.current (some f)) j = _
      rw [hcur, Int.emod_eq_of_lt (by omega) (by omega),
        readAt_writeAt_ne _ _ _ _ _ (by omega)]
      exact hfree j (by omega) hj1

/-- A successful call of `add_frame_to_buffer`: the buffer after the call. -/
theorem add_frame_to_buffer_some (b : FrameBuffer) (f : Image) :
    add_frame_to_buffer (some b) (some f)
      = (0, some { frames := writeAt b.frames b.current (some f)
                   capacity := b.capacity
                   size := if b.size = b.capacity then b.size else b.size + 1
                   current := Int.tmod (b.current + 1) b.capacity }) := by
  unfold add_frame_to_buffer
  by_cases hs : b.size = b.capacity
  · simp [hs]
  · simp [hs]

/-- C24. For a frame buffer of capacity `C ≥ 1` and every sequence of `k` successful
`add_frame_to_buffer` calls (each returns 0), `size = min(k, C)` and `0 ≤ current < C`; the
`i`-th inserted frame, for each of the last `min(k, C)` insertions, is held by slot `i mod C`
and the other slots hold no frame, so the buffer holds exactly the last `min(k, C)` inserted
frames; once the buffer is full, a further insertion overwrites slot `current`, which holds the
least recently inserted of the held frames, and changes no other slot; a call with an absent
buffer or frame returns -1 and changes nothing. -/
theorem add_frame_to_buffer_keeps_last_frames (C : Int) (hC : 1 ≤ C) (fs : List Image) :
    (add_frames (create_frame_buffer C) fs).size = min (fs.length : Int) C ∧
    (0 ≤ (add_frames (create_frame_buffer C) fs).current ∧
      (add_frames (create_frame_buffer C) fs).current < C) ∧
    (∀ i : Int, 0 ≤ i → (fs.length : Int) - C ≤ i → i < fs.length →
      (add_frames (create_frame_buffer C) fs).slot (i % C) = nth_frame fs i) ∧
    (∀ j : Int, (fs.length : Int) ≤ j → j < C →
      (add_frames (create_frame_buffer C) fs).slot j = none) ∧
    (C ≤ (fs.length : Int) → ∀ f : Image,
      (add_frames (create_frame_buffer C) fs).slot
          (add_frames (create_frame_buffer C) fs).current
        = nth_frame fs ((fs.length : Int) - C) ∧
      (add_frames (create_frame_buffer C) (fs ++ [f])).slot
          (add_frames (create_frame_buffer C) fs).current = some f ∧
      ∀ j : Int, j ≠ (add_frames (create_frame_buffer C) fs).current →
        (add_frames (create_frame_buffer C) (fs ++ [f])).slot j
          = (add_frames (create_frame_buffer C) fs).slot j) ∧
    (∀ (b : FrameBuffer) (f : Image), (add_frame_to_buffer (some b) (some f)).1 = 0) ∧
    (∀ frame : Option Image, add_frame_to_buffer none frame = (-1, none)) ∧
    (∀ b : FrameBuffer, add_frame_to_buffer (some b) none = (-1, some b)) := by
  obtain ⟨hcap, hlen, hsize, hcur, hslots, hfree⟩ := add_frames_state C hC fs
  have hm0 : 0 ≤ (fs.length : Int) % C := Int.emod_nonneg _ (by omega)
  have hm1 : (fs.length : Int) % C < C := Int.emod_lt_of_pos _ (by omega)
  refine ⟨hsize, ⟨by rw [hcur]; exact hm0, by rw [hcur]; exact hm1⟩, hslots, hfree, ?_,
    fun b f => by rw [add_frame_to_buffer_some], fun frame => ?_, fun b => rfl⟩
  · intro hfull f
    refine ⟨?_, ?_, ?_⟩
    · have h := hslots ((fs.length : Int) - C) (by omega) le_rfl (by omega)
      rw [Int.sub_emod, Int.emod_self, sub_zero, Int.emod_emod] at h
      rw [hcur]
      exact h
    · rw [add_frames_append, add_frame_to_buffer_some]
      show readAt none (writeAt _ _ (some f)) _ = _
      rw [readAt_writeAt_same _ _ _ _ (by rw [hcur]; exact hm0) (by rw [hcur, hlen]; omega)]
    · intro j hj
      rw [add_frames_append, add_frame_to_buffer_some]
      show readAt none (writeAt _ _ (some f)) _ = _
      rw [readAt_writeAt_ne _ _ _ _ _ (Ne.symm hj)]
      rfl
  · cases frame <;> rfl

theorem add_frame_to_buffer_keeps_last_frames_witness :
    (add_frames (create_frame_buffer 3)
        [⟨[1], 1, 1, 1⟩, ⟨[2], 1, 1, 1⟩, ⟨[3], 1, 1, 1⟩, ⟨[4], 1, 1, 1⟩]).size
      = min (([⟨[1], 1, 1, 1⟩, ⟨[2], 1, 1, 1⟩, ⟨[3], 1, 1, 1⟩, ⟨[4], 1, 1, 1⟩] :
          List Image).length : Int) 3 ∧
    (0 ≤ (add_frames (create_frame_buffer 3)
        [⟨[1], 1, 1, 1⟩, ⟨[2], 1, 1, 1⟩, ⟨[3], 1, 1, 1⟩, ⟨[4], 1, 1, 1⟩]).current ∧
      (add_frames (create_frame_buffer 3)
        [⟨[1], 1, 1, 1⟩, ⟨[2], 1, 1, 1⟩, ⟨[3], 1, 1, 1⟩, ⟨[4], 1, 1, 1⟩]).current < 3) :=
  ⟨(add_frame_to_buffer_keeps_last_frames 3 (by decide)
      [⟨[1], 1, 1, 1⟩, ⟨[2], 1, 1, 1⟩, ⟨[3], 1, 1, 1⟩, ⟨[4], 1, 1, 1⟩]).1,
    (add_frame_to_buffer_keeps_last_frames 3 (by decide)
      [⟨[1], 1, 1, 1⟩, ⟨[2], 1, 1, 1⟩, ⟨[3], 1, 1, 1⟩, ⟨[4], 1, 1, 1⟩]).2.1⟩

/-- The slot `center_idx` of a full buffer of capacity `2 * temporal_radius + 1`, for a
temporal radius `≥ 1`, after `k` insertions: it is slot `(k - temporal_radius) mod capacity`. -/
theorem denoise_center_idx_full (params : DenoisingParams) (fs : List Image)
    (hr : 1 ≤ params.temporal_radius) :
    denoise_center_idx (add_frames (create_frame_buffer (2 * params.temporal_radius + 1)) fs)
        params
      = ((fs.length : Int) - params.temporal_radius) % (2 * params.temporal_radius + 1) := by
  obtain ⟨hcap, _, _, hcur, _, _⟩ :=
    add_frames_state (2 * params.temporal_radius + 1) (by omega) fs
  unfold denoise_center_idx
  dsimp only
  rw [hcur, hcap]
  have hk0 := Int.ediv_add_emod (fs.length : Int) (2 * params.temporal_radius + 1)
  have hm0 : 0 ≤ (fs.length : Int) % (2 * params.temporal_radius + 1) :=
    Int.emod_nonneg _ (by omega)
  have hm1 : (fs.length : Int) % (2 * params.temporal_radius + 1)
      < 2 * params.temporal_radius + 1 := Int.emod_lt_of_pos _ (by omega)
  generalize (fs.length : Int) % (2 * params.temporal_radius + 1) = m at hm0 hm1 hk0 ⊢
  generalize (fs.length : Int) / (2 * params.temporal_radius + 1) = q at hk0
  have hk : (fs.length : Int) - params.temporal_radius
      = (m - params.temporal_radius) + (2 * params.temporal_radius + 1) * q := by
    linarith
  have e1 : ((fs.length : Int) - params.temporal_radius) % (2 * params.temporal_radius + 1)
      = (m - params.temporal_radius) % (2 * params.temporal_radius + 1) := by
    rw [hk, Int.add_mul_emod_self_left]
  rw [e1]
  split
  · have e2 : (m - params.temporal_radius) % (2 * params.temporal_radius + 1)
        = (m - params.temporal_radius + (2 * params.temporal_radius + 1))
          % (2 * params.temporal_radius + 1) := Int.add_emod_self.symm
    rw [e2, Int.emod_eq_of_lt (by omega) (by omega)]
  · rw [Int.emod_eq_of_lt (by omega) (by omega)]

/-- C28 (code at the failing inputs). For a temporal radius `r ≥ 1` and a full buffer of
capacity `2 * r + 1` after `k` insertions, the slot `center_idx` of `denoise_frame` holds the
frame number `k - r` (counting from 0), inserted `r - 1` insertions before the most recent
frame `k - 1`, and not the temporal center `k - 1 - r`, which is the number that `main` puts in
the output file name. With `r = 2` and the five frames 0..4, `center_idx` is slot 3 and holds
frame 3, while `main` names the output after frame 2; with `r = 1` and three frames the center
frame is the most recent one. -/
theorem denoise_frame_center_is_not_temporal_center :
    (∀ (params : DenoisingParams) (fs : List Image), 1 ≤ params.temporal_radius →
      2 * params.temporal_radius + 1 ≤ (fs.length : Int) →
      (add_frames (create_frame_buffer (2 * params.temporal_radius + 1)) fs).slot
          (denoise_center_idx
            (add_frames (create_frame_buffer (2 * params.temporal_radius + 1)) fs) params)
        = nth_frame fs ((fs.length : Int) - params.temporal_radius)) ∧
    (denoise_center_idx (add_frames (create_frame_buffer 5)
        [⟨[0], 1, 1, 1⟩, ⟨[1], 1, 1, 1⟩, ⟨[2], 1, 1, 1⟩, ⟨[3], 1, 1, 1⟩, ⟨[4], 1, 1, 1⟩])
        ⟨2, 20, 16, 16⟩ = 3 ∧
      (add_frames (create_frame_buffer 5)
        [⟨[0], 1, 1, 1⟩, ⟨[1], 1, 1, 1⟩, ⟨[2], 1, 1, 1⟩, ⟨[3], 1, 1, 1⟩, ⟨[4], 1, 1, 1⟩]).slot 3
        = some ⟨[3], 1, 1, 1⟩ ∧
      main_output_frame_idx 4 ⟨2, 20, 16, 16⟩ = 2 ∧
      nth_frame [⟨[0], 1, 1, 1⟩, ⟨[1], 1, 1, 1⟩, ⟨[2], 1, 1, 1⟩, ⟨[3], 1, 1, 1⟩, ⟨[4], 1, 1, 1⟩]
        (main_output_frame_idx 4 ⟨2, 20, 16, 16⟩) = some ⟨[2], 1, 1, 1⟩) ∧
    (add_frames (create_frame_buffer 3)
        [⟨[0], 1, 1, 1⟩, ⟨[1], 1, 1, 1⟩, ⟨[2], 1, 1, 1⟩]).slot
      (denoise_center_idx (add_frames (create_frame_buffer 3)
        [⟨[0], 1, 1, 1⟩, ⟨[1], 1, 1, 1⟩, ⟨[2], 1, 1, 1⟩]) ⟨1, 20, 16, 16⟩)
      = some ⟨[2], 1, 1, 1⟩ := by
  refine ⟨?_, ⟨by decide!, by decide!, by decide!, by decide!⟩, by decide!⟩
  intro params fs hr hfull
  obtain ⟨_, _, _, _, hslots, _⟩ :=
    add_frames_state (2 * params.temporal_radius + 1) (by omega) fs
  rw [denoise_center_idx_full params fs hr]
  exact hslots _ (by omega) (by omega) (by omega)

/-- A scan that keeps a candidate only when it is valid and strictly better than the best so
far ends with the first of the least valid candidates: every valid candidate met before it is
strictly worse, every valid candidate met after it is at least as bad. -/
theorem foldl_argmin_first {ι : Type} (valid : ι → Prop) (dist : ι → ℚ) (mk : ι → SearchState)
    (hmk : ∀ i, (mk i).min_dist = dist i) (step : ι → SearchState → SearchState)
    (l : List ι)
    (hs1 : ∀ i ∈ l, ∀ st, valid i → dist i < st.min_dist → step i st = mk i)
    (hs2 : ∀ i ∈ l, ∀ st, ¬ (valid i ∧ dist i < st.min_dist) → step i st = st) :
    ∀ st : SearchState,
      (l.foldl (fun st i => step i st) st = st ∧ ∀ i ∈ l, valid i → st.min_dist ≤ dist i) ∨
      ∃ l1 j l2, l = l1 ++ j :: l2 ∧ valid j ∧ dist j < st.min_dist ∧
        l.foldl (fun st i => step i st) st = mk j ∧
        (∀ i ∈ l1, valid i → dist j < dist i) ∧ (∀ i ∈ l2, valid i → dist j ≤ dist i) := by
  induction l with
  | nil =>
    intro st
    exact Or.inl ⟨rfl, fun i hi => by simp at hi⟩
  | cons a l ih =>
    intro st
    have ih2 := ih (fun i hi => hs1 i (List.mem_cons_of_mem _ hi))
      (fun i hi => hs2 i (List.mem_cons_of_mem _ hi)) (step a st)
    simp only [List.foldl_cons]
    by_cases hc : valid a ∧ dist a < st.min_dist
    · have hst : step a st = mk a := hs1 a (List.mem_cons_self _ _) st hc.1 hc.2
      rw [hst] at ih2 ⊢
      rw [hmk] at ih2
      rcases ih2 with ⟨e, hall⟩ | ⟨l1, j, l2, el, hv, hd, e, b1, b2⟩
      · exact Or.inr ⟨[], a, l, rfl, hc.1, hc.2, e, fun i hi => by simp at hi, hall⟩
      · refine Or.inr ⟨a :: l1, j, l2, by rw [el]; rfl, hv, lt_trans hd hc.2, e, ?_, b2⟩
        intro i hi hvi
        rcases List.mem_cons.mp hi with h | h
        · rw [h]
          exact hd
        · exact b1 i h hvi
    · have hst : step a st = st := hs2 a (List.mem_cons_self _ _) st hc
      rw [hst] at ih2 ⊢
      rcases ih2 with ⟨e, hall⟩ | ⟨l1, j, l2, el, hv, hd, e, b1, b2⟩
      · refine Or.inl ⟨e, ?_⟩
        intro i hi hvi
        rcases List.mem_cons.mp hi with h | h
        · rw [h] at hvi ⊢
          exact not_lt.mp (fun hlt => hc ⟨hvi, hlt⟩)
        · exact hall i h hvi
      · refine Or.inr ⟨a :: l1, j, l2, by rw [el]; rfl, hv, hd, e, ?_, b2⟩
        intro i hi hvi
        rcases List.mem_cons.mp hi with h | h
        · rw [h] at hvi ⊢
          exact lt_of_lt_of_le hd (not_lt.mp (fun hlt => hc ⟨hvi, hlt⟩))
        · exact b1 i h hvi

/-- The shifts of a search window are scanned in the order of `dy`, then of `dx`. -/
theorem pairwise_scan_order (lo hi : Int) :
    (intRange lo hi ×ˢ intRange lo hi).Pairwise
      (fun p q : Int × Int => p.1 < q.1 ∨ (p.1 = q.1 ∧ p.2 < q.2)) := by
  show List.Pairwise _ ((intRange lo hi).flatMap (fun a => (intRange lo hi).map (Prod.mk a)))
  rw [List.pairwise_flatMap]
  constructor
  · intro a _
    rw [List.pairwise_map]
    exact (pairwise_lt_intRange lo hi).imp (fun {x y} h => Or.inr ⟨rfl, h⟩)
  · refine (pairwise_lt_intRange lo hi).imp (fun {a b} h => ?_)
    intro x hx y hy
    obtain ⟨_, _, rfl⟩ := List.mem_map.mp hx
    obtain ⟨_, _, rfl⟩ := List.mem_map.mp hy
    exact Or.inl h

/-- The search window of `local_search` keeps the first shift of least distance: when some
in-bounds shift has a distance below `FLT_MAX`, the best shift kept is an in-bounds shift whose
distance is at most that of every in-bounds shift of the window and strictly less than that of
every in-bounds shift scanned before it (smaller `dy`, or the same `dy` and smaller `dx`). -/
theorem search_window_first (ref_level alt_level : Image) (ts r tile_y tile_x : Int)
    (current : Alignment) (metric : Int)
    (hex : ∃ dx dy : Int, (-r ≤ dx ∧ dx ≤ r) ∧ (-r ≤ dy ∧ dy ≤ r) ∧
      patch_inside alt_level ts tile_y tile_x current dx dy ∧
      patch_distance ref_level alt_level ts tile_y tile_x current dx dy metric < FLT_MAX) :
    ∃ dx dy : Int, (-r ≤ dx ∧ dx ≤ r) ∧ (-r ≤ dy ∧ dy ≤ r) ∧
      patch_inside alt_level ts tile_y tile_x current dx dy ∧
      (search_window ref_level alt_level ts r tile_y tile_x current metric).best_shift_x
        = (dx : ℚ) ∧
      (search_window ref_level alt_level ts r tile_y tile_x current metric).best_shift_y
        = (dy : ℚ) ∧
      ∀ dx2 dy2 : Int, -r ≤ dx2 → dx2 ≤ r → -r ≤ dy2 → dy2 ≤ r →
        patch_inside alt_level ts tile_y tile_x current dx2 dy2 →
        patch_distance ref_level alt_level ts tile_y tile_x current dx dy metric
          ≤ patch_distance ref_level alt_level ts tile_y tile_x current dx2 dy2 metric ∧
        (dy2 < dy ∨ (dy2 = dy ∧ dx2 < dx) →
          patch_distance ref_level alt_level ts tile_y tile_x current dx dy metric
            < patch_distance ref_level alt_level ts tile_y tile_x current dx2 dy2 metric) := by
  have hflat : search_window ref_level alt_level ts r tile_y tile_x current metric
      = (intRange (-r) (r + 1) ×ˢ intRange (-r) (r + 1)).foldl
          (fun st p =>
            if (patch_compare ref_level alt_level ts tile_y tile_x current p.2 p.1 metric).2
                = true ∧
              (patch_compare ref_level alt_level ts tile_y tile_x current p.2 p.1 metric).1
                < st.min_dist
            then ⟨(patch_compare ref_level alt_level ts tile_y tile_x current p.2 p.1 metric).1,
              (p.2 : ℚ), (p.1 : ℚ)⟩ else st) ⟨FLT_MAX, 0, 0⟩ := by
    unfold search_window forRange
    exact foldl_product (fun dy dx (st : SearchState) =>
      if (patch_compare ref_level alt_level ts tile_y tile_x current dx dy metric).2 = true ∧
        (patch_compare ref_level alt_level ts tile_y tile_x current dx dy metric).1
          < st.min_dist
      then ⟨(patch_compare ref_level alt_level ts tile_y tile_x current dx dy metric).1,
        (dx : ℚ), (dy : ℚ)⟩ else st) _ _ _
  have hmemw : ∀ p : Int × Int, p ∈ intRange (-r) (r + 1) ×ˢ intRange (-r) (r + 1) ↔
      (-r ≤ p.2 ∧ p.2 ≤ r) ∧ (-r ≤ p.1 ∧ p.1 ≤ r) := by
    intro p
    rw [List.mem_product, mem_intRange, mem_intRange]
    omega
  have key := foldl_argmin_first
    (fun p : Int × Int => patch_inside alt_level ts tile_y tile_x current p.2 p.1)
    (fun p => patch_distance ref_level alt_level ts tile_y tile_x current p.2 p.1 metric)
    (fun p => ⟨patch_distance ref_level alt_level ts tile_y tile_x current p.2 p.1 metric,
      (p.2 : ℚ), (p.1 : ℚ)⟩)
    (fun _ => rfl)
    (fun p st =>
      if (patch_compare ref_level alt_level ts tile_y tile_x current p.2 p.1 metric).2
          = true ∧
        (patch_compare ref_level alt_level ts tile_y tile_x current p.2 p.1 metric).1
          < st.min_dist
      then ⟨(patch_compare ref_level alt_level ts tile_y tile_x current p.2 p.1 metric).1,
        (p.2 : ℚ), (p.1 : ℚ)⟩ else st)
    (intRange (-r) (r + 1) ×ˢ intRange (-r) (r + 1))
    (fun p _ st hv hd => by
      have := (patch_compare_spec ref_level alt_level ts tile_y tile_x current p.2 p.1
        metric).1 hv
      simp only [this]
      rw [if_pos ⟨trivial, hd⟩])
    (fun p _ st hn => by
      by_cases hv : patch_inside alt_level ts tile_y tile_x current p.2 p.1
      · have := (patch_compare_spec ref_level alt_level ts tile_y tile_x current p.2 p.1
          metric).1 hv
        simp only [this]
        rw [if_neg (fun h => hn ⟨hv, h.2⟩)]
      · have := (patch_compare_spec ref_level alt_level ts tile_y tile_x current p.2 p.1
          metric).2 hv
        dsimp only
        rw [this]
        simp)
    ⟨FLT_MAX, 0, 0⟩
  rw [← hflat] at key
  obtain ⟨dx0, dy0, hdx0, hdy0, hin0, hlt0⟩ := hex
  rcases key with ⟨_, hall⟩ | ⟨l1, j, l2, el, hv, hd, e, b1, b2⟩
  · exact absurd hlt0 (not_lt.mpr (hall (dy0, dx0) ((hmemw (dy0, dx0)).mpr ⟨hdx0, hdy0⟩) hin0))
  · have hj : j ∈ intRange (-r) (r + 1) ×ˢ intRange (-r) (r + 1) := by
      rw [el]
      simp
    have hpw := pairwise_scan_order (-r) (r + 1)
    rw [el, List.pairwise_append] at hpw
    obtain ⟨_, hpw2, _⟩ := hpw
    rw [List.pairwise_cons] at hpw2
    refine ⟨j.2, j.1, ((hmemw j).mp hj).1, ((hmemw j).mp hj).2, hv, by rw [e], by rw [e], ?_⟩
    intro dx2 dy2 a1 a2 c1 c2 hin2
    have hmem2 : (dy2, dx2) ∈ l1 ++ j :: l2 := by
      rw [← el]
      exact (hmemw (dy2, dx2)).mpr ⟨⟨a1, a2⟩, ⟨c1, c2⟩⟩
    rcases List.mem_append.mp hmem2 with h1 | h1
    · have := b1 (dy2, dx2) h1 hin2
      exact ⟨le_of_lt this, fun _ => this⟩
    · rcases List.mem_cons.mp h1 with h2 | h2
      · rw [← h2]
        refine ⟨le_rfl, fun hlex => ?_⟩
        simp only at hlex
        omega
      · refine ⟨b2 (dy2, dx2) h2 hin2, fun hlex => ?_⟩
        have := hpw2.1 (dy2, dx2) h2
        simp only at this
        omega

/-- For a reference image constant on the tile and an alternate image constant inside its
bounds, all the shifts whose patch lies inside the alternate image have the same distance. -/
theorem patch_distance_constant (ref_level alt_level : Image) (ts tile_y tile_x : Int)
    (current : Alignment) (metric : Int) (c1 c2 : ℚ)
    (href : ∀ px py c, tile_x * ts ≤ px → px < (tile_x + 1) * ts → tile_y * ts ≤ py →
      py < (tile_y + 1) * ts → 0 ≤ c → c < ref_level.channels → ref_level.sample px py c = c1)
    (halt : ∀ px py c, 0 ≤ px → px < alt_level.width → 0 ≤ py → py < alt_level.height →
      0 ≤ c → c < ref_level.channels → alt_level.sample px py c = c2)
    (dx dy : Int) (hin : patch_inside alt_level ts tile_y tile_x current dx dy) :
    patch_distance ref_level alt_level ts tile_y tile_x current dx dy metric
      = ∑ _y ∈ Finset.range ts.toNat, ∑ _x ∈ Finset.range ts.toNat,
          ∑ _c ∈ Finset.range ref_level.channels.toNat, metric_term metric (c1 - c2) := by
  unfold patch_distance
  refine Finset.sum_congr rfl (fun y hy => ?_)
  refine Finset.sum_congr rfl (fun x hx => ?_)
  refine Finset.sum_congr rfl (fun c hc => ?_)
  rw [Finset.mem_range] at hy hx hc
  have hy2 : (y : Int) < ts := by omega
  have hx2 : (x : Int) < ts := by omega
  have hc2 : (c : Int) < ref_level.channels := by omega
  obtain ⟨⟨i1, i2⟩, i3, i4⟩ := hin (y : Int) (mem_intRange.mpr ⟨by omega, hy2⟩) (x : Int)
    (mem_intRange.mpr ⟨by omega, hx2⟩)
  rw [href _ _ _ (by omega) (by linarith) (by omega) (by linarith) (by omega) hc2,
    halt _ _ _ i1 i2 i3 i4 (by omega) hc2]

/-- C26 (as stated, refuted). A 1x1 reference level holding `FLT_MAX`, a 1x3 alternate level
of zeros, tile size 1, radius 1, the L1 distance and the displacement `(1, 0)`: the three shifts
`(-1, 0)`, `(0, 0)`, `(1, 0)` have their patch inside the alternate image and all attain the
minimum distance `FLT_MAX`; the first of them in scan order is `(-1, 0)`, but the displacement of
the tile stays `(1, 0)`. -/
theorem local_search_tie_FLT_MAX_counterexample :
    (∀ dx : Int, -1 ≤ dx → dx ≤ 1 →
      patch_inside ⟨[0, 0, 0], 1, 3, 1⟩ 1 0 0 ⟨1, 0⟩ dx 0 ∧
      patch_distance ⟨[FLT_MAX], 1, 1, 1⟩ ⟨[0, 0, 0], 1, 3, 1⟩ 1 0 0 ⟨1, 0⟩ dx 0 0 = FLT_MAX) ∧
    (∀ dx dy : Int, -1 ≤ dx → dx ≤ 1 → -1 ≤ dy → dy ≤ 1 → dy ≠ 0 →
      ¬ patch_inside ⟨[0, 0, 0], 1, 3, 1⟩ 1 0 0 ⟨1, 0⟩ dx dy) ∧
    (local_search ⟨[FLT_MAX], 1, 1, 1⟩ ⟨[0, 0, 0], 1, 3, 1⟩ 1 1 ⟨[⟨1, 0⟩], 1, 1⟩ 0).tile 0 0
      = ⟨1, 0⟩ ∧
    (local_search ⟨[FLT_MAX], 1, 1, 1⟩ ⟨[0, 0, 0], 1, 3, 1⟩ 1 1 ⟨[⟨1, 0⟩], 1, 1⟩ 0).tile 0 0
      ≠ ⟨1 + ((-1 : Int) : ℚ), 0 + ((0 : Int) : ℚ)⟩ := by
  refine ⟨?_, ?_, by decide!, by decide!⟩
  · intro dx h1 h2
    have h : dx = -1 ∨ dx = 0 ∨ dx = 1 := by omega
    rcases h with rfl | rfl | rfl <;> exact ⟨by decide!, by decide!⟩
  · intro dx dy h1 h2 h3 h4 h5
    have h : dx = -1 ∨ dx = 0 ∨ dx = 1 := by omega
    have h' : dy = -1 ∨ dy = 1 := by omega
    rcases h with rfl | rfl | rfl <;> rcases h' with rfl | rfl <;> decide!

/-- C26 (amended). In exact arithmetic (the aggregate distances are the exact sums and are
compared as exact numbers): in `local_search`, when some shift of the window has its patch
fully inside the alternate image and a distance below `FLT_MAX`, the shift added to the
displacement of a tile is the first in scan order of the in-bounds shifts of minimum distance: its distance is at
most that of every in-bounds shift of the window and strictly less than that of every in-bounds
shift scanned before it (smaller `dy`, or the same `dy` and a smaller `dx`). In particular, for
a reference image constant on the tile and an alternate image constant inside its bounds, the
tile receives the first in-bounds shift of the window in that order, whether it is `(0, 0)` or
not. -/
theorem local_search_first_minimum (ref_level alt_level : Image) (ts r : Int)
    (m : AlignmentMap) (metric : Int) (hwf : m.WF) (x y : Int)
    (hy : 0 ≤ y ∧ y < m.height) (hx : 0 ≤ x ∧ x < m.width)
    (hex : ∃ dx dy : Int, (-r ≤ dx ∧ dx ≤ r) ∧ (-r ≤ dy ∧ dy ≤ r) ∧
      patch_inside alt_level ts y x (m.tile x y) dx dy ∧
      patch_distance ref_level alt_level ts y x (m.tile x y) dx dy metric < FLT_MAX) :
    ∃ dx dy : Int, (-r ≤ dx ∧ dx ≤ r) ∧ (-r ≤ dy ∧ dy ≤ r) ∧
      (local_search ref_level alt_level ts r m metric).tile x y
        = ⟨(m.tile x y).x + (dx : ℚ), (m.tile x y).y + (dy : ℚ)⟩ ∧
      patch_inside alt_level ts y x (m.tile x y) dx dy ∧
      (∀ dx2 dy2 : Int, -r ≤ dx2 → dx2 ≤ r → -r ≤ dy2 → dy2 ≤ r →
        patch_inside alt_level ts y x (m.tile x y) dx2 dy2 →
        patch_distance ref_level alt_level ts y x (m.tile x y) dx dy metric
          ≤ patch_distance ref_level alt_level ts y x (m.tile x y) dx2 dy2 metric ∧
        (dy2 < dy ∨ (dy2 = dy ∧ dx2 < dx) →
          patch_distance ref_level alt_level ts y x (m.tile x y) dx dy metric
            < patch_distance ref_level alt_level ts y x (m.tile x y) dx2 dy2 metric)) ∧
      ∀ c1 c2 : ℚ,
        (∀ px py c, x * ts ≤ px → px < (x + 1) * ts → y * ts ≤ py → py < (y + 1) * ts →
          0 ≤ c → c < ref_level.channels → ref_level.sample px py c = c1) →
        (∀ px py c, 0 ≤ px → px < alt_level.width → 0 ≤ py → py < alt_level.height →
          0 ≤ c → c < ref_level.channels → alt_level.sample px py c = c2) →
        ∀ dx2 dy2 : Int, -r ≤ dx2 → dx2 ≤ r → -r ≤ dy2 → dy2 ≤ r →
          patch_inside alt_level ts y x (m.tile x y) dx2 dy2 →
          dy < dy2 ∨ (dy = dy2 ∧ dx ≤ dx2) := by
  obtain ⟨_, _, _, ht⟩ := local_search_tiles ref_level alt_level ts r m metric hwf
  have ht := ht x y hy.1 hy.2 hx.1 hx.2
  obtain ⟨dx, dy, hdx, hdy, hin, bx, by_, hmin⟩ :=
    search_window_first ref_level alt_level ts r y x (m.tile x y) metric hex
  refine ⟨dx, dy, hdx, hdy, by rw [ht, bx, by_], hin, hmin, ?_⟩
  intro c1 c2 href halt dx2 dy2 a1 a2 b1 b2 hin2
  by_contra hcon
  have hlex : dy2 < dy ∨ (dy2 = dy ∧ dx2 < dx) := by omega
  have hlt := (hmin dx2 dy2 a1 a2 b1 b2 hin2).2 hlex
  rw [patch_distance_constant ref_level alt_level ts y x (m.tile x y) metric c1 c2 href halt
      dx dy hin,
    patch_distance_constant ref_level alt_level ts y x (m.tile x y) metric c1 c2 href halt
      dx2 dy2 hin2] at hlt
  exact absurd hlt (lt_irrefl _)

theorem local_search_first_minimum_witness :
    ∃ dx dy : Int, (-1 ≤ dx ∧ dx ≤ 1) ∧ (-1 ≤ dy ∧ dy ≤ 1) ∧
      (local_search (⟨[5, 5, 5, 5], 2, 2, 1⟩ : Image) (⟨[7, 7, 7, 7], 2, 2, 1⟩ : Image) 1 1 (⟨[⟨0, 0⟩, ⟨0, 0⟩, ⟨0, 0⟩, ⟨0, 0⟩], 2, 2⟩ : AlignmentMap) 1).tile 1 1
        = ⟨(AlignmentMap.tile (⟨[⟨0, 0⟩, ⟨0, 0⟩, ⟨0, 0⟩, ⟨0, 0⟩], 2, 2⟩ : AlignmentMap) 1 1).x + (dx : ℚ), (AlignmentMap.tile (⟨[⟨0, 0⟩, ⟨0, 0⟩, ⟨0, 0⟩, ⟨0, 0⟩], 2, 2⟩ : AlignmentMap) 1 1).y + (dy : ℚ)⟩ ∧
      patch_inside (⟨[7, 7, 7, 7], 2, 2, 1⟩ : Image) 1 1 1 (AlignmentMap.tile (⟨[⟨0, 0⟩, ⟨0, 0⟩, ⟨0, 0⟩, ⟨0, 0⟩], 2, 2⟩ : AlignmentMap) 1 1) dx dy ∧
      (∀ dx2 dy2 : Int, -1 ≤ dx2 → dx2 ≤ 1 → -1 ≤ dy2 → dy2 ≤ 1 →
        patch_inside (⟨[7, 7, 7, 7], 2, 2, 1⟩ : Image) 1 1 1 (AlignmentMap.tile (⟨[⟨0, 0⟩, ⟨0, 0⟩, ⟨0, 0⟩, ⟨0, 0⟩], 2, 2⟩ : AlignmentMap) 1 1) dx2 dy2 →
        patch_distance (⟨[5, 5, 5, 5], 2, 2, 1⟩ : Image) (⟨[7, 7, 7, 7], 2, 2, 1⟩ : Image) 1 1 1 (AlignmentMap.tile (⟨[⟨0, 0⟩, ⟨0, 0⟩, ⟨0, 0⟩, ⟨0, 0⟩], 2, 2⟩ : AlignmentMap) 1 1) dx dy 1
          ≤ patch_distance (⟨[5, 5, 5, 5], 2, 2, 1⟩ : Image) (⟨[7, 7, 7, 7], 2, 2, 1⟩ : Image) 1 1 1 (AlignmentMap.tile (⟨[⟨0, 0⟩, ⟨0, 0⟩, ⟨0, 0⟩, ⟨0, 0⟩], 2, 2⟩ : AlignmentMap) 1 1) dx2 dy2 1 ∧
        (dy2 < dy ∨ (dy2 = dy ∧ dx2 < dx) →
          patch_distance (⟨[5, 5, 5, 5], 2, 2, 1⟩ : Image) (⟨[7, 7, 7, 7], 2, 2, 1⟩ : Image) 1 1 1 (AlignmentMap.tile (⟨[⟨0, 0⟩, ⟨0, 0⟩, ⟨0, 0⟩, ⟨0, 0⟩], 2, 2⟩ : AlignmentMap) 1 1) dx dy 1
            < patch_distance (⟨[5, 5, 5, 5], 2, 2, 1⟩ : Image) (⟨[7, 7, 7, 7], 2, 2, 1⟩ : Image) 1 1 1 (AlignmentMap.tile (⟨[⟨0, 0⟩, ⟨0, 0⟩, ⟨0, 0⟩, ⟨0, 0⟩], 2, 2⟩ : AlignmentMap) 1 1) dx2 dy2 1)) ∧
      ∀ c1 c2 : ℚ,
        (∀ px py c, (1 : Int) * 1 ≤ px → px < (1 + 1) * 1 → (1 : Int) * 1 ≤ py → py < (1 + 1) * 1 →
          0 ≤ c → c < (1 : Int) → Image.sample (⟨[5, 5, 5, 5], 2, 2, 1⟩ : Image) px py c = c1) →
        (∀ px py c, 0 ≤ px → px < (2 : Int) → 0 ≤ py → py < (2 : Int) →
          0 ≤ c → c < (1 : Int) → Image.sample (⟨[7, 7, 7, 7], 2, 2, 1⟩ : Image) px py c = c2) →
        ∀ dx2 dy2 : Int, -1 ≤ dx2 → dx2 ≤ 1 → -1 ≤ dy2 → dy2 ≤ 1 →
          patch_inside (⟨[7, 7, 7, 7], 2, 2, 1⟩ : Image) 1 1 1 (AlignmentMap.tile (⟨[⟨0, 0⟩, ⟨0, 0⟩, ⟨0, 0⟩, ⟨0, 0⟩], 2, 2⟩ : AlignmentMap) 1 1) dx2 dy2 →
          dy < dy2 ∨ (dy = dy2 ∧ dx ≤ dx2) :=
  local_search_first_minimum ⟨[5, 5, 5, 5], 2, 2, 1⟩ ⟨[7, 7, 7, 7], 2, 2, 1⟩ 1 1
    ⟨[⟨0, 0⟩, ⟨0, 0⟩, ⟨0, 0⟩, ⟨0, 0⟩], 2, 2⟩ 1 ⟨by decide, by decide, rfl⟩ 1 1
    ⟨by decide, by decide⟩ ⟨by decide, by decide⟩
    ⟨0, 0, ⟨by decide, by decide⟩, ⟨by decide, by decide⟩, by decide!, by decide!⟩

theorem forRange_zero_two {σ : Type} (body : Int → σ → σ) (s : σ) :
    forRange 0 2 body s = body 1 (body 0 s) := rfl

theorem gaussian_blur_radius_quarter : gaussian_blur_radius (1 / 4) = 1 := by decide!

/-- The blur of a signal of two samples for `sigma = 1/4` (radius 1), from an input buffer
distinct from the output buffer. -/
theorem gaussian_blur_1d_two_some (expf : ℚ → ℚ) (inp out : List ℚ) :
    gaussian_blur_1d expf (some inp) out 2 (1 / 4)
      = writeAt (writeAt out 0
          ((0 + rd inp 0 * blur_weight expf (1 / 4) 0 + rd inp 1 * blur_weight expf (1 / 4) 1) /
            (0 + blur_weight expf (1 / 4) 0 + blur_weight expf (1 / 4) 1))) 1
          ((0 + rd inp 0 * blur_weight expf (1 / 4) (-1) + rd inp 1 * blur_weight expf (1 / 4) 0) /
            (0 + blur_weight expf (1 / 4) (-1) + blur_weight expf (1 / 4) 0)) := by
  rw [gaussian_blur_1d_radius]
  unfold blur_weight
  rw [gaussian_blur_radius_quarter]
  rfl

/-- The blur of a signal of two samples for `sigma = 1/4` (radius 1), in place: the second
output is computed from the first output, not from the first input. -/
theorem gaussian_blur_1d_two_none (expf : ℚ → ℚ) (out : List ℚ) :
    gaussian_blur_1d expf none out 2 (1 / 4)
      = writeAt (writeAt out 0
          ((0 + rd out 0 * blur_weight expf (1 / 4) 0 + rd out 1 * blur_weight expf (1 / 4) 1) /
            (0 + blur_weight expf (1 / 4) 0 + blur_weight expf (1 / 4) 1))) 1
          ((0 + rd (writeAt out 0
              ((0 + rd out 0 * blur_weight expf (1 / 4) 0 +
                  rd out 1 * blur_weight expf (1 / 4) 1) /
                (0 + blur_weight expf (1 / 4) 0 + blur_weight expf (1 / 4) 1))) 0
                * blur_weight expf (1 / 4) (-1) +
              rd (writeAt out 0
              ((0 + rd out 0 * blur_weight expf (1 / 4) 0 +
                  rd out 1 * blur_weight expf (1 / 4) 1) /
                (0 + blur_weight expf (1 / 4) 0 + blur_weight expf (1 / 4) 1))) 1
                * blur_weight expf (1 / 4) 0) /
            (0 + blur_weight expf (1 / 4) (-1) + blur_weight expf (1 / 4) 0)) := by
  rw [gaussian_blur_1d_radius]
  unfold blur_weight
  rw [gaussian_blur_radius_quarter]
  rfl

/-- The blurred image computed for the 2x2 image with rows `(0, 0)` and `(1, 1)` and
`sigma = 1/4`, in terms of the three kernel weights. -/
theorem blurred_working_img_two_rows (expf : ℚ → ℚ) (k0 k1 k2 : ℚ)
    (h0 : blur_weight expf (1 / 4) (-1) = k0) (h1 : blur_weight expf (1 / 4) 0 = k1)
    (h2 : blur_weight expf (1 / 4) 1 = k2) (p0 : 0 < k0) (p1 : 0 < k1) (p2 : 0 < k2) :
    (blurred_working_img expf ⟨[0, 0, 1, 1], 2, 2, 1⟩ (1 / 4)).data
      = [k2 / (k1 + k2), k2 / (k1 + k2),
          (k2 / (k1 + k2) * k0 + k1) / (k0 + k1), (k2 / (k1 + k2) * k0 + k1) / (k0 + k1)] := by
  have e1 : (k1 + k2) / (k1 + k2) = 1 := div_self (by positivity)
  have e2 : (k0 + k1) / (k0 + k1) = 1 := div_self (by positivity)
  unfold blurred_working_img
  simp only [create_image, forRange_zero_two, gaussian_blur_1d_two_some,
    gaussian_blur_1d_two_none, h0, h1, h2]
  simp [ptrAt, storeAt, writeAt, rd, readAt, e1, e2]

theorem intRange_neg_one_two : intRange (-1) (1 + 1) = [-1, 0, 1] := by decide

/-- The separable blur of the 2x2 image with rows `(0, 0)` and `(1, 1)` for `sigma = 1/4`, in
terms of the three kernel weights. -/
theorem separable_blur_two_rows (expf : ℚ → ℚ) (k0 k1 k2 : ℚ)
    (h0 : blur_weight expf (1 / 4) (-1) = k0) (h1 : blur_weight expf (1 / 4) 0 = k1)
    (h2 : blur_weight expf (1 / 4) 1 = k2) (p0 : 0 < k0) (p1 : 0 < k1) (p2 : 0 < k2) :
    separable_blur expf ⟨[0, 0, 1, 1], 2, 2, 1⟩ (1 / 4) 0 0 = k2 / (k1 + k2) ∧
    separable_blur expf ⟨[0, 0, 1, 1], 2, 2, 1⟩ (1 / 4) 1 0 = k2 / (k1 + k2) ∧
    separable_blur expf ⟨[0, 0, 1, 1], 2, 2, 1⟩ (1 / 4) 0 1 = k1 / (k0 + k1) ∧
    separable_blur expf ⟨[0, 0, 1, 1], 2, 2, 1⟩ (1 / 4) 1 1 = k1 / (k0 + k1) := by
  have e1 : (k1 + k2) / (k1 + k2) = 1 := div_self (by positivity)
  have e2 : (k0 + k1) / (k0 + k1) = 1 := div_self (by positivity)
  unfold separable_blur renormalised_blur
  rw [gaussian_blur_radius_quarter, intRange_neg_one_two]
  simp only [one_div] at h0 h1 h2
  simp [List.filter, rd, readAt, h0, h1, h2, e1, e2]

/-- Every weight of the kernel of `gaussian_blur_1d` is strictly positive when `expf` is. -/
theorem blur_weight_pos (expf : ℚ → ℚ) (hexp : ∀ t, 0 < expf t) (sigma : ℚ) (hsigma : 0 < sigma)
    (k : Int) (hk : -gaussian_blur_radius sigma ≤ k ∧ k ≤ gaussian_blur_radius sigma) :
    0 < blur_weight expf sigma k := by
  have hr : 0 ≤ gaussian_blur_radius sigma := cTrunc_nonneg _ (by positivity)
  exact compute_gaussian_kernel_pos expf hexp (2 * gaussian_blur_radius sigma + 1) sigma
    (by omega) (k + gaussian_blur_radius sigma) (by omega) (by omega)

/-- C27 (code at the failing input). For `sigma_blur > 0`, `compute_image_gradients`
differentiates the image `blurred_working_img`, whose vertical pass blurs each column in place.
For the 2x2 image with rows `(0, 0)` and `(1, 1)`, `sigma = 1/4` (radius 1, weights `k0`, `k1`,
`k2` for the offsets -1, 0, 1) and any strictly positive `expf`: the first row of the blurred
image is that of the separable blur, `k2 / (k1 + k2)`, but the sample at `(0, 1)` is
`((k2 / (k1 + k2)) * k0 + k1) / (k0 + k1)`, computed from the first output of the column pass,
and is larger than the value `k1 / (k0 + k1)` of the separable blur. -/
theorem compute_image_gradients_blurs_columns_in_place (expf : ℚ → ℚ)
    (hexp : ∀ t, 0 < expf t) :
    (∀ grads : ImageGradients,
      compute_image_gradients expf ⟨[0, 0, 1, 1], 2, 2, 1⟩ grads (1 / 4)
        = compute_prewitt_gradients (blurred_working_img expf ⟨[0, 0, 1, 1], 2, 2, 1⟩ (1 / 4))
            grads) ∧
    (blurred_working_img expf ⟨[0, 0, 1, 1], 2, 2, 1⟩ (1 / 4)).sample 0 0 0
      = separable_blur expf ⟨[0, 0, 1, 1], 2, 2, 1⟩ (1 / 4) 0 0 ∧
    (blurred_working_img expf ⟨[0, 0, 1, 1], 2, 2, 1⟩ (1 / 4)).sample 0 1 0
      = (blur_weight expf (1 / 4) 1 / (blur_weight expf (1 / 4) 0 + blur_weight expf (1 / 4) 1)
            * blur_weight expf (1 / 4) (-1) + blur_weight expf (1 / 4) 0)
          / (blur_weight expf (1 / 4) (-1) + blur_weight expf (1 / 4) 0) ∧
    separable_blur expf ⟨[0, 0, 1, 1], 2, 2, 1⟩ (1 / 4) 0 1
      = blur_weight expf (1 / 4) 0
          / (blur_weight expf (1 / 4) (-1) + blur_weight expf (1 / 4) 0) ∧
    separable_blur expf ⟨[0, 0, 1, 1], 2, 2, 1⟩ (1 / 4) 0 1
      < (blurred_working_img expf ⟨[0, 0, 1, 1], 2, 2, 1⟩ (1 / 4)).sample 0 1 0 := by
  have hq : (0 : ℚ) < 1 / 4 := by norm_num
  have p0 := blur_weight_pos expf hexp (1 / 4) hq (-1)
    (by rw [gaussian_blur_radius_quarter]; decide)
  have p1 := blur_weight_pos expf hexp (1 / 4) hq 0
    (by rw [gaussian_blur_radius_quarter]; decide)
  have p2 := blur_weight_pos expf hexp (1 / 4) hq 1
    (by rw [gaussian_blur_radius_quarter]; decide)
  have hd := blurred_working_img_two_rows expf _ _ _ rfl rfl rfl p0 p1 p2
  obtain ⟨s00, _, s01, _⟩ := separable_blur_two_rows expf _ _ _ rfl rfl rfl p0 p1 p2
  have hw : (blurred_working_img expf ⟨[0, 0, 1, 1], 2, 2, 1⟩ (1 / 4)).width = 2 := rfl
  have hc : (blurred_working_img expf ⟨[0, 0, 1, 1], 2, 2, 1⟩ (1 / 4)).channels = 1 := rfl
  have v00 : (blurred_working_img expf ⟨[0, 0, 1, 1], 2, 2, 1⟩ (1 / 4)).sample 0 0 0
      = blur_weight expf (1 / 4) 1
          / (blur_weight expf (1 / 4) 0 + blur_weight expf (1 / 4) 1) := by
    unfold Image.sample
    rw [hd, hw, hc]
    rfl
  have v01 : (blurred_working_img expf ⟨[0, 0, 1, 1], 2, 2, 1⟩ (1 / 4)).sample 0 1 0
      = (blur_weight expf (1 / 4) 1 / (blur_weight expf (1 / 4) 0 + blur_weight expf (1 / 4) 1)
            * blur_weight expf (1 / 4) (-1) + blur_weight expf (1 / 4) 0)
          / (blur_weight expf (1 / 4) (-1) + blur_weight expf (1 / 4) 0) := by
    unfold Image.sample
    rw [hd, hw, hc]
    rfl
  refine ⟨fun grads => ?_, by rw [v00, s00], v01, s01, ?_⟩
  · unfold compute_image_gradients
    simp only [if_pos (show (1 / 4 : ℚ) > 0 by norm_num)]
  · rw [v01, s01]
    apply div_lt_div_of_pos_right _ (by positivity)
    have : 0 < blur_weight expf (1 / 4) 1
        / (blur_weight expf (1 / 4) 0 + blur_weight expf (1 / 4) 1)
        * blur_weight expf (1 / 4) (-1) := by positivity
    linarith

theorem compute_image_gradients_blurs_columns_in_place_witness :
    separable_blur (fun t => 1 / (1 + t ^ 2)) ⟨[0, 0, 1, 1], 2, 2, 1⟩ (1 / 4) 0 1
      < (blurred_working_img (fun t => 1 / (1 + t ^ 2)) ⟨[0, 0, 1, 1], 2, 2, 1⟩
          (1 / 4)).sample 0 1 0 :=
  (compute_image_gradients_blurs_columns_in_place (fun t => 1 / (1 + t ^ 2))
    (fun t => by positivity)).2.2.2.2

/-- A sum over `a * b` consecutive positions, cut into `b` blocks of `a` positions. -/
theorem sum_range_blocks (a b : ℕ) (g : ℕ → ℚ) :
    ∑ m ∈ Finset.range (a * b), g m
      = ∑ k ∈ Finset.range b, ∑ j ∈ Finset.range a, g (a * k + j) := by
  induction b with
  | zero => simp
  | succ b ih =>
    rw [Nat.mul_succ, Finset.sum_range_add, ih, Finset.sum_range_succ]

/-- Reading, below `n`, a fresh zero-filled buffer of `n` floats into which `n` floats of `src`
have been copied gives what reading `src` gives. -/
theorem rd_memcpy_fresh (src : List ℚ) (n i : Int) (h0 : 0 ≤ i) (h1 : i < n) :
    rd (memcpy (List.replicate n.toNat 0) src n) i = rd src i := by
  unfold rd readAt memcpy
  rw [if_pos h0, if_pos h0, List.getD_eq_getElem?_getD, List.getD_eq_getElem?_getD]
  have hd : List.drop n.toNat (List.replicate n.toNat (0 : ℚ)) = [] := by
    apply List.drop_eq_nil_of_le
    simp
  rw [hd, List.append_nil, List.getElem?_take_of_lt (by omega)]

/-- The result of `downsample_image` for a factor of at least 1, sample by sample: the copy
made for the factor 1 is the box mean over blocks of one sample. -/
theorem downsample_image_box_mean (img : Image) (f : Int) (hf : 1 ≤ f)
    (hh : 0 ≤ img.height) (hw : 0 ≤ img.width) :
    ∃ r, downsample_image img f = some r ∧ r.height = img.height / f ∧
      r.width = img.width / f ∧ r.channels = img.channels ∧
      (img.data.length = (img.height * img.width * img.channels).toNat →
        r.data.length = (r.height * r.width * r.channels).toNat) ∧
      ∀ c y x, 0 ≤ c → c < img.channels → 0 ≤ y → y < img.height / f →
        0 ≤ x → x < img.width / f → r.sample x y c = box_mean img f c y x := by
  by_cases h1 : f = 1
  · subst h1
    refine ⟨_, by unfold downsample_image; rw [if_neg (by omega), if_pos rfl], ?_, ?_, ?_, ?_,
      ?_⟩
    · simp [create_image]
    · simp [create_image]
    · simp [create_image]
    · intro hwf
      simp only [create_image]
      rw [memcpy_full 0 img.data _ hwf]
      exact hwf
    · intro c y x hc1 hc2 hy1 hy2 hx1 hx2
      rw [Int.ediv_one] at hy2 hx2
      have hb := idx3_bound (H := img.height) ⟨hy1, hy2⟩ ⟨hx1, hx2⟩ ⟨hc1, hc2⟩
      unfold box_mean Image.sample
      simp only [create_image, memcpy]
      simp only [Int.toNat_one, Finset.range_one, Finset.sum_singleton, Nat.cast_zero,
        add_zero, one_mul, Int.cast_one, mul_one, div_one]
      exact rd_memcpy_fresh img.data _ _ hb.1 hb.2
  · obtain ⟨r, hr, rh, rw_, rc, rlen, rs⟩ := downsample_image_spec img f (by omega)
    rw [(tdiv_nonneg_eq hh (show 0 < f by omega)).1] at rh
    rw [(tdiv_nonneg_eq hw (show 0 < f by omega)).1] at rw_
    refine ⟨r, hr, rh, rw_, rc, fun _ => rlen, ?_⟩
    intro c y x hc1 hc2 hy1 hy2 hx1 hx2
    exact rs c y x hc1 hc2 hy1 (by rw [rh]; exact hy2) hx1 (by rw [rw_]; exact hx2)

/-- The box mean over blocks of `b * b` box means over blocks of `a * a` samples is the box
mean over blocks of `(a * b) * (a * b)` samples. -/
theorem box_mean_cascade (img r1 : Image) (a b c y x : Int) (ha : 1 ≤ a) (hb : 1 ≤ b)
    (h1 : ∀ ky kx : Nat, ky < b.toNat → kx < b.toNat →
      r1.sample (b * x + (kx : Int)) (b * y + (ky : Int)) c
        = box_mean img a c (b * y + (ky : Int)) (b * x + (kx : Int))) :
    box_mean r1 b c y x = box_mean img (a * b) c y x := by
  unfold box_mean
  have e1 : ∑ ky ∈ Finset.range b.toNat, ∑ kx ∈ Finset.range b.toNat,
      r1.sample (b * x + (kx : Int)) (b * y + (ky : Int)) c
      = ∑ ky ∈ Finset.range b.toNat, ∑ kx ∈ Finset.range b.toNat,
          box_mean img a c (b * y + (ky : Int)) (b * x + (kx : Int)) :=
    Finset.sum_congr rfl (fun ky hky => Finset.sum_congr rfl (fun kx hkx =>
      h1 ky kx (Finset.mem_range.mp hky) (Finset.mem_range.mp hkx)))
  rw [e1]
  unfold box_mean
  have hab : (a * b).toNat = a.toNat * b.toNat := by
    have h2 : ((a.toNat * b.toNat : ℕ) : Int) = a * b := by
      push_cast
      rw [Int.toNat_of_nonneg (by omega), Int.toNat_of_nonneg (by omega)]
    omega
  rw [hab, sum_range_blocks]
  have e2 : ∀ ky ∈ Finset.range b.toNat,
      ∑ jy ∈ Finset.range a.toNat, ∑ mx ∈ Finset.range (a.toNat * b.toNat),
        img.sample (a * b * x + (mx : Int)) (a * b * y + ((a.toNat * ky + jy : ℕ) : Int)) c
      = ∑ kx ∈ Finset.range b.toNat, ∑ jy ∈ Finset.range a.toNat,
          ∑ jx ∈ Finset.range a.toNat,
            img.sample (a * (b * x + (kx : Int)) + (jx : Int))
              (a * (b * y + (ky : Int)) + (jy : Int)) c := by
    intro ky _
    rw [Finset.sum_comm]
    rw [sum_range_blocks]
    refine Finset.sum_congr rfl (fun kx _ => ?_)
    rw [Finset.sum_comm]
    refine Finset.sum_congr rfl (fun jy _ => Finset.sum_congr rfl (fun jx _ => ?_))
    have ea : ((a.toNat : ℕ) : Int) = a := Int.toNat_of_nonneg (by omega)
    congr 1
    · push_cast
      rw [ea]
      ring
    · push_cast
      rw [ea]
      ring
  rw [Finset.sum_congr rfl e2]
  simp only [Finset.sum_div]
  refine Finset.sum_congr rfl (fun ky _ => Finset.sum_congr rfl (fun kx _ =>
    Finset.sum_congr rfl (fun jy _ => Finset.sum_congr rfl (fun jx _ => ?_))))
  rw [div_div]
  congr 1
  push_cast
  ring

/-- Rounding down twice is rounding down once by the product. -/
theorem ediv_ediv_pos (m a b : Int) (ha : 0 < a) (hb : 0 < b) : m / a / b = m / (a * b) := by
  have hab : 0 < a * b := mul_pos ha hb
  have key : ∀ x : Int, x ≤ m / a / b ↔ x ≤ m / (a * b) := by
    intro x
    rw [Int.le_ediv_iff_mul_le hb, Int.le_ediv_iff_mul_le ha, Int.le_ediv_iff_mul_le hab,
      mul_assoc, mul_comm b a]
  exact le_antisymm ((key _).mp le_rfl) ((key _).mpr le_rfl)

/-- C29. For every image and factors `a, b ≥ 1`, downsampling by `a` and then downsampling
the result by `b` (the cascade of `init_block_matching`) gives the same dimensions and, in exact
arithmetic, the same samples as downsampling the original once by `a * b`; for an image whose
buffer has `height * width * channels` samples the two results are the same image. -/
theorem downsample_image_cascade (img : Image) (a b : Int) (ha : 1 ≤ a) (hb : 1 ≤ b)
    (hh : 0 ≤ img.height) (hw : 0 ≤ img.width) :
    ∃ r1 r2 r3, downsample_image img a = some r1 ∧ downsample_image r1 b = some r2 ∧
      downsample_image img (a * b) = some r3 ∧
      r2.height = r3.height ∧ r2.width = r3.width ∧ r2.channels = r3.channels ∧
      r3.height = img.height / (a * b) ∧ r3.width = img.width / (a * b) ∧
      (∀ c y x, 0 ≤ c → c < r3.channels → 0 ≤ y → y < r3.height → 0 ≤ x → x < r3.width →
        r2.sample x y c = r3.sample x y c) ∧
      (img.WF → r2 = r3) := by
  have hab : 1 ≤ a * b := by nlinarith
  obtain ⟨r1, e1, h1, w1, c1, l1, s1⟩ := downsample_image_box_mean img a ha hh hw
  have hh1 : 0 ≤ r1.height := by rw [h1]; exact Int.ediv_nonneg hh (by omega)
  have hw1 : 0 ≤ r1.width := by rw [w1]; exact Int.ediv_nonneg hw (by omega)
  obtain ⟨r2, e2, h2, w2, c2, l2, s2⟩ := downsample_image_box_mean r1 b hb hh1 hw1
  obtain ⟨r3, e3, h3, w3, c3, l3, s3⟩ := downsample_image_box_mean img (a * b) hab hh hw
  have eh : r2.height = r3.height := by
    rw [h2, h3, h1, ediv_ediv_pos _ _ _ (by omega) (by omega)]
  have ew : r2.width = r3.width := by
    rw [w2, w3, w1, ediv_ediv_pos _ _ _ (by omega) (by omega)]
  have ec : r2.channels = r3.channels := by rw [c2, c3, c1]
  have hs : ∀ c y x, 0 ≤ c → c < r3.channels → 0 ≤ y → y < r3.height → 0 ≤ x →
      x < r3.width → r2.sample x y c = r3.sample x y c := by
    intro c y x hc1 hc2 hy1 hy2 hx1 hx2
    rw [c3] at hc2
    rw [s3 c y x hc1 hc2 hy1 (by rw [← h3]; exact hy2) hx1 (by rw [← w3]; exact hx2),
      s2 c y x hc1 (by rw [c1]; exact hc2) hy1 (by rw [← h2, eh]; exact hy2) hx1
        (by rw [← w2, ew]; exact hx2)]
    apply box_mean_cascade img r1 a b c y x ha hb
    intro ky kx hky hkx
    have by_ := block_pos_bound (show 0 < b by omega) hy1
      (show y < r1.height / b by rw [← h2, eh]; exact hy2)
      (show 0 ≤ (ky : Int) by omega) (show (ky : Int) < b by omega)
    have bx_ := block_pos_bound (show 0 < b by omega) hx1
      (show x < r1.width / b by rw [← w2, ew]; exact hx2)
      (show 0 ≤ (kx : Int) by omega) (show (kx : Int) < b by omega)
    have ly := Int.ediv_mul_le r1.height (show b ≠ 0 by omega)
    have lx := Int.ediv_mul_le r1.width (show b ≠ 0 by omega)
    exact s1 c _ _ hc1 hc2 by_.1 (by rw [← h1]; omega) bx_.1 (by rw [← w1]; omega)
  refine ⟨r1, r2, r3, e1, e2, e3, eh, ew, ec, h3, w3, hs, ?_⟩
  intro hwf
  obtain ⟨_, _, hch, hlen⟩ := hwf
  have len1 := l1 hlen
  have len2 := l2 len1
  have len3 := l3 hlen
  have hlen23 : r2.data.length = r3.data.length := by rw [len2, len3, eh, ew, ec]
  have hdata : r2.data = r3.data := by
    apply list_ext_rd hlen23
    intro i hi0 hi1
    have hh3 : 0 ≤ r3.width := by rw [w3]; exact Int.ediv_nonneg hw (by omega)
    have hc3 : 0 ≤ r3.channels := by rw [c3]; exact hch
    have hi2 : i < r3.height * r3.width * r3.channels := by
      rw [hlen23, len3] at hi1
      omega
    obtain ⟨y, x, c, hy, hx, hc, rfl⟩ := idx3_surj ⟨hi0, hi2⟩ hh3 hc3
    have := hs c y x hc.1 hc.2 hy.1 hy.2 hx.1 hx.2
    unfold Image.sample at this
    rw [ew, ec] at this
    exact this
  cases r2
  cases r3
  simp only [Image.mk.injEq]
  simp only at hdata eh ew ec
  exact ⟨hdata, eh, ew, ec⟩

theorem downsample_image_cascade_witness :
    ∃ r1 r2 r3, downsample_image ⟨[1, 2, 3, 4, 5, 6, 7, 8, 9, 10, 11, 12, 13, 14, 15, 16,
        17, 18, 19, 20], 4, 5, 1⟩ 2 = some r1 ∧
      downsample_image r1 2 = some r2 ∧
      downsample_image ⟨[1, 2, 3, 4, 5, 6, 7, 8, 9, 10, 11, 12, 13, 14, 15, 16,
        17, 18, 19, 20], 4, 5, 1⟩ (2 * 2) = some r3 ∧
      r2.height = r3.height ∧ r2.width = r3.width ∧ r2.channels = r3.channels ∧
      r3.height = (4 : Int) / (2 * 2) ∧ r3.width = (5 : Int) / (2 * 2) ∧
      (∀ c y x, 0 ≤ c → c < r3.channels → 0 ≤ y → y < r3.height → 0 ≤ x → x < r3.width →
        r2.sample x y c = r3.sample x y c) ∧
      (Image.WF ⟨[1, 2, 3, 4, 5, 6, 7, 8, 9, 10, 11, 12, 13, 14, 15, 16,
        17, 18, 19, 20], 4, 5, 1⟩ → r2 = r3) :=
  downsample_image_cascade ⟨[1, 2, 3, 4, 5, 6, 7, 8, 9, 10, 11, 12, 13, 14, 15, 16,
    17, 18, 19, 20], 4, 5, 1⟩ 2 2 (by decide) (by decide) (by decide) (by decide)

/-- The pyramid of the scenario: the image itself and the image downsampled by 2. -/
theorem scenario_pyramid (img : Image)
    (hbuf : img.data.length = (img.height * img.width * img.channels).toNat) :
    init_block_matching (some img) (some scenario_params)
      = some ⟨[img, scenario_coarse_level img], 2⟩ := by
  have h2 : ∃ L, downsample_image img 2 = some L := by
    unfold downsample_image
    rw [if_neg (by decide), if_neg (by decide)]
    exact ⟨_, rfl⟩
  obtain ⟨L, hL⟩ := h2
  have hc : scenario_coarse_level img = L := by
    unfold scenario_coarse_level
    rw [hL]
    rfl
  have e0 : intAt scenario_params.factors 0 = 1 := by decide
  have e1 : intAt scenario_params.factors 1 = 2 := by decide
  have en : scenario_params.num_levels = 2 := rfl
  simp only [init_block_matching]
  rw [if_neg (by decide), e0, downsample_image_one img hbuf, en]
  simp only []
  have hloop : forRange 1 2 (fun i st =>
      match st with
      | none => none
      | some levels =>
        match downsample_image (levelAt levels (i - 1)) (intAt scenario_params.factors i) with
        | none => none
        | some level => some (levels ++ [level])) (some [img]) = some [img, L] := by
    have hs := forRange_succ (show (1 : Int) ≤ 1 from le_rfl) (fun i st =>
      match st with
      | none => none
      | some levels =>
        match downsample_image (levelAt levels (i - 1)) (intAt scenario_params.factors i) with
        | none => none
        | some level => some (levels ++ [level])) (some [img])
    rw [show (1 : Int) + 1 = 2 by norm_num] at hs
    rw [hs, forRange_empty le_rfl]
    have hl : levelAt [img] (1 - 1) = img := rfl
    simp only [hl, e1, hL]
    rfl
  rw [hc]
  exact congrArg (Option.map (fun levels =>
    ({ levels := levels, num_levels := 2 } : ImagePyramid))) hloop

/-- The block matching of the scenario: `local_search` at level 0, started from the map of
level 1 passed through `upsample_alignments`. -/
theorem scenario_block_matching (ref alt : Image)
    (hbuf : alt.data.length = (alt.height * alt.width * alt.channels).toNat) :
    align_image_block_matching (some alt) ⟨[ref, scenario_coarse_level ref], 2⟩
        (some scenario_params)
      = some (local_search ref alt 16 4 (scenario_initial_map ref alt) 1) := by
  unfold align_image_block_matching
  rw [scenario_pyramid alt hbuf]
  rfl

/-- The end-to-end scenario on two images whose buffers have `height * width * channels`
samples. -/
theorem end_to_end_eq (expf : ℚ → ℚ) (ref alt : Image)
    (href : ref.data.length = (ref.height * ref.width * ref.channels).toNat)
    (halt : alt.data.length = (alt.height * alt.width * alt.channels).toNat) :
    end_to_end expf ref alt
      = some (refine_alignment_ica ref alt (init_ica expf ref scenario_ica_params)
          (compute_hessian (init_ica expf ref scenario_ica_params) 16)
          (local_search ref alt 16 4 (scenario_initial_map ref alt) 1) scenario_ica_params) := by
  unfold end_to_end
  rw [scenario_pyramid ref href]
  simp only [scenario_block_matching ref alt halt]

/-- The vector `b` of a patch is zero when the residual vanishes at every contributing pixel
of the patch. -/
theorem ica_rhs_zero_residual (ref_img alt_img : Image) (grads : ImageGradients)
    (ts py px : Int) (d : Alignment)
    (h : ∀ x y : Int, px * ts ≤ x → x < (px + 1) * ts → py * ts ≤ y → y < (py + 1) * ts →
      ica_pixel_used ref_img alt_img d x y → ica_residual ref_img alt_img d x y = 0) :
    ica_rhs ref_img alt_img grads ts py px d = (0, 0) := by
  have hz : ∀ (g : Int → ℚ),
      (∑ y ∈ Finset.range ts.toNat, ∑ x ∈ Finset.range ts.toNat,
        if ica_pixel_used ref_img alt_img d (px * ts + (x : Int)) (py * ts + (y : Int)) then
          g ((py * ts + (y : Int)) * grads.width + (px * ts + (x : Int))) *
            ica_residual ref_img alt_img d (px * ts + (x : Int)) (py * ts + (y : Int))
        else 0) = 0 := by
    intro g
    apply Finset.sum_eq_zero
    intro y hy
    apply Finset.sum_eq_zero
    intro x hx
    rw [Finset.mem_range] at hx hy
    split
    · rename_i hu
      rw [h _ _ (by omega) (by linarith [show (x : Int) < ts by omega])
        (by omega) (by linarith [show (y : Int) < ts by omega]) hu, mul_zero]
    · rfl
  unfold ica_rhs
  rw [hz (fun i => rd grads.data_x i), hz (fun i => rd grads.data_y i)]
  simp

theorem solve_2x2_system_zero (A : Int → ℚ) : solve_2x2_system A (0, 0) = (0, 0) := by
  unfold solve_2x2_system
  dsimp only
  split
  · rfl
  · simp

/-- A patch at whose displacement the residual vanishes on every contributing pixel keeps its
displacement through every number of iterations of `refine_alignment_ica`. -/
theorem refine_alignment_ica_zero_residual (ref_img alt_img : Image) (grads : ImageGradients)
    (hessian : HessianMatrix) (initial : AlignmentMap) (sigma : ℚ) (ts n : Int)
    (px py : Int) (hwf : initial.WF)
    (hpy : 0 ≤ py ∧ py < initial.height) (hpx : 0 ≤ px ∧ px < initial.width)
    (hres : ∀ x y : Int, px * ts ≤ x → x < (px + 1) * ts → py * ts ≤ y → y < (py + 1) * ts →
      ica_pixel_used ref_img alt_img (initial.tile px py) x y →
      ica_residual ref_img alt_img (initial.tile px py) x y = 0) :
    (refine_alignment_ica ref_img alt_img grads hessian initial ⟨sigma, n, ts⟩).tile px py
      = initial.tile px py := by
  have hw : (refine_alignment_ica ref_img alt_img grads hessian initial
      ⟨sigma, n, ts⟩).width = initial.width := rfl
  unfold AlignmentMap.tile
  rw [refine_alignment_ica_data _ _ _ _ _ _ _ _ hwf, hw]
  have key := forRange_preserves (fun data : List Alignment =>
      data.length = (initial.height * initial.width).toNat ∧
      rdA data (py * initial.width + px) = rdA initial.data (py * initial.width + px))
    0 n (fun _iter data =>
      forRange 0 initial.height (fun py data =>
        forRange 0 initial.width (fun px data =>
          ica_tile ref_img alt_img grads hessian ⟨sigma, 0, ts⟩ initial.width py px data)
          data) data) initial.data ⟨hwf.2.2, rfl⟩
    (by
      intro i s hs
      obtain ⟨p1, p2⟩ := ica_pass_spec ref_img alt_img grads hessian ⟨sigma, 0, ts⟩
        initial.height initial.width s hs.1
      refine ⟨p1, ?_⟩
      rw [p2 py px hpy.1 hpy.2 hpx.1 hpx.2]
      split
      · exact hs.2
      · rw [hs.2]
        have hr := ica_rhs_zero_residual ref_img alt_img grads ts py px
          (rdA initial.data (py * initial.width + px)) hres
        show (⟨_, _⟩ : Alignment) = _
        rw [hr, solve_2x2_system_zero]
        simp)
  exact key.2

theorem floorf_intCast (n : Int) : floorf (n : ℚ) = n := by
  unfold floorf
  simp

/-- The bilinear interpolation at a position with integer coordinates is the sample there. -/
theorem bilinear_interpolation_intCast (img : Image) (x y : Int) :
    bilinear_interpolation img (x : ℚ) (y : ℚ) = rd img.data (y * img.width + x) := by
  unfold bilinear_interpolation
  simp only [floorf_intCast]
  simp

theorem FLT_MAX_pos : 0 < FLT_MAX := by
  unfold FLT_MAX
  norm_num

/-- For a single-channel image translated by the integer vector `(sx, sy)`, the residual at
the displacement `(sx, sy)` vanishes at every contributing pixel. -/
theorem ica_residual_translation (ref_img alt_img : Image) (sx sy : Int)
    (hrc : ref_img.channels = 1) (hac : alt_img.channels = 1)
    (htr : is_translation ref_img alt_img sx sy) (x y : Int) (hx : 0 ≤ x) (hy : 0 ≤ y)
    (hu : ica_pixel_used ref_img alt_img ⟨(sx : ℚ), (sy : ℚ)⟩ x y) :
    ica_residual ref_img alt_img ⟨(sx : ℚ), (sy : ℚ)⟩ x y = 0 := by
  obtain ⟨⟨h1, h2⟩, ⟨h3, h4⟩, h5, h6⟩ := hu
  dsimp only at h3 h4 h5 h6
  have h3' : 0 ≤ x + sx := by exact_mod_cast h3
  have h4' : x + sx < alt_img.width - 1 := by exact_mod_cast h4
  have h5' : 0 ≤ y + sy := by exact_mod_cast h5
  have h6' : y + sy < alt_img.height - 1 := by exact_mod_cast h6
  have := htr x y hx h2 hy h1 h3' (by omega) h5' (by omega)
  unfold Image.sample at this
  rw [hrc, hac, mul_one, mul_one, add_zero, add_zero] at this
  unfold ica_residual
  dsimp only
  have e1 : (x : ℚ) + (sx : ℚ) = ((x + sx : Int) : ℚ) := by push_cast; rfl
  have e2 : (y : ℚ) + (sy : ℚ) = ((y + sy : Int) : ℚ) := by push_cast; rfl
  rw [e1, e2, bilinear_interpolation_intCast, this, sub_self]

/-- For a single-channel image translated by the integer vector `(sx, sy)`, a candidate shift
that brings the tile to the displacement `(sx, sy)` with its patch inside the alternate image
has distance 0. -/
theorem patch_distance_translation (ref_level alt_level : Image) (ts ty tx : Int)
    (current : Alignment) (dx dy sx sy metric : Int)
    (hrc : ref_level.channels = 1)
    (htr : is_translation ref_level alt_level sx sy)
    (hty : 0 ≤ ty ∧ (ty + 1) * ts ≤ ref_level.height)
    (htx : 0 ≤ tx ∧ (tx + 1) * ts ≤ ref_level.width)
    (hsx : current.x + (dx : ℚ) = (sx : ℚ)) (hsy : current.y + (dy : ℚ) = (sy : ℚ))
    (hin : patch_inside alt_level ts ty tx current dx dy) :
    patch_distance ref_level alt_level ts ty tx current dx dy metric = 0 := by
  unfold patch_distance
  apply Finset.sum_eq_zero
  intro y hy
  apply Finset.sum_eq_zero
  intro x hx
  apply Finset.sum_eq_zero
  intro c hc
  rw [Finset.mem_range] at hx hy hc
  have hc0 : c = 0 := by
    rw [hrc] at hc
    simpa using hc
  subst hc0
  have hy2 : (y : Int) < ts := by omega
  have hx2 : (x : Int) < ts := by omega
  have hts : 0 < ts := by omega
  have hin2 := hin (y : Int) (mem_intRange.mpr ⟨by omega, hy2⟩) (x : Int)
    (mem_intRange.mpr ⟨by omega, hx2⟩)
  unfold alt_pixel at hin2 ⊢
  rw [hsx, hsy, cTrunc_intCast, cTrunc_intCast] at hin2 ⊢
  dsimp only at hin2 ⊢
  have bx : 0 ≤ tx * ts + (x : Int) ∧ tx * ts + (x : Int) < ref_level.width := by
    constructor
    · have := mul_nonneg htx.1 (le_of_lt hts)
      omega
    · nlinarith [htx.2]
  have by_ : 0 ≤ ty * ts + (y : Int) ∧ ty * ts + (y : Int) < ref_level.height := by
    constructor
    · have := mul_nonneg hty.1 (le_of_lt hts)
      omega
    · nlinarith [hty.2]
  have := htr _ _ bx.1 bx.2 by_.1 by_.2 hin2.1.1 hin2.1.2 hin2.2.1 hin2.2.2
  simp only [Nat.cast_zero]
  rw [this, sub_self, metric_term_zero]

/-- The tile whose search window holds a shift of distance 0 with its patch inside the
alternate image, every other in-bounds shift of the window having a positive distance,
receives that shift. -/
theorem local_search_unique_zero (ref_level alt_level : Image) (ts r : Int)
    (m : AlignmentMap) (metric : Int) (hwf : m.WF) (x y : Int)
    (hy : 0 ≤ y ∧ y < m.height) (hx : 0 ≤ x ∧ x < m.width) (dx dy : Int)
    (hdx : -r ≤ dx ∧ dx ≤ r) (hdy : -r ≤ dy ∧ dy ≤ r)
    (hin : patch_inside alt_level ts y x (m.tile x y) dx dy)
    (hzero : patch_distance ref_level alt_level ts y x (m.tile x y) dx dy metric = 0)
    (huniq : ∀ dx2 dy2 : Int, -r ≤ dx2 → dx2 ≤ r → -r ≤ dy2 → dy2 ≤ r →
      patch_inside alt_level ts y x (m.tile x y) dx2 dy2 → (dx2 ≠ dx ∨ dy2 ≠ dy) →
      0 < patch_distance ref_level alt_level ts y x (m.tile x y) dx2 dy2 metric) :
    (local_search ref_level alt_level ts r m metric).tile x y
      = ⟨(m.tile x y).x + (dx : ℚ), (m.tile x y).y + (dy : ℚ)⟩ := by
  obtain ⟨_, _, _, ht⟩ := local_search_tiles ref_level alt_level ts r m metric hwf
  rw [ht x y hy.1 hy.2 hx.1 hx.2]
  obtain ⟨s1, _⟩ := search_window_spec ref_level alt_level ts r y x (m.tile x y) metric
  obtain ⟨dx1, dy1, hdx1, hdy1, hin1, bx, by_, hmin⟩ :=
    s1 ⟨dx, dy, hdx, hdy, hin, by rw [hzero]; exact FLT_MAX_pos⟩
  have hle := hmin dx dy hdx.1 hdx.2 hdy.1 hdy.2 hin
  rw [hzero] at hle
  have heq : dx1 = dx ∧ dy1 = dy := by
    by_contra hne
    have hne2 : dx1 ≠ dx ∨ dy1 ≠ dy := by
      by_contra hcon
      push_neg at hcon
      exact hne hcon
    have := huniq dx1 dy1 hdx1.1 hdx1.2 hdy1.1 hdy1.2 hin1 hne2
    linarith
  rw [bx, by_, heq.1, heq.2]

/-- Level 1 of the pyramid of a 64x64 image is a 32x32 image. -/
theorem scenario_coarse_level_dims (img : Image) (hh : img.height = 64) (hw : img.width = 64) :
    (scenario_coarse_level img).height = 32 ∧ (scenario_coarse_level img).width = 32 ∧
    (scenario_coarse_level img).channels = img.channels := by
  obtain ⟨r, hr, rh, rw_, rc, _, _⟩ := downsample_image_spec img 2 (by decide)
  unfold scenario_coarse_level
  rw [hr]
  rw [hh] at rh
  rw [hw] at rw_
  exact ⟨rh, rw_, rc⟩

/-- The map of level 1 of the scenario, for 64x64 images: a well-formed map of 2x2 tiles,
obtained by `local_search` from the all-zero map. -/
theorem scenario_coarse_map_eq (ref alt : Image) (hh : ref.height = 64) (hw : ref.width = 64) :
    scenario_coarse_map ref alt
      = local_search (scenario_coarse_level ref) (scenario_coarse_level alt) 16 4
          (create_alignment_map 2 2) 1 := by
  obtain ⟨e1, e2, _⟩ := scenario_coarse_level_dims ref hh hw
  unfold scenario_coarse_map
  rw [align_on_level_none]
  have t1 : intAt scenario_params.tile_sizes 1 = 16 := rfl
  have t2 : intAt scenario_params.search_radii 1 = 4 := rfl
  have t3 : intAt scenario_params.distances 1 = 1 := rfl
  rw [t1, t2, t3, e1, e2]
  rfl

theorem scenario_coarse_map_WF (ref alt : Image) (hh : ref.height = 64) (hw : ref.width = 64) :
    (scenario_coarse_map ref alt).height = 2 ∧ (scenario_coarse_map ref alt).width = 2 ∧
    (scenario_coarse_map ref alt).WF := by
  rw [scenario_coarse_map_eq ref alt hh hw]
  obtain ⟨a, b, c, _⟩ := local_search_tiles (scenario_coarse_level ref)
    (scenario_coarse_level alt) 16 4 (create_alignment_map 2 2) 1
    (create_alignment_map_WF 2 2 (by decide) (by decide))
  exact ⟨a, b, c⟩

/-- The map from which level 0 of the scenario starts, for 64x64 images: a well-formed map of
4x4 tiles; the tiles `(x, y)` with `x, y < 2` hold the displacement of the same tile of level 1
(multiplied by `factors[0] = 1`), the other tiles hold `(0, 0)`. -/
theorem scenario_initial_map_tiles (ref alt : Image) (hh : ref.height = 64)
    (hw : ref.width = 64) :
    (scenario_initial_map ref alt).height = 4 ∧ (scenario_initial_map ref alt).width = 4 ∧
    (scenario_initial_map ref alt).WF ∧
    ∀ x y, 0 ≤ x → x < 4 → 0 ≤ y → y < 4 →
      (scenario_initial_map ref alt).tile x y
        = if x < 2 ∧ y < 2 then (scenario_coarse_map ref alt).tile x y else ⟨0, 0⟩ := by
  obtain ⟨ch, cw, _⟩ := scenario_coarse_map_WF ref alt hh hw
  obtain ⟨a, b, c, d⟩ := upsample_alignments_tiles ref alt (scenario_coarse_map ref alt) 1 16 16
  rw [hh] at a c d
  rw [hw] at b c d
  have e4 : Int.tdiv 64 16 = 4 := rfl
  have e1 : Int.tdiv 1 (Int.tdiv 16 16) = 1 := rfl
  rw [e4] at a b c d
  rw [e1, ch, cw] at d
  unfold scenario_initial_map
  refine ⟨a, b, ⟨by rw [a]; decide, by rw [b]; decide, by rw [c, a, b]⟩, ?_⟩
  intro x y hx1 hx2 hy1 hy2
  rw [d x y hy1 hy2 hx1 hx2]
  have e5 : Int.tdiv x 1 = x := Int.tdiv_one x
  have e6 : Int.tdiv y 1 = y := Int.tdiv_one y
  rw [e5, e6]
  split
  · rename_i h
    rw [if_pos (by omega)]
    simp
  · rename_i h
    rw [if_neg (by omega)]

/-- The map returned by `refine_alignment_ica` has the dimensions of the initial map and a
buffer of the same length. -/
theorem refine_alignment_ica_length (ref_img alt_img : Image) (grads : ImageGradients)
    (hessian : HessianMatrix) (initial : AlignmentMap) (sigma : ℚ) (ts n : Int)
    (hwf : initial.WF) :
    (refine_alignment_ica ref_img alt_img grads hessian initial ⟨sigma, n, ts⟩).height
      = initial.height ∧
    (refine_alignment_ica ref_img alt_img grads hessian initial ⟨sigma, n, ts⟩).width
      = initial.width ∧
    (refine_alignment_ica ref_img alt_img grads hessian initial ⟨sigma, n, ts⟩).data.length
      = (initial.height * initial.width).toNat := by
  refine ⟨rfl, rfl, ?_⟩
  rw [refine_alignment_ica_data _ _ _ _ _ _ _ _ hwf]
  exact forRange_preserves (fun data : List Alignment =>
      data.length = (initial.height * initial.width).toNat)
    0 n (fun _iter data =>
      forRange 0 initial.height (fun py data =>
        forRange 0 initial.width (fun px data =>
          ica_tile ref_img alt_img grads hessian ⟨sigma, 0, ts⟩ initial.width py px data)
          data) data) initial.data hwf.2.2
    (fun i s hs => (ica_pass_spec ref_img alt_img grads hessian ⟨sigma, 0, ts⟩
      initial.height initial.width s hs).1)

theorem rd_map_range (g : ℕ → ℚ) (n : ℕ) (i : ℕ) (hi : i < n) :
    rd ((List.range n).map g) (i : Int) = g i := by
  unfold rd readAt
  rw [if_pos (by omega), List.getD_eq_getElem?_getD]
  simp [hi]

/-- The samples of a translated ramp. -/
theorem translated_ramp_sample (a b k : ℚ) (sx sy x y : Int) (hx : 0 ≤ x ∧ x < 64)
    (hy : 0 ≤ y ∧ y < 64) :
    (translated_ramp a b k sx sy).sample x y 0
      = a * ((x : ℚ) - (sx : ℚ)) + b * ((y : ℚ) - (sy : ℚ)) + k := by
  obtain ⟨xn, rfl⟩ := Int.eq_ofNat_of_zero_le hx.1
  obtain ⟨yn, rfl⟩ := Int.eq_ofNat_of_zero_le hy.1
  have hxn : xn < 64 := by omega
  have hyn : yn < 64 := by omega
  unfold Image.sample translated_ramp
  dsimp only
  have e : ((yn : Int) * 64 + (xn : Int)) * 1 + 0 = ((yn * 64 + xn : ℕ) : Int) := by
    push_cast
    ring
  rw [e, rd_map_range _ _ _ (by omega)]
  have e1 : (yn * 64 + xn) % 64 = xn := by omega
  have e2 : (yn * 64 + xn) / 64 = yn := by omega
  rw [e1, e2]
  simp

/-- The ramp translated by `(sx, sy)` is the translation of the ramp. -/
theorem translated_ramp_is_translation (a b k : ℚ) (sx sy : Int) :
    is_translation (translated_ramp a b k 0 0) (translated_ramp a b k sx sy) sx sy := by
  intro x y hx1 hx2 hy1 hy2 h1 h2 h3 h4
  have hx2' : x < 64 := hx2
  have hy2' : y < 64 := hy2
  have h2' : x + sx < 64 := h2
  have h4' : y + sy < 64 := h4
  rw [translated_ramp_sample a b k sx sy _ _ ⟨h1, h2'⟩ ⟨h3, h4'⟩,
    translated_ramp_sample a b k 0 0 _ _ ⟨hx1, hx2'⟩ ⟨hy1, hy2'⟩]
  push_cast
  ring

/-- The displaced patch of a tile lies inside the alternate image exactly when its first and
its last pixel do, in each direction separately. -/
theorem patch_inside_iff (alt_level : Image) (ts ty tx : Int) (current : Alignment)
    (dx dy : Int) (hts : 1 ≤ ts) :
    patch_inside alt_level ts ty tx current dx dy ↔
      (0 ≤ tx * ts + cTrunc (current.x + (dx : ℚ)) ∧
        tx * ts + (ts - 1) + cTrunc (current.x + (dx : ℚ)) < alt_level.width) ∧
      (0 ≤ ty * ts + cTrunc (current.y + (dy : ℚ)) ∧
        ty * ts + (ts - 1) + cTrunc (current.y + (dy : ℚ)) < alt_level.height) := by
  unfold patch_inside alt_pixel
  dsimp only
  constructor
  · intro h
    have h0 := h 0 (mem_intRange.mpr ⟨le_rfl, by omega⟩) 0 (mem_intRange.mpr ⟨le_rfl, by omega⟩)
    have h1 := h (ts - 1) (mem_intRange.mpr ⟨by omega, by omega⟩) (ts - 1)
      (mem_intRange.mpr ⟨by omega, by omega⟩)
    omega
  · intro h y hy x hx
    rw [mem_intRange] at hy hx
    omega

/-- Between two images whose buffers read 0 everywhere, every candidate shift has
distance 0. -/
theorem patch_distance_zero_images (ref_level alt_level : Image) (ts ty tx : Int)
    (current : Alignment) (dx dy metric : Int)
    (href : ∀ i, rd ref_level.data i = 0) (halt : ∀ i, rd alt_level.data i = 0) :
    patch_distance ref_level alt_level ts ty tx current dx dy metric = 0 := by
  unfold patch_distance Image.sample
  simp only [href, halt, sub_self, metric_term_zero, Finset.sum_const_zero]

/-- Between two images whose buffers read 0 everywhere, `local_search` gives to a tile whose
current displaced patch lies inside the alternate image a shift `(dx, dy)` of the window with
`dx ≤ 0` and `dy ≤ 0` and its patch inside the alternate image: the first in-bounds shift of
the scan. -/
theorem local_search_zero_images (ref_level alt_level : Image) (ts r : Int)
    (m : AlignmentMap) (metric : Int) (hwf : m.WF) (x y : Int)
    (hy : 0 ≤ y ∧ y < m.height) (hx : 0 ≤ x ∧ x < m.width) (hts : 1 ≤ ts) (hr : 0 ≤ r)
    (href : ∀ i, rd ref_level.data i = 0) (halt : ∀ i, rd alt_level.data i = 0)
    (hcur : patch_inside alt_level ts y x (m.tile x y) 0 0) :
    ∃ dx dy : Int, (-r ≤ dx ∧ dx ≤ 0) ∧ (-r ≤ dy ∧ dy ≤ 0) ∧
      (local_search ref_level alt_level ts r m metric).tile x y
        = ⟨(m.tile x y).x + (dx : ℚ), (m.tile x y).y + (dy : ℚ)⟩ ∧
      patch_inside alt_level ts y x (m.tile x y) dx dy := by
  obtain ⟨_, _, _, ht⟩ := local_search_tiles ref_level alt_level ts r m metric hwf
  have hd : ∀ dx dy : Int,
      patch_distance ref_level alt_level ts y x (m.tile x y) dx dy metric = 0 :=
    fun dx dy => patch_distance_zero_images ref_level alt_level ts y x _ dx dy metric href halt
  obtain ⟨dx, dy, hdx, hdy, hin, bx, by_, hmin⟩ :=
    search_window_first ref_level alt_level ts r y x (m.tile x y) metric
      ⟨0, 0, ⟨by omega, hr⟩, ⟨by omega, hr⟩, hcur, by rw [hd]; exact FLT_MAX_pos⟩
  have hno : ∀ dx2 dy2 : Int, -r ≤ dx2 → dx2 ≤ r → -r ≤ dy2 → dy2 ≤ r →
      patch_inside alt_level ts y x (m.tile x y) dx2 dy2 →
      ¬ (dy2 < dy ∨ (dy2 = dy ∧ dx2 < dx)) := by
    intro dx2 dy2 a1 a2 b1 b2 hin2 hlex
    have := (hmin dx2 dy2 a1 a2 b1 b2 hin2).2 hlex
    rw [hd, hd] at this
    exact lt_irrefl _ this
  have hdy0 : dy ≤ 0 := by
    by_contra hcon
    exact hno 0 0 (by omega) hr (by omega) hr hcur (Or.inl (by omega))
  have hdx0 : dx ≤ 0 := by
    by_contra hcon
    have hin0 : patch_inside alt_level ts y x (m.tile x y) 0 dy := by
      rw [patch_inside_iff _ _ _ _ _ _ _ hts] at hcur hin ⊢
      exact ⟨hcur.1, hin.2⟩
    exact hno 0 dy (by omega) hr hdy.1 hdy.2 hin0 (Or.inr ⟨rfl, by omega⟩)
  refine ⟨dx, dy, ⟨hdx.1, hdx0⟩, ⟨hdy.1, hdy0⟩, ?_, hin⟩
  rw [ht x y hy.1 hy.2 hx.1 hx.2, bx, by_]

theorem rd_replicate_zero (n : ℕ) (i : Int) : rd (List.replicate n 0) i = 0 :=
  readAt_forall (fun a => a = 0) 0 _ i (fun _ ha => List.eq_of_mem_replicate ha) rfl

/-- Level 1 of the pyramid of an image whose buffer reads 0 everywhere reads 0 everywhere. -/
theorem scenario_coarse_level_zero (img : Image) (h : ∀ i, rd img.data i = 0) :
    ∀ i, rd (scenario_coarse_level img).data i = 0 := by
  intro i
  unfold scenario_coarse_level downsample_image
  rw [if_neg (by decide), if_neg (by decide)]
  show rd (forRange 0 img.channels _ _) i = 0
  apply readAt_forall (fun a => a = 0) 0 _ i _ rfl
  apply forRange_preserves (fun data : List ℚ => ∀ a ∈ data, a = 0)
  · intro a ha
    exact List.eq_of_mem_replicate ha
  · intro c data hdata
    apply forRange_preserves (fun data : List ℚ => ∀ a ∈ data, a = 0) _ _ _ _ hdata
    intro y data hdata
    apply forRange_preserves (fun data : List ℚ => ∀ a ∈ data, a = 0) _ _ _ _ hdata
    intro x data hdata
    apply writeAt_forall _ _ _ _ hdata
    rw [downsample_sum_eq]
    unfold Image.sample
    simp only [h, Finset.sum_const_zero, zero_div]

/-- Between two images whose buffers read 0 everywhere the residual is 0. -/
theorem ica_residual_zero_images (ref_img alt_img : Image) (d : Alignment) (x y : Int)
    (href : ∀ i, rd ref_img.data i = 0) (halt : ∀ i, rd alt_img.data i = 0) :
    ica_residual ref_img alt_img d x y = 0 := by
  unfold ica_residual bilinear_interpolation
  simp only [href, halt, mul_zero, add_zero, sub_self]

/-- A list of rationals without positive entry has a sum that is not positive. -/
theorem list_sum_nonpos (l : List ℚ) (h : ∀ v ∈ l, v ≤ 0) : l.sum ≤ 0 := by
  induction l with
  | nil => simp
  | cons a l ih =>
    rw [List.sum_cons]
    have h1 := h a (List.mem_cons_self a l)
    have h2 := ih (fun v hv => h v (List.mem_cons_of_mem a hv))
    linarith

/-- The mean displacement of a map of 16 tiles whose displacements have no positive
component has no positive component. -/
theorem mean_displacement_nonpos (m : AlignmentMap) (hw : m.width = 4)
    (hlen : m.data.length = 16)
    (h : ∀ x y, 0 ≤ x → x < 4 → 0 ≤ y → y < 4 → (m.tile x y).x ≤ 0 ∧ (m.tile x y).y ≤ 0) :
    (mean_displacement m).1 ≤ 0 ∧ (mean_displacement m).2 ≤ 0 := by
  have hall : ∀ a ∈ m.data, a.x ≤ 0 ∧ a.y ≤ 0 := by
    intro a ha
    obtain ⟨i, hi, rfl⟩ := List.getElem_of_mem ha
    have hi16 : i < 16 := by omega
    have ht := h ((i % 4 : ℕ) : Int) ((i / 4 : ℕ) : Int) (by omega) (by omega) (by omega)
      (by omega)
    have e : (m.tile ((i % 4 : ℕ) : Int) ((i / 4 : ℕ) : Int)) = m.data[i] := by
      unfold AlignmentMap.tile rdA readAt
      rw [hw, if_pos (by omega), List.getD_eq_getElem?_getD]
      have e2 : (((i / 4 : ℕ) : Int) * 4 + ((i % 4 : ℕ) : Int)).toNat = i := by omega
      rw [e2, List.getElem?_eq_getElem hi]
      rfl
    rw [e] at ht
    exact ht
  unfold mean_displacement
  dsimp only
  rw [hlen]
  constructor
  · apply div_nonpos_of_nonpos_of_nonneg _ (by norm_num)
    apply list_sum_nonpos
    intro v hv
    obtain ⟨a, ha, rfl⟩ := List.mem_map.mp hv
    exact (hall a ha).1
  · apply div_nonpos_of_nonpos_of_nonneg _ (by norm_num)
    apply list_sum_nonpos
    intro v hv
    obtain ⟨a, ha, rfl⟩ := List.mem_map.mp hv
    exact (hall a ha).2

/-- Images of 64 x 64 pixels whose buffers read 0 everywhere: the coarse displacement of every
tile of level 1 is an integer shift without positive component that keeps the patch inside. -/
theorem scenario_coarse_map_zero_images (ref alt : Image)
    (hrh : ref.height = 64) (hrw : ref.width = 64) (hah : alt.height = 64) (haw : alt.width = 64)
    (href : ∀ i, rd ref.data i = 0) (halt : ∀ i, rd alt.data i = 0)
    (x y : Int) (hx : 0 ≤ x ∧ x < 2) (hy : 0 ≤ y ∧ y < 2) :
    ∃ dx dy : Int, dx ≤ 0 ∧ dy ≤ 0 ∧ 0 ≤ x * 16 + dx ∧ 0 ≤ y * 16 + dy ∧
      (scenario_coarse_map ref alt).tile x y = ⟨(dx : ℚ), (dy : ℚ)⟩ := by
  obtain ⟨hch, hcw, -⟩ := scenario_coarse_level_dims alt hah haw
  have hcur : patch_inside (scenario_coarse_level alt) 16 y x
      ((create_alignment_map 2 2).tile x y) 0 0 := by
    rw [patch_inside_iff _ _ _ _ _ _ _ (by decide), create_alignment_map_tile]
    dsimp only
    rw [cTrunc_zero_add, hch, hcw]
    omega
  obtain ⟨dx, dy, hdx, hdy, ht, hin⟩ := local_search_zero_images (scenario_coarse_level ref)
    (scenario_coarse_level alt) 16 4 (create_alignment_map 2 2) 1
    (create_alignment_map_WF 2 2 (by decide) (by decide)) x y hy hx (by decide) (by decide)
    (scenario_coarse_level_zero ref href) (scenario_coarse_level_zero alt halt) hcur
  rw [patch_inside_iff _ _ _ _ _ _ _ (by decide), create_alignment_map_tile] at hin
  dsimp only at hin
  rw [cTrunc_zero_add, cTrunc_zero_add] at hin
  rw [create_alignment_map_tile] at ht
  dsimp only at ht
  rw [zero_add, zero_add] at ht
  refine ⟨dx, dy, hdx.2, hdy.2, hin.1.1, hin.2.1, ?_⟩
  rw [scenario_coarse_map_eq ref alt hrh hrw]
  exact ht

/-- Images of 64 x 64 pixels whose buffers read 0 everywhere: block matching at level 0 gives
every tile an integer displacement without positive component. -/
theorem scenario_block_matching_zero_images (ref alt : Image)
    (hrh : ref.height = 64) (hrw : ref.width = 64) (hah : alt.height = 64) (haw : alt.width = 64)
    (href : ∀ i, rd ref.data i = 0) (halt : ∀ i, rd alt.data i = 0)
    (x y : Int) (hx : 0 ≤ x ∧ x < 4) (hy : 0 ≤ y ∧ y < 4) :
    ((local_search ref alt 16 4 (scenario_initial_map ref alt) 1).tile x y).x ≤ 0 ∧
    ((local_search ref alt 16 4 (scenario_initial_map ref alt) 1).tile x y).y ≤ 0 := by
  obtain ⟨hih, hiw, hiwf, hit⟩ := scenario_initial_map_tiles ref alt hrh hrw
  have hinit : ∃ cx cy : Int, cx ≤ 0 ∧ cy ≤ 0 ∧ 0 ≤ x * 16 + cx ∧ 0 ≤ y * 16 + cy ∧
      (scenario_initial_map ref alt).tile x y = ⟨(cx : ℚ), (cy : ℚ)⟩ := by
    rw [hit x y hx.1 hx.2 hy.1 hy.2]
    by_cases hc : x < 2 ∧ y < 2
    · rw [if_pos hc]
      exact scenario_coarse_map_zero_images ref alt hrh hrw hah haw href halt x y
        ⟨hx.1, hc.1⟩ ⟨hy.1, hc.2⟩
    · rw [if_neg hc]
      exact ⟨0, 0, le_refl _, le_refl _, by omega, by omega, by simp⟩
  obtain ⟨cx, cy, hcx, hcy, hbx, hby, hc⟩ := hinit
  have hcur : patch_inside alt 16 y x ((scenario_initial_map ref alt).tile x y) 0 0 := by
    rw [patch_inside_iff _ _ _ _ _ _ _ (by decide), hc]
    dsimp only
    rw [Int.cast_zero, add_zero, add_zero, cTrunc_intCast, cTrunc_intCast, hah, haw]
    omega
  obtain ⟨dx, dy, hdx, hdy, ht, -⟩ := local_search_zero_images ref alt 16 4
    (scenario_initial_map ref alt) 1 hiwf x y (by rw [hih]; exact hy) (by rw [hiw]; exact hx)
    (by decide) (by decide) href halt hcur
  rw [ht, hc]
  dsimp only
  have h1 : ((cx : ℚ)) ≤ 0 := by exact_mod_cast hcx
  have h2 : ((cy : ℚ)) ≤ 0 := by exact_mod_cast hcy
  have h3 : ((dx : ℚ)) ≤ 0 := by exact_mod_cast hdx.2
  have h4 : ((dy : ℚ)) ≤ 0 := by exact_mod_cast hdy.2
  constructor <;> linarith

/-- Images of 64 x 64 pixels with one channel whose buffers read 0 everywhere: the pipeline
returns a map whose mean displacement has no positive component. -/
theorem end_to_end_zero_images (expf : ℚ → ℚ) (ref alt : Image)
    (hrh : ref.height = 64) (hrw : ref.width = 64) (hrc : ref.channels = 1)
    (hrb : ref.data.length = 4096)
    (hah : alt.height = 64) (haw : alt.width = 64) (hac : alt.channels = 1)
    (hab : alt.data.length = 4096)
    (href : ∀ i, rd ref.data i = 0) (halt : ∀ i, rd alt.data i = 0) :
    ∃ final, end_to_end expf ref alt = some final ∧
      (mean_displacement final).1 ≤ 0 ∧ (mean_displacement final).2 ≤ 0 := by
  refine ⟨_, end_to_end_eq expf ref alt (by rw [hrb, hrh, hrw, hrc]; rfl)
    (by rw [hab, hah, haw, hac]; rfl), ?_⟩
  obtain ⟨hih, hiw, hiwf, -⟩ := scenario_initial_map_tiles ref alt hrh hrw
  obtain ⟨hbh, hbw, hbwf, -⟩ := local_search_tiles ref alt 16 4 (scenario_initial_map ref alt) 1
    hiwf
  obtain ⟨-, hfw, hfl⟩ := refine_alignment_ica_length ref alt
    (init_ica expf ref scenario_ica_params)
    (compute_hessian (init_ica expf ref scenario_ica_params) 16)
    (local_search ref alt 16 4 (scenario_initial_map ref alt) 1) 0 16 3 hbwf
  apply mean_displacement_nonpos
  · exact hfw.trans (hbw.trans hiw)
  · exact hfl.trans (by rw [hbh, hbw, hih, hiw]; rfl)
  · intro x y hx0 hx4 hy0 hy4
    have e : (refine_alignment_ica ref alt (init_ica expf ref scenario_ica_params)
        (compute_hessian (init_ica expf ref scenario_ica_params) 16)
        (local_search ref alt 16 4 (scenario_initial_map ref alt) 1) scenario_ica_params).tile x y
        = (local_search ref alt 16 4 (scenario_initial_map ref alt) 1).tile x y :=
      refine_alignment_ica_zero_residual ref alt _ _ _ 0 16 3 x y hbwf
        (by rw [hbh, hih]; exact ⟨hy0, hy4⟩) (by rw [hbw, hiw]; exact ⟨hx0, hx4⟩)
        (fun u v _ _ _ _ _ => ica_residual_zero_images ref alt _ u v href halt)
    rw [e]
    exact scenario_block_matching_zero_images ref alt hrh hrw hah haw href halt x y
      ⟨hx0, hx4⟩ ⟨hy0, hy4⟩

/-- Two buffers of the same length that read the same at every index in range are equal. -/
theorem list_ext_readAt {α : Type} (d : α) {l1 l2 : List α} (hlen : l1.length = l2.length)
    (h : ∀ i : Int, 0 ≤ i → i < l1.length → readAt d l1 i = readAt d l2 i) : l1 = l2 := by
  apply List.ext_getElem hlen
  intro n h1 h2
  have := h n (by omega) (by omega)
  simpa [readAt, List.getD_eq_getElem?_getD, h1, h2] using this

/-- A displacement buffer whose entries are all zero reads zero at every index. -/
theorem rdA_all_zero (buf : List Alignment) (h : ∀ a ∈ buf, a = (⟨0, 0⟩ : Alignment))
    (i : Int) : rdA buf i = ⟨0, 0⟩ :=
  readAt_forall (fun a : Alignment => a = (⟨0, 0⟩ : Alignment)) Alignment.zero buf i h rfl

/-- With the same image on both sides and the zero displacement, the residual is 0 at every
pixel. -/
theorem ica_residual_identical_zero (img : Image) (x y : Int) :
    ica_residual img img ⟨0, 0⟩ x y = 0 := by
  unfold ica_residual
  dsimp only
  rw [add_zero, add_zero, bilinear_interpolation_intCast, sub_self]

/-- C31. For every image used as both reference and alternate image, every gradient field,
every Hessian field and every parameter set (iteration count, tile size), `refine_alignment_ica`
started from a displacement map whose entries are all `(0, 0)` returns that map: the zero
displacement is a fixed point when the two images are identical. -/
theorem refine_alignment_ica_identical_images_fixed_point (img : Image)
    (grads : ImageGradients) (hessian : HessianMatrix) (initial : AlignmentMap)
    (params : ICAParams) (hwf : initial.WF) (hzero : ∀ a ∈ initial.data, a = ⟨0, 0⟩) :
    refine_alignment_ica img img grads hessian initial params = initial := by
  obtain ⟨sigma, n, ts⟩ := params
  obtain ⟨hh, hw, hl⟩ := refine_alignment_ica_length img img grads hessian initial sigma ts n hwf
  have hd : (refine_alignment_ica img img grads hessian initial ⟨sigma, n, ts⟩).data
      = initial.data := by
    apply list_ext_readAt Alignment.zero (hl.trans hwf.2.2.symm)
    intro i hi0 hi1
    rw [hl] at hi1
    have hi2 : i < initial.height * initial.width := by
      have := Int.toNat_of_nonneg (mul_nonneg hwf.1 hwf.2.1)
      omega
    obtain ⟨y, x, hy, hx, rfl⟩ := idx2_surj ⟨hi0, hi2⟩ hwf.2.1
    have ht : initial.tile x y = ⟨0, 0⟩ := rdA_all_zero _ hzero _
    have := refine_alignment_ica_zero_residual img img grads hessian initial sigma ts n x y hwf
      hy hx (fun u v _ _ _ _ _ => by rw [ht]; exact ica_residual_identical_zero img u v)
    unfold AlignmentMap.tile rdA at this
    rw [hw] at this
    exact this
  cases hr : refine_alignment_ica img img grads hessian initial ⟨sigma, n, ts⟩ with
  | mk d h w =>
    rw [hr] at hh hw hd
    cases initial
    simp only at hh hw hd
    rw [hh, hw, hd]

theorem refine_alignment_ica_identical_images_fixed_point_witness :
    refine_alignment_ica ⟨[1, 2, 4, 3, 5, 9, 2, 7, 1], 3, 3, 1⟩ ⟨[1, 2, 4, 3, 5, 9, 2, 7, 1], 3, 3, 1⟩
      ⟨[1, 2, 3, 1, 2, 3, 1, 2, 3], [3, 1, 2, 3, 1, 2, 3, 1, 2], 3, 3⟩ ⟨[1, 0, 0, 1], 1, 1⟩
      ⟨[⟨0, 0⟩], 1, 1⟩ ⟨0, 3, 3⟩ = ⟨[⟨0, 0⟩], 1, 1⟩ :=
  refine_alignment_ica_identical_images_fixed_point _ _ _ _ _ ⟨by decide, by decide, rfl⟩
    (fun a ha => by simpa using ha)

/-- The bilinear sample at a location with integer coordinates is the sample itself. -/
theorem bilinear_sample_intCast (src : Image) (x y c : Int) :
    bilinear_sample src (x : ℚ) (y : ℚ) c = src.sample x y c := by
  unfold bilinear_sample
  simp

/-- For a map with at least one column and no more columns than rows, the index `flow_idx`
that `warp_image` computes for a pixel of the image lies inside the map. -/
theorem warp_flow_idx_in_range (src : Image) (flow : AlignmentMap) (hwf : flow.WF)
    (hw1 : 1 ≤ flow.width) (hwh : flow.width ≤ flow.height) (x y : Int)
    (hx : 0 ≤ x ∧ x < src.width) (hy : 0 ≤ y ∧ y < src.height) :
    0 ≤ warp_flow_idx src flow y x ∧ warp_flow_idx src flow y x < flow.data.length := by
  unfold warp_flow_idx
  have hyw : 0 ≤ y * flow.width := mul_nonneg hy.1 (by omega)
  have hxw : 0 ≤ x * flow.width := mul_nonneg hx.1 (by omega)
  obtain ⟨ey, hy0, -⟩ := tdiv_nonneg_eq hyw (by omega : 0 < src.height)
  obtain ⟨ex, hx0, -⟩ := tdiv_nonneg_eq hxw (by omega : 0 < src.width)
  rw [ey, ex]
  have hy1 : y * flow.width / src.height < flow.width := by
    apply Int.ediv_lt_of_lt_mul (by omega)
    rw [mul_comm]
    exact mul_lt_mul_of_pos_left hy.2 (by omega)
  have hx1 : x * flow.width / src.width < flow.width := by
    apply Int.ediv_lt_of_lt_mul (by omega)
    rw [mul_comm]
    exact mul_lt_mul_of_pos_left hx.2 (by omega)
  have hlen : (flow.data.length : Int) = flow.height * flow.width := by
    rw [hwf.2.2]
    exact Int.toNat_of_nonneg (mul_nonneg hwf.1 hwf.2.1)
  rw [hlen]
  generalize y * flow.width / src.height = a at *
  generalize x * flow.width / src.width = b at *
  constructor
  · have := mul_nonneg hy0 (by omega : 0 ≤ flow.width)
    omega
  · have h1 : (a + 1) * flow.width ≤ flow.height * flow.width :=
      mul_le_mul_of_nonneg_right (by omega) (by omega)
    have h2 : (a + 1) * flow.width = a * flow.width + flow.width := by ring
    omega

/-- C32 (the claim where the code reads inside the map, and the code at the failing input).
For every source image and every displacement map with at least one column and no more
columns than rows whose entries are all `(0, 0)`, the entry that `warp_image` reads for each
pixel lies inside the map, and the function returns the source sample at every pixel with
`x ≤ width - 2` and `y ≤ height - 2`, and 0 in every channel on the last row and on the last
column: where the source is not 0 on that border, the result differs from the source. For a
map with more columns than rows the index of the entry read can lie past the map: for a 2x2
image and the all-zero map of 1 row and 2 columns, the index read for pixel `(0, 1)` is 2, past
the 2 entries of the map, and when the memory that follows the map holds `(0, -1)` the output at
this pixel of the last row is the source sample 1, not 0. -/
theorem warp_image_zero_flow_border (src : Image) (flow : AlignmentMap)
    (hzero : ∀ a ∈ flow.data, a = ⟨0, 0⟩) (hwf : flow.WF) (hw1 : 1 ≤ flow.width)
    (hwh : flow.width ≤ flow.height) :
    (∃ r, warp_image (some src) (some flow) = some r ∧
      r.height = src.height ∧ r.width = src.width ∧ r.channels = src.channels ∧
      ∀ x y c, 0 ≤ x → x < src.width → 0 ≤ y → y < src.height → 0 ≤ c → c < src.channels →
        (0 ≤ warp_flow_idx src flow y x ∧ warp_flow_idx src flow y x < flow.data.length) ∧
        (x ≤ src.width - 2 → y ≤ src.height - 2 → r.sample x y c = src.sample x y c) ∧
        (x = src.width - 1 ∨ y = src.height - 1 → r.sample x y c = 0) ∧
        (x = src.width - 1 ∨ y = src.height - 1 → src.sample x y c ≠ 0 →
          r.sample x y c ≠ src.sample x y c)) ∧
    (warp_flow_idx ⟨[1, 2, 3, 4], 2, 2, 1⟩ ⟨[⟨0, 0⟩, ⟨0, 0⟩, ⟨0, -1⟩], 1, 2⟩ 1 0 = 2 ∧
      (AlignmentMap.mk [⟨0, 0⟩, ⟨0, 0⟩, ⟨0, -1⟩] 1 2).height
        * (AlignmentMap.mk [⟨0, 0⟩, ⟨0, 0⟩, ⟨0, -1⟩] 1 2).width = 2 ∧
      (warp_image (some ⟨[1, 2, 3, 4], 2, 2, 1⟩)
          (some ⟨[⟨0, 0⟩, ⟨0, 0⟩, ⟨0, -1⟩], 1, 2⟩)).map (fun r => r.sample 0 1 0) = some 1) := by
  refine ⟨?_, by decide!, by decide!, by decide!⟩
  obtain ⟨r, hr, h1, h2, h3, -, hs⟩ := warp_image_samples src flow
  refine ⟨r, hr, h1, h2, h3, ?_⟩
  intro x y c hx0 hx1 hy0 hy1 hc0 hc1
  have hloc : warp_location src flow x y = ((x : ℚ), (y : ℚ)) := by
    unfold warp_location
    have ht : rdA flow.data (warp_flow_idx src flow y x) = ⟨0, 0⟩ := rdA_all_zero _ hzero _
    rw [ht]
    simp
  have hv := hs x y c hx0 hx1 hy0 hy1 hc0 hc1
  rw [hloc] at hv
  dsimp only at hv
  have hborder : x = src.width - 1 ∨ y = src.height - 1 → r.sample x y c = 0 := by
    intro hb
    rw [hv, if_neg]
    intro hsm
    obtain ⟨⟨-, hsx⟩, -, hsy⟩ := hsm
    have hsx2 : x < src.width - 1 := by exact_mod_cast hsx
    have hsy2 : y < src.height - 1 := by exact_mod_cast hsy
    omega
  refine ⟨warp_flow_idx_in_range src flow hwf hw1 hwh x y ⟨hx0, hx1⟩ ⟨hy0, hy1⟩, ?_,
    hborder, ?_⟩
  · intro hx2 hy2
    rw [hv, if_pos, bilinear_sample_intCast]
    refine ⟨⟨by exact_mod_cast hx0, ?_⟩, by exact_mod_cast hy0, ?_⟩
    · have : x < src.width - 1 := by omega
      exact_mod_cast this
    · have : y < src.height - 1 := by omega
      exact_mod_cast this
  · intro hb hne
    rw [hborder hb]
    exact fun h => hne h.symm

theorem warp_image_zero_flow_border_witness :
    (∀ a ∈ ([⟨0, 0⟩] : List Alignment), a = ⟨0, 0⟩) ∧
    warp_image (some ⟨[1, 2, 3, 4, 5, 6], 2, 3, 1⟩) (some ⟨[⟨0, 0⟩], 1, 1⟩)
      = some ⟨[1, 2, 0, 0, 0, 0], 2, 3, 1⟩ ∧
    ∃ r, warp_image (some ⟨[1, 2, 3, 4, 5, 6], 2, 3, 1⟩) (some ⟨[⟨0, 0⟩], 1, 1⟩) = some r ∧
      r.height = 2 ∧ r.width = 3 ∧ r.channels = 1 ∧
      ∀ x y c, 0 ≤ x → x < 3 → 0 ≤ y → y < 2 → 0 ≤ c → c < 1 →
        (0 ≤ warp_flow_idx ⟨[1, 2, 3, 4, 5, 6], 2, 3, 1⟩ ⟨[⟨0, 0⟩], 1, 1⟩ y x ∧
          warp_flow_idx ⟨[1, 2, 3, 4, 5, 6], 2, 3, 1⟩ ⟨[⟨0, 0⟩], 1, 1⟩ y x
            < ([⟨0, 0⟩] : List Alignment).length) ∧
        (x ≤ 3 - 2 → y ≤ 2 - 2 →
          r.sample x y c = Image.sample ⟨[1, 2, 3, 4, 5, 6], 2, 3, 1⟩ x y c) ∧
        (x = 3 - 1 ∨ y = 2 - 1 → r.sample x y c = 0) ∧
        (x = 3 - 1 ∨ y = 2 - 1 → Image.sample ⟨[1, 2, 3, 4, 5, 6], 2, 3, 1⟩ x y c ≠ 0 →
          r.sample x y c ≠ Image.sample ⟨[1, 2, 3, 4, 5, 6], 2, 3, 1⟩ x y c) :=
  ⟨fun a ha => by simpa using ha, by decide!,
    (warp_image_zero_flow_border ⟨[1, 2, 3, 4, 5, 6], 2, 3, 1⟩ ⟨[⟨0, 0⟩], 1, 1⟩
      (fun a ha => by simpa using ha) ⟨by decide, by decide, rfl⟩ (by decide) (by decide)).1⟩

/-- The loop that appends its counter to the log: what it leaves in the log. -/
theorem forRange_log_mem (lo hi : Int) (log : List Int) (i : Int) :
    i ∈ forRange lo hi (fun y log => log ++ [y]) log ↔ i ∈ log ∨ (lo ≤ i ∧ i < hi) := by
  by_cases hle : lo ≤ hi
  · have := forRange_induction
      (fun n (l : List Int) => ∀ i, i ∈ l ↔ i ∈ log ∨ (lo ≤ i ∧ i < n))
      (fun y log => log ++ [y]) log hle
      (by intro i; constructor
          · intro h; exact Or.inl h
          · rintro (h | h)
            · exact h
            · omega)
      (by intro n s hn1 hn2 ih i
          rw [List.mem_append, ih, List.mem_singleton]
          constructor
          · rintro ((h | h) | h)
            · exact Or.inl h
            · exact Or.inr ⟨h.1, by omega⟩
            · exact Or.inr ⟨by omega, by omega⟩
          · rintro (h | h)
            · exact Or.inl (Or.inl h)
            · by_cases hin : i = n
              · exact Or.inr hin
              · exact Or.inl (Or.inr ⟨h.1, by omega⟩))
    exact this i
  · rw [forRange_empty (by omega)]
    constructor
    · intro h; exact Or.inl h
    · rintro (h | h)
      · exact h
      · omega

/-- Every index that `gaussian_blur_1d` accesses lies in `[0, size)`, and the accesses logged
before are kept. -/
theorem gaussian_blur_1d_accesses_mem (size : Int) (sigma : ℚ) (log : List Int) :
    (∀ i ∈ log, i ∈ gaussian_blur_1d_accesses size sigma log) ∧
    ∀ i ∈ gaussian_blur_1d_accesses size sigma log, i ∈ log ∨ (0 ≤ i ∧ i < size) := by
  unfold gaussian_blur_1d_accesses
  dsimp only
  by_cases hle : 0 ≤ size
  · apply forRange_induction
      (fun _n (l : List Int) => (∀ i ∈ log, i ∈ l) ∧ ∀ i ∈ l, i ∈ log ∨ (0 ≤ i ∧ i < size))
      _ log hle ⟨fun i h => h, fun i h => Or.inl h⟩
    intro n s hn1 hn2 ih
    have inner := forRange_preserves
      (fun l : List Int => (∀ i ∈ log, i ∈ l) ∧ ∀ i ∈ l, i ∈ log ∨ (0 ≤ i ∧ i < size))
      (-cTrunc (4 * sigma + 1 / 2)) (cTrunc (4 * sigma + 1 / 2) + 1)
      (fun k log => if n + k ≥ 0 ∧ n + k < size then log ++ [n + k] else log) s ih
      (by intro k l hl
          dsimp only
          by_cases hc : n + k ≥ 0 ∧ n + k < size
          · rw [if_pos hc]
            refine ⟨fun i h => List.mem_append_left _ (hl.1 i h), ?_⟩
            intro i hi
            rcases List.mem_append.mp hi with h | h
            · exact hl.2 i h
            · rw [List.mem_singleton] at h
              subst h
              exact Or.inr ⟨hc.1, hc.2⟩
          · rw [if_neg hc]
            exact hl)
    refine ⟨fun i h => List.mem_append_left _ (inner.1 i h), ?_⟩
    intro i hi
    rcases List.mem_append.mp hi with h | h
    · exact inner.2 i h
    · rw [List.mem_singleton] at h
      subst h
      exact Or.inr ⟨hn1, hn2⟩
  · rw [forRange_empty (by omega)]
    exact ⟨fun i h => h, fun i h => Or.inl h⟩

/-- One column of the vertical pass: the indices in the log afterwards. -/
theorem vertical_blur_column_mem (img : Image) (sigma_blur : ℚ) (log : List Int) (i : Int) :
    i ∈ forRange 0 img.height (fun y log => log ++ [y])
        (gaussian_blur_1d_accesses img.height sigma_blur
          (forRange 0 img.height (fun y log => log ++ [y]) log))
      ↔ i ∈ log ∨ (0 ≤ i ∧ i < img.height) := by
  rw [forRange_log_mem]
  constructor
  · rintro (h | h)
    · rcases (gaussian_blur_1d_accesses_mem _ _ _).2 i h with h1 | h1
      · exact (forRange_log_mem _ _ _ _).mp h1
      · exact Or.inr h1
    · exact Or.inr h
  · rintro (h | h)
    · exact Or.inl ((gaussian_blur_1d_accesses_mem _ _ _).1 i
        ((forRange_log_mem _ _ _ _).mpr (Or.inl h)))
    · exact Or.inr h

/-- The indices at which the vertical pass accesses `temp` are exactly the row numbers
`0 .. height - 1`, as soon as the image has a column. -/
theorem vertical_blur_temp_accesses_mem (img : Image) (sigma_blur : ℚ) (hw : 0 < img.width)
    (i : Int) :
    i ∈ vertical_blur_temp_accesses img sigma_blur ↔ 0 ≤ i ∧ i < img.height := by
  unfold vertical_blur_temp_accesses
  have hstep : ∀ (n : Int), 0 ≤ n →
      ∀ j, j ∈ forRange 0 (n + 1) (fun _x log =>
        forRange 0 img.height (fun y log => log ++ [y])
          (gaussian_blur_1d_accesses img.height sigma_blur
            (forRange 0 img.height (fun y log => log ++ [y]) log))) []
        ↔ 0 ≤ j ∧ j < img.height := by
    intro n hn
    have := forRange_induction
      (fun m (l : List Int) => ∀ j, j ∈ l → 0 ≤ j ∧ j < img.height)
      (fun _x log =>
        forRange 0 img.height (fun y log => log ++ [y])
          (gaussian_blur_1d_accesses img.height sigma_blur
            (forRange 0 img.height (fun y log => log ++ [y]) log))) [] hn
      (by intro j hj; simp at hj)
      (by intro m s _ _ ih j hj
          rcases (vertical_blur_column_mem img sigma_blur s j).mp hj with h | h
          · exact ih j h
          · exact h)
    intro j
    rw [forRange_succ hn, vertical_blur_column_mem]
    constructor
    · rintro (h | h)
      · exact this j h
      · exact h
    · intro h
      exact Or.inr h
  have := hstep (img.width - 1) (by omega) i
  rw [show img.width - 1 + 1 = img.width by omega] at this
  exact this

/-- C34 (code bug). The column buffer `temp` of `compute_image_gradients` has `img->width`
floats, and the vertical pass accesses it at the row numbers `0 .. height - 1`: for an image
with positive height and width, every access is inside the buffer exactly when
`height ≤ width`; when the height exceeds the width, the index `width` (which the extraction
loop writes first) is accessed and lies outside. -/
theorem vertical_blur_temp_in_bounds_iff (img : Image) (sigma_blur : ℚ)
    (hh : 0 < img.height) (hw : 0 < img.width) :
    ((∀ i ∈ vertical_blur_temp_accesses img sigma_blur, 0 ≤ i ∧ i < temp_length img)
      ↔ img.height ≤ img.width) ∧
    (img.width < img.height →
      img.width ∈ vertical_blur_temp_accesses img sigma_blur ∧ ¬ img.width < temp_length img) := by
  unfold temp_length
  constructor
  · constructor
    · intro h
      have := h (img.height - 1)
        ((vertical_blur_temp_accesses_mem img sigma_blur hw _).mpr ⟨by omega, by omega⟩)
      omega
    · intro h i hi
      have := (vertical_blur_temp_accesses_mem img sigma_blur hw i).mp hi
      exact ⟨this.1, by omega⟩
  · intro h
    exact ⟨(vertical_blur_temp_accesses_mem img sigma_blur hw _).mpr ⟨by omega, h⟩, by omega⟩

theorem vertical_blur_temp_in_bounds_iff_witness :
    vertical_blur_temp_accesses ⟨[1, 2], 2, 1, 1⟩ (1 / 4) = [0, 1, 0, 1, 0, 0, 1, 1, 0, 1] ∧
    temp_length ⟨[1, 2], 2, 1, 1⟩ = 1 ∧
    ((∀ i ∈ vertical_blur_temp_accesses ⟨[1, 2], 2, 1, 1⟩ (1 / 4),
        0 ≤ i ∧ i < temp_length ⟨[1, 2], 2, 1, 1⟩) ↔ (2 : Int) ≤ 1) ∧
    ((1 : Int) < 2 →
      (1 : Int) ∈ vertical_blur_temp_accesses ⟨[1, 2], 2, 1, 1⟩ (1 / 4) ∧
        ¬ (1 : Int) < temp_length ⟨[1, 2], 2, 1, 1⟩) :=
  ⟨by decide!, rfl,
    vertical_blur_temp_in_bounds_iff ⟨[1, 2], 2, 1, 1⟩ (1 / 4) (by decide) (by decide)⟩

/-- C33 (code bug). The parameter set that `denoise_frame` builds has only `tile_sizes[0]` and
`search_radii[0]` assigned: the result does not depend on what the fresh arrays hold there, but
`factors[0]` and `distances[0]` keep the indeterminate contents of the arrays allocated by
`create_block_matching_params`, and the result depends on them. For one buffer of three frames
of 2 rows, 3 columns and 2 channels and one `DenoisingParams` (radius 1, block size 1, search
radius 1): with `factors[0] = 0` the result is `NULL` and with `factors[0] = 1` an image; with
`distances[0] = 0` and `distances[0] = 1` the two images differ. -/
theorem denoise_frame_reads_unassigned_params :
    (∀ (f d t1 t2 s1 s2 n1 n2 : Int) (buffer : Option FrameBuffer)
        (params : Option DenoisingParams),
      denoise_frame ⟨[f], [t1], [d], [s1], n1⟩ buffer params
        = denoise_frame ⟨[f], [t2], [d], [s2], n2⟩ buffer params) ∧
    denoise_frame ⟨[0], [7], [0], [7], 0⟩
      (some ⟨[some ⟨[0, 0, 0, 0, 0, 0, 0, 0, 0, 0, 0, 0], 2, 3, 2⟩,
        some ⟨[2, 2, 0, 3, 9, 9, 9, 9, 9, 9, 9, 9], 2, 3, 2⟩,
        some ⟨[0, 0, 0, 0, 0, 0, 0, 0, 0, 0, 0, 0], 2, 3, 2⟩], 3, 3, 0⟩)
      (some ⟨1, 20, 1, 1⟩) = none ∧
    denoise_frame ⟨[1], [7], [0], [7], 0⟩
      (some ⟨[some ⟨[0, 0, 0, 0, 0, 0, 0, 0, 0, 0, 0, 0], 2, 3, 2⟩,
        some ⟨[2, 2, 0, 3, 9, 9, 9, 9, 9, 9, 9, 9], 2, 3, 2⟩,
        some ⟨[0, 0, 0, 0, 0, 0, 0, 0, 0, 0, 0, 0], 2, 3, 2⟩], 3, 3, 0⟩)
      (some ⟨1, 20, 1, 1⟩) = some ⟨[0, 1, 0, 1, 0, 1, 0, 1, 0, 1, 0, 1], 2, 3, 2⟩ ∧
    denoise_frame ⟨[1], [7], [1], [7], 0⟩
      (some ⟨[some ⟨[0, 0, 0, 0, 0, 0, 0, 0, 0, 0, 0, 0], 2, 3, 2⟩,
        some ⟨[2, 2, 0, 3, 9, 9, 9, 9, 9, 9, 9, 9], 2, 3, 2⟩,
        some ⟨[0, 0, 0, 0, 0, 0, 0, 0, 0, 0, 0, 0], 2, 3, 2⟩], 3, 3, 0⟩)
      (some ⟨1, 20, 1, 1⟩)
      = some ⟨[2 / 3, 2 / 3, 2 / 3, 2 / 3, 0, 1, 2 / 3, 2 / 3, 2 / 3, 2 / 3, 0, 1], 2, 3, 2⟩ := by
  refine ⟨?_, by decide!, by decide!, by decide!⟩
  intro f d t1 t2 s1 s2 n1 n2 buffer params
  rfl

/-- The frame loop of `main` leaves a buffer of positive size as soon as a frame has been
loaded. -/
theorem main_frame_loop_size (load_next_frame : Int → Option Image)
    (fresh : Int → BlockMatchingParams) (denoise_params : DenoisingParams) (num_frames : Int)
    (C : Int) (hC : 0 < C)
    (h : ∃ i, 0 ≤ i ∧ i < num_frames ∧ load_next_frame i ≠ none) :
    0 < (main_frame_loop load_next_frame fresh denoise_params num_frames
      (create_frame_buffer C)).1.size := by
  obtain ⟨i0, hi0, hi1, hi2⟩ := h
  have key := forRange_induction
    (fun n (st : FrameBuffer × List (Int × Image)) =>
      st.1.capacity = C ∧ 0 ≤ st.1.size ∧
        ((∃ j, 0 ≤ j ∧ j < n ∧ load_next_frame j ≠ none) → 0 < st.1.size))
    (fun frame_idx (st : FrameBuffer × List (Int × Image)) =>
      match load_next_frame frame_idx with
      | none => st
      | some frame =>
        let r := add_frame_to_buffer (some st.1) (some frame)
        if r.1 ≠ 0 then st
        else
          let buffer := r.2.getD st.1
          if buffer.size = buffer.capacity then
            match denoise_frame (fresh frame_idx) (some buffer) (some denoise_params) with
            | some denoised =>
              (buffer, st.2 ++ [(frame_idx - denoise_params.temporal_radius, denoised)])
            | none => (buffer, st.2)
          else (buffer, st.2))
    (create_frame_buffer C, []) (by omega : (0 : Int) ≤ num_frames)
    ⟨rfl, le_refl _, fun ⟨j, h1, h2, _⟩ => by omega⟩
    (by
      intro n st hn0 hn1 ⟨hcap, hsz, hpos⟩
      dsimp only
      cases hl : load_next_frame n with
      | none =>
        dsimp only
        refine ⟨hcap, hsz, ?_⟩
        rintro ⟨j, h1, h2, h3⟩
        by_cases hj : j = n
        · subst hj
          exact absurd hl h3
        · exact hpos ⟨j, h1, by omega, h3⟩
      | some frame =>
        dsimp only
        have hadd : (add_frame_to_buffer (some st.1) (some frame)).1 = 0 := rfl
        rw [if_neg (by rw [hadd]; simp)]
        have hb : ((add_frame_to_buffer (some st.1) (some frame)).2.getD st.1).capacity = C ∧
            0 < ((add_frame_to_buffer (some st.1) (some frame)).2.getD st.1).size := by
          unfold add_frame_to_buffer
          dsimp only [Option.getD]
          by_cases hfull : st.1.size = st.1.capacity
          · rw [if_pos hfull]
            exact ⟨hcap, by show 0 < _; omega⟩
          · rw [if_neg hfull]
            exact ⟨hcap, by show 0 < st.1.size + 1; omega⟩
        split
        · split
          · exact ⟨hb.1, le_of_lt hb.2, fun _ => hb.2⟩
          · exact ⟨hb.1, le_of_lt hb.2, fun _ => hb.2⟩
        · exact ⟨hb.1, le_of_lt hb.2, fun _ => hb.2⟩)
  exact key.2.2 ⟨i0, hi0, hi1, hi2⟩

/-- The final loop of `main` is never left when it is entered with a buffer of positive size:
no pass changes the buffer. -/
theorem main_drain_loop_positive_size (fresh : Int → BlockMatchingParams)
    (denoise_params : DenoisingParams) (num_frames : Int) (fuel pass : Nat)
    (st : FrameBuffer × List (Int × Image)) (h : 0 < st.1.size) :
    main_drain_loop fresh denoise_params num_frames fuel pass st = none := by
  induction fuel generalizing pass st with
  | zero => rfl
  | succ fuel ih =>
    unfold main_drain_loop
    rw [if_pos h]
    cases denoise_frame (fresh (num_frames + (pass : Int))) (some st.1) (some denoise_params) with
    | none => exact ih (pass + 1) st h
    | some denoised => exact ih (pass + 1) _ h

/-- When no frame can be loaded, the frame loop of `main` leaves the fresh buffer as it is. -/
theorem main_frame_loop_no_frame (load_next_frame : Int → Option Image)
    (fresh : Int → BlockMatchingParams) (denoise_params : DenoisingParams) (num_frames : Int)
    (buffer : FrameBuffer)
    (h : ∀ i, 0 ≤ i → i < num_frames → load_next_frame i = none) :
    main_frame_loop load_next_frame fresh denoise_params num_frames buffer = (buffer, []) := by
  unfold main_frame_loop
  by_cases hle : 0 ≤ num_frames
  · apply forRange_induction (fun _n (st : FrameBuffer × List (Int × Image)) => st = (buffer, []))
      _ (buffer, []) hle rfl
    intro n st hn0 hn1 hst
    dsimp only
    rw [h n hn0 hn1]
    exact hst
  · rw [forRange_empty (by omega)]

/-- C35 (code bug). As soon as one frame has been loaded, the final loop
`while (buffer->size > 0)` of `main` is never left: whatever the number of passes allowed,
`main` has not returned. No statement of the loop, `denoise_frame` included, changes
`buffer->size`. The loop is left (at once) only when no frame at all has been loaded. -/
theorem main_drain_loop_never_exits (load_next_frame : Int → Option Image)
    (fresh : Int → BlockMatchingParams) (num_frames : Int) :
    ((∃ i, 0 ≤ i ∧ i < num_frames ∧ load_next_frame i ≠ none) →
      ∀ fuel : Nat, main load_next_frame fresh num_frames fuel = none) ∧
    ((∀ i, 0 ≤ i → i < num_frames → load_next_frame i = none) →
      ∀ fuel : Nat, main load_next_frame fresh num_frames (fuel + 1) = some []) := by
  constructor
  · intro h fuel
    unfold main
    dsimp only
    rw [main_drain_loop_positive_size fresh _ num_frames fuel 0 _
      (main_frame_loop_size load_next_frame fresh _ num_frames _ (by decide) h)]
    rfl
  · intro h fuel
    unfold main
    dsimp only
    rw [main_frame_loop_no_frame load_next_frame fresh _ num_frames _ h]
    rfl

theorem main_drain_loop_never_exits_witness :
    (∃ i : Int, 0 ≤ i ∧ i < 1 ∧ (fun _ : Int => some (⟨[1], 1, 1, 1⟩ : Image)) i ≠ none) ∧
    (∀ fuel : Nat,
      main (fun _ => some ⟨[1], 1, 1, 1⟩) (fun _ => ⟨[1], [16], [1], [16], 1⟩) 1 fuel = none) ∧
    (∀ i : Int, 0 ≤ i → i < 1 → (fun _ : Int => (none : Option Image)) i = none) ∧
    (∀ fuel : Nat,
      main (fun _ => none) (fun _ => ⟨[1], [16], [1], [16], 1⟩) 1 (fuel + 1) = some []) :=
  ⟨⟨0, by decide, by decide, by simp⟩,
    (main_drain_loop_never_exits (fun _ => some ⟨[1], 1, 1, 1⟩)
      (fun _ => ⟨[1], [16], [1], [16], 1⟩) 1).1 ⟨0, by decide, by decide, by simp⟩,
    fun _ _ _ => rfl,
    (main_drain_loop_never_exits (fun _ => none)
      (fun _ => ⟨[1], [16], [1], [16], 1⟩) 1).2 (fun _ _ _ => rfl)⟩

/-- For a single-channel reference and a displacement `current + (dx, dy)` with the integer
value `(u, v)`, the L2 distance of `local_search` with tile size 16 is `tile_ssd`. -/
theorem patch_distance_eq_tile_ssd (ref alt : Image) (x y : Int) (c : Alignment)
    (dx dy u v : Int) (hrc : ref.channels = 1)
    (hu : c.x + (dx : ℚ) = (u : ℚ)) (hv : c.y + (dy : ℚ) = (v : ℚ)) :
    patch_distance ref alt 16 y x c dx dy 1 = tile_ssd ref alt x y u v := by
  unfold patch_distance tile_ssd alt_pixel metric_term
  rw [hrc, hu, hv, cTrunc_intCast, cTrunc_intCast]
  show ∑ j ∈ Finset.range 16, ∑ i ∈ Finset.range 16, ∑ c ∈ Finset.range 1, _ = _
  apply Finset.sum_congr rfl
  intro j _
  apply Finset.sum_congr rfl
  intro i _
  rw [Finset.sum_range_one, if_neg (by decide)]
  simp only [Nat.cast_zero]
  ring

/-- The samples of level 1 of the pyramid of a 64x64 single-channel image are the means of the
2x2 blocks of the image. -/
theorem scenario_coarse_level_sample (img : Image) (hh : img.height = 64) (hw : img.width = 64)
    (hc : img.channels = 1) (x y : Int) (hx : 0 ≤ x ∧ x < 32) (hy : 0 ≤ y ∧ y < 32) :
    (scenario_coarse_level img).sample x y 0 = box_mean img 2 0 y x := by
  obtain ⟨r, hr, rh, rw_, rc, _, hs⟩ := downsample_image_spec img 2 (by decide)
  unfold scenario_coarse_level
  rw [hr]
  rw [hh] at rh
  rw [hw] at rw_
  exact hs 0 y x (le_refl _) (by rw [hc]; decide) hy.1 (by rw [rh]; exact hy.2) hx.1
    (by rw [rw_]; exact hx.2)

/-- At level 1 of the pyramid of 64x64 single-channel images, the L2 distance of `local_search`
from the displacement `(0, 0)` for a shift that keeps the tile inside the level is
`coarse_tile_ssd`. -/
theorem coarse_patch_distance_eq (ref alt : Image)
    (hrh : ref.height = 64) (hrw : ref.width = 64) (hrc : ref.channels = 1)
    (hah : alt.height = 64) (haw : alt.width = 64) (hac : alt.channels = 1)
    (x y u v : Int) (hx : 0 ≤ x ∧ x ≤ 1) (hy : 0 ≤ y ∧ y ≤ 1)
    (hu : 0 ≤ x * 16 + u ∧ x * 16 + u ≤ 16) (hv : 0 ≤ y * 16 + v ∧ y * 16 + v ≤ 16) :
    patch_distance (scenario_coarse_level ref) (scenario_coarse_level alt) 16 y x ⟨0, 0⟩ u v 1
      = coarse_tile_ssd ref alt x y u v := by
  obtain ⟨_, _, hcc⟩ := scenario_coarse_level_dims ref hrh hrw
  rw [patch_distance_eq_tile_ssd _ _ x y ⟨0, 0⟩ u v u v (by rw [hcc, hrc]) (by simp) (by simp)]
  unfold tile_ssd coarse_tile_ssd
  apply Finset.sum_congr rfl
  intro j hj
  apply Finset.sum_congr rfl
  intro i hi
  rw [Finset.mem_range] at hi hj
  rw [scenario_coarse_level_sample ref hrh hrw hrc _ _ (by omega) (by omega),
    scenario_coarse_level_sample alt hah haw hac _ _ (by omega) (by omega)]

/-- The displacement that level 1 of the scenario gives a tile is an integer vector with
components at least `-1` and `-2` when no in-bounds shift of the window with a smaller
component attains the least distance. -/
theorem scenario_coarse_map_reach (ref alt : Image)
    (hrh : ref.height = 64) (hrw : ref.width = 64) (hrc : ref.channels = 1)
    (hah : alt.height = 64) (haw : alt.width = 64) (hac : alt.channels = 1)
    (hcoarse : ∀ x y u v : Int, 0 ≤ x → x ≤ 1 → 0 ≤ y → y ≤ 1 →
      -4 ≤ u → u ≤ 4 → -4 ≤ v → v ≤ 4 →
      0 ≤ x * 16 + u → x * 16 + u ≤ 16 → 0 ≤ y * 16 + v → y * 16 + v ≤ 16 →
      u < -1 ∨ v < -2 →
      ∃ u2 v2 : Int, (-4 ≤ u2 ∧ u2 ≤ 4) ∧ (-4 ≤ v2 ∧ v2 ≤ 4) ∧
        (0 ≤ x * 16 + u2 ∧ x * 16 + u2 ≤ 16) ∧ (0 ≤ y * 16 + v2 ∧ y * 16 + v2 ≤ 16) ∧
        coarse_tile_ssd ref alt x y u2 v2 < coarse_tile_ssd ref alt x y u v)
    (x y : Int) (hx : 0 ≤ x ∧ x ≤ 1) (hy : 0 ≤ y ∧ y ≤ 1) :
    ∃ cx cy : Int, (-1 ≤ cx ∧ cx ≤ 4) ∧ (-2 ≤ cy ∧ cy ≤ 4) ∧
      (scenario_coarse_map ref alt).tile x y = ⟨(cx : ℚ), (cy : ℚ)⟩ := by
  obtain ⟨hch, hcw, -⟩ := scenario_coarse_level_dims alt hah haw
  rw [scenario_coarse_map_eq ref alt hrh hrw]
  obtain ⟨_, _, _, ht⟩ := local_search_tiles (scenario_coarse_level ref)
    (scenario_coarse_level alt) 16 4 (create_alignment_map 2 2) 1
    (create_alignment_map_WF 2 2 (by decide) (by decide))
  rw [ht x y hy.1 (by show y < 2; omega) hx.1 (by show x < 2; omega), create_alignment_map_tile]
  dsimp only
  have hin_iff : ∀ u v : Int,
      patch_inside (scenario_coarse_level alt) 16 y x ⟨0, 0⟩ u v ↔
        (0 ≤ x * 16 + u ∧ x * 16 + u ≤ 16) ∧ (0 ≤ y * 16 + v ∧ y * 16 + v ≤ 16) := by
    intro u v
    rw [patch_inside_iff _ _ _ _ _ _ _ (by decide)]
    dsimp only
    rw [cTrunc_zero_add, cTrunc_zero_add, hch, hcw]
    omega
  obtain ⟨s1, s2⟩ := search_window_spec (scenario_coarse_level ref) (scenario_coarse_level alt)
    16 4 y x ⟨0, 0⟩ 1
  by_cases hex : ∃ dx dy : Int, (-4 ≤ dx ∧ dx ≤ 4) ∧ (-4 ≤ dy ∧ dy ≤ 4) ∧
      patch_inside (scenario_coarse_level alt) 16 y x ⟨0, 0⟩ dx dy ∧
      patch_distance (scenario_coarse_level ref) (scenario_coarse_level alt) 16 y x ⟨0, 0⟩
        dx dy 1 < FLT_MAX
  · obtain ⟨dx, dy, hdx, hdy, hin, bx, by_, hmin⟩ := s1 hex
    have hb := (hin_iff dx dy).mp hin
    refine ⟨dx, dy, ⟨?_, hdx.2⟩, ⟨?_, hdy.2⟩, ?_⟩
    · by_contra hcon
      obtain ⟨u2, v2, hu2, hv2, hbx2, hby2, hlt⟩ := hcoarse x y dx dy hx.1 hx.2 hy.1 hy.2
        hdx.1 hdx.2 hdy.1 hdy.2 hb.1.1 hb.1.2 hb.2.1 hb.2.2 (Or.inl (by omega))
      have hle := hmin u2 v2 hu2.1 hu2.2 hv2.1 hv2.2 ((hin_iff u2 v2).mpr ⟨hbx2, hby2⟩)
      rw [coarse_patch_distance_eq ref alt hrh hrw hrc hah haw hac x y dx dy hx hy hb.1 hb.2,
        coarse_patch_distance_eq ref alt hrh hrw hrc hah haw hac x y u2 v2 hx hy hbx2 hby2]
        at hle
      linarith
    · by_contra hcon
      obtain ⟨u2, v2, hu2, hv2, hbx2, hby2, hlt⟩ := hcoarse x y dx dy hx.1 hx.2 hy.1 hy.2
        hdx.1 hdx.2 hdy.1 hdy.2 hb.1.1 hb.1.2 hb.2.1 hb.2.2 (Or.inr (by omega))
      have hle := hmin u2 v2 hu2.1 hu2.2 hv2.1 hv2.2 ((hin_iff u2 v2).mpr ⟨hbx2, hby2⟩)
      rw [coarse_patch_distance_eq ref alt hrh hrw hrc hah haw hac x y dx dy hx hy hb.1 hb.2,
        coarse_patch_distance_eq ref alt hrh hrw hrc hah haw hac x y u2 v2 hx hy hbx2 hby2]
        at hle
      linarith
    · rw [bx, by_, zero_add, zero_add]
  · rw [s2 hex]
    exact ⟨0, 0, by decide, by decide, by simp⟩

/-- Block matching of the scenario on the tiles `(x, y)` with `x ≤ 2` and `y ≤ 2`: for an image
and its translation by `(3, 2)` such that no other displacement within reach reproduces a tile
and level 1 does not send a tile out of reach of `(3, 2)`, the displacement after level 0 is
exactly `(3, 2)`. -/
theorem scenario_block_matching_inner (ref alt : Image)
    (hrh : ref.height = 64) (hrw : ref.width = 64) (hrc : ref.channels = 1)
    (hah : alt.height = 64) (haw : alt.width = 64) (hac : alt.channels = 1)
    (htr : is_translation ref alt 3 2)
    (hfine : ∀ x y u v : Int, 0 ≤ x → x ≤ 2 → 0 ≤ y → y ≤ 2 →
      -8 ≤ u → u ≤ 8 → -8 ≤ v → v ≤ 8 → 0 ≤ x * 16 + u → 0 ≤ y * 16 + v →
      u ≠ 3 ∨ v ≠ 2 → 0 < tile_ssd ref alt x y u v)
    (hcoarse : ∀ x y u v : Int, 0 ≤ x → x ≤ 1 → 0 ≤ y → y ≤ 1 →
      -4 ≤ u → u ≤ 4 → -4 ≤ v → v ≤ 4 →
      0 ≤ x * 16 + u → x * 16 + u ≤ 16 → 0 ≤ y * 16 + v → y * 16 + v ≤ 16 →
      u < -1 ∨ v < -2 →
      ∃ u2 v2 : Int, (-4 ≤ u2 ∧ u2 ≤ 4) ∧ (-4 ≤ v2 ∧ v2 ≤ 4) ∧
        (0 ≤ x * 16 + u2 ∧ x * 16 + u2 ≤ 16) ∧ (0 ≤ y * 16 + v2 ∧ y * 16 + v2 ≤ 16) ∧
        coarse_tile_ssd ref alt x y u2 v2 < coarse_tile_ssd ref alt x y u v)
    (x y : Int) (hx : 0 ≤ x ∧ x ≤ 2) (hy : 0 ≤ y ∧ y ≤ 2) :
    (local_search ref alt 16 4 (scenario_initial_map ref alt) 1).tile x y = ⟨3, 2⟩ := by
  obtain ⟨ih, iw, iwf, itile⟩ := scenario_initial_map_tiles ref alt hrh hrw
  have hinit : ∃ cx cy : Int, (-1 ≤ cx ∧ cx ≤ 4) ∧ (-2 ≤ cy ∧ cy ≤ 4) ∧
      (scenario_initial_map ref alt).tile x y = ⟨(cx : ℚ), (cy : ℚ)⟩ := by
    rw [itile x y hx.1 (by omega) hy.1 (by omega)]
    by_cases hc : x < 2 ∧ y < 2
    · rw [if_pos hc]
      exact scenario_coarse_map_reach ref alt hrh hrw hrc hah haw hac hcoarse x y
        ⟨hx.1, by omega⟩ ⟨hy.1, by omega⟩
    · rw [if_neg hc]
      exact ⟨0, 0, by decide, by decide, by simp⟩
  obtain ⟨cx, cy, hcx, hcy, hc⟩ := hinit
  have ex : ((scenario_initial_map ref alt).tile x y).x + ((3 - cx : Int) : ℚ)
      = ((3 : Int) : ℚ) := by
    rw [hc]
    push_cast
    ring
  have ey : ((scenario_initial_map ref alt).tile x y).y + ((2 - cy : Int) : ℚ)
      = ((2 : Int) : ℚ) := by
    rw [hc]
    push_cast
    ring
  have hin : patch_inside alt 16 y x ((scenario_initial_map ref alt).tile x y)
      (3 - cx) (2 - cy) := by
    rw [patch_inside_iff _ _ _ _ _ _ _ (by decide), ex, ey, cTrunc_intCast, cTrunc_intCast,
      hah, haw]
    omega
  have hzero := patch_distance_translation ref alt 16 y x
    ((scenario_initial_map ref alt).tile x y) (3 - cx) (2 - cy) 3 2 1 hrc htr
    ⟨hy.1, by rw [hrh]; omega⟩ ⟨hx.1, by rw [hrw]; omega⟩ ex ey hin
  have hbm := local_search_unique_zero ref alt 16 4 (scenario_initial_map ref alt) 1 iwf x y
    ⟨hy.1, by rw [ih]; omega⟩ ⟨hx.1, by rw [iw]; omega⟩ (3 - cx) (2 - cy)
    (by omega) (by omega) hin hzero
    (by
      intro dx2 dy2 a1 a2 b1 b2 hin2 hne
      have eu : ((scenario_initial_map ref alt).tile x y).x + (dx2 : ℚ)
          = ((cx + dx2 : Int) : ℚ) := by
        rw [hc]
        push_cast
        ring
      have ev : ((scenario_initial_map ref alt).tile x y).y + (dy2 : ℚ)
          = ((cy + dy2 : Int) : ℚ) := by
        rw [hc]
        push_cast
        ring
      rw [patch_inside_iff _ _ _ _ _ _ _ (by decide), eu, ev, cTrunc_intCast, cTrunc_intCast]
        at hin2
      rw [patch_distance_eq_tile_ssd ref alt x y _ dx2 dy2 (cx + dx2) (cy + dy2) hrc eu ev]
      exact hfine x y (cx + dx2) (cy + dy2) hx.1 hx.2 hy.1 hy.2 (by omega) (by omega)
        (by omega) (by omega) hin2.1.1 hin2.2.1 (by omega))
  rw [hbm, ex, ey]
  norm_num

/-- The scenario on an image and its translation by `(3, 2)` under the two texture conditions:
a map of 4x4 tiles whose tiles `(x, y)` with `x ≤ 2` and `y ≤ 2` hold exactly `(3, 2)`. -/
theorem end_to_end_inner_tiles (expf : ℚ → ℚ) (ref alt : Image)
    (hrh : ref.height = 64) (hrw : ref.width = 64) (hrc : ref.channels = 1)
    (hrb : ref.data.length = 4096)
    (hah : alt.height = 64) (haw : alt.width = 64) (hac : alt.channels = 1)
    (hab : alt.data.length = 4096)
    (htr : is_translation ref alt 3 2)
    (hfine : ∀ x y u v : Int, 0 ≤ x → x ≤ 2 → 0 ≤ y → y ≤ 2 →
      -8 ≤ u → u ≤ 8 → -8 ≤ v → v ≤ 8 → 0 ≤ x * 16 + u → 0 ≤ y * 16 + v →
      u ≠ 3 ∨ v ≠ 2 → 0 < tile_ssd ref alt x y u v)
    (hcoarse : ∀ x y u v : Int, 0 ≤ x → x ≤ 1 → 0 ≤ y → y ≤ 1 →
      -4 ≤ u → u ≤ 4 → -4 ≤ v → v ≤ 4 →
      0 ≤ x * 16 + u → x * 16 + u ≤ 16 → 0 ≤ y * 16 + v → y * 16 + v ≤ 16 →
      u < -1 ∨ v < -2 →
      ∃ u2 v2 : Int, (-4 ≤ u2 ∧ u2 ≤ 4) ∧ (-4 ≤ v2 ∧ v2 ≤ 4) ∧
        (0 ≤ x * 16 + u2 ∧ x * 16 + u2 ≤ 16) ∧ (0 ≤ y * 16 + v2 ∧ y * 16 + v2 ≤ 16) ∧
        coarse_tile_ssd ref alt x y u2 v2 < coarse_tile_ssd ref alt x y u v) :
    ∃ final, end_to_end expf ref alt = some final ∧
      final.height = 4 ∧ final.width = 4 ∧ final.data.length = 16 ∧
      ∀ x y : Int, 0 ≤ x → x ≤ 2 → 0 ≤ y → y ≤ 2 → final.tile x y = ⟨3, 2⟩ := by
  have hrbuf : ref.data.length = (ref.height * ref.width * ref.channels).toNat := by
    rw [hrb, hrh, hrw, hrc]
    rfl
  have habuf : alt.data.length = (alt.height * alt.width * alt.channels).toNat := by
    rw [hab, hah, haw, hac]
    rfl
  obtain ⟨ih, iw, iwf, _⟩ := scenario_initial_map_tiles ref alt hrh hrw
  obtain ⟨bh, bw, bwf, _⟩ := local_search_tiles ref alt 16 4 (scenario_initial_map ref alt) 1 iwf
  obtain ⟨fh, fw, fl⟩ := refine_alignment_ica_length ref alt
    (init_ica expf ref scenario_ica_params)
    (compute_hessian (init_ica expf ref scenario_ica_params) 16)
    (local_search ref alt 16 4 (scenario_initial_map ref alt) 1) 0 16 3 bwf
  rw [bh, ih] at fh fl
  rw [bw, iw] at fw fl
  refine ⟨_, end_to_end_eq expf ref alt hrbuf habuf, fh, fw, fl, ?_⟩
  intro x y hx1 hx2 hy1 hy2
  have hbm := scenario_block_matching_inner ref alt hrh hrw hrc hah haw hac htr hfine hcoarse
    x y ⟨hx1, hx2⟩ ⟨hy1, hy2⟩
  have hfix := refine_alignment_ica_zero_residual ref alt
    (init_ica expf ref scenario_ica_params)
    (compute_hessian (init_ica expf ref scenario_ica_params) 16)
    (local_search ref alt 16 4 (scenario_initial_map ref alt) 1) 0 16 3 x y bwf
    ⟨hy1, by rw [bh, ih]; omega⟩ ⟨hx1, by rw [bw, iw]; omega⟩
    (by
      intro px py h1 h2 h3 h4 hu
      rw [hbm] at hu ⊢
      have e3 : (⟨3, 2⟩ : Alignment) = ⟨((3 : Int) : ℚ), ((2 : Int) : ℚ)⟩ := by
        norm_num
      rw [e3] at hu ⊢
      exact ica_residual_translation ref alt 3 2 hrc hac htr px py (by omega) (by omega) hu)
  show (refine_alignment_ica ref alt (init_ica expf ref scenario_ica_params)
    (compute_hessian (init_ica expf ref scenario_ica_params) 16)
    (local_search ref alt 16 4 (scenario_initial_map ref alt) 1) ⟨0, 3, 16⟩).tile x y = _
  rw [hfix, hbm]

/-- On the ramp `x + 100 y` and its translation by `(3, 2)`, every pixel of a tile differs
from the pixel displaced by `(u, v)` by `(u - 3) + 100 (v - 2)`. -/
theorem ramp_tile_ssd (x y u v : Int) (hx : 0 ≤ x ∧ x ≤ 3) (hy : 0 ≤ y ∧ y ≤ 3)
    (hu : 0 ≤ x * 16 + u ∧ x * 16 + u ≤ 48) (hv : 0 ≤ y * 16 + v ∧ y * 16 + v ≤ 48) :
    tile_ssd (translated_ramp 1 100 0 0 0) (translated_ramp 1 100 0 3 2) x y u v
      = 256 * ((u - 3 + 100 * (v - 2) : Int) : ℚ) ^ 2 := by
  unfold tile_ssd
  have hterm : ∀ j ∈ Finset.range 16, ∀ i ∈ Finset.range 16,
      ((translated_ramp 1 100 0 0 0).sample (x * 16 + (i : Int)) (y * 16 + (j : Int)) 0 -
        (translated_ramp 1 100 0 3 2).sample (x * 16 + (i : Int) + u)
          (y * 16 + (j : Int) + v) 0) ^ 2 = ((u - 3 + 100 * (v - 2) : Int) : ℚ) ^ 2 := by
    intro j hj i hi
    rw [Finset.mem_range] at hi hj
    rw [translated_ramp_sample 1 100 0 0 0 _ _ (by omega) (by omega),
      translated_ramp_sample 1 100 0 3 2 _ _ (by omega) (by omega)]
    push_cast
    ring
  rw [Finset.sum_congr rfl (fun j hj => Finset.sum_congr rfl (fun i hi => hterm j hj i hi))]
  simp only [Finset.sum_const, Finset.card_range, nsmul_eq_mul]
  norm_num
  ring

/-- The mean of a 2x2 block of a ramp `x + 100 y` translated by `(sx, sy)`. -/
theorem ramp_box_mean (sx sy x y : Int) (hx : 0 ≤ x ∧ x < 32) (hy : 0 ≤ y ∧ y < 32) :
    box_mean (translated_ramp 1 100 0 sx sy) 2 0 y x
      = 2 * (x : ℚ) + 200 * (y : ℚ) + 101 / 2 - (sx : ℚ) - 100 * (sy : ℚ) := by
  unfold box_mean
  have h2 : (2 : Int).toNat = 2 := rfl
  rw [h2]
  simp only [Finset.sum_range_succ, Finset.sum_range_zero, Nat.cast_zero, Nat.cast_one,
    zero_add, add_zero]
  rw [translated_ramp_sample 1 100 0 sx sy _ _ (by omega) (by omega),
    translated_ramp_sample 1 100 0 sx sy _ _ (by omega) (by omega),
    translated_ramp_sample 1 100 0 sx sy _ _ (by omega) (by omega),
    translated_ramp_sample 1 100 0 sx sy _ _ (by omega) (by omega)]
  push_cast
  ring

/-- One pyramid level up, every block mean of a tile of the ramp differs from the block mean
displaced by `(u, v)` by `203 - 2 u - 200 v`. -/
theorem ramp_coarse_tile_ssd (x y u v : Int) (hx : 0 ≤ x ∧ x ≤ 1) (hy : 0 ≤ y ∧ y ≤ 1)
    (hu : 0 ≤ x * 16 + u ∧ x * 16 + u ≤ 16) (hv : 0 ≤ y * 16 + v ∧ y * 16 + v ≤ 16) :
    coarse_tile_ssd (translated_ramp 1 100 0 0 0) (translated_ramp 1 100 0 3 2) x y u v
      = 256 * ((203 - 2 * u - 200 * v : Int) : ℚ) ^ 2 := by
  unfold coarse_tile_ssd
  have hterm : ∀ j ∈ Finset.range 16, ∀ i ∈ Finset.range 16,
      (box_mean (translated_ramp 1 100 0 0 0) 2 0 (y * 16 + (j : Int)) (x * 16 + (i : Int)) -
        box_mean (translated_ramp 1 100 0 3 2) 2 0 (y * 16 + (j : Int) + v)
          (x * 16 + (i : Int) + u)) ^ 2 = ((203 - 2 * u - 200 * v : Int) : ℚ) ^ 2 := by
    intro j hj i hi
    rw [Finset.mem_range] at hi hj
    rw [ramp_box_mean 0 0 _ _ (by omega) (by omega),
      ramp_box_mean 3 2 _ _ (by omega) (by omega)]
    push_cast
    ring
  rw [Finset.sum_congr rfl (fun j hj => Finset.sum_congr rfl (fun i hi => hterm j hj i hi))]
  simp only [Finset.sum_const, Finset.card_range, nsmul_eq_mul]
  norm_num
  ring

/-- Squares of integers compare as their absolute values: helper for the distances of the
ramp. -/
theorem sq_cast_lt (a b : Int) (h : (a < b ∧ -b < a) ∨ (b < a ∧ a < -b)) :
    (256 : ℚ) * ((a : Int) : ℚ) ^ 2 < 256 * ((b : Int) : ℚ) ^ 2 := by
  have h2 : a ^ 2 < b ^ 2 := by
    rcases h with h | h
    · exact sq_lt_sq' h.2 h.1
    · have := sq_lt_sq' (a := -a) (b := -b) (by omega) (by omega)
      simpa using this
  have h3 : ((a : ℚ)) ^ 2 < ((b : ℚ)) ^ 2 := by exact_mod_cast h2
  linarith

/-- The ramp `x + 100 y` and its translation by `(3, 2)` meet the texture condition of level
0: no displacement other than `(3, 2)` reproduces a tile. -/
theorem ramp_fine_texture (x y u v : Int) (hx1 : 0 ≤ x) (hx2 : x ≤ 2) (hy1 : 0 ≤ y)
    (hy2 : y ≤ 2) (hu1 : -8 ≤ u) (hu2 : u ≤ 8) (hv1 : -8 ≤ v) (hv2 : v ≤ 8)
    (hbx : 0 ≤ x * 16 + u) (hby : 0 ≤ y * 16 + v) (hne : u ≠ 3 ∨ v ≠ 2) :
    0 < tile_ssd (translated_ramp 1 100 0 0 0) (translated_ramp 1 100 0 3 2) x y u v := by
  rw [ramp_tile_ssd x y u v ⟨hx1, by omega⟩ ⟨hy1, by omega⟩ ⟨hbx, by omega⟩ ⟨hby, by omega⟩]
  have hz : u - 3 + 100 * (v - 2) ≠ 0 := by omega
  have hq : ((u - 3 + 100 * (v - 2) : Int) : ℚ) ≠ 0 := by exact_mod_cast hz
  positivity

/-- The ramp and its translation meet the condition of level 1: every in-bounds shift with a
component below `(-1, -2)` has a larger distance than another in-bounds shift. -/
theorem ramp_coarse_texture (x y u v : Int) (hx1 : 0 ≤ x) (hx2 : x ≤ 1) (hy1 : 0 ≤ y)
    (hy2 : y ≤ 1) (hu1 : -4 ≤ u) (hu2 : u ≤ 4) (hv1 : -4 ≤ v) (hv2 : v ≤ 4)
    (hbx1 : 0 ≤ x * 16 + u) (hbx2 : x * 16 + u ≤ 16) (hby1 : 0 ≤ y * 16 + v)
    (hby2 : y * 16 + v ≤ 16) (hlow : u < -1 ∨ v < -2) :
    ∃ u2 v2 : Int, (-4 ≤ u2 ∧ u2 ≤ 4) ∧ (-4 ≤ v2 ∧ v2 ≤ 4) ∧
      (0 ≤ x * 16 + u2 ∧ x * 16 + u2 ≤ 16) ∧ (0 ≤ y * 16 + v2 ∧ y * 16 + v2 ≤ 16) ∧
      coarse_tile_ssd (translated_ramp 1 100 0 0 0) (translated_ramp 1 100 0 3 2) x y u2 v2
        < coarse_tile_ssd (translated_ramp 1 100 0 0 0) (translated_ramp 1 100 0 3 2)
            x y u v := by
  have hxc : x = 0 ∨ x = 1 := by omega
  have hyc : y = 0 ∨ y = 1 := by omega
  rcases hxc with rfl | rfl <;> rcases hyc with rfl | rfl
  · exfalso
    omega
  · refine ⟨4, 0, by decide, by decide, by decide, by decide, ?_⟩
    rw [ramp_coarse_tile_ssd 0 1 4 0 (by decide) (by decide) (by decide) (by decide),
      ramp_coarse_tile_ssd 0 1 u v (by decide) (by decide) ⟨hbx1, hbx2⟩ ⟨hby1, hby2⟩]
    apply sq_cast_lt
    omega
  · refine ⟨0, 1, by decide, by decide, by decide, by decide, ?_⟩
    rw [ramp_coarse_tile_ssd 1 0 0 1 (by decide) (by decide) (by decide) (by decide),
      ramp_coarse_tile_ssd 1 0 u v (by decide) (by decide) ⟨hbx1, hbx2⟩ ⟨hby1, hby2⟩]
    apply sq_cast_lt
    omega
  · refine ⟨0, 0, by decide, by decide, by decide, by decide, ?_⟩
    rw [ramp_coarse_tile_ssd 1 1 0 0 (by decide) (by decide) (by decide) (by decide),
      ramp_coarse_tile_ssd 1 1 u v (by decide) (by decide) ⟨hbx1, hbx2⟩ ⟨hby1, hby2⟩]
    apply sq_cast_lt
    omega

/-- A shift of the window that keeps the patch inside the image and whose distance is below
`FLT_MAX` and strictly below that of every other in-bounds shift is the shift that
`local_search` adds. -/
theorem local_search_unique_min (ref_level alt_level : Image) (ts r : Int)
    (m : AlignmentMap) (metric : Int) (hwf : m.WF) (x y : Int)
    (hy : 0 ≤ y ∧ y < m.height) (hx : 0 ≤ x ∧ x < m.width) (dx dy : Int)
    (hdx : -r ≤ dx ∧ dx ≤ r) (hdy : -r ≤ dy ∧ dy ≤ r)
    (hin : patch_inside alt_level ts y x (m.tile x y) dx dy)
    (hlt : patch_distance ref_level alt_level ts y x (m.tile x y) dx dy metric < FLT_MAX)
    (huniq : ∀ dx2 dy2 : Int, -r ≤ dx2 → dx2 ≤ r → -r ≤ dy2 → dy2 ≤ r →
      patch_inside alt_level ts y x (m.tile x y) dx2 dy2 → (dx2 ≠ dx ∨ dy2 ≠ dy) →
      patch_distance ref_level alt_level ts y x (m.tile x y) dx dy metric
        < patch_distance ref_level alt_level ts y x (m.tile x y) dx2 dy2 metric) :
    (local_search ref_level alt_level ts r m metric).tile x y
      = ⟨(m.tile x y).x + (dx : ℚ), (m.tile x y).y + (dy : ℚ)⟩ := by
  obtain ⟨_, _, _, ht⟩ := local_search_tiles ref_level alt_level ts r m metric hwf
  rw [ht x y hy.1 hy.2 hx.1 hx.2]
  obtain ⟨s1, _⟩ := search_window_spec ref_level alt_level ts r y x (m.tile x y) metric
  obtain ⟨dx1, dy1, hdx1, hdy1, hin1, bx, by_, hmin⟩ := s1 ⟨dx, dy, hdx, hdy, hin, hlt⟩
  have hle := hmin dx dy hdx.1 hdx.2 hdy.1 hdy.2 hin
  have heq : dx1 = dx ∧ dy1 = dy := by
    by_contra hne
    have hne2 : dx1 ≠ dx ∨ dy1 ≠ dy := by
      by_contra hcon
      push_neg at hcon
      exact hne hcon
    have := huniq dx1 dy1 hdx1.1 hdx1.2 hdy1.1 hdy1.2 hin1 hne2
    linarith
  rw [bx, by_, heq.1, heq.2]

/-- Block matching of the scenario on the ramp `x + 100 y` and its translation by `(3, 2)`:
the displacement of every tile after level 0. -/
theorem ramp_block_matching_tiles (x y : Int) (hx : 0 ≤ x ∧ x ≤ 3) (hy : 0 ≤ y ∧ y ≤ 3) :
    (local_search (translated_ramp 1 100 0 0 0) (translated_ramp 1 100 0 3 2) 16 4
      (scenario_initial_map (translated_ramp 1 100 0 0 0) (translated_ramp 1 100 0 3 2)) 1).tile
        x y = ramp_block_matching x y := by
  by_cases hinner : x ≤ 2 ∧ y ≤ 2
  · rw [scenario_block_matching_inner _ _ rfl rfl rfl rfl rfl rfl
      (translated_ramp_is_translation 1 100 0 3 2) ramp_fine_texture ramp_coarse_texture x y
      ⟨hx.1, hinner.1⟩ ⟨hy.1, hinner.2⟩]
    unfold ramp_block_matching
    rw [if_pos hinner]
  · obtain ⟨ih, iw, iwf, itile⟩ := scenario_initial_map_tiles (translated_ramp 1 100 0 0 0)
      (translated_ramp 1 100 0 3 2) rfl rfl
    have hc : (scenario_initial_map (translated_ramp 1 100 0 0 0)
        (translated_ramp 1 100 0 3 2)).tile x y = ⟨0, 0⟩ := by
      rw [itile x y hx.1 (by omega) hy.1 (by omega), if_neg (by omega)]
    have hin_iff : ∀ u v : Int,
        patch_inside (translated_ramp 1 100 0 3 2) 16 y x
          ((scenario_initial_map (translated_ramp 1 100 0 0 0)
            (translated_ramp 1 100 0 3 2)).tile x y) u v ↔
          (0 ≤ x * 16 + u ∧ x * 16 + u ≤ 48) ∧ (0 ≤ y * 16 + v ∧ y * 16 + v ≤ 48) := by
      intro u v
      rw [patch_inside_iff _ _ _ _ _ _ _ (by decide), hc]
      dsimp only
      rw [cTrunc_zero_add, cTrunc_zero_add]
      show (0 ≤ x * 16 + u ∧ x * 16 + (16 - 1) + u < 64) ∧
        (0 ≤ y * 16 + v ∧ y * 16 + (16 - 1) + v < 64) ↔ _
      omega
    have hdist : ∀ u v : Int, (0 ≤ x * 16 + u ∧ x * 16 + u ≤ 48) →
        (0 ≤ y * 16 + v ∧ y * 16 + v ≤ 48) →
        patch_distance (translated_ramp 1 100 0 0 0) (translated_ramp 1 100 0 3 2) 16 y x
          ((scenario_initial_map (translated_ramp 1 100 0 0 0)
            (translated_ramp 1 100 0 3 2)).tile x y) u v 1
          = 256 * ((u - 3 + 100 * (v - 2) : Int) : ℚ) ^ 2 := by
      intro u v hu hv
      rw [patch_distance_eq_tile_ssd _ _ x y _ u v u v rfl (by rw [hc]; simp)
        (by rw [hc]; simp), ramp_tile_ssd x y u v hx hy hu hv]
    have hmain : ∀ dx dy : Int, (-4 ≤ dx ∧ dx ≤ 4) → (-4 ≤ dy ∧ dy ≤ 4) →
        (0 ≤ x * 16 + dx ∧ x * 16 + dx ≤ 48) → (0 ≤ y * 16 + dy ∧ y * 16 + dy ≤ 48) →
        (∀ dx2 dy2 : Int, -4 ≤ dx2 → dx2 ≤ 4 → -4 ≤ dy2 → dy2 ≤ 4 →
          (0 ≤ x * 16 + dx2 ∧ x * 16 + dx2 ≤ 48) → (0 ≤ y * 16 + dy2 ∧ y * 16 + dy2 ≤ 48) →
          (dx2 ≠ dx ∨ dy2 ≠ dy) →
          ((dx - 3 + 100 * (dy - 2) < dx2 - 3 + 100 * (dy2 - 2) ∧
              -(dx2 - 3 + 100 * (dy2 - 2)) < dx - 3 + 100 * (dy - 2)) ∨
            (dx2 - 3 + 100 * (dy2 - 2) < dx - 3 + 100 * (dy - 2) ∧
              dx - 3 + 100 * (dy - 2) < -(dx2 - 3 + 100 * (dy2 - 2))))) →
        (local_search (translated_ramp 1 100 0 0 0) (translated_ramp 1 100 0 3 2) 16 4
          (scenario_initial_map (translated_ramp 1 100 0 0 0)
            (translated_ramp 1 100 0 3 2)) 1).tile x y = ⟨(dx : ℚ), (dy : ℚ)⟩ := by
      intro dx dy hdx hdy hbx hby hall
      have hls := local_search_unique_min (translated_ramp 1 100 0 0 0)
        (translated_ramp 1 100 0 3 2) 16 4
        (scenario_initial_map (translated_ramp 1 100 0 0 0) (translated_ramp 1 100 0 3 2)) 1
        iwf x y ⟨hy.1, by rw [ih]; omega⟩ ⟨hx.1, by rw [iw]; omega⟩ dx dy hdx hdy
        ((hin_iff dx dy).mpr ⟨hbx, hby⟩)
        (by
          rw [hdist dx dy hbx hby]
          have h1 : ((dx - 3 + 100 * (dy - 2) : Int) : ℚ) ^ 2 ≤ 1000 ^ 2 := by
            have : (dx - 3 + 100 * (dy - 2)) ^ 2 ≤ 1000 ^ 2 := by
              apply sq_le_sq'
              · omega
              · omega
            exact_mod_cast this
          unfold FLT_MAX
          norm_num at h1 ⊢
          linarith)
        (by
          intro dx2 dy2 a1 a2 b1 b2 hin2 hne
          obtain ⟨hb1, hb2⟩ := (hin_iff dx2 dy2).mp hin2
          rw [hdist dx dy hbx hby, hdist dx2 dy2 hb1 hb2]
          exact sq_cast_lt _ _ (hall dx2 dy2 a1 a2 b1 b2 hb1 hb2 hne))
      rw [hls, hc]
      simp
    unfold ramp_block_matching
    rw [if_neg hinner]
    by_cases hy2 : y ≤ 2
    · rw [if_pos hy2]
      have hx3 : x = 3 := by omega
      subst hx3
      have := hmain 0 2 (by decide) (by decide) (by decide) (by omega) (by
        intro dx2 dy2 a1 a2 b1 b2 hb1 hb2 hne
        omega)
      rw [this]
      norm_num
    · rw [if_neg hy2]
      have hy3 : y = 3 := by omega
      subst hy3
      by_cases hx2 : x ≤ 2
      · rw [if_pos hx2]
        have := hmain 4 0 (by decide) (by decide) (by omega) (by decide) (by
          intro dx2 dy2 a1 a2 b1 b2 hb1 hb2 hne
          omega)
        rw [this]
        norm_num
      · rw [if_neg hx2]
        have hx3 : x = 3 := by omega
        subst hx3
        have := hmain 0 0 (by decide) (by decide) (by decide) (by decide) (by
          intro dx2 dy2 a1 a2 b1 b2 hb1 hb2 hne
          omega)
        rw [this]
        norm_num

/-- The value of the ramp `x + 100 y` translated by `(sx, sy)` at `(x, y)`, a position outside
the image counting as 0. -/
theorem ramp_tap (sx sy x y : Int) :
    (translated_ramp 1 100 0 sx sy).tap x y
      = if (0 ≤ x ∧ x < 64) ∧ (0 ≤ y ∧ y < 64) then
          (x : ℚ) - (sx : ℚ) + 100 * ((y : ℚ) - (sy : ℚ)) else 0 := by
  unfold Image.tap
  show (if (0 ≤ x ∧ x < 64) ∧ (0 ≤ y ∧ y < 64) then
    rd (translated_ramp 1 100 0 sx sy).data (y * 64 + x) else 0) = _
  by_cases h : (0 ≤ x ∧ x < 64) ∧ (0 ≤ y ∧ y < 64)
  · rw [if_pos h, if_pos h]
    have hs := translated_ramp_sample 1 100 0 sx sy x y h.1 h.2
    unfold Image.sample at hs
    have e : (y * (translated_ramp 1 100 0 sx sy).width + x) *
        (translated_ramp 1 100 0 sx sy).channels + 0 = y * 64 + x := by
      show (y * 64 + x) * 1 + 0 = _
      ring
    rw [e] at hs
    rw [hs]
    ring
  · rw [if_neg h, if_neg h]

/-- The gradients that `init_ica` computes for the ramp `x + 100 y` without blur. -/
theorem ramp_gradients (expf : ℚ → ℚ) :
    (init_ica expf (translated_ramp 1 100 0 0 0) scenario_ica_params).width = 64 ∧
    (init_ica expf (translated_ramp 1 100 0 0 0) scenario_ica_params).height = 64 ∧
    ∀ x y : Int, 0 ≤ x → x < 64 → 0 ≤ y → y < 64 →
      (init_ica expf (translated_ramp 1 100 0 0 0) scenario_ica_params).gx x y
        = ((ramp_gx x y : Int) : ℚ) ∧
      (init_ica expf (translated_ramp 1 100 0 0 0) scenario_ica_params).gy x y
        = ((ramp_gy x y : Int) : ℚ) := by
  have e : init_ica expf (translated_ramp 1 100 0 0 0) scenario_ica_params
      = compute_prewitt_gradients (translated_ramp 1 100 0 0 0)
          ⟨List.replicate 4096 0, List.replicate 4096 0, 64, 64⟩ := by
    unfold init_ica compute_image_gradients
    have hs : scenario_ica_params.sigma_blur = 0 := rfl
    rw [hs]
    dsimp only
    rw [if_neg (by norm_num)]
    rfl
  rw [e]
  refine ⟨rfl, rfl, ?_⟩
  intro x y hx1 hx2 hy1 hy2
  obtain ⟨g1, g2⟩ := compute_prewitt_gradients_pixels (translated_ramp 1 100 0 0 0)
    ⟨List.replicate 4096 0, List.replicate 4096 0, 64, 64⟩ rfl
    (by rw [List.length_replicate]; rfl) (by rw [List.length_replicate]; rfl)
    x y hx1 hx2 hy1 hy2
  rw [g1, g2, ramp_tap, ramp_tap, ramp_tap, ramp_tap]
  unfold ramp_gx ramp_gy
  constructor
  · by_cases h0 : x = 0
    · subst h0
      rw [if_pos (by omega), if_neg (by omega), if_pos rfl]
      push_cast
      ring
    · by_cases h63 : x = 63
      · subst h63
        rw [if_neg (by omega), if_pos (by omega), if_neg (by decide), if_pos rfl]
        push_cast
        ring
      · rw [if_pos (by omega), if_pos (by omega), if_neg h0, if_neg h63]
        push_cast
        ring
  · by_cases h0 : y = 0
    · subst h0
      rw [if_pos (by omega), if_neg (by omega), if_pos rfl]
      push_cast
      ring
    · by_cases h63 : y = 63
      · subst h63
        rw [if_neg (by omega), if_pos (by omega), if_neg (by decide), if_pos rfl]
        push_cast
        ring
      · rw [if_pos (by omega), if_pos (by omega), if_neg h0, if_neg h63]
        push_cast
        ring

/-- The table `ramp_hessian_data` holds, for the patches of the last row and of the last column
of patches, the sums of the products of the gradients of the ramp over the patch. -/
theorem ramp_hessian_sums : ∀ px ∈ [(0 : Int), 1, 2, 3], ∀ py ∈ [(0 : Int), 1, 2, 3],
    px = 3 ∨ py = 3 →
    ramp_hessian px py 0 = ((∑ y ∈ Finset.range 16, ∑ x ∈ Finset.range 16,
      ramp_gx (px * 16 + (x : Int)) (py * 16 + (y : Int)) *
        ramp_gx (px * 16 + (x : Int)) (py * 16 + (y : Int)) : Int) : ℚ) ∧
    ramp_hessian px py 1 = ((∑ y ∈ Finset.range 16, ∑ x ∈ Finset.range 16,
      ramp_gx (px * 16 + (x : Int)) (py * 16 + (y : Int)) *
        ramp_gy (px * 16 + (x : Int)) (py * 16 + (y : Int)) : Int) : ℚ) ∧
    ramp_hessian px py 2 = ramp_hessian px py 1 ∧
    ramp_hessian px py 3 = ((∑ y ∈ Finset.range 16, ∑ x ∈ Finset.range 16,
      ramp_gy (px * 16 + (x : Int)) (py * 16 + (y : Int)) *
        ramp_gy (px * 16 + (x : Int)) (py * 16 + (y : Int)) : Int) : ℚ) := by
  decide!

/-- The Hessians that `compute_hessian` computes from the gradients of the ramp, for the
patches of the last row and of the last column of patches. -/
theorem ramp_hessian_entries (expf : ℚ → ℚ) (px py k : Int) (hpx : 0 ≤ px ∧ px ≤ 3)
    (hpy : 0 ≤ py ∧ py ≤ 3) (hb : px = 3 ∨ py = 3) (hk : 0 ≤ k ∧ k ≤ 3) :
    (compute_hessian (init_ica expf (translated_ramp 1 100 0 0 0) scenario_ica_params)
      16).entry px py k = ramp_hessian px py k := by
  obtain ⟨gw, gh, gg⟩ := ramp_gradients expf
  obtain ⟨_, _, he⟩ := compute_hessian_entries
    (init_ica expf (translated_ramp 1 100 0 0 0) scenario_ica_params) 16
  have e4 : Int.tdiv (64 + 16 - 1) 16 = 4 := rfl
  rw [gw, gh, e4] at he
  rw [he px py k hpy.1 (by omega) hpx.1 (by omega) hk.1 (by omega),
    hessian_accumulate_eq _ 16 py px (by decide), gw, gh]
  have key : ∀ (f : Int → Int → ℚ) (g : Int → Int → Int),
      (∀ x y : Int, 0 ≤ x → x < 64 → 0 ≤ y → y < 64 → f x y = ((g x y : Int) : ℚ)) →
      patch_sum 16 64 64 px py f = ((∑ y ∈ Finset.range 16, ∑ x ∈ Finset.range 16,
        g (px * 16 + (x : Int)) (py * 16 + (y : Int)) : Int) : ℚ) := by
    intro f g hfg
    rw [← patch_sum_eq 16 64 64 px py (by decide) f, Int.cast_sum]
    show ∑ y ∈ Finset.range 16, ∑ x ∈ Finset.range 16, _ = _
    apply Finset.sum_congr rfl
    intro y hy
    rw [Int.cast_sum]
    apply Finset.sum_congr rfl
    intro x hx
    rw [Finset.mem_range] at hx hy
    rw [if_pos (by omega)]
    exact hfg _ _ (by omega) (by omega) (by omega) (by omega)
  have hmx : px ∈ [(0 : Int), 1, 2, 3] := by
    simp only [List.mem_cons, List.mem_singleton, List.not_mem_nil, or_false]
    omega
  have hmy : py ∈ [(0 : Int), 1, 2, 3] := by
    simp only [List.mem_cons, List.mem_singleton, List.not_mem_nil, or_false]
    omega
  obtain ⟨t0, t1, t2, t3⟩ := ramp_hessian_sums px hmx py hmy hb
  have k00 := key (fun x y =>
      (init_ica expf (translated_ramp 1 100 0 0 0) scenario_ica_params).gx x y *
        (init_ica expf (translated_ramp 1 100 0 0 0) scenario_ica_params).gx x y)
    (fun x y => ramp_gx x y * ramp_gx x y) (by
      intro x y h1 h2 h3 h4
      dsimp only
      rw [(gg x y h1 h2 h3 h4).1]
      push_cast
      ring)
  have k01 := key (fun x y =>
      (init_ica expf (translated_ramp 1 100 0 0 0) scenario_ica_params).gx x y *
        (init_ica expf (translated_ramp 1 100 0 0 0) scenario_ica_params).gy x y)
    (fun x y => ramp_gx x y * ramp_gy x y) (by
      intro x y h1 h2 h3 h4
      dsimp only
      rw [(gg x y h1 h2 h3 h4).1, (gg x y h1 h2 h3 h4).2]
      push_cast
      ring)
  have k11 := key (fun x y =>
      (init_ica expf (translated_ramp 1 100 0 0 0) scenario_ica_params).gy x y *
        (init_ica expf (translated_ramp 1 100 0 0 0) scenario_ica_params).gy x y)
    (fun x y => ramp_gy x y * ramp_gy x y) (by
      intro x y h1 h2 h3 h4
      dsimp only
      rw [(gg x y h1 h2 h3 h4).2]
      push_cast
      ring)
  dsimp only
  rw [k00, k01, k11]
  have hkc : k = 0 ∨ k = 1 ∨ k = 2 ∨ k = 3 := by omega
  rcases hkc with rfl | rfl | rfl | rfl
  · rw [if_pos rfl, t0]
  · rw [if_neg (by decide), if_pos rfl, t1]
  · rw [if_neg (by decide), if_neg (by decide), if_pos rfl, t2, t1]
  · rw [if_neg (by decide), if_neg (by decide), if_neg (by decide), t3]

/-- A sum over the `n` integers from `a` on, restricted to those in `[lo, hi)`, is the sum over
the integers from `max a lo` to `min (a + n) hi - 1`. -/
theorem sum_range_window {M : Type} [AddCommMonoid M] (a lo hi : Int) (n : Nat)
    (g : Int → M) :
    (∑ k ∈ Finset.range n,
      if lo ≤ a + (k : Int) ∧ a + (k : Int) < hi then g (a + (k : Int)) else 0)
      = ((intRange (max a lo) (min (a + (n : Int)) hi)).map g).sum := by
  induction n with
  | zero =>
    rw [intRange_empty (by push_cast; omega)]
    simp
  | succ n ih =>
    rw [Finset.sum_range_succ, ih]
    by_cases h : lo ≤ a + (n : Int) ∧ a + (n : Int) < hi
    · rw [if_pos h]
      have e : min (a + ((n + 1 : Nat) : Int)) hi = min (a + (n : Int)) hi + 1 := by
        push_cast
        omega
      rw [e, intRange_succ (by omega), List.map_append, List.sum_append]
      have e2 : min (a + (n : Int)) hi = a + (n : Int) := by omega
      simp [e2]
    · rw [if_neg h, add_zero]
      by_cases h2 : a + (n : Int) < hi
      · rw [intRange_empty (by omega), intRange_empty (by omega)]
      · have e : min (a + ((n + 1 : Nat) : Int)) hi = min (a + (n : Int)) hi := by
          push_cast
          omega
        rw [e]

/-- A sum over the pixels of patch `(px, py)` whose coordinates displaced by `d` pass the bounds
test is a sum over the lists `ramp_used_coords`, by rows or by columns. -/
theorem ramp_window_sums (px py : Int) (d : Alignment) (g : Int → Int → Int) :
    (∑ y ∈ Finset.range 16, ∑ x ∈ Finset.range 16,
      if (⌈-d.x⌉ ≤ px * 16 + (x : Int) ∧ px * 16 + (x : Int) < ⌈63 - d.x⌉) ∧
          (⌈-d.y⌉ ≤ py * 16 + (y : Int) ∧ py * 16 + (y : Int) < ⌈63 - d.y⌉) then
        g (px * 16 + (x : Int)) (py * 16 + (y : Int)) else 0)
      = ((ramp_used_coords d.y py).map (fun y =>
          ((ramp_used_coords d.x px).map (fun x => g x y)).sum)).sum ∧
    (∑ y ∈ Finset.range 16, ∑ x ∈ Finset.range 16,
      if (⌈-d.x⌉ ≤ px * 16 + (x : Int) ∧ px * 16 + (x : Int) < ⌈63 - d.x⌉) ∧
          (⌈-d.y⌉ ≤ py * 16 + (y : Int) ∧ py * 16 + (y : Int) < ⌈63 - d.y⌉) then
        g (px * 16 + (x : Int)) (py * 16 + (y : Int)) else 0)
      = ((ramp_used_coords d.x px).map (fun x =>
          ((ramp_used_coords d.y py).map (fun y => g x y)).sum)).sum := by
  have hx := fun (f : Int → Int) => sum_range_window (px * 16) ⌈-d.x⌉ ⌈63 - d.x⌉ 16 f
  have hy := fun (f : Int → Int) => sum_range_window (py * 16) ⌈-d.y⌉ ⌈63 - d.y⌉ 16 f
  have e16 : ((16 : Nat) : Int) = 16 := rfl
  simp only [e16] at hx hy
  constructor
  · unfold ramp_used_coords
    rw [← hy]
    apply Finset.sum_congr rfl
    intro y _
    by_cases hc : ⌈-d.y⌉ ≤ py * 16 + (y : Int) ∧ py * 16 + (y : Int) < ⌈63 - d.y⌉
    · rw [if_pos hc, ← hx]
      apply Finset.sum_congr rfl
      intro x _
      by_cases hd : ⌈-d.x⌉ ≤ px * 16 + (x : Int) ∧ px * 16 + (x : Int) < ⌈63 - d.x⌉
      · rw [if_pos ⟨hd, hc⟩, if_pos hd]
      · rw [if_neg (fun h => hd h.1), if_neg hd]
    · rw [if_neg hc]
      apply Finset.sum_eq_zero
      intro x _
      rw [if_neg (fun h => hc h.2)]
  · unfold ramp_used_coords
    rw [Finset.sum_comm, ← hx]
    apply Finset.sum_congr rfl
    intro x _
    by_cases hd : ⌈-d.x⌉ ≤ px * 16 + (x : Int) ∧ px * 16 + (x : Int) < ⌈63 - d.x⌉
    · rw [if_pos hd, ← hy]
      apply Finset.sum_congr rfl
      intro y _
      by_cases hc : ⌈-d.y⌉ ≤ py * 16 + (y : Int) ∧ py * 16 + (y : Int) < ⌈63 - d.y⌉
      · rw [if_pos ⟨hd, hc⟩, if_pos hc]
      · rw [if_neg (fun h => hc h.2), if_neg hc]
    · rw [if_neg hd]
      apply Finset.sum_eq_zero
      intro y _
      rw [if_neg (fun h => hd h.1)]

/-- The sums of the gradients of the ramp over a column and over a row. -/
theorem ramp_column_row_sums (x y : Int) (xs ys : List Int) :
    (ys.map (fun y => ramp_gx x y)).sum = ramp_column_gx x ys ∧
    (xs.map (fun x => ramp_gy x y)).sum = ramp_row_gy y xs := by
  have hconst : ∀ (c : Int) (l : List Int), (l.map (fun _ => c)).sum = c * (l.length : Int) := by
    intro c l
    induction l with
    | nil => simp
    | cons a l ih =>
      rw [List.map_cons, List.sum_cons, ih, List.length_cons]
      push_cast
      ring
  constructor
  · unfold ramp_column_gx ramp_gx
    by_cases h0 : x = 0
    · simp only [if_pos h0]
    · by_cases h63 : x = 63
      · simp only [if_neg h0, if_pos h63]
      · simp only [if_neg h0, if_neg h63]
        exact hconst 2 ys
  · unfold ramp_row_gy ramp_gy
    by_cases h0 : y = 0
    · simp only [if_pos h0]
    · by_cases h63 : y = 63
      · simp only [if_neg h0, if_pos h63]
      · simp only [if_neg h0, if_neg h63]
        exact hconst 200 xs

/-- On the ramp and its translation by `(3, 2)`, a pixel contributes to `b` exactly when its two
displaced coordinates pass the bounds test `0 ≤ x + d < 63`, that is `⌈-d⌉ ≤ x < ⌈63 - d⌉`. -/
theorem ramp_pixel_used_iff (d : Alignment) (x y : Int) (hx : x < 64) (hy : y < 64) :
    ica_pixel_used (translated_ramp 1 100 0 0 0) (translated_ramp 1 100 0 3 2) d x y
      ↔ (⌈-d.x⌉ ≤ x ∧ x < ⌈63 - d.x⌉) ∧ (⌈-d.y⌉ ≤ y ∧ y < ⌈63 - d.y⌉) := by
  unfold ica_pixel_used warp_in_bounds
  show ((y < 64 ∧ x < 64) ∧ (0 ≤ (x : ℚ) + d.x ∧ (x : ℚ) + d.x < ((64 - 1 : Int) : ℚ)) ∧
    (0 ≤ (y : ℚ) + d.y ∧ (y : ℚ) + d.y < ((64 - 1 : Int) : ℚ))) ↔ _
  have e : ((64 - 1 : Int) : ℚ) = 63 := by norm_num
  rw [e, Int.ceil_le, Int.lt_ceil, Int.ceil_le, Int.lt_ceil]
  constructor
  · rintro ⟨_, ⟨a1, a2⟩, b1, b2⟩
    exact ⟨⟨by linarith, by linarith⟩, by linarith, by linarith⟩
  · rintro ⟨⟨a1, a2⟩, b1, b2⟩
    exact ⟨⟨hy, hx⟩, ⟨by linarith, by linarith⟩, by linarith, by linarith⟩

/-- On the ramp and its translation by `(3, 2)`, the residual at a contributing pixel for the
displacement `d` is `d.x + 100 d.y - 203`: the bilinear interpolation of a ramp is the ramp. -/
theorem ramp_residual (d : Alignment) (x y : Int) (hx : 0 ≤ x ∧ x < 64) (hy : 0 ≤ y ∧ y < 64)
    (hu : ica_pixel_used (translated_ramp 1 100 0 0 0) (translated_ramp 1 100 0 3 2) d x y) :
    ica_residual (translated_ramp 1 100 0 0 0) (translated_ramp 1 100 0 3 2) d x y
      = d.x + 100 * d.y - 203 := by
  have hb : warp_in_bounds (translated_ramp 1 100 0 3 2) ((x : ℚ) + d.x) ((y : ℚ) + d.y) :=
    hu.2
  have hb2 : (0 ≤ (x : ℚ) + d.x ∧ (x : ℚ) + d.x < 63) ∧
      (0 ≤ (y : ℚ) + d.y ∧ (y : ℚ) + d.y < 63) := by
    have e : ((64 - 1 : Int) : ℚ) = 63 := by norm_num
    have := hb
    unfold warp_in_bounds at this
    rw [← e]
    exact this
  obtain ⟨hux, huy⟩ := hb2
  unfold ica_residual
  rw [bilinear_interpolation_eq_tap _ _ _ hb]
  unfold bilinear_tap
  have fx0 : 0 ≤ ⌊(x : ℚ) + d.x⌋ := Int.floor_nonneg.mpr hux.1
  have fx1 : ⌊(x : ℚ) + d.x⌋ < 63 := Int.floor_lt.mpr (by exact_mod_cast hux.2)
  have fy0 : 0 ≤ ⌊(y : ℚ) + d.y⌋ := Int.floor_nonneg.mpr huy.1
  have fy1 : ⌊(y : ℚ) + d.y⌋ < 63 := Int.floor_lt.mpr (by exact_mod_cast huy.2)
  rw [ramp_tap, ramp_tap, ramp_tap, ramp_tap, if_pos (by omega), if_pos (by omega),
    if_pos (by omega), if_pos (by omega)]
  have hr := ramp_tap 0 0 x y
  rw [if_pos ⟨hx, hy⟩, image_tap_eq _ _ _ hx hy] at hr
  rw [hr]
  push_cast
  ring

/-- The vector `b` that `refine_alignment_ica` accumulates on the ramp and its translation by
`(3, 2)`. -/
theorem ramp_ica_rhs (expf : ℚ → ℚ) (px py : Int) (hpx : 0 ≤ px ∧ px ≤ 3)
    (hpy : 0 ≤ py ∧ py ≤ 3) (d : Alignment) :
    ica_rhs (translated_ramp 1 100 0 0 0) (translated_ramp 1 100 0 3 2)
      (init_ica expf (translated_ramp 1 100 0 0 0) scenario_ica_params) 16 py px d
      = ramp_rhs px py d := by
  obtain ⟨gw, gh, gg⟩ := ramp_gradients expf
  have key : ∀ (f : Int → Int → ℚ) (g : Int → Int → Int),
      (∀ x y : Int, 0 ≤ x → x < 64 → 0 ≤ y → y < 64 → f x y = ((g x y : Int) : ℚ)) →
      (∑ y ∈ Finset.range 16, ∑ x ∈ Finset.range 16,
        if ica_pixel_used (translated_ramp 1 100 0 0 0) (translated_ramp 1 100 0 3 2) d
            (px * 16 + (x : Int)) (py * 16 + (y : Int)) then
          f (px * 16 + (x : Int)) (py * 16 + (y : Int)) *
            ica_residual (translated_ramp 1 100 0 0 0) (translated_ramp 1 100 0 3 2) d
              (px * 16 + (x : Int)) (py * 16 + (y : Int))
        else 0)
      = (d.x + 100 * d.y - 203) *
        ((∑ y ∈ Finset.range 16, ∑ x ∈ Finset.range 16,
          if (⌈-d.x⌉ ≤ px * 16 + (x : Int) ∧ px * 16 + (x : Int) < ⌈63 - d.x⌉) ∧
              (⌈-d.y⌉ ≤ py * 16 + (y : Int) ∧ py * 16 + (y : Int) < ⌈63 - d.y⌉) then
            g (px * 16 + (x : Int)) (py * 16 + (y : Int)) else 0 : Int) : ℚ) := by
    intro f g hfg
    rw [Int.cast_sum, Finset.mul_sum]
    apply Finset.sum_congr rfl
    intro y hy
    rw [Finset.mem_range] at hy
    rw [Int.cast_sum, Finset.mul_sum]
    apply Finset.sum_congr rfl
    intro x hx
    rw [Finset.mem_range] at hx
    have hiff := ramp_pixel_used_iff d (px * 16 + (x : Int)) (py * 16 + (y : Int))
      (by omega) (by omega)
    by_cases hu : ica_pixel_used (translated_ramp 1 100 0 0 0) (translated_ramp 1 100 0 3 2)
        d (px * 16 + (x : Int)) (py * 16 + (y : Int))
    · rw [if_pos hu, if_pos (hiff.mp hu), hfg _ _ (by omega) (by omega) (by omega) (by omega),
        ramp_residual d _ _ (by omega) (by omega) hu]
      ring
    · rw [if_neg hu, if_neg (fun h => hu (hiff.mpr h))]
      simp
  have kx := key (fun x y =>
      (init_ica expf (translated_ramp 1 100 0 0 0) scenario_ica_params).gx x y) ramp_gx
    (fun x y h1 h2 h3 h4 => (gg x y h1 h2 h3 h4).1)
  have ky := key (fun x y =>
      (init_ica expf (translated_ramp 1 100 0 0 0) scenario_ica_params).gy x y) ramp_gy
    (fun x y h1 h2 h3 h4 => (gg x y h1 h2 h3 h4).2)
  rw [(ramp_window_sums px py d ramp_gx).2] at kx
  rw [(ramp_window_sums px py d ramp_gy).1] at ky
  have cx : (ramp_used_coords d.x px).map (fun x =>
      ((ramp_used_coords d.y py).map (fun y => ramp_gx x y)).sum)
      = (ramp_used_coords d.x px).map (fun x =>
          ramp_column_gx x (ramp_used_coords d.y py)) :=
    List.map_congr_left (fun x _ => (ramp_column_row_sums x 0 [] _).1)
  have cy : (ramp_used_coords d.y py).map (fun y =>
      ((ramp_used_coords d.x px).map (fun x => ramp_gy x y)).sum)
      = (ramp_used_coords d.y py).map (fun y =>
          ramp_row_gy y (ramp_used_coords d.x px)) :=
    List.map_congr_left (fun y _ => (ramp_column_row_sums 0 y _ []).2)
  rw [cx] at kx
  rw [cy] at ky
  unfold ica_rhs ramp_rhs
  exact Prod.ext (congrArg Neg.neg kx) (congrArg Neg.neg ky)

/-- Without iteration `refine_alignment_ica` returns the displacements of the initial map. -/
theorem refine_alignment_ica_tile_zero (ref_img alt_img : Image) (grads : ImageGradients)
    (hessian : HessianMatrix) (initial : AlignmentMap) (sigma : ℚ) (ts : Int)
    (px py : Int) (hwf : initial.WF) :
    (refine_alignment_ica ref_img alt_img grads hessian initial ⟨sigma, 0, ts⟩).tile px py
      = initial.tile px py := by
  unfold AlignmentMap.tile
  rw [refine_alignment_ica_data _ _ _ _ _ _ _ _ hwf, forRange_empty (le_refl _)]
  rfl

/-- One more iteration of `refine_alignment_ica` updates a patch from the displacement that
the previous iterations gave it: unchanged under the singularity threshold, moved by the
solution of the 2x2 system otherwise. -/
theorem refine_alignment_ica_tile_succ (ref_img alt_img : Image) (grads : ImageGradients)
    (hessian : HessianMatrix) (initial : AlignmentMap) (sigma : ℚ) (ts n : Int)
    (px py : Int) (hn : 0 ≤ n) (hwf : initial.WF)
    (hpy : 0 ≤ py ∧ py < initial.height) (hpx : 0 ≤ px ∧ px < initial.width) :
    (refine_alignment_ica ref_img alt_img grads hessian initial ⟨sigma, n + 1, ts⟩).tile px py
      = if |hessian.entry px py 0 * hessian.entry px py 3 -
            hessian.entry px py 1 * hessian.entry px py 2| < 1 / 10 ^ 10 then
          (refine_alignment_ica ref_img alt_img grads hessian initial ⟨sigma, n, ts⟩).tile
            px py
        else
          ⟨((refine_alignment_ica ref_img alt_img grads hessian initial ⟨sigma, n, ts⟩).tile
              px py).x +
            (solve_2x2_system (fun k => hessian.entry px py k)
              (ica_rhs ref_img alt_img grads ts py px
                ((refine_alignment_ica ref_img alt_img grads hessian initial
                  ⟨sigma, n, ts⟩).tile px py))).1,
           ((refine_alignment_ica ref_img alt_img grads hessian initial ⟨sigma, n, ts⟩).tile
              px py).y +
            (solve_2x2_system (fun k => hessian.entry px py k)
              (ica_rhs ref_img alt_img grads ts py px
                ((refine_alignment_ica ref_img alt_img grads hessian initial
                  ⟨sigma, n, ts⟩).tile px py))).2⟩ := by
  have hlenk : ∀ k : Int, (forRange 0 k (fun _iter data =>
      forRange 0 initial.height (fun py data =>
        forRange 0 initial.width (fun px data =>
          ica_tile ref_img alt_img grads hessian ⟨sigma, 0, ts⟩ initial.width py px data)
          data) data) initial.data).length = (initial.height * initial.width).toNat := by
    intro k
    apply forRange_preserves (fun data : List Alignment =>
      data.length = (initial.height * initial.width).toNat)
    · exact hwf.2.2
    · intro i s hs
      exact (ica_pass_spec ref_img alt_img grads hessian ⟨sigma, 0, ts⟩
        initial.height initial.width s hs).1
  have hstep := (ica_pass_spec ref_img alt_img grads hessian ⟨sigma, 0, ts⟩
    initial.height initial.width _ (hlenk n)).2 py px hpy.1 hpy.2 hpx.1 hpx.2
  have htile : ∀ k : Int, (refine_alignment_ica ref_img alt_img grads
      hessian initial ⟨sigma, k, ts⟩).tile px py
      = rdA (forRange 0 k (fun _iter data =>
          forRange 0 initial.height (fun py data =>
            forRange 0 initial.width (fun px data =>
              ica_tile ref_img alt_img grads hessian ⟨sigma, 0, ts⟩
                initial.width py px data)
              data) data) initial.data) (py * initial.width + px) := by
    intro k
    unfold AlignmentMap.tile
    rw [refine_alignment_ica_data _ _ _ _ _ _ _ _ hwf]
    rfl
  rw [htile (n + 1), htile n, forRange_succ hn, hstep]

/-- One more iteration of `refine_alignment_ica` on the ramp `x + 100 y` and its translation by
`(3, 2)`, with the gradients of `init_ica` and the Hessians of `compute_hessian`, is
`ramp_ica_step` on the patches of the last row and of the last column of patches. -/
theorem ramp_ica_tile_succ (expf : ℚ → ℚ) (initial : AlignmentMap) (hwf : initial.WF)
    (hh : initial.height = 4) (hw : initial.width = 4) (n : Int) (hn : 0 ≤ n)
    (px py : Int) (hpx : 0 ≤ px ∧ px ≤ 3) (hpy : 0 ≤ py ∧ py ≤ 3) (hb : px = 3 ∨ py = 3) :
    (refine_alignment_ica (translated_ramp 1 100 0 0 0) (translated_ramp 1 100 0 3 2)
      (init_ica expf (translated_ramp 1 100 0 0 0) scenario_ica_params)
      (compute_hessian (init_ica expf (translated_ramp 1 100 0 0 0) scenario_ica_params) 16)
      initial ⟨0, n + 1, 16⟩).tile px py
      = ramp_ica_step px py
          ((refine_alignment_ica (translated_ramp 1 100 0 0 0) (translated_ramp 1 100 0 3 2)
            (init_ica expf (translated_ramp 1 100 0 0 0) scenario_ica_params)
            (compute_hessian (init_ica expf (translated_ramp 1 100 0 0 0) scenario_ica_params)
              16)
            initial ⟨0, n, 16⟩).tile px py) := by
  rw [refine_alignment_ica_tile_succ _ _ _ _ _ _ _ _ _ _ hn hwf
    ⟨hpy.1, by rw [hh]; omega⟩ ⟨hpx.1, by rw [hw]; omega⟩]
  unfold ramp_ica_step solve_2x2_system
  dsimp only
  rw [ramp_hessian_entries expf px py 0 hpx hpy hb (by decide),
    ramp_hessian_entries expf px py 1 hpx hpy hb (by decide),
    ramp_hessian_entries expf px py 2 hpx hpy hb (by decide),
    ramp_hessian_entries expf px py 3 hpx hpy hb (by decide),
    ramp_ica_rhs expf px py hpx hpy]

/-- The buffer of a map of 4x4 tiles lists its tiles row by row. -/
theorem alignment_map_data_tiles (m : AlignmentMap) (hw : m.width = 4)
    (hlen : m.data.length = 16) :
    m.data = (List.range 16).map (fun i : ℕ => m.tile ((i % 4 : ℕ) : Int) ((i / 4 : ℕ) : Int)) := by
  apply list_ext_readAt Alignment.zero
  · rw [hlen]
    simp
  · intro i h0 h1
    rw [hlen] at h1
    obtain ⟨n, rfl⟩ := Int.eq_ofNat_of_zero_le h0
    have hn : n < 16 := by exact_mod_cast h1
    have e : readAt Alignment.zero
        ((List.range 16).map (fun i : ℕ => m.tile ((i % 4 : ℕ) : Int) ((i / 4 : ℕ) : Int)))
        (n : Int) = m.tile ((n % 4 : ℕ) : Int) ((n / 4 : ℕ) : Int) := by
      unfold readAt
      rw [if_pos (by omega)]
      simp [List.getD_eq_getElem?_getD, hn]
    rw [e]
    unfold AlignmentMap.tile rdA
    rw [hw]
    congr 1
    omega

/-- The scenario on the ramp `x + 100 y` and its translation by `(3, 2)`: the map that it
returns. -/
theorem scenario_ramp_result (expf : ℚ → ℚ) :
    end_to_end expf (translated_ramp 1 100 0 0 0) (translated_ramp 1 100 0 3 2)
      = some ⟨ramp_final_data, 4, 4⟩ := by
  obtain ⟨ih, iw, iwf, _⟩ := scenario_initial_map_tiles (translated_ramp 1 100 0 0 0)
    (translated_ramp 1 100 0 3 2) rfl rfl
  obtain ⟨bh, bw, bwf, _⟩ := local_search_tiles (translated_ramp 1 100 0 0 0)
    (translated_ramp 1 100 0 3 2) 16 4
    (scenario_initial_map (translated_ramp 1 100 0 0 0) (translated_ramp 1 100 0 3 2)) 1 iwf
  rw [ih] at bh
  rw [iw] at bw
  obtain ⟨fh, fw, fl⟩ := refine_alignment_ica_length (translated_ramp 1 100 0 0 0)
    (translated_ramp 1 100 0 3 2)
    (init_ica expf (translated_ramp 1 100 0 0 0) scenario_ica_params)
    (compute_hessian (init_ica expf (translated_ramp 1 100 0 0 0) scenario_ica_params) 16)
    (local_search (translated_ramp 1 100 0 0 0) (translated_ramp 1 100 0 3 2) 16 4
      (scenario_initial_map (translated_ramp 1 100 0 0 0) (translated_ramp 1 100 0 3 2)) 1)
    0 16 3 bwf
  rw [bh] at fh fl
  rw [bw] at fw fl
  rw [end_to_end_eq expf _ _ (by simp [translated_ramp]) (by simp [translated_ramp])]
  show some (refine_alignment_ica _ _ _ _ _ ⟨0, 3, 16⟩) = _
  have htile : ∀ px py : Int, 0 ≤ px ∧ px ≤ 3 → 0 ≤ py ∧ py ≤ 3 →
      (refine_alignment_ica (translated_ramp 1 100 0 0 0) (translated_ramp 1 100 0 3 2)
        (init_ica expf (translated_ramp 1 100 0 0 0) scenario_ica_params)
        (compute_hessian (init_ica expf (translated_ramp 1 100 0 0 0) scenario_ica_params) 16)
        (local_search (translated_ramp 1 100 0 0 0) (translated_ramp 1 100 0 3 2) 16 4
          (scenario_initial_map (translated_ramp 1 100 0 0 0)
            (translated_ramp 1 100 0 3 2)) 1)
        ⟨0, 3, 16⟩).tile px py = ramp_final px py := by
    intro px py hpx hpy
    unfold ramp_final
    by_cases hinner : px ≤ 2 ∧ py ≤ 2
    · rw [if_pos hinner]
      have hbm := ramp_block_matching_tiles px py hpx hpy
      have e32 : ramp_block_matching px py = ⟨((3 : Int) : ℚ), ((2 : Int) : ℚ)⟩ := by
        unfold ramp_block_matching
        rw [if_pos hinner]
        norm_num
      rw [refine_alignment_ica_zero_residual _ _ _ _ _ 0 16 3 px py bwf
        ⟨hpy.1, by rw [bh]; omega⟩ ⟨hpx.1, by rw [bw]; omega⟩
        (by
          intro x y h1 h2 h3 h4 hu
          rw [hbm, e32] at hu ⊢
          exact ica_residual_translation _ _ 3 2 rfl rfl
            (translated_ramp_is_translation 1 100 0 3 2) x y (by omega) (by omega) hu),
        hbm]
    · rw [if_neg hinner]
      have hb : px = 3 ∨ py = 3 := by omega
      show (refine_alignment_ica _ _ _ _ _ ⟨0, 0 + 1 + 1 + 1, 16⟩).tile px py = _
      rw [ramp_ica_tile_succ expf _ bwf bh bw (0 + 1 + 1) (by decide) px py hpx hpy hb,
        ramp_ica_tile_succ expf _ bwf bh bw (0 + 1) (by decide) px py hpx hpy hb,
        ramp_ica_tile_succ expf _ bwf bh bw 0 (by decide) px py hpx hpy hb,
        refine_alignment_ica_tile_zero _ _ _ _ _ _ _ _ _ bwf,
        ramp_block_matching_tiles px py hpx hpy]
  have hdata := alignment_map_data_tiles _ fw fl
  have hd2 : (refine_alignment_ica (translated_ramp 1 100 0 0 0) (translated_ramp 1 100 0 3 2)
        (init_ica expf (translated_ramp 1 100 0 0 0) scenario_ica_params)
        (compute_hessian (init_ica expf (translated_ramp 1 100 0 0 0) scenario_ica_params) 16)
        (local_search (translated_ramp 1 100 0 0 0) (translated_ramp 1 100 0 3 2) 16 4
          (scenario_initial_map (translated_ramp 1 100 0 0 0)
            (translated_ramp 1 100 0 3 2)) 1)
        ⟨0, 3, 16⟩).data = ramp_final_data := by
    rw [hdata]
    unfold ramp_final_data
    apply List.map_congr_left
    intro i hi
    rw [List.mem_range] at hi
    exact htile _ _ (by omega) (by omega)
  have hext : ∀ m : AlignmentMap, m.data = ramp_final_data → m.height = 4 → m.width = 4 →
      m = ⟨ramp_final_data, 4, 4⟩ := by
    intro m h1 h2 h3
    cases m
    dsimp only at h1 h2 h3
    subst h1 h2 h3
    rfl
  exact congrArg some (hext _ hd2 fh fw)

/-- The map at the end of the scenario on the ramp: the displacement of tile `(1, 3)` and the
mean over the 16 tiles. -/
theorem ramp_final_mean :
    (AlignmentMap.mk ramp_final_data 4 4).tile 1 3
      = ⟨49712694155 / 495136499, 15339318 / 495136499⟩ ∧
    (AlignmentMap.mk ramp_final_data 4 4).tile 3 1
      = ⟨79880005621197 / 38107263061669142, 7721303744430826357 / 3810726306166914200⟩ ∧
    (14 < (mean_displacement ⟨ramp_final_data, 4, 4⟩).1 ∧
      (mean_displacement ⟨ramp_final_data, 4, 4⟩).1 < 15) ∧
    (3 / 2 < (mean_displacement ⟨ramp_final_data, 4, 4⟩).2 ∧
      (mean_displacement ⟨ramp_final_data, 4, 4⟩).2 < 8 / 5) := by
  decide!

end GoogleME
